import Mathlib

/-!
# Merkle tree over review records

A shallow embedding of `MerkleTree.h` (nodes, batch construction, inclusion proofs,
incremental insertion), of the part of `ExistenceProver.h` that queries it, of
`IntegrityVerifier.h`, of `TamperingDetector.h` and of `Review::convertToString` of
`DataPreprocessor.h`.

Modelling conventions.

* `shared_ptr<MerkleNode>` values are addresses into an `Arena`; `nullptr` is `none`.
  `make_shared` allocates the next free address, pointer comparison is address equality,
  and assignment through a pointer updates the cell at that address.
* `std::string` is `String`; `operator<` on strings is `stringLess`, the lexicographic
  order on the character sequences, which for UTF-8 text coincides with the bytewise
  order used by `std::string`.
* The digest `SHA256::operator()` comes from `SHA256.h`, which is outside the sources; it
  is the parameter `H : String → String` of every definition that hashes.
* Loops and recursions over pointers take a fuel argument; a run that exhausts it, or that
  would dereference `nullptr`, ends in a `Fault`.
* Console output and timing are not modelled.
-/

/-- Ways a run can fail: a thrown `invalid_argument`, a dereferenced `nullptr`, or fuel
exhaustion of a modelled loop. -/
inductive Fault where
  | invalidArgument (msg : String)
  | nullDereference
  | outOfFuel
  deriving DecidableEq, Repr

/-- The comparison `operator<` of `std::string`: lexicographic order. -/
def stringLess (s t : String) : Bool := decide (s.toList < t.toList)

/-- The class `MerkleNode`: digest, child and parent pointers, and the leaf label. -/
structure MerkleNode where
  hash : String
  left : Option Nat
  right : Option Nat
  parent : Option Nat
  data : String
  deriving DecidableEq, Repr, Inhabited

namespace MerkleNode

/-- Constructor for a leaf node: `MerkleNode(dataHash, reviewId)`. -/
def leafNode (dataHash reviewId : String) : MerkleNode :=
  { hash := dataHash, left := none, right := none, parent := none, data := reviewId }

/-- Constructor for an internal node: `MerkleNode(nodeHash, leftChild, rightChild)`. -/
def internalNode (nodeHash : String) (leftChild rightChild : Option Nat) : MerkleNode :=
  { hash := nodeHash, left := leftChild, right := rightChild, parent := none, data := "" }

/-- The method `isLeaf`: both child pointers are null. -/
def isLeaf (n : MerkleNode) : Bool := n.left.isNone && n.right.isNone

/-- The method `getReviewId`. -/
def getReviewId (n : MerkleNode) : String := n.data

end MerkleNode

/-- The nodes allocated so far: `cell p` is the node at address `p`, and `size` is the
next free address. -/
structure Arena where
  cell : Nat → MerkleNode
  size : Nat

namespace Arena

/-- The arena with nothing allocated. -/
def empty : Arena := { cell := fun _ => default, size := 0 }

/-- Allocation of a new node (`make_shared<MerkleNode>(...)`): returns the arena and the
address of the new node. -/
def alloc (a : Arena) (n : MerkleNode) : Arena × Nat :=
  ({ cell := Function.update a.cell a.size n, size := a.size + 1 }, a.size)

/-- Assignment `p->parent = q`. -/
def setParent (a : Arena) (p : Nat) (q : Option Nat) : Arena :=
  { a with cell := Function.update a.cell p { a.cell p with parent := q } }

/-- Assignment `p->left = q`. -/
def setLeft (a : Arena) (p : Nat) (q : Option Nat) : Arena :=
  { a with cell := Function.update a.cell p { a.cell p with left := q } }

/-- Assignment `p->right = q`. -/
def setRight (a : Arena) (p : Nat) (q : Option Nat) : Arena :=
  { a with cell := Function.update a.cell p { a.cell p with right := q } }

/-- Assignment `p->hash = h`. -/
def setHash (a : Arena) (p : Nat) (h : String) : Arena :=
  { a with cell := Function.update a.cell p { a.cell p with hash := h } }

end Arena

/-- The class `MerkleTree`: the nodes it owns, the `root` pointer and `leafMap`
(an `unordered_map` from identifier to leaf pointer, kept as an association list with
unique keys). -/
structure MerkleTree where
  arena : Arena
  root : Option Nat
  leafMap : List (String × Nat)

namespace MerkleTree

/-- The lookup `map.find(key)` of an `unordered_map` with string keys; `none` stands for
`map.end()`. -/
def mapFind {β : Type} (m : List (String × β)) (key : String) : Option β := m.lookup key

/-- The assignment `map[key] = value`: overwrite an existing entry or add a new one. -/
def mapSet {β : Type} : List (String × β) → String → β → List (String × β)
  | [], key, value => [(key, value)]
  | (k, v) :: rest, key, value =>
    if k = key then (k, value) :: rest else (k, v) :: mapSet rest key value

/-- The default constructor `MerkleTree() : root(nullptr)`. -/
def new : MerkleTree := { arena := Arena.empty, root := none, leafMap := [] }

section Hashing

variable (H : String → String)

/-- The method `computeHash`: `hasher(data)`. -/
def computeHash (data : String) : String := H data

/-- The method `combineHashes`: hash the two digests concatenated in sorted order. -/
def combineHashes (h1 h2 : String) : String :=
  if stringLess h1 h2 then computeHash H (h1 ++ h2) else computeHash H (h2 ++ h1)

/-- One pass of the inner `for (i = 0; i < current.size(); i += 2)` loop of `buildTree`:
pairs adjacent nodes under a fresh parent, pairing an unmatched last node with itself, and
returns the vector `next`. -/
def buildLevel : Arena → List Nat → Arena × List Nat
  | a, x :: y :: rest =>
    let parentHash := combineHashes H (a.cell x).hash (a.cell y).hash
    let (a1, parent) := a.alloc (MerkleNode.internalNode parentHash (some x) (some y))
    let a2 := a1.setParent x (some parent)
    let a3 := a2.setParent y (some parent)
    let (a4, next) := buildLevel a3 rest
    (a4, parent :: next)
  | a, [x] =>
    let dupHash := combineHashes H (a.cell x).hash (a.cell x).hash
    let (a1, parent) := a.alloc (MerkleNode.internalNode dupHash (some x) (some x))
    let a2 := a1.setParent x (some parent)
    let a3 := a2.setParent x (some parent)
    (a3, [parent])
  | a, [] => (a, [])

/-- The loop `while (current.size() > 1)` of `buildTree`, followed by `return current[0]`. -/
def buildLoop : Nat → Arena → List Nat → Except Fault (Arena × Option Nat)
  | _, _, [] => .error .nullDereference
  | _, a, [r] => .ok (a, some r)
  | 0, _, _ :: _ :: _ => .error .outOfFuel
  | fuel + 1, a, x :: y :: rest =>
    let (a1, next) := buildLevel H a (x :: y :: rest)
    buildLoop fuel a1 next

/-- The method `buildTree`: null for no nodes, the node itself for one node, otherwise
the level-by-level reduction. -/
def buildTree (a : Arena) (nodes : List Nat) : Except Fault (Arena × Option Nat) :=
  match nodes with
  | [] => .ok (a, none)
  | [x] => .ok (a, some x)
  | _ => buildLoop H nodes.length a nodes

/-- The `do ... while` loop of `buildTreeFromReviews` that searches the first identifier
`reviewId_dup<suffix>` absent from `leafMap`, counting `suffix` upwards. -/
def freshDupId (m : List (String × Nat)) (reviewId : String) : Nat → Nat → Except Fault String
  | 0, _ => .error .outOfFuel
  | fuel + 1, suffix =>
    let uniqueId := reviewId ++ "_dup" ++ toString suffix
    if (mapFind m uniqueId).isSome then freshDupId m reviewId fuel (suffix + 1)
    else .ok uniqueId

/-- The identifier under which a record is indexed: its own identifier if that is not in
`leafMap` yet, otherwise the renamed one. -/
def uniqueIdFor (m : List (String × Nat)) (reviewId : String) : Except Fault String :=
  if (mapFind m reviewId).isSome then freshDupId m reviewId (m.length + 1) 1
  else .ok reviewId

/-- The loop `for (i = 0; i < reviewData.size(); i++)` of `buildTreeFromReviews`: hash each
record, resolve its identifier, allocate its leaf, append it to `leaves` and index it. -/
def addLeaves : Arena → List (String × Nat) → List Nat → List String → List String →
    Except Fault (Arena × List (String × Nat) × List Nat)
  | a, m, leaves, d :: reviewData, i :: reviewIds =>
    let leafHash := computeHash H d
    match uniqueIdFor m i with
    | .error f => .error f
    | .ok uniqueId =>
      let (a1, leaf) := a.alloc (MerkleNode.leafNode leafHash uniqueId)
      addLeaves a1 (mapSet m uniqueId leaf) (leaves ++ [leaf]) reviewData reviewIds
  | a, m, leaves, _, _ => .ok (a, m, leaves)

/-- The method `buildTreeFromReviews`. A size mismatch throws before anything is changed.
Otherwise the index is cleared, the leaves are created and `buildTree` gives the new
root; the final report reads `root->hash`, which dereferences null when there are no
records. The nodes of the previous tree are not reachable from the new root or index, so
the new tree starts from an empty arena. -/
def buildTreeFromReviews (_t : MerkleTree) (reviewData reviewIds : List String) :
    Except Fault MerkleTree :=
  if reviewData.length ≠ reviewIds.length then
    .error (.invalidArgument "review data and id arrays must match in size")
  else
    match addLeaves H Arena.empty [] [] reviewData reviewIds with
    | .error f => .error f
    | .ok (a, m, leaves) =>
      match buildTree H a leaves with
      | .error f => .error f
      | .ok (_, none) => .error .nullDereference
      | .ok (a1, some r) => .ok { arena := a1, root := some r, leafMap := m }

end Hashing

/-- The method `getRootHash`: the root's digest, or the empty string without a root. -/
def getRootHash (t : MerkleTree) : String :=
  match t.root with
  | some r => (t.arena.cell r).hash
  | none => ""

/-- The loop `while (current != root && current->parent != nullptr)` of `generateProof`:
emits the sibling digest and the side tag at each step towards the root. -/
def proofLoop (a : Arena) (root : Option Nat) : Nat → Nat → Except Fault (List String)
  | 0, _ => .error .outOfFuel
  | fuel + 1, current =>
    if some current = root then .ok []
    else
      match (a.cell current).parent with
      | none => .ok []
      | some parent =>
        if (a.cell parent).left = some current then
          match (a.cell parent).right with
          | none => .error .nullDereference
          | some r =>
            match proofLoop a root fuel parent with
            | .error f => .error f
            | .ok rest => .ok ((a.cell r).hash :: "r" :: rest)
        else
          match (a.cell parent).left with
          | none => .error .nullDereference
          | some l =>
            match proofLoop a root fuel parent with
            | .error f => .error f
            | .ok rest => .ok ((a.cell l).hash :: "l" :: rest)

/-- The method `generateProof`: the empty proof for an unknown identifier, otherwise the
walk from its leaf to the root. -/
def generateProof (t : MerkleTree) (reviewId : String) : Except Fault (List String) :=
  match mapFind t.leafMap reviewId with
  | none => .ok []
  | some leaf => proofLoop t.arena t.root t.arena.size leaf

/-- The loop of `verifyProof` over the flat proof vector, two entries per step; a
trailing unpaired entry ends the loop. -/
def verifyLoop (H : String → String) : List String → String → String
  | siblingHash :: direction :: rest, current =>
    if direction = "r" then
      verifyLoop H rest
        (if stringLess current siblingHash then H (current ++ siblingHash) else H (siblingHash ++ current))
    else
      verifyLoop H rest
        (if stringLess siblingHash current then H (siblingHash ++ current) else H (current ++ siblingHash))
  | _, current => current

/-- The static method `verifyProof`. -/
def verifyProof (H : String → String) (reviewData : String) (proof : List String)
    (rootHash : String) : Bool :=
  if proof.isEmpty then false
  else decide (verifyLoop H proof (H reviewData) = rootHash)

/-- The method `contains`. -/
def contains (t : MerkleTree) (reviewId : String) : Bool := (mapFind t.leafMap reviewId).isSome

/-- The method `getLeafCount`: `leafMap.size()`. -/
def getLeafCount (t : MerkleTree) : Nat := t.leafMap.length

/-- The method `countLeaves`; the C++ `int` result is a natural number here. -/
def countLeaves (a : Arena) : Nat → Option Nat → Except Fault Nat
  | 0, _ => .error .outOfFuel
  | _ + 1, none => .ok 0
  | fuel + 1, some node =>
    if (a.cell node).isLeaf then .ok 1
    else
      match countLeaves a fuel (a.cell node).left, countLeaves a fuel (a.cell node).right with
      | .ok l, .ok r => .ok (l + r)
      | .error f, _ => .error f
      | _, .error f => .error f

/-- The method `insertLeaf`: at a leaf, put the old and the new leaf under a fresh parent;
at an internal node, descend into the side with fewer leaves (left on ties), re-link the
returned subtree and recompute this node's hash. -/
def insertLeaf (H : String → String) : Nat → Arena → Option Nat → Nat → Except Fault (Arena × Nat)
  | 0, _, _, _ => .error .outOfFuel
  | _ + 1, a, none, newLeaf => .ok (a, newLeaf)
  | fuel + 1, a, some currentRoot, newLeaf =>
    if (a.cell currentRoot).isLeaf then
      let parentHash := combineHashes H (a.cell currentRoot).hash (a.cell newLeaf).hash
      let (a1, parent) :=
        a.alloc (MerkleNode.internalNode parentHash (some currentRoot) (some newLeaf))
      let a2 := a1.setParent currentRoot (some parent)
      let a3 := a2.setParent newLeaf (some parent)
      .ok (a3, parent)
    else
      match countLeaves a (a.size + 1) (a.cell currentRoot).left,
          countLeaves a (a.size + 1) (a.cell currentRoot).right with
      | .error f, _ => .error f
      | _, .error f => .error f
      | .ok leftCount, .ok rightCount =>
        let linked : Except Fault Arena :=
          if leftCount ≤ rightCount then
            match insertLeaf H fuel a (a.cell currentRoot).left newLeaf with
            | .error f => .error f
            | .ok (a1, newLeft) =>
              .ok ((a1.setLeft currentRoot (some newLeft)).setParent newLeft (some currentRoot))
          else
            match insertLeaf H fuel a (a.cell currentRoot).right newLeaf with
            | .error f => .error f
            | .ok (a1, newRight) =>
              .ok ((a1.setRight currentRoot (some newRight)).setParent newRight (some currentRoot))
        match linked with
        | .error f => .error f
        | .ok a2 =>
          match (a2.cell currentRoot).left, (a2.cell currentRoot).right with
          | some l, some r =>
            .ok (a2.setHash currentRoot (combineHashes H (a2.cell l).hash (a2.cell r).hash),
              currentRoot)
          | _, _ => .error .nullDereference

/-- The method `addReview`: reject a known identifier, otherwise create and index the new
leaf and make it the root of an empty tree or insert it below the current root. -/
def addReview (H : String → String) (t : MerkleTree) (reviewData reviewId : String) :
    Except Fault MerkleTree :=
  if (mapFind t.leafMap reviewId).isSome then
    .error (.invalidArgument ("Review ID already exists: " ++ reviewId))
  else
    let leafHash := computeHash H reviewData
    let (a1, newLeaf) := t.arena.alloc (MerkleNode.leafNode leafHash reviewId)
    let m := mapSet t.leafMap reviewId newLeaf
    match t.root with
    | none => .ok { arena := a1, root := some newLeaf, leafMap := m }
    | some r =>
      match insertLeaf H (a1.size + 1) a1 (some r) newLeaf with
      | .error f => .error f
      | .ok (a2, r1) => .ok { arena := a2, root := some r1, leafMap := m }

end MerkleTree

/-! ## The existence prover (`ExistenceProver.h`) -/

/-- The struct `Review` of `DataPreprocessor.h`. The field `overall` holds the text that
`oss << overall` writes for the rating; stream formatting of a `double` is not modelled. -/
structure Review where
  reviewID : String
  reviewerID : String
  reviewText : String
  summary : String
  asin : String
  overall : String
  unixReviewTime : String
  deriving DecidableEq, Repr

namespace Review

/-- The method `convertToString`: the canonical encoding that is hashed. -/
def convertToString (r : Review) : String :=
  "reviewID: " ++ r.reviewID ++ "\n" ++
  "asin: " ++ r.asin ++ "\n" ++
  "reviewerID: " ++ r.reviewerID ++ "\n" ++
  "reviewText: " ++ r.reviewText ++ "\n" ++
  "summary: " ++ r.summary ++ "\n" ++
  "overall: " ++ r.overall ++ "\n" ++
  "unixReviewTime: " ++ r.unixReviewTime

/-- The method `getUniqueID`. -/
def getUniqueID (r : Review) : String := r.reviewID

end Review

/-- The struct `ProofResult`, without its timing fields. -/
structure ProofResult where
  reviewId : String
  reviewData : String
  status : String
  proofPath : List String
  verified : Bool
  deriving DecidableEq, Repr

/-- The class `ExistenceProof`: its two indexes. The tree it points to is passed to the
methods that read it. -/
structure ExistenceProof where
  reviewIdToData : List (String × String)
  productToReviewIds : List (String × List String)

namespace ExistenceProof

/-- The loop of `indexReviews`: `reviewIdToData[reviewId] = reviewData` and
`productToReviewIds[productId].push_back(reviewId)` for each review in order. -/
def indexLoop : ExistenceProof → List Review → ExistenceProof
  | p, [] => p
  | p, review :: rest =>
    let reviewData := review.convertToString
    let reviewId := review.getUniqueID
    let productId := review.asin
    let known := (MerkleTree.mapFind p.productToReviewIds productId).getD []
    indexLoop
      { reviewIdToData := MerkleTree.mapSet p.reviewIdToData reviewId reviewData,
        productToReviewIds := MerkleTree.mapSet p.productToReviewIds productId (known ++ [reviewId]) }
      rest

/-- The method `indexReviews`: clear both indexes, then index every review. -/
def indexReviews (_p : ExistenceProof) (reviews : List Review) : ExistenceProof :=
  indexLoop { reviewIdToData := [], productToReviewIds := [] } reviews

/-- The method `generateReviewProof` against the tree `t` the prover points to. -/
def generateReviewProof (H : String → String) (p : ExistenceProof) (t : MerkleTree)
    (reviewId : String) : Except Fault ProofResult :=
  match MerkleTree.mapFind p.reviewIdToData reviewId with
  | none =>
    .ok { reviewId := reviewId, reviewData := "", status := "REVIEW_NOT_FOUND",
          proofPath := [], verified := false }
  | some reviewData =>
    match t.generateProof reviewId with
    | .error f => .error f
    | .ok proof =>
      if proof.isEmpty then
        .ok { reviewId := reviewId, reviewData := reviewData,
              status := "PROOF_GENERATION_FAILED", proofPath := proof, verified := false }
      else
        .ok { reviewId := reviewId, reviewData := reviewData, status := "PROOF_GENERATED",
              proofPath := proof,
              verified := MerkleTree.verifyProof H reviewData proof t.getRootHash }

end ExistenceProof

/-! ## Reference definitions from the specification -/

namespace MerkleTree

/-- The proof vector that lists the given (siblingHash, side) pairs in order. -/
def flatProof : List (String × String) → List String
  | [] => []
  | (siblingHash, side) :: rest => siblingHash :: side :: flatProof rest

/-- The reference fold of the specification: starting from `current`, replace it by
`combine(current, siblingHash)` for each sibling hash in order. -/
def referenceFold (H : String → String) (current : String) (siblings : List String) : String :=
  siblings.foldl (fun cur siblingHash => combineHashes H cur siblingHash) current

/-- The level step of the specification: pair adjacent entries as
`combine(l[2i], l[2i+1])` and turn an unmatched last entry `x` into `combine(x, x)`. -/
def nextLevel (H : String → String) : List String → List String
  | x :: y :: rest => combineHashes H x y :: nextLevel H rest
  | [x] => [combineHashes H x x]
  | [] => []

/-- Repeated level steps until one entry remains, with at most `fuel` steps. -/
def reduceLoop (H : String → String) : Nat → List String → String
  | _, [] => ""
  | _, [h] => h
  | 0, _ :: _ :: _ => ""
  | fuel + 1, x :: y :: rest => reduceLoop H fuel (nextLevel H (x :: y :: rest))

/-- The level reduction of the specification: `reduce([h]) = h` and, for two or more
entries, `reduce(l) = reduce(next(l))`. The length of the list bounds the number of level
steps. -/
def reduce (H : String → String) (l : List String) : String := reduceLoop H l.length l

end MerkleTree

/-! ## Well-formedness of the pointer structure -/

namespace Arena

/-- Node `m` points to node `n` through its left or its right child pointer. -/
def IsChild (a : Arena) (m n : Nat) : Prop :=
  (a.cell m).left = some n ∨ (a.cell m).right = some n

/-- Node `n` has no children. -/
def LeafShaped (a : Arena) (n : Nat) : Prop :=
  (a.cell n).left = none ∧ (a.cell n).right = none

/-- The arena after one step of the inner loop of `buildTree`: a fresh parent with hash
`h` over `x` and `y`, and the parent pointers of `x` and `y` set to it. -/
def join (a : Arena) (h : String) (x y : Nat) : Arena :=
  ((a.alloc (MerkleNode.internalNode h (some x) (some y))).1.setParent x
    (some a.size)).setParent y (some a.size)

/-- The pointer structure below address `bound` is a tree rooted at `root`, up to shared
children: the root is the only node without parent, every parent pointer is matched by a
child pointer, every node is a leaf or has two children, every internal node is pointed to
only by its parent, every internal node carries the combined hash of its children, and
child pointers strictly increase a rank bounded by `bound`. -/
structure WellFormedUpTo (H : String → String) (a : Arena) (bound root : Nat) : Prop where
  root_lt : root < bound
  root_parent : (a.cell root).parent = none
  parentless : ∀ n, n < bound → (a.cell n).parent = none → n = root
  parent_child : ∀ n, n < bound → ∀ p, (a.cell n).parent = some p → p < bound ∧ a.IsChild p n
  shape : ∀ n, n < bound → a.LeafShaped n ∨
    ∃ l r, (a.cell n).left = some l ∧ (a.cell n).right = some r ∧ l < bound ∧ r < bound
  child_parent : ∀ m, m < bound → ∀ n, a.IsChild m n → ¬ a.LeafShaped n →
    (a.cell n).parent = some m
  hash_ok : ∀ n, n < bound → ∀ l r, (a.cell n).left = some l → (a.cell n).right = some r →
    (a.cell n).hash = MerkleTree.combineHashes H (a.cell l).hash (a.cell r).hash
  ranked : ∃ rank : Nat → Nat, ∀ m, m < bound → rank m < bound ∧ ∀ n, a.IsChild m n → rank m < rank n

/-- Well-formedness of all allocated nodes. -/
def WellFormed (H : String → String) (a : Arena) (root : Nat) : Prop :=
  WellFormedUpTo H a a.size root

/-- The state of the pointer structure between two steps of `buildTree`: the nodes in
`roots` are exactly the nodes without parent, every other node has a parent allocated
after it that points back to it, and every internal node carries the combined hash of its
two earlier-allocated children. -/
structure Forest (H : String → String) (a : Arena) (roots : List Nat) : Prop where
  nodup : roots.Nodup
  parentless_iff : ∀ n, n < a.size → ((a.cell n).parent = none ↔ n ∈ roots)
  roots_lt : ∀ n, n ∈ roots → n < a.size
  parent_child : ∀ n, n < a.size → ∀ p, (a.cell n).parent = some p → p < a.size ∧ a.IsChild p n
  shape : ∀ n, n < a.size → a.LeafShaped n ∨
    ∃ l r, (a.cell n).left = some l ∧ (a.cell n).right = some r ∧ l < n ∧ r < n
  child_parent : ∀ m, m < a.size → ∀ n, a.IsChild m n → (a.cell n).parent = some m
  hash_ok : ∀ n, n < a.size → ∀ l r, (a.cell n).left = some l → (a.cell n).right = some r →
    (a.cell n).hash = MerkleTree.combineHashes H (a.cell l).hash (a.cell r).hash

end Arena

/-! ## Trees that the operations produce -/

namespace MerkleTree

/-- The records behind the leaves allocated from address `i` on: each encoding paired with
the identifier stored in its leaf. -/
def recordsFrom (a : Arena) : Nat → List String → List (String × String)
  | _, [] => []
  | i, e :: rest => ((a.cell i).getReviewId, e) :: recordsFrom a (i + 1) rest

/-- The indexed records of a batch-built tree: record `i` was made into the `i`-th
allocated node, whose label is the identifier the record is indexed under (its own or the
renamed one); the pair lists that identifier with the record's encoding. -/
def batchRecords (t : MerkleTree) (reviewData : List String) : List (String × String) :=
  recordsFrom t.arena 0 reviewData

/-- The trees the public operations produce, each with its indexed records (identifier,
encoding the leaf was created from): the empty tree of the constructor, the result of a
successful `buildTreeFromReviews` on any tree, and the result of a successful `addReview`
on a produced tree. -/
inductive Produced (H : String → String) : MerkleTree → List (String × String) → Prop
  | new : Produced H MerkleTree.new []
  | batch (t0 t : MerkleTree) (reviewData reviewIds : List String) :
      buildTreeFromReviews H t0 reviewData reviewIds = .ok t →
      Produced H t (batchRecords t reviewData)
  | add (t t1 : MerkleTree) (recs : List (String × String)) (reviewData reviewId : String) :
      Produced H t recs → addReview H t reviewData reviewId = .ok t1 →
      Produced H t1 (recs ++ [(reviewId, reviewData)])

/-- The state of the leaf loop of `buildTreeFromReviews` after the encodings `ds`: the
leaves are the nodes allocated so far, all without parent and children, leaf `n` carries
the hash of encoding `n` and is indexed under its own label. -/
structure LeavesState (H : String → String) (a : Arena) (m : List (String × Nat))
    (leaves : List Nat) (ds : List String) : Prop where
  leaves_eq : leaves = List.range a.size
  size_eq : ds.length = a.size
  cells : ∀ n, n < a.size → (a.cell n).parent = none ∧ a.LeafShaped n
  hashes : ∀ n e, ds[n]? = some e → (a.cell n).hash = H e
  find_lt : ∀ id l, mapFind m id = some l → l < a.size
  find_self : ∀ n, n < a.size → mapFind m (a.cell n).data = some n
  count : m.length = a.size

/-- The invariant of produced trees with indexed records `recs`: a tree without root is
empty; otherwise its nodes are well-formed, every record is indexed at a leaf carrying the
hash of its encoding, and the root is a leaf exactly when there is a single record. -/
structure TreeInvariant (H : String → String) (t : MerkleTree)
    (recs : List (String × String)) : Prop where
  rootless : t.root = none → t.arena.size = 0 ∧ t.leafMap = [] ∧ recs = []
  rooted : ∀ r, t.root = some r → t.arena.WellFormed H r ∧ recs ≠ []
  indexed : ∀ id e, (id, e) ∈ recs →
    ∃ l, mapFind t.leafMap id = some l ∧ (t.arena.cell l).hash = H e
  index_leaf : ∀ id l, mapFind t.leafMap id = some l → l < t.arena.size ∧ t.arena.LeafShaped l
  count : t.leafMap.length = recs.length
  single : recs.length ≤ 1 → t.arena.size ≤ 1
  many : 2 ≤ recs.length → ∀ r, t.root = some r → ¬ t.arena.LeafShaped r

end MerkleTree

/-! ## The effect of `insertLeaf` -/

namespace MerkleTree

/-- The state in which `addReview` calls `insertLeaf`: the nodes below address `n0` form
a well-formed tree and the node at `n0` is the freshly allocated leaf. -/
structure InsertPre (H : String → String) (a : Arena) (n0 root : Nat) : Prop where
  wf : a.WellFormedUpTo H n0 root
  size_eq : a.size = n0 + 1
  new_parent : (a.cell n0).parent = none
  new_leaf : a.LeafShaped n0

/-- What a call `insertLeaf(c, newLeaf)` on the arena `a` leaves behind in `a1`, with
result `r1`: one old leaf `x` and the new leaf `n0` hang under the new node `n0 + 1`;
other leaves are untouched; internal nodes keep their parent and their children, except
that a pointer to `x` may now point to the new node; the result is the new node if `c`
was a leaf and `c` otherwise; every internal node other than the parent of an internal
`c` carries the combined hash of its children; and internal nodes of smaller rank than
`c` are untouched. -/
structure InsertPost (H : String → String) (a : Arena) (n0 : Nat) (rank : Nat → Nat)
    (c : Nat) (a1 : Arena) (r1 x : Nat) : Prop where
  size_eq : a1.size = n0 + 2
  x_lt : x < n0
  x_leaf : a.LeafShaped x
  cell_x : a1.cell x = { a.cell x with parent := some (n0 + 1) }
  cell_new : a1.cell n0 = { a.cell n0 with parent := some (n0 + 1) }
  q_hash : (a1.cell (n0 + 1)).hash = combineHashes H (a.cell x).hash (a.cell n0).hash
  q_left : (a1.cell (n0 + 1)).left = some x
  q_right : (a1.cell (n0 + 1)).right = some n0
  other_leaves : ∀ n, n < n0 → a.LeafShaped n → n ≠ x → a1.cell n = a.cell n
  inner_parent : ∀ n, n < n0 → ¬ a.LeafShaped n → (a1.cell n).parent = (a.cell n).parent
  inner_left : ∀ n, n < n0 → ¬ a.LeafShaped n →
    (a1.cell n).left = (a.cell n).left ∨
      ((a.cell n).left = some x ∧ (a1.cell n).left = some (n0 + 1))
  inner_right : ∀ n, n < n0 → ¬ a.LeafShaped n →
    (a1.cell n).right = (a.cell n).right ∨
      ((a.cell n).right = some x ∧ (a1.cell n).right = some (n0 + 1))
  result_leaf : a.LeafShaped c → r1 = n0 + 1 ∧ x = c ∧ (a1.cell (n0 + 1)).parent = none
  result_inner : ¬ a.LeafShaped c → r1 = c ∧ (a1.cell (n0 + 1)).parent ≠ none
  q_link : ∀ m, (a1.cell (n0 + 1)).parent = some m → m < n0 ∧ a1.IsChild m (n0 + 1)
  q_ref : ∀ m, m < n0 → a1.IsChild m (n0 + 1) → (a1.cell (n0 + 1)).parent = some m
  hashes : ∀ n, n < n0 → ∀ l r, (a1.cell n).left = some l → (a1.cell n).right = some r →
    (¬ a.LeafShaped c ∧ (a.cell c).parent = some n) ∨
      (a1.cell n).hash = combineHashes H (a1.cell l).hash (a1.cell r).hash
  frame : ∀ n, n < n0 → ¬ a.LeafShaped n → (a.LeafShaped c ∨ rank n < rank c) →
    a1.cell n = a.cell n

end MerkleTree

/-! ## The strings that are hashed -/

namespace MerkleTree

/-- The string that `combineHashes` passes to the hasher: the two digests concatenated in
sorted order. -/
def combineInput (h1 h2 : String) : String :=
  if stringLess h1 h2 then h1 ++ h2 else h2 ++ h1

/-- The strings hashed in one level pass of `buildTree` over the digests `l`. -/
def levelInputs : List String → List String
  | x :: y :: rest => combineInput x y :: levelInputs rest
  | [x] => [combineInput x x]
  | [] => []

end MerkleTree

/-! ## Calls as transitions of the object state -/

namespace MerkleTree

/-- The call `buildTreeFromReviews(reviewData, reviewIds)` on the object `t`, as the state
the object is left in together with the outcome: `.ok ()` for a normal return, the fault
otherwise. The size check throws before any member is assigned. After it `leafMap` is
cleared and refilled by the leaf loop, `root` is assigned the result of `buildTree`, and
the final report reads `root->hash`. A run of a modelled loop that exhausts its fuel
leaves the state in which the loop was entered. -/
def buildTreeFromReviewsCall (H : String → String) (t : MerkleTree)
    (reviewData reviewIds : List String) : MerkleTree × Except Fault Unit :=
  if reviewData.length ≠ reviewIds.length then
    (t, .error (.invalidArgument "review data and id arrays must match in size"))
  else
    match addLeaves H Arena.empty [] [] reviewData reviewIds with
    | .error f => ({ t with leafMap := [] }, .error f)
    | .ok (a, m, leaves) =>
      match buildTree H a leaves with
      | .error f => ({ arena := a, root := t.root, leafMap := m }, .error f)
      | .ok (a1, none) => ({ arena := a1, root := none, leafMap := m }, .error .nullDereference)
      | .ok (a1, some r) => ({ arena := a1, root := some r, leafMap := m }, .ok ())

/-- The call `addReview(reviewData, reviewId)` on the object `t`, as the state the object
is left in together with the outcome. The duplicate check throws before any member is
assigned; otherwise the leaf is created and indexed first, and `root` is assigned last. -/
def addReviewCall (H : String → String) (t : MerkleTree) (reviewData reviewId : String) :
    MerkleTree × Except Fault Unit :=
  if (mapFind t.leafMap reviewId).isSome then
    (t, .error (.invalidArgument ("Review ID already exists: " ++ reviewId)))
  else
    let leafHash := computeHash H reviewData
    let (a1, newLeaf) := t.arena.alloc (MerkleNode.leafNode leafHash reviewId)
    let m := mapSet t.leafMap reviewId newLeaf
    match t.root with
    | none => ({ arena := a1, root := some newLeaf, leafMap := m }, .ok ())
    | some r =>
      match insertLeaf H (a1.size + 1) a1 (some r) newLeaf with
      | .error f => ({ arena := a1, root := some r, leafMap := m }, .error f)
      | .ok (a2, r1) => ({ arena := a2, root := some r1, leafMap := m }, .ok ())

/-- The identifier `reviewId_dup<k>` that the renaming loop of `buildTreeFromReviews` tries
for the suffix `k`. -/
def dupId (reviewId : String) (k : Nat) : String := reviewId ++ "_dup" ++ toString k

/-- The identifier stored in the leaf at address `n`. -/
def leafLabel (t : MerkleTree) (n : Nat) : String := (t.arena.cell n).getReviewId

end MerkleTree

namespace Arena

/-- The node reached from `n` by following `k` parent pointers; `none` if one of them is
null. -/
def climb (a : Arena) : Nat → Nat → Option Nat
  | 0, n => some n
  | k + 1, n =>
    match (a.cell n).parent with
    | none => none
    | some p => climb a k p

end Arena

/-! ## Subtrees and leaves -/

namespace Arena

/-- Node `n` lies in the subtree of node `c`: it is reached from `c` through child
pointers. -/
inductive Below (a : Arena) : Nat → Nat → Prop
  | refl (c : Nat) : Below a c c
  | step (c m n : Nat) : Below a c m → a.IsChild m n → Below a c n

end Arena

namespace MerkleTree

/-- The nodes at the moment `addReview(reviewData, reviewId)` calls `insertLeaf`: the
nodes of the tree and the new leaf, which has the address `t.arena.size`. -/
def withNewLeaf (H : String → String) (t : MerkleTree) (reviewData reviewId : String) : Arena :=
  (t.arena.alloc (MerkleNode.leafNode (computeHash H reviewData) reviewId)).1

/-- Every leaf of the tree is the leaf of one of the records `recs`, indexed under the
identifier of that record. -/
def LeafCover (t : MerkleTree) (recs : List (String × String)) : Prop :=
  ∀ n, n < t.arena.size → t.arena.LeafShaped n →
    ∃ id e, (id, e) ∈ recs ∧ mapFind t.leafMap id = some n

end MerkleTree

/-! ## The integrity verifier (`IntegrityVerifier.h`)

Modelling conventions in addition to those above.

* The file behind a file name is an `Option String`: its text, or `none` if a stream on it
  cannot be opened. `ios::app` appends to the text, creating it when it is missing, and
  `endl` writes a line feed.
* `string::npos` is `none`. Positions count characters; the separator `'|'` and the line
  feed are single bytes that occur in no multi-byte UTF-8 sequence, so the substrings cut
  at their positions are the ones `std::string` cuts at the byte positions.
* `time(nullptr)` is a parameter `now : Nat`, written in decimal.
-/

/-- The class `IntegrityVerifier`: the stored roots by dataset name, and the root and
dataset of the last successful `storeRootHash`. -/
structure IntegrityVerifier where
  storedRoots : List (String × String)
  currentRoot : String
  currentDataset : String

namespace IntegrityVerifier

/-- The constructor `IntegrityVerifier() : currentRoot(""), currentDataset("")`. -/
def new : IntegrityVerifier := { storedRoots := [], currentRoot := "", currentDataset := "" }

/-- The method `storeRootHash`: rejects an empty name or hash, otherwise
`storedRoots[datasetName] = rootHash` and the current root and dataset are set. -/
def storeRootHash (v : IntegrityVerifier) (datasetName rootHash : String) :
    IntegrityVerifier × Bool :=
  if datasetName = "" ∨ rootHash = "" then (v, false)
  else
    ({ storedRoots := MerkleTree.mapSet v.storedRoots datasetName rootHash,
       currentRoot := rootHash, currentDataset := datasetName }, true)

/-- The line that `saveRootToFile` writes, without its line feed:
`datasetName << "|" << rootHash << "|" << time(nullptr)`. -/
def rootLine (datasetName rootHash : String) (now : Nat) : String :=
  datasetName ++ "|" ++ rootHash ++ "|" ++ toString now

/-- The method `saveRootToFile` on the given file: appends one line. -/
def saveRootToFile (file : Option String) (canOpen : Bool) (datasetName rootHash : String)
    (now : Nat) : Option String × Bool :=
  if canOpen then (some (file.getD "" ++ rootLine datasetName rootHash now ++ "\n"), true)
  else (file, false)

/-- The position of the first `c` in a character sequence. -/
def findIn (c : Char) : List Char → Option Nat
  | [] => none
  | x :: xs => if x = c then some 0 else (findIn c xs).map (fun i => i + 1)

/-- The call `s.find(c, pos)`. -/
def strFind (s : String) (c : Char) (pos : Nat) : Option Nat :=
  (findIn c (s.toList.drop pos)).map (fun i => pos + i)

/-- The call `s.substr(pos, len)` for a position within the string. -/
def strSubstr (s : String) (pos len : Nat) : String :=
  String.mk ((s.toList.drop pos).take len)

/-- The body of the loop of `loadRootsFromFile` up to the assignment: the positions of
the first two separators and, if both exist, the name and the hash cut out at them. When
there is no first separator, `pos1 + 1` wraps around to 0. -/
def parseLine (line : String) : Option (String × String) :=
  let pos1 := strFind line '|' 0
  let pos2 := strFind line '|' (match pos1 with | some p => p + 1 | none => 0)
  match pos1, pos2 with
  | some p1, some p2 => some (strSubstr line 0 p1, strSubstr line (p1 + 1) (p2 - p1 - 1))
  | _, _ => none

/-- The lines that successive calls of `getline` read from the rest of a text, `cur`
being the part of the current line read so far: a line ends at a line feed or at the end
of the text, and nothing is read at the end of the text. -/
def readLines : List Char → List Char → List String
  | cur, [] => if cur = [] then [] else [String.mk cur]
  | cur, c :: rest =>
    if c = '\n' then String.mk cur :: readLines [] rest else readLines (cur ++ [c]) rest

/-- The lines of a text as read by `while (getline(file, line))`. -/
def getlines (text : String) : List String := readLines [] text.toList

/-- The loop `while (getline(file, line))` of `loadRootsFromFile` over the lines read. -/
def loadLoop : List (String × String) → List String → List (String × String)
  | m, [] => m
  | m, line :: rest =>
    match parseLine line with
    | some (name, hash) => loadLoop (MerkleTree.mapSet m name hash) rest
    | none => loadLoop m rest

/-- The method `loadRootsFromFile` on the given file: clears the stored roots and stores
the entry of every line that has two separators. -/
def loadRootsFromFile (v : IntegrityVerifier) (file : Option String) :
    IntegrityVerifier × Bool :=
  match file with
  | none => (v, false)
  | some text => ({ v with storedRoots := loadLoop [] (getlines text) }, true)

/-- The method `compareWithStored`; a call without the second argument passes `""`. -/
def compareWithStored (v : IntegrityVerifier) (datasetName currentRootHash : String) : String :=
  match MerkleTree.mapFind v.storedRoots datasetName with
  | none => "NOT_FOUND: No stored root hash for dataset: " ++ datasetName
  | some stored =>
    let rootToCompare := if currentRootHash = "" then v.currentRoot else currentRootHash
    if rootToCompare = "" then "ERROR: No current root hash set"
    else if rootToCompare = stored then "INTEGRITY_VERIFIED: Dataset integrity confirmed"
    else "INTEGRITY_VIOLATED: Dataset has been tampered with"

/-- The static method `compareRoots`. -/
def compareRoots (root1 root2 : String) : String :=
  if root1 = "" ∨ root2 = "" then "ERROR: One or both root hashes are empty"
  else if root1 = root2 then "ROOTS_MATCH: Datasets are identical"
  else "ROOTS_DIFFER: Datasets are different"

/-- The method `clear`. -/
def clear (_v : IntegrityVerifier) : IntegrityVerifier := IntegrityVerifier.new

/-- The state after a sequence of calls `storeRootHash(name, hash)`, in order. -/
def storeAll (v : IntegrityVerifier) : List (String × String) → IntegrityVerifier
  | [] => v
  | (name, hash) :: rest => storeAll (v.storeRootHash name hash).1 rest

end IntegrityVerifier

/-! ## Reference definitions for the root store and the root log -/

namespace IntegrityVerifier

/-- The root most recently stored under `label` by a sequence of `storeRootHash` calls:
the hash of the last call with that name which stored something, that is with a
non-empty name and hash. -/
def lastStored : List (String × String) → String → Option String
  | [], _ => none
  | (name, hash) :: rest, label =>
    match lastStored rest label with
    | some h => some h
    | none => if name = label ∧ name ≠ "" ∧ hash ≠ "" then some hash else none

/-- The fields of a log line: the pieces between its `'|'` separators. -/
def logFields : List Char → List (List Char)
  | [] => [[]]
  | c :: cs =>
    if c = '|' then [] :: logFields cs
    else
      match logFields cs with
      | f :: fs => (c :: f) :: fs
      | [] => [[c]]

/-- The entry of a log line according to the specification: a line with at least two
separators, hence at least three fields, gives the text before the first separator as
label and the text between the first and the second separator as root hash. -/
def entryOf (line : String) : Option (String × String) :=
  match logFields line.toList with
  | name :: hash :: _ :: _ => some (String.mk name, String.mk hash)
  | _ => none

/-- The root hash of the last line in scan order that has an entry for `label`. -/
def lastEntry : List String → String → Option String
  | [], _ => none
  | line :: rest, label =>
    match lastEntry rest label with
    | some h => some h
    | none =>
      match entryOf line with
      | some (name, hash) => if name = label then some hash else none
      | none => none

end IntegrityVerifier

namespace IntegrityVerifier

/-- The text of a log file that consists of the given lines, each ended by a line feed. -/
def logText : List String → String
  | [] => ""
  | line :: rest => line ++ "\n" ++ logText rest

end IntegrityVerifier

/-! ## The tamper detector (`TamperingDetector.h`)

The detector points to the original tree; as for the existence prover, that tree is passed
to the methods that read it. The `int` counters of the report are natural numbers. -/

/-- The struct `TamperResult`. -/
structure TamperResult where
  detectionMethod : String
  status : String
  tamperingDetected : Bool
  originalRoot : String
  newRoot : String
  deriving DecidableEq, Repr

/-- The struct `ReviewTamperResult`. -/
structure ReviewTamperResult where
  reviewId : String
  status : String
  tampered : Bool
  deriving DecidableEq, Repr

/-- The struct `ComprehensiveTamperReport`. -/
structure ComprehensiveTamperReport where
  rootComparison : TamperResult
  modifiedReviews : List ReviewTamperResult
  analysis : String
  originalReviewCount : Nat
  newReviewCount : Nat
  tamperedReviewCount : Nat
  deriving DecidableEq, Repr

/-- The class `TamperDetector`: the original reviews, the baseline roots by dataset name
and the bound dataset name. -/
structure TamperDetector where
  originalReviews : List Review
  originalRoots : List (String × String)
  currentDatasetName : String

namespace TamperDetector

/-- The constructor `TamperDetector(tree, reviews)`. -/
def new (reviews : List Review) : TamperDetector :=
  { originalReviews := reviews, originalRoots := [], currentDatasetName := "" }

/-- The method `setDatasetName`: binds the name and records the root of the original tree
as its baseline. -/
def setDatasetName (d : TamperDetector) (originalTree : MerkleTree) (name : String) :
    TamperDetector :=
  { d with
    currentDatasetName := name
    originalRoots := MerkleTree.mapSet d.originalRoots name originalTree.getRootHash }

/-- The method `storeOriginalRoot`. -/
def storeOriginalRoot (d : TamperDetector) (datasetName rootHash : String) : TamperDetector :=
  { d with originalRoots := MerkleTree.mapSet d.originalRoots datasetName rootHash }

/-- The method `detectByRootComparison`. -/
def detectByRootComparison (d : TamperDetector) (newRootHash : String) : TamperResult :=
  if d.currentDatasetName = "" then
    { detectionMethod := "ROOT_HASH_COMPARISON",
      status := "ERROR: No original root stored for comparison",
      tamperingDetected := false, originalRoot := "", newRoot := "" }
  else
    match MerkleTree.mapFind d.originalRoots d.currentDatasetName with
    | none =>
      { detectionMethod := "ROOT_HASH_COMPARISON",
        status := "ERROR: No original root stored for comparison",
        tamperingDetected := false, originalRoot := "", newRoot := "" }
    | some originalRoot =>
      if originalRoot = newRootHash then
        { detectionMethod := "ROOT_HASH_COMPARISON", status := "NO_TAMPERING_DETECTED",
          tamperingDetected := false, originalRoot := originalRoot, newRoot := newRootHash }
      else
        { detectionMethod := "ROOT_HASH_COMPARISON",
          status := "TAMPERING_DETECTED: Root hash mismatch",
          tamperingDetected := true, originalRoot := originalRoot, newRoot := newRootHash }

/-- The body of the loop of `detectModifiedReviews`: the result pushed for one review. -/
def detectReview (H : String → String) (originalTree newTree : MerkleTree) (review : Review) :
    Except Fault ReviewTamperResult :=
  if originalTree.contains review.getUniqueID = false then
    .ok { reviewId := review.getUniqueID, status := "NEW_REVIEW_DETECTED", tampered := true }
  else
    let reviewData := review.convertToString
    match newTree.generateProof review.getUniqueID with
    | .error f => .error f
    | .ok proof =>
      if proof.isEmpty then
        .ok { reviewId := review.getUniqueID, status := "PROOF_GENERATION_FAILED",
              tampered := true }
      else
        let valid := MerkleTree.verifyProof H reviewData proof newTree.getRootHash
        if valid = false then
          .ok { reviewId := review.getUniqueID, status := "MODIFIED_REVIEW_DETECTED",
                tampered := true }
        else
          .ok { reviewId := review.getUniqueID, status := "REVIEW_VALID", tampered := false }

/-- The method `detectModifiedReviews`: one result per review, in order. -/
def detectModifiedReviews (H : String → String) (d : TamperDetector)
    (originalTree : MerkleTree) (reviews : List Review) (newTree : MerkleTree) :
    Except Fault (List ReviewTamperResult) :=
  match reviews with
  | [] => .ok []
  | review :: rest =>
    match detectReview H originalTree newTree review with
    | .error f => .error f
    | .ok result =>
      match detectModifiedReviews H d originalTree rest newTree with
      | .error f => .error f
      | .ok results => .ok (result :: results)

/-- The method `comprehensiveAnalysis`. -/
def comprehensiveAnalysis (H : String → String) (d : TamperDetector)
    (originalTree : MerkleTree) (newReviews : List Review) (newTree : MerkleTree) :
    Except Fault ComprehensiveTamperReport :=
  let originalReviewCount := d.originalReviews.length
  let newReviewCount := newReviews.length
  let rootComparison := d.detectByRootComparison newTree.getRootHash
  match d.detectModifiedReviews H originalTree newReviews newTree with
  | .error f => .error f
  | .ok modifiedReviews =>
    let tamperedReviewCount := modifiedReviews.countP (fun r => r.tampered)
    let counts : String :=
      if newReviewCount > originalReviewCount then
        "INJECTION_DETECTED: " ++ toString (newReviewCount - originalReviewCount) ++
          " new reviews added\n"
      else if newReviewCount < originalReviewCount then
        "DELETION_DETECTED: " ++ toString (originalReviewCount - newReviewCount) ++
          " reviews deleted\n"
      else ""
    let modifications : String :=
      if tamperedReviewCount > 0 then
        "MODIFICATIONS_DETECTED: " ++ toString tamperedReviewCount ++ " reviews modified\n"
      else ""
    let integrity : String :=
      if rootComparison.tamperingDetected then
        "INTEGRITY_VIOLATION: Root hash mismatch confirms tampering\n"
      else if tamperedReviewCount = 0 ∧ newReviewCount = originalReviewCount then
        "INTEGRITY_PRESERVED: No tampering detected\n"
      else ""
    .ok { rootComparison := rootComparison, modifiedReviews := modifiedReviews,
          analysis := counts ++ modifications ++ integrity,
          originalReviewCount := originalReviewCount, newReviewCount := newReviewCount,
          tamperedReviewCount := tamperedReviewCount }

/-- The method `getOriginalRoot`. -/
def getOriginalRoot (d : TamperDetector) : String :=
  match MerkleTree.mapFind d.originalRoots d.currentDatasetName with
  | some root => root
  | none => ""

end TamperDetector

/-- The text `text` contains the text `marker`. -/
def textContains (text marker : String) : Prop := List.IsInfix marker.toList text.toList

/-! ## Reference definitions for the analysis text -/

namespace TamperDetector

/-- The case of the first part of the analysis text: 1 for more new than original
reviews, 2 for fewer, 0 for equal counts. -/
def countsCase (originalCount newCount : Nat) : Fin 3 :=
  if newCount > originalCount then 1 else if newCount < originalCount then 2 else 0

/-- The case of the last part of the analysis text: 1 if the root comparison flags
tampering, 2 if it does not, no record is flagged and the counts are equal, 0 otherwise. -/
def integrityCase (flagged : Bool) (tamperedCount originalCount newCount : Nat) : Fin 3 :=
  if flagged then 1 else if tamperedCount = 0 ∧ newCount = originalCount then 2 else 0

/-- The analysis text with its numbers left out, by case. -/
def analysisSkeleton (counts : Fin 3) (modified : Bool) (integrity : Fin 3) : String :=
  (if counts = 1 then "INJECTION_DETECTED:  new reviews added\n"
   else if counts = 2 then "DELETION_DETECTED:  reviews deleted\n" else "") ++
  (if modified then "MODIFICATIONS_DETECTED:  reviews modified\n" else "") ++
  (if integrity = 1 then "INTEGRITY_VIOLATION: Root hash mismatch confirms tampering\n"
   else if integrity = 2 then "INTEGRITY_PRESERVED: No tampering detected\n" else "")

end TamperDetector

/-! ## Concrete instances -/

/-- A toy digest used for concrete instances: the input between angle brackets. It is
injective, and its output is longer than its input. -/
def bracketHash : String → String := fun s => "<" ++ s ++ ">"

namespace MerkleTree

/-- The tree of a successful operation, and the empty tree for a failed one. -/
def ofResult (r : Except Fault MerkleTree) : MerkleTree :=
  match r with
  | .ok t => t
  | .error _ => MerkleTree.new

/-- The batch-built tree over the single record `("x", "a")`. -/
def exampleTree1 : MerkleTree :=
  ofResult (buildTreeFromReviews bracketHash MerkleTree.new ["a"] ["x"])

/-- The batch-built tree over the records `("x", "a")` and `("y", "b")`. -/
def exampleTree2 : MerkleTree :=
  ofResult (buildTreeFromReviews bracketHash MerkleTree.new ["a", "b"] ["x", "y"])

/-- The tree `exampleTree2` after `addReview("c", "z")`. -/
def exampleTree3 : MerkleTree := ofResult (addReview bracketHash exampleTree2 "c" "z")

end MerkleTree

/-- A review by reviewer `A1` of product `P1`. -/
def exampleReviewA : Review :=
  { reviewID := "A1_P1_1000000", reviewerID := "A1", reviewText := "Great product",
    summary := "Excellent", asin := "P1", overall := "5", unixReviewTime := "1000000" }

/-- A second review with the same reviewer, product and time as `exampleReviewA`, hence the
same identifier, but another text. -/
def exampleReviewB : Review :=
  { reviewID := "A1_P1_1000000", reviewerID := "A1", reviewText := "Bad product",
    summary := "Poor", asin := "P1", overall := "1", unixReviewTime := "1000000" }

/-- A review by reviewer `A2` of product `P1`. -/
def exampleReviewC : Review :=
  { reviewID := "A2_P1_1000001", reviewerID := "A2", reviewText := "Good product",
    summary := "Good", asin := "P1", overall := "4", unixReviewTime := "1000001" }

namespace MerkleTree

/-- The batch-built tree over three records that all carry the identifier `"a"`. -/
def exampleTreeDup : MerkleTree :=
  ofResult (buildTreeFromReviews bracketHash MerkleTree.new ["p", "q", "r"] ["a", "a", "a"])

/-- The tree with the single leaf added by `addReview("c", "z")` to the empty tree. -/
def exampleTreeAdded : MerkleTree := ofResult (addReview bracketHash MerkleTree.new "c" "z")

end MerkleTree

namespace MerkleTree

/-- The batch-built tree over the records `("x", "a")`, `("y", "b")`, `("z", "c")`. -/
def exampleBatch3 : MerkleTree :=
  ofResult (buildTreeFromReviews bracketHash MerkleTree.new ["a", "b", "c"] ["x", "y", "z"])

/-- The tree `exampleBatch3` after `addReview("d", "w")`. -/
def exampleIncremental4 : MerkleTree := ofResult (addReview bracketHash exampleBatch3 "d" "w")

/-- The batch-built tree over the four records of `exampleIncremental4`. -/
def exampleBatch4 : MerkleTree :=
  ofResult (buildTreeFromReviews bracketHash MerkleTree.new ["a", "b", "c", "d"]
    ["x", "y", "z", "w"])

/-- The batch-built tree over five records with encodings `a` to `e`. -/
def exampleBatch5 : MerkleTree :=
  ofResult (buildTreeFromReviews bracketHash MerkleTree.new ["a", "b", "c", "d", "e"]
    ["1", "2", "3", "4", "5"])

/-- The tree `exampleBatch5` after `addReview("f", "6")`. -/
def exampleInserted6 : MerkleTree := ofResult (addReview bracketHash exampleBatch5 "f" "6")

/-- The tree `exampleInserted6` after `addReview("g", "7")`. -/
def exampleInserted7 : MerkleTree := ofResult (addReview bracketHash exampleInserted6 "g" "7")

end MerkleTree

namespace MerkleTree

/-- The batch-built tree over the reviews `exampleReviewA` and `exampleReviewC`. -/
def exampleReviewTree : MerkleTree :=
  ofResult (buildTreeFromReviews bracketHash MerkleTree.new
    ([exampleReviewA, exampleReviewC].map Review.convertToString)
    ([exampleReviewA, exampleReviewC].map Review.getUniqueID))

/-- The batch-built tree over the reviews `exampleReviewB` and `exampleReviewC`: the first
review of `exampleReviewTree` with its text and rating edited. -/
def exampleEditedTree : MerkleTree :=
  ofResult (buildTreeFromReviews bracketHash MerkleTree.new
    ([exampleReviewB, exampleReviewC].map Review.convertToString)
    ([exampleReviewB, exampleReviewC].map Review.getUniqueID))

end MerkleTree

/-- A review by reviewer `A3` of product `P2`, not among the other example reviews. -/
def exampleReviewD : Review :=
  { reviewID := "A3_P2_1000002", reviewerID := "A3", reviewText := "Fine",
    summary := "Ok", asin := "P2", overall := "3", unixReviewTime := "1000002" }

namespace MerkleTree

/-- The complete (siblingHash, side) pairs of a flat proof vector, in order; an unpaired
last element is left out. -/
def completePairs : List String → List (String × String)
  | siblingHash :: side :: rest => (siblingHash, side) :: completePairs rest
  | _ => []

end MerkleTree

/-- A review whose text ends in a line that looks like the summary field. -/
def exampleSplitEarly (a b c : String) : Review :=
  { reviewID := "A1_P1_1000000", reviewerID := "A1", reviewText := a ++ "\nsummary: " ++ b,
    summary := c, asin := "P1", overall := "5", unixReviewTime := "1000000" }

/-- A review with the other fields of `exampleSplitEarly` whose summary continues with a
line that looks like the summary field. -/
def exampleSplitLate (a b c : String) : Review :=
  { reviewID := "A1_P1_1000000", reviewerID := "A1", reviewText := a,
    summary := b ++ "\nsummary: " ++ c, asin := "P1", overall := "5",
    unixReviewTime := "1000000" }

/-! ## Tree shapes of incrementally grown trees -/

/-- The shape of a tree of nodes: a leaf at an address, or an internal node at an address
over a left and a right subtree. -/
inductive Shape where
  | leaf (addr : Nat)
  | node (addr : Nat) (left right : Shape)

namespace Shape

/-- The address of the topmost node. -/
def root : Shape → Nat
  | leaf x => x
  | node c _ _ => c

/-- The number of leaves. -/
def leaves : Shape → Nat
  | leaf _ => 1
  | node _ l r => l.leaves + r.leaves

/-- The addresses of all nodes. -/
def addrs : Shape → List Nat
  | leaf x => [x]
  | node c l r => c :: (l.addrs ++ r.addrs)

/-- The number of child steps from the topmost node to the deepest leaf. -/
def height : Shape → Nat
  | leaf _ => 0
  | node _ l r => max l.height r.height + 1

/-- The shape after `insertLeaf` has inserted the leaf at address `n0`, with the fresh
internal node at address `n0 + 1`: a leaf is replaced by the fresh node over the old and
the new leaf, and an internal node passes the leaf on to the side with fewer leaves, to
the left on ties. -/
def insert (n0 : Nat) : Shape → Shape
  | leaf x => node (n0 + 1) (leaf x) (leaf n0)
  | node c l r =>
    if l.leaves ≤ r.leaves then node c (insert n0 l) r else node c l (insert n0 r)

/-- At every internal node the left subtree has as many leaves as the right one, or one
more. -/
def Balanced : Shape → Prop
  | leaf _ => True
  | node _ l r => (l.leaves = r.leaves ∨ l.leaves = r.leaves + 1) ∧ Balanced l ∧ Balanced r

end Shape

namespace Arena

/-- The pointers of the arena form the given shape: leaves have no children, and every
internal node points to the topmost nodes of its subtrees, which point back to it. -/
def Holds (a : Arena) : Shape → Prop
  | .leaf x => a.LeafShaped x
  | .node c l r =>
    (a.cell c).left = some l.root ∧ (a.cell c).right = some r.root ∧
    (a.cell l.root).parent = some c ∧ (a.cell r.root).parent = some c ∧
    Holds a l ∧ Holds a r

end Arena

namespace MerkleTree

/-- The trees grown from the empty tree by successful `addReview` calls only, each with
its indexed records. -/
inductive Incremental (H : String → String) : MerkleTree → List (String × String) → Prop
  | new : Incremental H MerkleTree.new []
  | add (t t1 : MerkleTree) (recs : List (String × String)) (reviewData reviewId : String) :
      Incremental H t recs → addReview H t reviewData reviewId = .ok t1 →
      Incremental H t1 (recs ++ [(reviewId, reviewData)])

end MerkleTree

namespace MerkleTree

/-- The tree grown from the empty tree by `addReview("a", "x")`. -/
def exampleGrown1 : MerkleTree := ofResult (addReview bracketHash MerkleTree.new "a" "x")

/-- The tree `exampleGrown1` after `addReview("b", "y")`. -/
def exampleGrown2 : MerkleTree := ofResult (addReview bracketHash exampleGrown1 "b" "y")

/-- The tree `exampleGrown2` after `addReview("c", "z")`. -/
def exampleGrown3 : MerkleTree := ofResult (addReview bracketHash exampleGrown2 "c" "z")

end MerkleTree

/-! ## Theorems -/

theorem stringLess_iff (s t : String) : stringLess s t = true ↔ s < t := by
  simp [stringLess, String.lt_iff_toList_lt]

theorem stringLess_eq_false_iff (s t : String) : stringLess s t = false ↔ t ≤ s := by
  rw [← not_lt, ← stringLess_iff]; simp

namespace MerkleTree

theorem combineHashes_eq (H : String → String) (h1 h2 : String) :
    combineHashes H h1 h2 = if h1 < h2 then H (h1 ++ h2) else H (h2 ++ h1) := by
  unfold combineHashes computeHash
  by_cases h : h1 < h2
  · simp [h, (stringLess_iff h1 h2).2 h]
  · have : stringLess h1 h2 = false := by
      rw [stringLess_eq_false_iff]; exact not_lt.1 h
    simp [h, this]

theorem combineHashes_min_max (H : String → String) (h1 h2 : String) :
    combineHashes H h1 h2 = H (min h1 h2 ++ max h1 h2) := by
  rw [combineHashes_eq]
  rcases lt_trichotomy h1 h2 with h | h | h
  · simp [h, min_eq_left h.le, max_eq_right h.le]
  · subst h; simp
  · simp [not_lt.2 h.le, min_eq_right h.le, max_eq_left h.le]

theorem combineHashes_comm (H : String → String) (h1 h2 : String) :
    combineHashes H h1 h2 = combineHashes H h2 h1 := by
  rw [combineHashes_min_max, combineHashes_min_max, min_comm, max_comm]

theorem verifyLoop_flatProof (H : String → String) (ps : List (String × String)) (cur : String) :
    verifyLoop H (flatProof ps) cur = referenceFold H cur (ps.map Prod.fst) := by
  induction ps generalizing cur with
  | nil => simp [flatProof, verifyLoop, referenceFold]
  | cons p ps ih =>
    obtain ⟨s, d⟩ := p
    simp only [flatProof, verifyLoop, List.map_cons, referenceFold, List.foldl_cons]
    have h1 : (if stringLess cur s then H (cur ++ s) else H (s ++ cur)) =
        combineHashes H cur s := rfl
    have h2 : (if stringLess s cur then H (s ++ cur) else H (cur ++ s)) =
        combineHashes H cur s := by
      rw [combineHashes_comm]; rfl
    rw [h1, h2]
    split <;> exact ih _

end MerkleTree

namespace MerkleTree

theorem verifyLoop_step_right (H : String → String) (s : String) (rest : List String)
    (cur : String) :
    verifyLoop H (s :: "r" :: rest) cur = verifyLoop H rest (combineHashes H cur s) := by
  simp [verifyLoop, combineHashes, computeHash]

theorem verifyLoop_step_left (H : String → String) (s : String) (rest : List String)
    (cur : String) :
    verifyLoop H (s :: "l" :: rest) cur = verifyLoop H rest (combineHashes H s cur) := by
  have h : ("l" : String) ≠ "r" := by decide
  simp [verifyLoop, combineHashes, computeHash, h]

/-- In a well-formed arena the walk from any node reaches the root, and folding the emitted
proof from the node's hash gives the root's hash. -/
theorem proofLoop_sound (H : String → String) (a : Arena) (bound root : Nat)
    (wf : a.WellFormedUpTo H bound root) (rank : Nat → Nat)
    (hrank : ∀ m, m < bound → rank m < bound ∧ ∀ n, a.IsChild m n → rank m < rank n) :
    ∀ fuel n, n < bound → rank n < fuel →
      ∃ p, proofLoop a (some root) fuel n = .ok p ∧
        verifyLoop H p (a.cell n).hash = (a.cell root).hash ∧ (n ≠ root → p ≠ []) := by
  intro fuel
  induction fuel with
  | zero => intro n _ h; omega
  | succ fuel ih =>
    intro n hn hfuel
    by_cases hroot : n = root
    · subst hroot
      exact ⟨[], by simp [proofLoop], by simp [verifyLoop], by simp⟩
    · have hne : ¬ (some n = some root) := by simpa using hroot
      cases hp : (a.cell n).parent with
      | none => exact absurd (wf.parentless n hn hp) hroot
      | some q =>
        obtain ⟨hq, hchild⟩ := wf.parent_child n hn q hp
        have hrq : rank q < fuel := by
          have := (hrank q hq).2 n hchild
          omega
        obtain ⟨rest, hrest, hfold, _⟩ := ih q hq hrq
        rcases wf.shape q hq with hleaf | ⟨l, r, hl, hr, _, _⟩
        · rcases hchild with h | h
          · rw [hleaf.1] at h; cases h
          · rw [hleaf.2] at h; cases h
        · have hhash := wf.hash_ok q hq l r hl hr
          by_cases hside : (a.cell q).left = some n
          · have hln : l = n := by rw [hl] at hside; exact Option.some.inj hside
            subst hln
            refine ⟨(a.cell r).hash :: "r" :: rest, ?_, ?_, by simp⟩
            · simp [proofLoop, hne, hp, hside, hr, hrest]
            · rw [verifyLoop_step_right, ← hhash, hfold]
          · have hrn : r = n := by
              rcases hchild with h | h
              · exact absurd h hside
              · rw [hr] at h; exact Option.some.inj h
            subst hrn
            have hlr : ¬ (l = r) := fun h => hside (by rw [hl, h])
            refine ⟨(a.cell l).hash :: "l" :: rest, ?_, ?_, by simp⟩
            · simp [proofLoop, hne, hp, hl, hlr, hrest]
            · rw [verifyLoop_step_left, ← hhash, hfold]

end MerkleTree

namespace MerkleTree

theorem nextLevel_length (H : String → String) (l : List String) :
    (nextLevel H l).length = (l.length + 1) / 2 := by
  induction l using nextLevel.induct H with
  | case1 x y rest ih => simp only [nextLevel, List.length_cons, ih]; omega
  | case2 x => simp [nextLevel]
  | case3 => simp [nextLevel]

theorem reduceLoop_fuel (H : String → String) (f g : Nat) (l : List String)
    (hf : l.length ≤ f) (hg : l.length ≤ g) : reduceLoop H f l = reduceLoop H g l := by
  induction f generalizing g l with
  | zero =>
    match l, hf with
    | [], _ => cases g <;> simp [reduceLoop]
  | succ f ih =>
    match l, hf, hg with
    | [], _, _ => cases g <;> simp [reduceLoop]
    | [h], _, _ => cases g <;> simp [reduceLoop]
    | x :: y :: rest, hf, hg =>
      cases g with
      | zero => simp at hg
      | succ g =>
        simp only [reduceLoop]
        have hl := nextLevel_length H (x :: y :: rest)
        simp only [List.length_cons] at hl hf hg
        apply ih <;> omega

theorem reduce_singleton (H : String → String) (h : String) : reduce H [h] = h := by
  simp [reduce, reduceLoop]

theorem reduce_step (H : String → String) (l : List String) (hl : 2 ≤ l.length) :
    reduce H l = reduce H (nextLevel H l) := by
  match l, hl with
  | x :: y :: rest, _ =>
    unfold reduce
    have hn := nextLevel_length H (x :: y :: rest)
    simp only [List.length_cons] at hn
    simp only [List.length_cons, reduceLoop]
    apply reduceLoop_fuel <;> omega


end MerkleTree

namespace Arena

/-- The arena after `buildTree` has put `x` and `y` under a fresh parent. -/
theorem join_cell (a : Arena) (h : String) (x y : Nat) (hx : x < a.size) (hy : y < a.size) :
    (a.join h x y).size = a.size + 1 ∧
    (a.join h x y).cell a.size = MerkleNode.internalNode h (some x) (some y) ∧
    ((a.join h x y).cell x).parent = some a.size ∧
    ((a.join h x y).cell y).parent = some a.size ∧
    (∀ n, n ≠ a.size → ((a.join h x y).cell n).hash = (a.cell n).hash ∧
      ((a.join h x y).cell n).left = (a.cell n).left ∧
      ((a.join h x y).cell n).right = (a.cell n).right ∧
      ((a.join h x y).cell n).data = (a.cell n).data) ∧
    (∀ n, n ≠ a.size → n ≠ x → n ≠ y → (a.join h x y).cell n = a.cell n) := by
  unfold join
  have hx' : a.size ≠ x := by omega
  have hy' : a.size ≠ y := by omega
  refine ⟨rfl, ?_, ?_, ?_, ?_, ?_⟩
  · simp [alloc, setParent, Function.update_apply, hx', hy']
  · by_cases hxy : x = y <;> simp [alloc, setParent, Function.update_apply, hxy]
  · simp [alloc, setParent, Function.update_apply]
  · intro n hn
    simp only [alloc, setParent, Function.update_apply]
    split_ifs <;> simp_all
  · intro n hn h1 h2
    simp [alloc, setParent, Function.update_apply, hn, h1, h2]

end Arena

namespace Arena

theorem Forest.child_lt {H : String → String} {a : Arena} {R : List Nat} (F : a.Forest H R)
    {m n : Nat} (hm : m < a.size) (hc : a.IsChild m n) : n < m := by
  rcases F.shape m hm with hleaf | ⟨l, r, hl, hr, hlm, hrm⟩
  · rcases hc with h | h
    · rw [hleaf.1] at h; cases h
    · rw [hleaf.2] at h; cases h
  · rcases hc with h | h
    · rw [hl] at h; cases h; exact hlm
    · rw [hr] at h; cases h; exact hrm

/-- Putting two roots of a forest (or one root twice) under a fresh parent gives a forest
again, whose roots are the new parent and the remaining old roots. -/
theorem Forest.join {H : String → String} {a a3 : Arena} {R R1 : List Nat} {x y : Nat}
    {h : String} (F : a.Forest H R) (hx : x ∈ R) (hy : y ∈ R)
    (hh : h = MerkleTree.combineHashes H (a.cell x).hash (a.cell y).hash)
    (hsz : a3.size = a.size + 1)
    (hp : a3.cell a.size = MerkleNode.internalNode h (some x) (some y))
    (hpx : (a3.cell x).parent = some a.size) (hpy : (a3.cell y).parent = some a.size)
    (hfr : ∀ n, n ≠ a.size → (a3.cell n).hash = (a.cell n).hash ∧
      (a3.cell n).left = (a.cell n).left ∧ (a3.cell n).right = (a.cell n).right ∧
      (a3.cell n).data = (a.cell n).data)
    (hsame : ∀ n, n ≠ a.size → n ≠ x → n ≠ y → a3.cell n = a.cell n)
    (hR1 : ∀ n, n ∈ R1 ↔ n = a.size ∨ (n ∈ R ∧ n ≠ x ∧ n ≠ y)) (hnd : R1.Nodup) :
    a3.Forest H R1 := by
  have hxs := F.roots_lt x hx
  have hys := F.roots_lt y hy
  have hchild : ∀ m n, m ≠ a.size → (a3.IsChild m n ↔ a.IsChild m n) := by
    intro m n hm
    unfold IsChild
    rw [(hfr m hm).2.1, (hfr m hm).2.2.1]
  constructor
  · exact hnd
  · intro n hn
    rw [hR1]
    by_cases h1 : n = a.size
    · subst h1; simp [hp, MerkleNode.internalNode]
    · by_cases h2 : n = x
      · subst h2; simp [hpx, h1]
      · by_cases h3 : n = y
        · subst h3; simp [hpy, h1]
        · rw [hsame n h1 h2 h3, F.parentless_iff n (by omega)]
          simp [h1, h2, h3]
  · intro n hn
    rcases (hR1 n).1 hn with h1 | ⟨h1, _, _⟩
    · omega
    · have := F.roots_lt n h1; omega
  · intro n hn p hpar
    by_cases h1 : n = a.size
    · subst h1; simp [hp, MerkleNode.internalNode] at hpar
    · by_cases h2 : n = x
      · subst h2
        rw [hpx] at hpar; cases hpar
        exact ⟨by omega, Or.inl (by simp [hp, MerkleNode.internalNode])⟩
      · by_cases h3 : n = y
        · subst h3
          rw [hpy] at hpar; cases hpar
          exact ⟨by omega, Or.inr (by simp [hp, MerkleNode.internalNode])⟩
        · rw [hsame n h1 h2 h3] at hpar
          obtain ⟨hlt, hc⟩ := F.parent_child n (by omega) p hpar
          exact ⟨by omega, (hchild p n (by omega)).2 hc⟩
  · intro n hn
    by_cases h1 : n = a.size
    · subst h1
      exact Or.inr ⟨x, y, by simp [hp, MerkleNode.internalNode],
        by simp [hp, MerkleNode.internalNode], hxs, hys⟩
    · unfold LeafShaped
      rw [(hfr n h1).2.1, (hfr n h1).2.2.1]
      exact F.shape n (by omega)
  · intro m hm n hc
    by_cases h1 : m = a.size
    · subst h1
      rcases hc with hc | hc
      · simp [hp, MerkleNode.internalNode] at hc; subst hc; exact hpx
      · simp [hp, MerkleNode.internalNode] at hc; subst hc; exact hpy
    · have hc1 := (hchild m n h1).1 hc
      have hm1 : m < a.size := by omega
      have hnm := F.child_lt hm1 hc1
      have hpar := F.child_parent m hm1 n hc1
      have hnR : n ∉ R := by
        intro hin
        have := (F.parentless_iff n (by omega)).2 hin
        rw [this] at hpar; cases hpar
      have h2 : n ≠ x := fun e => hnR (e ▸ hx)
      have h3 : n ≠ y := fun e => hnR (e ▸ hy)
      rw [hsame n (by omega) h2 h3]
      exact hpar
  · intro n hn l r hl hr
    by_cases h1 : n = a.size
    · subst h1
      simp [hp, MerkleNode.internalNode] at hl hr
      subst hl; subst hr
      rw [(hfr x (by omega)).1, (hfr y (by omega)).1]
      simp [hp, MerkleNode.internalNode, hh]
    · have hn1 : n < a.size := by omega
      rw [(hfr n h1).2.1] at hl
      rw [(hfr n h1).2.2.1] at hr
      have hl1 := F.child_lt hn1 (Or.inl hl)
      have hr1 := F.child_lt hn1 (Or.inr hr)
      rw [(hfr n h1).1, (hfr l (by omega)).1, (hfr r (by omega)).1]
      exact F.hash_ok n hn1 l r hl hr

end Arena

namespace Arena

theorem Forest.perm {H : String → String} {a : Arena} {R R1 : List Nat} (F : a.Forest H R)
    (hperm : R.Perm R1) : a.Forest H R1 :=
  { nodup := hperm.nodup_iff.1 F.nodup
    parentless_iff := fun n hn => (F.parentless_iff n hn).trans hperm.mem_iff
    roots_lt := fun n hn => F.roots_lt n (hperm.mem_iff.2 hn)
    parent_child := F.parent_child
    shape := F.shape
    child_parent := F.child_parent
    hash_ok := F.hash_ok }

end Arena

namespace MerkleTree

theorem buildLevel_pair (H : String → String) (a : Arena) (x y : Nat) (rest : List Nat) :
    buildLevel H a (x :: y :: rest) =
      ((buildLevel H (a.join (combineHashes H (a.cell x).hash (a.cell y).hash) x y) rest).1,
        a.size :: (buildLevel H (a.join (combineHashes H (a.cell x).hash (a.cell y).hash) x y)
          rest).2) := rfl

theorem buildLevel_single (H : String → String) (a : Arena) (x : Nat) :
    buildLevel H a [x] =
      (a.join (combineHashes H (a.cell x).hash (a.cell x).hash) x x, [a.size]) := rfl

/-- One level pass of `buildTree` on a forest: the processed roots are replaced by their
new parents, old nodes keep everything but their parent pointer, and the hashes of the
new roots are the next level of the hashes of the processed roots. -/
theorem buildLevel_forest (H : String → String) :
    ∀ (k : Nat) (cur : List Nat), cur.length = k → ∀ (a : Arena) (S : List Nat),
      a.Forest H (cur ++ S) →
      (buildLevel H a cur).1.Forest H ((buildLevel H a cur).2 ++ S) ∧
      a.size ≤ (buildLevel H a cur).1.size ∧
      (∀ n, n < a.size →
        ((buildLevel H a cur).1.cell n).hash = (a.cell n).hash ∧
        ((buildLevel H a cur).1.cell n).left = (a.cell n).left ∧
        ((buildLevel H a cur).1.cell n).right = (a.cell n).right ∧
        ((buildLevel H a cur).1.cell n).data = (a.cell n).data) ∧
      (buildLevel H a cur).2.map (fun p => ((buildLevel H a cur).1.cell p).hash) =
        nextLevel H (cur.map (fun p => (a.cell p).hash)) ∧
      (∀ p, p ∈ (buildLevel H a cur).2 → ¬ (buildLevel H a cur).1.LeafShaped p) := by
  intro k
  induction k using Nat.strong_induction_on with
  | _ k ih =>
    intro cur hlen a S F
    match cur, hlen with
    | [], _ =>
      exact ⟨by simpa [buildLevel] using F, by simp [buildLevel], by simp [buildLevel],
        by simp [buildLevel, nextLevel], by simp [buildLevel]⟩
    | [x], _ =>
      have hx : x ∈ [x] ++ S := by simp
      have hxs := F.roots_lt x hx
      obtain ⟨hsz, hp, hpx, hpy, hfr, hsame⟩ :=
        Arena.join_cell a (combineHashes H (a.cell x).hash (a.cell x).hash) x x hxs hxs
      have hnd : (x :: S).Nodup := by simpa using F.nodup
      have F3 : Arena.Forest H (a.join (combineHashes H (a.cell x).hash (a.cell x).hash) x x)
          (a.size :: S) := F.join hx hx rfl hsz hp hpx hpy hfr hsame
        (by
          intro n
          have hxS : x ∉ S := (List.nodup_cons.1 hnd).1
          simp only [List.mem_cons, List.singleton_append]
          constructor
          · rintro (h | h)
            · exact Or.inl h
            · exact Or.inr ⟨Or.inr h, fun e => hxS (e ▸ h), fun e => hxS (e ▸ h)⟩
          · rintro (h | ⟨h1 | h1, h2, _⟩)
            · exact Or.inl h
            · exact absurd h1 h2
            · exact Or.inr h1)
        (by
          refine List.nodup_cons.2 ⟨?_, (List.nodup_cons.1 hnd).2⟩
          intro hin
          have := F.roots_lt a.size (by simp [hin])
          omega)
      rw [buildLevel_single]
      simp only [nextLevel, List.map_cons, List.map_nil, List.singleton_append] at *
      refine ⟨F3, by omega, fun n hn => hfr n (by omega), ?_, ?_⟩
      · simp [hp, MerkleNode.internalNode]
      · intro p hpm
        simp only [List.mem_singleton] at hpm
        subst hpm
        simp [Arena.LeafShaped, hp, MerkleNode.internalNode]
    | x :: y :: rest, hlen =>
      have hx : x ∈ (x :: y :: rest) ++ S := by simp
      have hy : y ∈ (x :: y :: rest) ++ S := by simp
      have hxs := F.roots_lt x hx
      have hys := F.roots_lt y hy
      obtain ⟨hsz, hp, hpx, hpy, hfr, hsame⟩ :=
        Arena.join_cell a (combineHashes H (a.cell x).hash (a.cell y).hash) x y hxs hys
      have hnd : (x :: y :: (rest ++ S)).Nodup := by simpa using F.nodup
      have hxn := (List.nodup_cons.1 hnd).1
      have hyn := (List.nodup_cons.1 (List.nodup_cons.1 hnd).2).1
      have hrn := (List.nodup_cons.1 (List.nodup_cons.1 hnd).2).2
      have F3 : Arena.Forest H (a.join (combineHashes H (a.cell x).hash (a.cell y).hash) x y)
          (rest ++ a.size :: S) := F.join hx hy rfl hsz hp hpx hpy hfr hsame
        (by
          intro n
          simp only [List.mem_cons, List.mem_append, List.cons_append] at hxn hyn ⊢
          constructor
          · rintro (h | h | h)
            · exact Or.inr ⟨Or.inr (Or.inr (Or.inl h)),
                fun e => hxn (Or.inr (Or.inl (e ▸ h))), fun e => hyn (Or.inl (e ▸ h))⟩
            · exact Or.inl h
            · exact Or.inr ⟨Or.inr (Or.inr (Or.inr h)),
                fun e => hxn (Or.inr (Or.inr (e ▸ h))), fun e => hyn (Or.inr (e ▸ h))⟩
          · rintro (h | ⟨h1 | h1 | h1 | h1, h2, h3⟩)
            · exact Or.inr (Or.inl h)
            · exact absurd h1 h2
            · exact absurd h1 h3
            · exact Or.inl h1
            · exact Or.inr (Or.inr h1))
        (by
          refine (List.perm_middle.nodup_iff).2 (List.nodup_cons.2 ⟨?_, hrn⟩)
          intro hin
          have := F.roots_lt a.size (by
            simp only [List.cons_append, List.mem_cons]
            exact Or.inr (Or.inr hin))
          omega)
      have hrl : rest.length < k := by simp only [List.length_cons] at hlen; omega
      obtain ⟨F4, hsz4, hfr4, hmap4, hleaf4⟩ := ih rest.length hrl rest rfl _ (a.size :: S) F3
      rw [buildLevel_pair]
      simp only [nextLevel, List.map_cons, List.cons_append] at *
      refine ⟨F4.perm List.perm_middle, by omega, ?_, ?_, ?_⟩
      · intro n hn
        have h4 := hfr4 n (by omega)
        have h3 := hfr n (by omega)
        exact ⟨h4.1.trans h3.1, h4.2.1.trans h3.2.1, h4.2.2.1.trans h3.2.2.1,
          h4.2.2.2.trans h3.2.2.2⟩
      · rw [hmap4]
        congr 1
        · rw [(hfr4 a.size (by omega)).1]
          simp [hp, MerkleNode.internalNode]
        · congr 1
          apply List.map_congr_left
          intro p hpm
          have := F.roots_lt p (by simp [hpm])
          exact (hfr p (by omega)).1
      · intro p hpm
        rcases List.mem_cons.1 hpm with h | h
        · subst h
          have h4 := hfr4 a.size (by omega)
          simp [Arena.LeafShaped, h4.2.1, hp, MerkleNode.internalNode]
        · exact hleaf4 p h

end MerkleTree

namespace MerkleTree

/-- The loop of `buildTree` on a non-empty forest ends with a single root, within any fuel
that is at least the number of roots; old nodes keep everything but their parent pointer,
and the root hash is the level reduction of the hashes of the initial roots. -/
theorem buildLoop_forest (H : String → String) :
    ∀ (fuel : Nat) (a : Arena) (cur : List Nat), a.Forest H cur → cur ≠ [] →
      cur.length ≤ fuel →
      ∃ a1 r, buildLoop H fuel a cur = .ok (a1, some r) ∧ a1.Forest H [r] ∧
        a.size ≤ a1.size ∧
        (∀ n, n < a.size →
          (a1.cell n).hash = (a.cell n).hash ∧ (a1.cell n).left = (a.cell n).left ∧
          (a1.cell n).right = (a.cell n).right ∧ (a1.cell n).data = (a.cell n).data) ∧
        (a1.cell r).hash = reduceLoop H fuel (cur.map (fun p => (a.cell p).hash)) ∧
        (((∀ p, p ∈ cur → ¬ a.LeafShaped p) ∨ 2 ≤ cur.length) → ¬ a1.LeafShaped r) ∧
        (cur.length = 1 → a1 = a) := by
  intro fuel
  induction fuel with
  | zero =>
    intro a cur F hne hlen
    match cur, hne, hlen with
    | [r], _, hlen => simp at hlen
  | succ fuel ih =>
    intro a cur F hne hlen
    match cur, hne, hlen with
    | [r], _, _ =>
      refine ⟨a, r, by simp [buildLoop], F, le_refl _, fun n _ => ⟨rfl, rfl, rfl, rfl⟩,
        by simp [reduceLoop], ?_, fun _ => rfl⟩
      rintro (h | h)
      · exact h r (by simp)
      · simp at h
    | x :: y :: rest, _, hlen =>
      have F0 : a.Forest H ((x :: y :: rest) ++ []) := by simpa using F
      obtain ⟨F1, hsz1, hfr1, hmap1, hleaf1⟩ :=
        buildLevel_forest H _ (x :: y :: rest) rfl a [] F0
      have hlen1 : (buildLevel H a (x :: y :: rest)).2.length =
          ((x :: y :: rest).length + 1) / 2 := by
        have := congrArg List.length hmap1
        rw [List.length_map, nextLevel_length, List.length_map] at this
        exact this
      simp only [List.length_cons] at hlen hlen1
      have hne1 : (buildLevel H a (x :: y :: rest)).2 ≠ [] := by
        intro h
        rw [h] at hlen1
        simp only [List.length_nil] at hlen1
        omega
      obtain ⟨a2, r, hrun, F2, hsz2, hfr2, hhash2, hleaf2, _⟩ :=
        ih (buildLevel H a (x :: y :: rest)).1 (buildLevel H a (x :: y :: rest)).2
          (by simpa using F1) hne1 (by omega)
      refine ⟨a2, r, ?_, F2, by omega, ?_, ?_, ?_, by simp⟩
      · simp only [buildLoop]
        exact hrun
      · intro n hn
        have h2 := hfr2 n (by omega)
        have h1 := hfr1 n hn
        exact ⟨h2.1.trans h1.1, h2.2.1.trans h1.2.1, h2.2.2.1.trans h1.2.2.1,
          h2.2.2.2.trans h1.2.2.2⟩
      · rw [hhash2, hmap1]
        simp [reduceLoop]
      · intro _
        exact hleaf2 (Or.inl hleaf1)

/-- A forest with a single root is a well-formed tree. -/
theorem wellFormed_of_forest (H : String → String) (a : Arena) (r : Nat)
    (F : a.Forest H [r]) : a.WellFormed H r := by
  have hr : r < a.size := F.roots_lt r (by simp)
  refine
    { root_lt := hr
      root_parent := (F.parentless_iff r hr).2 (by simp)
      parentless := fun n hn h => by simpa using (F.parentless_iff n hn).1 h
      parent_child := F.parent_child
      shape := ?_
      child_parent := fun m hm n hc _ => F.child_parent m hm n hc
      hash_ok := F.hash_ok
      ranked := ⟨fun n => a.size - 1 - n, ?_⟩ }
  · intro n hn
    rcases F.shape n hn with h | ⟨l, r1, hl, hr1, h1, h2⟩
    · exact Or.inl h
    · exact Or.inr ⟨l, r1, hl, hr1, by omega, by omega⟩
  · intro m hm
    dsimp only
    refine ⟨by omega, fun n hc => ?_⟩
    have := F.child_lt hm hc
    omega

end MerkleTree

namespace MerkleTree

theorem mapFind_nil {β : Type} (k : String) : mapFind ([] : List (String × β)) k = none := rfl

theorem mapFind_cons {β : Type} (k0 : String) (v0 : β) (m : List (String × β)) (k : String) :
    mapFind ((k0, v0) :: m) k = if k = k0 then some v0 else mapFind m k := by
  unfold mapFind
  rw [List.lookup_cons]
  by_cases h : k = k0
  · simp [h]
  · have : (k == k0) = false := by simpa using h
    simp [h, this]

theorem mapFind_mapSet {β : Type} (m : List (String × β)) (k : String) (v : β) (k1 : String) :
    mapFind (mapSet m k v) k1 = if k1 = k then some v else mapFind m k1 := by
  induction m with
  | nil => simp [mapSet, mapFind_cons, mapFind_nil]
  | cons kv rest ih =>
    obtain ⟨k0, v0⟩ := kv
    by_cases h0 : k0 = k
    · subst h0
      simp only [mapSet, if_true, mapFind_cons]
      by_cases h1 : k1 = k0 <;> simp [h1]
    · simp only [mapSet, h0, if_false, mapFind_cons, ih]
      by_cases h1 : k1 = k0
      · have : k1 ≠ k := fun e => h0 (h1 ▸ e)
        simp [h1, h0]
      · simp [h1]

theorem mapSet_length_fresh {β : Type} (m : List (String × β)) (k : String) (v : β)
    (h : mapFind m k = none) : (mapSet m k v).length = m.length + 1 := by
  induction m with
  | nil => simp [mapSet]
  | cons kv rest ih =>
    obtain ⟨k0, v0⟩ := kv
    rw [mapFind_cons] at h
    by_cases h0 : k = k0
    · simp [h0] at h
    · simp only [h0, if_false] at h
      have h0' : ¬ k0 = k := fun e => h0 e.symm
      simp [mapSet, h0', ih h]

theorem freshDupId_fresh (m : List (String × Nat)) (reviewId : String) :
    ∀ (fuel suffix : Nat) (uid : String), freshDupId m reviewId fuel suffix = .ok uid →
      mapFind m uid = none := by
  intro fuel
  induction fuel with
  | zero => intro suffix uid h; simp [freshDupId] at h
  | succ fuel ih =>
    intro suffix uid h
    simp only [freshDupId] at h
    split at h
    · exact ih _ _ h
    · rename_i hfind
      cases h
      simpa using hfind

theorem uniqueIdFor_fresh (m : List (String × Nat)) (reviewId uid : String)
    (h : uniqueIdFor m reviewId = .ok uid) : mapFind m uid = none := by
  unfold uniqueIdFor at h
  split at h
  · exact freshDupId_fresh m reviewId _ _ _ h
  · rename_i hfind
    cases h
    simpa using hfind

theorem uniqueIdFor_of_absent (m : List (String × Nat)) (reviewId : String)
    (h : mapFind m reviewId = none) : uniqueIdFor m reviewId = .ok reviewId := by
  simp [uniqueIdFor, h]

end MerkleTree

namespace MerkleTree

theorem recordsFrom_length (a : Arena) (i : Nat) (ds : List String) :
    (recordsFrom a i ds).length = ds.length := by
  induction ds generalizing i with
  | nil => simp [recordsFrom]
  | cons e rest ih => simp [recordsFrom, ih]

theorem mem_recordsFrom (a : Arena) (ds : List String) (i : Nat) (id e : String) :
    (id, e) ∈ recordsFrom a i ds ↔ ∃ n, ds[n]? = some e ∧ id = (a.cell (i + n)).data := by
  induction ds generalizing i with
  | nil => simp [recordsFrom]
  | cons d rest ih =>
    simp only [recordsFrom, List.mem_cons, Prod.mk.injEq, ih, MerkleNode.getReviewId]
    constructor
    · rintro (⟨h1, h2⟩ | ⟨n, h1, h2⟩)
      · exact ⟨0, by simp [h2], by simpa using h1⟩
      · exact ⟨n + 1, by simpa using h1, by rw [h2]; congr 2; omega⟩
    · rintro ⟨n, h1, h2⟩
      cases n with
      | zero =>
        left
        simp only [List.getElem?_cons_zero, Option.some.injEq] at h1
        exact ⟨by simpa using h2, h1.symm⟩
      | succ n =>
        right
        exact ⟨n, by simpa using h1, by rw [h2]; congr 2; omega⟩

theorem alloc_cell_size (a : Arena) (n : MerkleNode) : (a.alloc n).1.cell a.size = n := by
  simp [Arena.alloc]

theorem alloc_cell_of_ne (a : Arena) (n : MerkleNode) (p : Nat) (h : p ≠ a.size) :
    (a.alloc n).1.cell p = a.cell p := by
  simp [Arena.alloc, Function.update_apply, h]

theorem alloc_size (a : Arena) (n : MerkleNode) : (a.alloc n).1.size = a.size + 1 := rfl

theorem alloc_snd (a : Arena) (n : MerkleNode) : (a.alloc n).2 = a.size := rfl

/-- The leaf loop of `buildTreeFromReviews` keeps the leaf state and does not touch the
nodes allocated before. -/
theorem addLeaves_state (H : String → String) :
    ∀ (data ids : List String) (a : Arena) (m : List (String × Nat)) (lv : List Nat)
      (ds : List String) (a1 : Arena) (m1 : List (String × Nat)) (lv1 : List Nat),
      LeavesState H a m lv ds → data.length = ids.length →
      addLeaves H a m lv data ids = .ok (a1, m1, lv1) →
      LeavesState H a1 m1 lv1 (ds ++ data) := by
  intro data
  induction data with
  | nil =>
    intro ids a m lv ds a1 m1 lv1 st _ h
    simp only [addLeaves] at h
    cases h
    simpa using st
  | cons d data ih =>
    intro ids a m lv ds a1 m1 lv1 st hlen h
    match ids, hlen with
    | i :: ids, hlen =>
      simp only [addLeaves] at h
      split at h
      · cases h
      · rename_i uid huid
        have hfresh := uniqueIdFor_fresh m i uid huid
        have hlen1 : data.length = ids.length := by simpa using hlen
        have st1 : LeavesState H (a.alloc (MerkleNode.leafNode (computeHash H d) uid)).1
            (mapSet m uid a.size) (lv ++ [a.size]) (ds ++ [d]) := by
          refine
            { leaves_eq := by rw [alloc_size, List.range_succ, st.leaves_eq]
              size_eq := by rw [alloc_size, List.length_append, st.size_eq]; rfl
              cells := ?_
              hashes := ?_
              find_lt := ?_
              find_self := ?_
              count := by rw [alloc_size, mapSet_length_fresh m uid a.size hfresh, st.count] }
          · intro n hn
            rw [alloc_size] at hn
            by_cases h1 : n = a.size
            · subst h1
              simp [alloc_cell_size, Arena.LeafShaped, MerkleNode.leafNode]
            · unfold Arena.LeafShaped
              rw [alloc_cell_of_ne _ _ _ h1]
              exact st.cells n (by omega)
          · intro n e hne
            by_cases h1 : n = a.size
            · subst h1
              rw [← st.size_eq] at hne
              simp at hne
              subst hne
              rw [← st.size_eq] 
              simp [alloc_cell_size, MerkleNode.leafNode, computeHash, st.size_eq]
            · have hn : n < ds.length := by
                have := (List.getElem?_eq_some_iff.1 hne).1
                simp only [List.length_append, List.length_singleton] at this
                rw [st.size_eq] at this ⊢
                omega
              rw [List.getElem?_append_left hn] at hne
              rw [alloc_cell_of_ne _ _ _ h1]
              exact st.hashes n e hne
          · intro id l hfind
            rw [mapFind_mapSet] at hfind
            rw [alloc_size]
            split at hfind
            · cases hfind; omega
            · have := st.find_lt id l hfind; omega
          · intro n hn
            rw [alloc_size] at hn
            rw [mapFind_mapSet]
            by_cases h1 : n = a.size
            · subst h1
              simp [alloc_cell_size, MerkleNode.leafNode]
            · rw [alloc_cell_of_ne _ _ _ h1]
              have hself := st.find_self n (by omega)
              have hne : (a.cell n).data ≠ uid := by
                intro e
                rw [e, hfresh] at hself
                cases hself
              simp [hne, hself]
        have := ih ids _ _ _ _ a1 m1 lv1 st1 hlen1 h
        simpa using this

end MerkleTree

namespace MerkleTree

theorem leavesState_empty (H : String → String) : LeavesState H Arena.empty [] [] [] :=
  { leaves_eq := rfl
    size_eq := rfl
    cells := fun n hn => by simp [Arena.empty] at hn
    hashes := fun n e h => by simp at h
    find_lt := fun id l h => by simp [mapFind] at h
    find_self := fun n hn => by simp [Arena.empty] at hn
    count := rfl }

theorem forest_of_leavesState (H : String → String) (a : Arena) (m : List (String × Nat))
    (lv : List Nat) (ds : List String) (st : LeavesState H a m lv ds) : a.Forest H lv := by
  have hleaf : ∀ m n, m < a.size → ¬ a.IsChild m n := by
    intro m n hm hc
    have := (st.cells m hm).2
    rcases hc with h | h
    · rw [this.1] at h; cases h
    · rw [this.2] at h; cases h
  refine
    { nodup := by rw [st.leaves_eq]; exact List.nodup_range _
      parentless_iff := fun n hn => by
        rw [st.leaves_eq]
        simp [hn, (st.cells n hn).1]
      roots_lt := fun n hn => by
        rw [st.leaves_eq] at hn
        simpa using hn
      parent_child := fun n hn p hp => by
        rw [(st.cells n hn).1] at hp; cases hp
      shape := fun n hn => Or.inl (st.cells n hn).2
      child_parent := fun m hm n hc => absurd hc (hleaf m n hm)
      hash_ok := fun n hn l r hl _ => absurd (Or.inl hl) (hleaf n l hn) }

theorem buildTree_eq_buildLoop (H : String → String) (a : Arena) (lv : List Nat)
    (hne : lv ≠ []) : buildTree H a lv = buildLoop H lv.length a lv := by
  match lv, hne with
  | [x], _ => simp [buildTree, buildLoop]
  | x :: y :: rest, _ => simp [buildTree]

/-- The facts about a successful batch build: the input lists are non-empty and of equal
length, the tree satisfies the invariant for its indexed records, its root hash is the
level reduction of the leaf hashes, and leaf `i` keeps the hash of encoding `i`. -/
theorem buildTreeFromReviews_spec (H : String → String) (t0 t : MerkleTree)
    (data ids : List String) (h : buildTreeFromReviews H t0 data ids = .ok t) :
    data ≠ [] ∧ data.length = ids.length ∧ TreeInvariant H t (batchRecords t data) ∧
      getRootHash t = reduce H (data.map H) ∧
      (∀ n, n < data.length → mapFind t.leafMap (t.arena.cell n).data = some n) ∧
      (∀ n e, data[n]? = some e → (t.arena.cell n).hash = H e) := by
  unfold buildTreeFromReviews at h
  split at h
  · cases h
  · rename_i hlen
    have hlen : data.length = ids.length := by simpa using hlen
    split at h
    · cases h
    · rename_i a m lv hadd
      have st := addLeaves_state H data ids _ _ _ _ a m lv (leavesState_empty H) hlen hadd
      simp only [List.nil_append] at st
      have F := forest_of_leavesState H a m lv data st
      have hlvlen : lv.length = data.length := by
        rw [st.leaves_eq, List.length_range, st.size_eq]
      by_cases hne : lv = []
      · subst hne
        simp [buildTree] at h
      · rw [buildTree_eq_buildLoop H a lv hne] at h
        obtain ⟨a1, r, hrun, F1, hsz, hfr, hhash, hleaf, hone⟩ :=
          buildLoop_forest H lv.length a lv F hne (le_refl _)
        rw [hrun] at h
        simp only at h
        cases h
        have hdne : data ≠ [] := by
          intro e
          rw [e] at hlvlen
          exact hne (List.length_eq_zero.1 hlvlen)
        have hmaphash : lv.map (fun p => (a.cell p).hash) = data.map H := by
          apply List.ext_getElem?
          intro n
          rw [List.getElem?_map, List.getElem?_map, st.leaves_eq]
          by_cases hn : n < a.size
          · rw [List.getElem?_range hn]
            have hd : n < data.length := by rw [st.size_eq]; exact hn
            rw [List.getElem?_eq_getElem hd]
            simp only [Option.map_some']
            rw [st.hashes n data[n] (List.getElem?_eq_getElem hd)]
          · have h1 : (List.range a.size)[n]? = none := by
              apply List.getElem?_eq_none
              simp; omega
            have h2 : data[n]? = none := by
              apply List.getElem?_eq_none
              rw [st.size_eq]; omega
            rw [h1, h2]; rfl
        refine ⟨hdne, hlen, ?_, ?_, ?_, ?_⟩
        · refine
            { rootless := fun h => by cases h
              rooted := fun r1 h1 => by
                cases h1
                refine ⟨wellFormed_of_forest H a1 r F1, ?_⟩
                intro e
                have := congrArg List.length e
                rw [batchRecords, recordsFrom_length] at this
                exact hdne (List.length_eq_zero.1 this)
              indexed := ?_
              index_leaf := ?_
              count := by
                rw [batchRecords, recordsFrom_length]
                show m.length = data.length
                rw [st.count, st.size_eq]
              single := ?_
              many := ?_ }
          · intro id e hmem
            rw [batchRecords, mem_recordsFrom] at hmem
            obtain ⟨n, hn, hid⟩ := hmem
            have hnlt : n < a.size := by
              rw [← st.size_eq]
              exact (List.getElem?_eq_some_iff.1 hn).1
            simp only [Nat.zero_add] at hid
            refine ⟨n, ?_, ?_⟩
            · show mapFind m id = some n
              rw [hid, (hfr n hnlt).2.2.2]
              exact st.find_self n hnlt
            · show (a1.cell n).hash = H e
              rw [(hfr n hnlt).1]
              exact st.hashes n e hn
          · intro id l hfind
            have hl := st.find_lt id l hfind
            refine ⟨Nat.lt_of_lt_of_le hl hsz, ?_⟩
            show (a1.cell l).left = none ∧ (a1.cell l).right = none
            rw [(hfr l hl).2.1, (hfr l hl).2.2.1]
            exact (st.cells l hl).2
          · intro hle
            rw [batchRecords, recordsFrom_length] at hle
            have h1 : lv.length = 1 := by
              have : lv.length ≠ 0 := fun e => hne (List.length_eq_zero.1 e)
              omega
            show a1.size ≤ 1
            rw [hone h1, ← st.size_eq]
            omega
          · intro hge r1 h1
            cases h1
            rw [batchRecords, recordsFrom_length] at hge
            exact hleaf (Or.inr (by omega))
        · show (a1.cell r).hash = reduce H (data.map H)
          rw [hhash, hmaphash, reduce, List.length_map, hlvlen]
        · intro n hn
          have hnlt : n < a.size := by rw [← st.size_eq]; exact hn
          show mapFind m (a1.cell n).data = some n
          rw [(hfr n hnlt).2.2.2]
          exact st.find_self n hnlt
        · intro n e hn
          have hnlt : n < a.size := by
            rw [← st.size_eq]
            exact (List.getElem?_eq_some_iff.1 hn).1
          show (a1.cell n).hash = H e
          rw [(hfr n hnlt).1]
          exact st.hashes n e hn

end MerkleTree

namespace MerkleTree

theorem isLeaf_iff (a : Arena) (n : Nat) : (a.cell n).isLeaf = true ↔ a.LeafShaped n := by
  simp [MerkleNode.isLeaf, Arena.LeafShaped, Option.isNone_iff_eq_none]

theorem isLeaf_eq_false_iff (a : Arena) (n : Nat) :
    (a.cell n).isLeaf = false ↔ ¬ a.LeafShaped n := by
  rw [← isLeaf_iff]; simp

theorem not_leafShaped_of_isChild {a : Arena} {m n : Nat} (h : a.IsChild m n) :
    ¬ a.LeafShaped m := by
  intro hl
  rcases h with h | h
  · rw [hl.1] at h; cases h
  · rw [hl.2] at h; cases h

theorem children_of_inner {H : String → String} {a : Arena} {bound root : Nat}
    (wf : a.WellFormedUpTo H bound root) {m : Nat} (hm : m < bound) (hi : ¬ a.LeafShaped m) :
    ∃ l r, (a.cell m).left = some l ∧ (a.cell m).right = some r ∧ l < bound ∧ r < bound := by
  rcases wf.shape m hm with h | h
  · exact absurd h hi
  · exact h

theorem isChild_lt {H : String → String} {a : Arena} {bound root : Nat}
    (wf : a.WellFormedUpTo H bound root) {m n : Nat} (hm : m < bound) (hc : a.IsChild m n) :
    n < bound := by
  obtain ⟨l, r, hl, hr, h1, h2⟩ := children_of_inner wf hm (not_leafShaped_of_isChild hc)
  rcases hc with h | h
  · rw [hl] at h; cases h; exact h1
  · rw [hr] at h; cases h; exact h2

/-- Counting leaves below a node of a well-formed tree returns within the fuel that
`insertLeaf` provides. -/
theorem countLeaves_total (H : String → String) (a : Arena) (bound root : Nat)
    (wf : a.WellFormedUpTo H bound root) (rank : Nat → Nat)
    (hrank : ∀ m, m < bound → rank m < bound ∧ ∀ n, a.IsChild m n → rank m < rank n) :
    ∀ fuel n, n < bound → bound + 1 ≤ fuel + rank n →
      ∃ k, countLeaves a fuel (some n) = .ok k := by
  intro fuel
  induction fuel with
  | zero =>
    intro n hn h
    have := (hrank n hn).1
    omega
  | succ fuel ih =>
    intro n hn h
    by_cases hleaf : (a.cell n).isLeaf = true
    · exact ⟨1, by simp [countLeaves, hleaf]⟩
    · have hi : ¬ a.LeafShaped n := by rwa [← isLeaf_iff]
      obtain ⟨l, r, hl, hr, hll, hrl⟩ := children_of_inner wf hn hi
      have h1 := (hrank n hn).2 l (Or.inl hl)
      have h2 := (hrank n hn).2 r (Or.inr hr)
      obtain ⟨kl, hkl⟩ := ih l hll (by omega)
      obtain ⟨kr, hkr⟩ := ih r hrl (by omega)
      exact ⟨kl + kr, by simp [countLeaves, hleaf, hl, hr, hkl, hkr]⟩

/-- The result of `insertLeaf` at a leaf. -/
theorem insertLeaf_at_leaf (H : String → String) (fuel : Nat) (a : Arena) (c newLeaf : Nat)
    (hleaf : (a.cell c).isLeaf = true) :
    insertLeaf H (fuel + 1) a (some c) newLeaf =
      .ok (a.join (combineHashes H (a.cell c).hash (a.cell newLeaf).hash) c newLeaf, a.size) := by
  simp [insertLeaf, hleaf, Arena.join, Arena.alloc]

/-- The result of `insertLeaf` at an internal node whose left subtree is chosen. -/
theorem insertLeaf_go_left (H : String → String) (fuel : Nat) (a a1 : Arena)
    (c newLeaf lc rc nl l r : Nat) (hleaf : (a.cell c).isLeaf = false)
    (hl : countLeaves a (a.size + 1) (a.cell c).left = .ok lc)
    (hr : countLeaves a (a.size + 1) (a.cell c).right = .ok rc) (hle : lc ≤ rc)
    (hrec : insertLeaf H fuel a (a.cell c).left newLeaf = .ok (a1, nl))
    (hl2 : (((a1.setLeft c (some nl)).setParent nl (some c)).cell c).left = some l)
    (hr2 : (((a1.setLeft c (some nl)).setParent nl (some c)).cell c).right = some r) :
    insertLeaf H (fuel + 1) a (some c) newLeaf =
      .ok (((a1.setLeft c (some nl)).setParent nl (some c)).setHash c
        (combineHashes H (((a1.setLeft c (some nl)).setParent nl (some c)).cell l).hash
          (((a1.setLeft c (some nl)).setParent nl (some c)).cell r).hash), c) := by
  simp only [insertLeaf, hleaf, hl, hr, hle, hrec, if_true, hl2, hr2]
  simp

/-- The result of `insertLeaf` at an internal node whose right subtree is chosen. -/
theorem insertLeaf_go_right (H : String → String) (fuel : Nat) (a a1 : Arena)
    (c newLeaf lc rc nr l r : Nat) (hleaf : (a.cell c).isLeaf = false)
    (hl : countLeaves a (a.size + 1) (a.cell c).left = .ok lc)
    (hr : countLeaves a (a.size + 1) (a.cell c).right = .ok rc) (hle : ¬ lc ≤ rc)
    (hrec : insertLeaf H fuel a (a.cell c).right newLeaf = .ok (a1, nr))
    (hl2 : (((a1.setRight c (some nr)).setParent nr (some c)).cell c).left = some l)
    (hr2 : (((a1.setRight c (some nr)).setParent nr (some c)).cell c).right = some r) :
    insertLeaf H (fuel + 1) a (some c) newLeaf =
      .ok (((a1.setRight c (some nr)).setParent nr (some c)).setHash c
        (combineHashes H (((a1.setRight c (some nr)).setParent nr (some c)).cell l).hash
          (((a1.setRight c (some nr)).setParent nr (some c)).cell r).hash), c) := by
  simp only [insertLeaf, hleaf, hl, hr, hle, hrec, if_false, hl2, hr2]
  simp

end MerkleTree

namespace MerkleTree

theorem join_cell_left (a : Arena) (h : String) (x y : Nat) (hx : x < a.size) :
    (a.join h x y).cell x = { a.cell x with parent := some a.size } := by
  have hx1 : x ≠ a.size := by omega
  by_cases hxy : x = y
  · subst hxy
    simp [Arena.join, Arena.alloc, Arena.setParent, Function.update_apply, hx1]
  · simp [Arena.join, Arena.alloc, Arena.setParent, Function.update_apply, hx1, hxy]

theorem join_cell_right (a : Arena) (h : String) (x y : Nat) (hy : y < a.size) :
    (a.join h x y).cell y = { a.cell y with parent := some a.size } := by
  have hy1 : y ≠ a.size := by omega
  by_cases hxy : y = x
  · subst hxy
    simp [Arena.join, Arena.alloc, Arena.setParent, Function.update_apply, hy1]
  · simp [Arena.join, Arena.alloc, Arena.setParent, Function.update_apply, hy1, hxy]

/-- The effect of `insertLeaf` at a leaf. -/
theorem insertPost_leaf (H : String → String) (a : Arena) (n0 root : Nat)
    (pre : InsertPre H a n0 root) (rank : Nat → Nat) (c : Nat) (hc : c < n0)
    (hleaf : a.LeafShaped c) :
    InsertPost H a n0 rank c
      (a.join (combineHashes H (a.cell c).hash (a.cell n0).hash) c n0) (n0 + 1) c := by
  have hsize := pre.size_eq
  obtain ⟨hsz, hp, hpx, hpy, hfr, hsame⟩ :=
    Arena.join_cell a (combineHashes H (a.cell c).hash (a.cell n0).hash) c n0
      (by omega) (by omega)
  rw [hsize] at hsz hp hpx hpy hfr hsame
  have hchild : ∀ m n, m ≠ n0 + 1 →
      ((a.join (combineHashes H (a.cell c).hash (a.cell n0).hash) c n0).IsChild m n ↔
        a.IsChild m n) := by
    intro m n hm
    unfold Arena.IsChild
    rw [(hfr m hm).2.1, (hfr m hm).2.2.1]
  refine
    { size_eq := hsz
      x_lt := hc
      x_leaf := hleaf
      cell_x := by
        have := join_cell_left a (combineHashes H (a.cell c).hash (a.cell n0).hash) c n0
          (by omega)
        rw [hsize] at this
        exact this
      cell_new := by
        have := join_cell_right a (combineHashes H (a.cell c).hash (a.cell n0).hash) c n0
          (by omega)
        rw [hsize] at this
        exact this
      q_hash := by simp [hp, MerkleNode.internalNode]
      q_left := by simp [hp, MerkleNode.internalNode]
      q_right := by simp [hp, MerkleNode.internalNode]
      other_leaves := fun n hn _ hne => hsame n (by omega) hne (by omega)
      inner_parent := fun n hn hi => by
        rw [hsame n (by omega) (fun e => hi (e ▸ hleaf)) (by omega)]
      inner_left := fun n hn hi => by
        rw [hsame n (by omega) (fun e => hi (e ▸ hleaf)) (by omega)]
        exact Or.inl rfl
      inner_right := fun n hn hi => by
        rw [hsame n (by omega) (fun e => hi (e ▸ hleaf)) (by omega)]
        exact Or.inl rfl
      result_leaf := fun _ => ⟨rfl, rfl, by simp [hp, MerkleNode.internalNode]⟩
      result_inner := fun h => absurd hleaf h
      q_link := fun m hm => by simp [hp, MerkleNode.internalNode] at hm
      q_ref := fun m hm hch => by
        have := isChild_lt pre.wf hm ((hchild m _ (by omega)).1 hch)
        omega
      hashes := fun n hn l r hl hr => by
        right
        rw [(hfr n (by omega)).2.1] at hl
        rw [(hfr n (by omega)).2.2.1] at hr
        have hl1 := isChild_lt pre.wf hn (Or.inl hl)
        have hr1 := isChild_lt pre.wf hn (Or.inr hr)
        rw [(hfr n (by omega)).1, (hfr l (by omega)).1, (hfr r (by omega)).1]
        exact pre.wf.hash_ok n hn l r hl hr
      frame := fun n hn hi _ => hsame n (by omega) (fun e => hi (e ▸ hleaf)) (by omega) }

end MerkleTree

namespace MerkleTree

theorem InsertPost.leaf_left {H : String → String} {a a1 : Arena} {n0 c r1 x : Nat}
    {rank : Nat → Nat} (post : InsertPost H a n0 rank c a1 r1 x) {n : Nat} (hn : n < n0)
    (hl : a.LeafShaped n) : (a1.cell n).left = none ∧ (a1.cell n).right = none ∧
      (a1.cell n).hash = (a.cell n).hash := by
  by_cases hx : n = x
  · subst hx
    rw [post.cell_x]
    exact ⟨hl.1, hl.2, rfl⟩
  · rw [post.other_leaves n hn hl hx]
    exact ⟨hl.1, hl.2, rfl⟩

/-- The effect of `insertLeaf` at an internal node `m`, from the effect of the recursive
call on its chosen child `ch`: `a3` is the arena after re-linking the returned subtree
under `m` and recomputing the hash of `m`. -/
theorem insertPost_step (H : String → String) (a : Arena) (n0 root : Nat)
    (pre : InsertPre H a n0 root) (rank : Nat → Nat)
    (hrank : ∀ m, m < n0 → rank m < n0 ∧ ∀ n, a.IsChild m n → rank m < rank n)
    (m ch : Nat) (hm : m < n0) (hmi : ¬ a.LeafShaped m) (hch : a.IsChild m ch)
    (a1 : Arena) (r1 x : Nat) (post : InsertPost H a n0 rank ch a1 r1 x) (a3 : Arena)
    (hsz : a3.size = a1.size)
    (hother : ∀ n, n ≠ m → n ≠ r1 → a3.cell n = a1.cell n)
    (hr1 : a3.cell r1 = { a1.cell r1 with parent := some m })
    (hmpar : (a3.cell m).parent = (a1.cell m).parent)
    (hside : ((a.cell m).left = some ch ∧ (a3.cell m).left = some r1 ∧
        (a3.cell m).right = (a1.cell m).right) ∨
      ((a.cell m).right = some ch ∧ (a3.cell m).right = some r1 ∧
        (a3.cell m).left = (a1.cell m).left))
    (hhash : ∀ l r, (a3.cell m).left = some l → (a3.cell m).right = some r →
      (a3.cell m).hash = combineHashes H (a3.cell l).hash (a3.cell r).hash) :
    InsertPost H a n0 rank m a3 m x := by
  have hchlt : ch < n0 := isChild_lt pre.wf hm hch
  have hrk : rank m < rank ch := (hrank m hm).2 ch hch
  have hchm : ch ≠ m := fun e => by rw [e] at hrk; omega
  have hm1 : a1.cell m = a.cell m := post.frame m hm hmi (Or.inr hrk)
  have hxm : x ≠ m := fun e => hmi (e ▸ post.x_leaf)
  have hcases : (a.LeafShaped ch ∧ r1 = n0 + 1 ∧ x = ch ∧ (a1.cell (n0 + 1)).parent = none) ∨
      (¬ a.LeafShaped ch ∧ r1 = ch ∧ (a1.cell (n0 + 1)).parent ≠ none ∧
        (a.cell ch).parent = some m) := by
    by_cases hcl : a.LeafShaped ch
    · exact Or.inl ⟨hcl, post.result_leaf hcl⟩
    · exact Or.inr ⟨hcl, (post.result_inner hcl).1, (post.result_inner hcl).2,
        pre.wf.child_parent m hm ch hch hcl⟩
  have hr1m : r1 ≠ m := by
    rcases hcases with ⟨_, h, _⟩ | ⟨_, h, _⟩
    · omega
    · rw [h]; exact hchm
  have hxr1 : x ≠ r1 := by
    rcases hcases with ⟨_, h, _⟩ | ⟨hi, h, _⟩
    · have := post.x_lt; omega
    · rw [h]; exact fun e => hi (e ▸ post.x_leaf)
  have hnr1 : n0 ≠ r1 := by
    rcases hcases with ⟨_, h, _⟩ | ⟨_, h, _⟩ <;> omega
  have hkids : ∀ n, n ≠ m → (a3.cell n).left = (a1.cell n).left ∧
      (a3.cell n).right = (a1.cell n).right ∧ (a3.cell n).hash = (a1.cell n).hash := by
    intro n hnm
    by_cases h : n = r1
    · subst h; rw [hr1]; exact ⟨rfl, rfl, rfl⟩
    · rw [hother n hnm h]; exact ⟨rfl, rfl, rfl⟩
  have hchild3 : ∀ n k, n ≠ m → (a3.IsChild n k ↔ a1.IsChild n k) := by
    intro n k hnm
    unfold Arena.IsChild
    rw [(hkids n hnm).1, (hkids n hnm).2.1]
  have hq := hkids (n0 + 1) (by omega)
  have hnoq : ¬ a.IsChild m (n0 + 1) := fun h => by
    have := isChild_lt pre.wf hm h; omega
  refine
    { size_eq := hsz.trans post.size_eq
      x_lt := post.x_lt
      x_leaf := post.x_leaf
      cell_x := by rw [hother x hxm hxr1]; exact post.cell_x
      cell_new := by rw [hother n0 (by omega) hnr1]; exact post.cell_new
      q_hash := by rw [hq.2.2]; exact post.q_hash
      q_left := by rw [hq.1]; exact post.q_left
      q_right := by rw [hq.2.1]; exact post.q_right
      other_leaves := ?_
      inner_parent := ?_
      inner_left := ?_
      inner_right := ?_
      result_leaf := fun h => absurd h hmi
      result_inner := fun _ => ⟨rfl, ?_⟩
      q_link := ?_
      q_ref := ?_
      hashes := ?_
      frame := ?_ }
  · intro n hn hl hnx
    have hnm : n ≠ m := fun e => hmi (e ▸ hl)
    have hnr : n ≠ r1 := by
      rcases hcases with ⟨_, h, _⟩ | ⟨hi, h, _⟩
      · omega
      · rw [h]; exact fun e => hi (e ▸ hl)
    rw [hother n hnm hnr]
    exact post.other_leaves n hn hl hnx
  · intro n hn hi
    by_cases hnm : n = m
    · subst hnm; rw [hmpar, hm1]
    · by_cases hnr : n = r1
      · subst hnr
        rcases hcases with ⟨_, h, _⟩ | ⟨_, h, _, hpar⟩
        · omega
        · rw [hr1, h, hpar]
      · rw [hother n hnm hnr]
        exact post.inner_parent n hn hi
  · intro n hn hi
    by_cases hnm : n = m
    · subst hnm
      rcases hside with ⟨h1, h2, _⟩ | ⟨_, _, h3⟩
      · rcases hcases with ⟨_, h, hx, _⟩ | ⟨_, h, _⟩
        · right
          exact ⟨by rw [h1, hx], by rw [h2, h]⟩
        · left
          rw [h2, h1, h]
      · left
        rw [h3, hm1]
    · rw [(hkids n hnm).1]
      exact post.inner_left n hn hi
  · intro n hn hi
    by_cases hnm : n = m
    · subst hnm
      rcases hside with ⟨_, _, h3⟩ | ⟨h1, h2, _⟩
      · left
        rw [h3, hm1]
      · rcases hcases with ⟨_, h, hx, _⟩ | ⟨_, h, _⟩
        · right
          exact ⟨by rw [h1, hx], by rw [h2, h]⟩
        · left
          rw [h2, h1, h]
    · rw [(hkids n hnm).2.1]
      exact post.inner_right n hn hi
  · rcases hcases with ⟨_, h, _⟩ | ⟨_, h, hne, _⟩
    · rw [← h, hr1]; simp
    · rw [hother (n0 + 1) (by omega) (by omega)]
      exact hne
  · intro m1 hpar
    rcases hcases with ⟨_, h, _⟩ | ⟨_, h, _, _⟩
    · rw [← h, hr1] at hpar
      simp only [Option.some.injEq] at hpar
      subst hpar
      refine ⟨hm, ?_⟩
      rcases hside with ⟨_, h2, _⟩ | ⟨_, h2, _⟩
      · exact Or.inl (by rw [h2, h])
      · exact Or.inr (by rw [h2, h])
    · rw [hother (n0 + 1) (by omega) (by omega)] at hpar
      obtain ⟨hlt, hc⟩ := post.q_link m1 hpar
      refine ⟨hlt, ?_⟩
      by_cases hmm : m1 = m
      · subst hmm
        unfold Arena.IsChild at hc
        rw [hm1] at hc
        exact absurd hc hnoq
      · exact (hchild3 m1 _ hmm).2 hc
  · intro m1 hlt hc
    by_cases hmm : m1 = m
    · subst hmm
      have hr1q : r1 = n0 + 1 := by
        rcases hside with ⟨_, h2, h3⟩ | ⟨_, h2, h3⟩
        · rcases hc with hc | hc
          · rw [h2] at hc; exact Option.some.inj hc
          · rw [h3, hm1] at hc; exact absurd (Or.inr hc) hnoq
        · rcases hc with hc | hc
          · rw [h3, hm1] at hc; exact absurd (Or.inl hc) hnoq
          · rw [h2] at hc; exact Option.some.inj hc
      rw [← hr1q, hr1]
    · have hc1 := (hchild3 m1 _ hmm).1 hc
      have hp1 := post.q_ref m1 hlt hc1
      rcases hcases with ⟨_, _, _, hnone⟩ | ⟨_, h, _, _⟩
      · rw [hnone] at hp1; cases hp1
      · rw [hother (n0 + 1) (by omega) (by omega)]
        exact hp1
  · intro n hn l r hl hr
    by_cases hnm : n = m
    · subst hnm
      exact Or.inr (hhash l r hl hr)
    · have hk := hkids n hnm
      rw [hk.1] at hl
      rw [hk.2.1] at hr
      have hni : ¬ a.LeafShaped n := by
        intro hleaf
        have := (post.leaf_left hn hleaf).1
        rw [this] at hl; cases hl
      rcases post.hashes n hn l r hl hr with ⟨hci, hpar⟩ | hh
      · rcases hcases with ⟨hcl, _⟩ | ⟨_, _, _, hpm⟩
        · exact absurd hcl hci
        · rw [hpm] at hpar
          exact absurd (Option.some.inj hpar).symm hnm
      · by_cases hlm : l = m ∨ r = m
        · left
          refine ⟨hmi, pre.wf.child_parent n hn m ?_ hmi⟩
          rcases hlm with e | e
          · subst e
            rcases post.inner_left n hn hni with h1 | ⟨_, h1⟩
            · exact Or.inl (by rw [← h1, hl])
            · rw [hl] at h1
              have := Option.some.inj h1
              omega
          · subst e
            rcases post.inner_right n hn hni with h1 | ⟨_, h1⟩
            · exact Or.inr (by rw [← h1, hr])
            · rw [hr] at h1
              have := Option.some.inj h1
              omega
        · right
          have hl1 : l ≠ m := fun e => hlm (Or.inl e)
          have hr2 : r ≠ m := fun e => hlm (Or.inr e)
          rw [hk.2.2, (hkids l hl1).2.2, (hkids r hr2).2.2]
          exact hh
  · intro n hn hi hor
    rcases hor with h | h
    · exact absurd h hmi
    · have hnm : n ≠ m := fun e => by rw [e] at h; omega
      have hnr : n ≠ r1 := by
        rcases hcases with ⟨_, e, _⟩ | ⟨_, e, _⟩
        · omega
        · rw [e]; intro e2; rw [e2] at h; omega
      rw [hother n hnm hnr]
      exact post.frame n hn hi (Or.inr (by omega))

end MerkleTree

namespace MerkleTree

theorem relink_left_cells (a1 : Arena) (c r1 : Nat) (h : String) (hne : r1 ≠ c) :
    (((a1.setLeft c (some r1)).setParent r1 (some c)).cell c).left = some r1 ∧
    (((a1.setLeft c (some r1)).setParent r1 (some c)).cell c).right = (a1.cell c).right ∧
    ((((a1.setLeft c (some r1)).setParent r1 (some c)).setHash c h).size = a1.size) ∧
    (∀ n, n ≠ c → n ≠ r1 →
      (((a1.setLeft c (some r1)).setParent r1 (some c)).setHash c h).cell n = a1.cell n) ∧
    ((((a1.setLeft c (some r1)).setParent r1 (some c)).setHash c h).cell r1 =
      { a1.cell r1 with parent := some c }) ∧
    (((((a1.setLeft c (some r1)).setParent r1 (some c)).setHash c h).cell c).parent =
      (a1.cell c).parent) ∧
    (((((a1.setLeft c (some r1)).setParent r1 (some c)).setHash c h).cell c).left =
      some r1) ∧
    (((((a1.setLeft c (some r1)).setParent r1 (some c)).setHash c h).cell c).right =
      (a1.cell c).right) ∧
    (((((a1.setLeft c (some r1)).setParent r1 (some c)).setHash c h).cell c).hash = h) ∧
    (∀ n, n ≠ c →
      ((((a1.setLeft c (some r1)).setParent r1 (some c)).setHash c h).cell n).hash =
        (((a1.setLeft c (some r1)).setParent r1 (some c)).cell n).hash) := by
  have hne1 : c ≠ r1 := fun e => hne e.symm
  refine ⟨?_, ?_, rfl, ?_, ?_, ?_, ?_, ?_, ?_, ?_⟩ <;>
    simp [Arena.setLeft, Arena.setParent, Arena.setHash, Function.update_apply, hne, hne1]
  · intro n h1 h2; simp [h1, h2]
  · intro n h1; simp [h1]

theorem relink_right_cells (a1 : Arena) (c r1 : Nat) (h : String) (hne : r1 ≠ c) :
    (((a1.setRight c (some r1)).setParent r1 (some c)).cell c).left = (a1.cell c).left ∧
    (((a1.setRight c (some r1)).setParent r1 (some c)).cell c).right = some r1 ∧
    ((((a1.setRight c (some r1)).setParent r1 (some c)).setHash c h).size = a1.size) ∧
    (∀ n, n ≠ c → n ≠ r1 →
      (((a1.setRight c (some r1)).setParent r1 (some c)).setHash c h).cell n = a1.cell n) ∧
    ((((a1.setRight c (some r1)).setParent r1 (some c)).setHash c h).cell r1 =
      { a1.cell r1 with parent := some c }) ∧
    (((((a1.setRight c (some r1)).setParent r1 (some c)).setHash c h).cell c).parent =
      (a1.cell c).parent) ∧
    (((((a1.setRight c (some r1)).setParent r1 (some c)).setHash c h).cell c).left =
      (a1.cell c).left) ∧
    (((((a1.setRight c (some r1)).setParent r1 (some c)).setHash c h).cell c).right =
      some r1) ∧
    (((((a1.setRight c (some r1)).setParent r1 (some c)).setHash c h).cell c).hash = h) ∧
    (∀ n, n ≠ c →
      ((((a1.setRight c (some r1)).setParent r1 (some c)).setHash c h).cell n).hash =
        (((a1.setRight c (some r1)).setParent r1 (some c)).cell n).hash) := by
  have hne1 : c ≠ r1 := fun e => hne e.symm
  refine ⟨?_, ?_, rfl, ?_, ?_, ?_, ?_, ?_, ?_, ?_⟩ <;>
    simp [Arena.setRight, Arena.setParent, Arena.setHash, Function.update_apply, hne, hne1]
  · intro n h1 h2; simp [h1, h2]
  · intro n h1; simp [h1]

/-- `insertLeaf` on a well-formed tree returns, and its effect is described by
`InsertPost`. -/
theorem insertLeaf_post (H : String → String) (a : Arena) (n0 root : Nat)
    (pre : InsertPre H a n0 root) (rank : Nat → Nat)
    (hrank : ∀ m, m < n0 → rank m < n0 ∧ ∀ n, a.IsChild m n → rank m < rank n) :
    ∀ fuel c, c < n0 → n0 + 1 ≤ fuel + rank c →
      ∃ a1 r1 x, insertLeaf H fuel a (some c) n0 = .ok (a1, r1) ∧
        InsertPost H a n0 rank c a1 r1 x := by
  intro fuel
  induction fuel with
  | zero =>
    intro c hc h
    have := (hrank c hc).1
    omega
  | succ fuel ih =>
    intro c hc hfuel
    by_cases hleaf : (a.cell c).isLeaf = true
    · refine ⟨_, _, c, insertLeaf_at_leaf H fuel a c n0 hleaf, ?_⟩
      rw [pre.size_eq]
      exact insertPost_leaf H a n0 root pre rank c hc ((isLeaf_iff a c).1 hleaf)
    · have hleaf : (a.cell c).isLeaf = false := by simpa using hleaf
      have hi : ¬ a.LeafShaped c := (isLeaf_eq_false_iff a c).1 hleaf
      obtain ⟨l0, r0, hl0, hr0, hl0lt, hr0lt⟩ := children_of_inner pre.wf hc hi
      have hrl := (hrank c hc).2 l0 (Or.inl hl0)
      have hrr := (hrank c hc).2 r0 (Or.inr hr0)
      have hrl0 := (hrank l0 hl0lt).1
      have hrr0 := (hrank r0 hr0lt).1
      obtain ⟨lc, hlc⟩ := countLeaves_total H a n0 root pre.wf rank hrank (a.size + 1) l0
        hl0lt (by rw [pre.size_eq]; omega)
      obtain ⟨rc, hrc⟩ := countLeaves_total H a n0 root pre.wf rank hrank (a.size + 1) r0
        hr0lt (by rw [pre.size_eq]; omega)
      rw [← hl0] at hlc
      rw [← hr0] at hrc
      by_cases hle : lc ≤ rc
      · obtain ⟨a1, r1, x, hrec, post⟩ := ih l0 hl0lt (by omega)
        have hm1 : a1.cell c = a.cell c := post.frame c hc hi (Or.inr hrl)
        have hr1c : r1 ≠ c := by
          by_cases hcl : a.LeafShaped l0
          · rw [(post.result_leaf hcl).1]; omega
          · rw [(post.result_inner hcl).1]; intro e; rw [e] at hrl; omega
        have hr0c : r0 ≠ c := by intro e; rw [e] at hrr; omega
        obtain ⟨h1, h2, h3, h4, h5, h6, h7, h8, h9, h10⟩ := relink_left_cells a1 c r1
          (combineHashes H (((a1.setLeft c (some r1)).setParent r1 (some c)).cell r1).hash
            (((a1.setLeft c (some r1)).setParent r1 (some c)).cell r0).hash) hr1c
        rw [← hl0] at hrec
        refine ⟨_, c, x, insertLeaf_go_left H fuel a a1 c n0 lc rc r1 r1 r0 hleaf hlc hrc hle
          hrec h1 (by rw [h2, hm1, hr0]), ?_⟩
        refine insertPost_step H a n0 root pre rank hrank c l0 hc hi (Or.inl hl0) a1 r1 x post
          _ h3 h4 h5 h6 (Or.inl ⟨hl0, h7, h8⟩) ?_
        intro l r hl hr
        rw [h7] at hl
        rw [h8, hm1, hr0] at hr
        cases hl; cases hr
        rw [h9, h10 r1 hr1c, h10 r0 hr0c]
      · obtain ⟨a1, r1, x, hrec, post⟩ := ih r0 hr0lt (by omega)
        have hm1 : a1.cell c = a.cell c := post.frame c hc hi (Or.inr hrr)
        have hr1c : r1 ≠ c := by
          by_cases hcl : a.LeafShaped r0
          · rw [(post.result_leaf hcl).1]; omega
          · rw [(post.result_inner hcl).1]; intro e; rw [e] at hrr; omega
        have hl0c : l0 ≠ c := by intro e; rw [e] at hrl; omega
        obtain ⟨h1, h2, h3, h4, h5, h6, h7, h8, h9, h10⟩ := relink_right_cells a1 c r1
          (combineHashes H (((a1.setRight c (some r1)).setParent r1 (some c)).cell l0).hash
            (((a1.setRight c (some r1)).setParent r1 (some c)).cell r1).hash) hr1c
        rw [← hr0] at hrec
        refine ⟨_, c, x, insertLeaf_go_right H fuel a a1 c n0 lc rc r1 l0 r1 hleaf hlc hrc hle
          hrec (by rw [h1, hm1, hl0]) h2, ?_⟩
        refine insertPost_step H a n0 root pre rank hrank c r0 hc hi (Or.inr hr0) a1 r1 x post
          _ h3 h4 h5 h6 (Or.inr ⟨hr0, h8, h7⟩) ?_
        intro l r hl hr
        rw [h7, hm1, hl0] at hl
        rw [h8] at hr
        cases hl; cases hr
        rw [h9, h10 l0 hl0c, h10 r1 hr1c]

end MerkleTree

namespace MerkleTree

/-- After `insertLeaf` at the root, all nodes again form a well-formed tree below the
returned root, which is an internal node; old leaves and the new leaf are still leaves
with unchanged hashes. -/
theorem wellFormed_of_insertPost (H : String → String) (a : Arena) (n0 root : Nat)
    (pre : InsertPre H a n0 root) (rank : Nat → Nat)
    (hrank : ∀ m, m < n0 → rank m < n0 ∧ ∀ n, a.IsChild m n → rank m < rank n)
    (a1 : Arena) (r1 x : Nat) (post : InsertPost H a n0 rank root a1 r1 x) :
    a1.WellFormedUpTo H (n0 + 2) r1 ∧ ¬ a1.LeafShaped r1 ∧
      (∀ n, n ≤ n0 → a.LeafShaped n →
        a1.LeafShaped n ∧ (a1.cell n).hash = (a.cell n).hash) := by
  have wf := pre.wf
  have hxl := post.x_lt
  -- leaves of the old arena and the new leaf stay leaves
  have hleaves : ∀ n, n ≤ n0 → a.LeafShaped n →
      a1.LeafShaped n ∧ (a1.cell n).hash = (a.cell n).hash := by
    intro n hn hl
    by_cases h0 : n = n0
    · subst h0
      rw [Arena.LeafShaped, post.cell_new]
      exact ⟨hl, rfl⟩
    · have := post.leaf_left (show n < n0 by omega) hl
      exact ⟨⟨this.1, this.2.1⟩, this.2.2⟩
  have hnewleaf := hleaves n0 (le_refl _) pre.new_leaf
  -- children of old internal nodes
  have hback : ∀ m, m < n0 → ¬ a.LeafShaped m → ∀ n, a1.IsChild m n →
      (n = n0 + 1 ∧ a.IsChild m x) ∨ a.IsChild m n := by
    intro m hm hi n hc
    rcases hc with hc | hc
    · rcases post.inner_left m hm hi with h | ⟨h1, h2⟩
      · exact Or.inr (Or.inl (by rw [← h, hc]))
      · rw [hc] at h2
        exact Or.inl ⟨Option.some.inj h2, Or.inl h1⟩
    · rcases post.inner_right m hm hi with h | ⟨h1, h2⟩
      · exact Or.inr (Or.inr (by rw [← h, hc]))
      · rw [hc] at h2
        exact Or.inl ⟨Option.some.inj h2, Or.inr h1⟩
  have hpres : ∀ p, p < n0 → ∀ n, n ≠ x → a.IsChild p n → a1.IsChild p n := by
    intro p hp n hnx hc
    have hi := not_leafShaped_of_isChild hc
    rcases hc with hc | hc
    · rcases post.inner_left p hp hi with h | ⟨h1, _⟩
      · exact Or.inl (by rw [h, hc])
      · rw [hc] at h1; exact absurd (Option.some.inj h1) hnx
    · rcases post.inner_right p hp hi with h | ⟨h1, _⟩
      · exact Or.inr (by rw [h, hc])
      · rw [hc] at h1; exact absurd (Option.some.inj h1) hnx
  have hqkids : ∀ n, a1.IsChild (n0 + 1) n → n = x ∨ n = n0 := by
    intro n hc
    rcases hc with hc | hc
    · rw [post.q_left] at hc; exact Or.inl (Option.some.inj hc).symm
    · rw [post.q_right] at hc; exact Or.inr (Option.some.inj hc).symm
  have hcases : (a.LeafShaped root ∧ r1 = n0 + 1 ∧ x = root ∧
        (a1.cell (n0 + 1)).parent = none) ∨
      (¬ a.LeafShaped root ∧ r1 = root ∧ (a1.cell (n0 + 1)).parent ≠ none) := by
    by_cases hcl : a.LeafShaped root
    · exact Or.inl ⟨hcl, post.result_leaf hcl⟩
    · exact Or.inr ⟨hcl, post.result_inner hcl⟩
  have hxpar : (a1.cell x).parent = some (n0 + 1) := by rw [post.cell_x]
  have hnpar : (a1.cell n0).parent = some (n0 + 1) := by rw [post.cell_new]
  have hqnotleaf : ¬ a1.LeafShaped (n0 + 1) := by
    intro h
    have := h.1
    rw [post.q_left] at this
    cases this
  have hinner1 : ∀ n, n < n0 → ¬ a.LeafShaped n → ¬ a1.LeafShaped n := by
    intro n hn hi hl
    obtain ⟨l, r, hl0, _, _, _⟩ := children_of_inner wf hn hi
    rcases post.inner_left n hn hi with h | ⟨_, h⟩
    · rw [hl.1, hl0] at h; cases h
    · rw [hl.1] at h; cases h
  refine ⟨?_, ?_, hleaves⟩
  · refine
      { root_lt := ?_
        root_parent := ?_
        parentless := ?_
        parent_child := ?_
        shape := ?_
        child_parent := ?_
        hash_ok := ?_
        ranked := ⟨fun n => if n = x ∨ n = n0 then rank x + 1
          else if n = n0 + 1 then rank x else rank n, ?_⟩ }
    · rcases hcases with ⟨_, h, _⟩ | ⟨_, h, _⟩
      · omega
      · have := wf.root_lt; omega
    · rcases hcases with ⟨_, h, _, hp⟩ | ⟨hi, h, _⟩
      · rw [h]; exact hp
      · rw [h, post.inner_parent root wf.root_lt hi]
        exact wf.root_parent
    · intro n hn hp
      by_cases hq : n = n0 + 1
      · subst hq
        rcases hcases with ⟨_, h, _⟩ | ⟨_, _, hne⟩
        · exact h.symm
        · exact absurd hp hne
      · by_cases h0 : n = n0
        · subst h0; rw [hnpar] at hp; cases hp
        · have hlt : n < n0 := by omega
          by_cases hx : n = x
          · subst hx; rw [hxpar] at hp; cases hp
          · by_cases hl : a.LeafShaped n
            · rw [post.other_leaves n hlt hl hx] at hp
              have hroot := wf.parentless n hlt hp
              rcases hcases with ⟨_, _, hxr, _⟩ | ⟨hi, _, _⟩
              · exact absurd (hroot.trans hxr.symm) hx
              · exact absurd (hroot ▸ hl) hi
            · rw [post.inner_parent n hlt hl] at hp
              have hroot := wf.parentless n hlt hp
              rcases hcases with ⟨hcl, _⟩ | ⟨_, h, _⟩
              · exact absurd (hroot ▸ hcl) (hroot ▸ hl)
              · rw [h]; exact hroot
    · intro n hn p hp
      by_cases hq : n = n0 + 1
      · subst hq
        obtain ⟨h1, h2⟩ := post.q_link p hp
        exact ⟨by omega, h2⟩
      · by_cases h0 : n = n0
        · subst h0
          rw [hnpar] at hp; cases hp
          exact ⟨by omega, Or.inr post.q_right⟩
        · have hlt : n < n0 := by omega
          by_cases hx : n = x
          · subst hx
            rw [hxpar] at hp; cases hp
            exact ⟨by omega, Or.inl post.q_left⟩
          · have hp0 : (a.cell n).parent = some p := by
              by_cases hl : a.LeafShaped n
              · rwa [post.other_leaves n hlt hl hx] at hp
              · rwa [post.inner_parent n hlt hl] at hp
            obtain ⟨h1, h2⟩ := wf.parent_child n hlt p hp0
            exact ⟨by omega, hpres p h1 n hx h2⟩
    · intro n hn
      by_cases hq : n = n0 + 1
      · subst hq
        exact Or.inr ⟨x, n0, post.q_left, post.q_right, by omega, by omega⟩
      · by_cases hl : a.LeafShaped n
        · exact Or.inl (hleaves n (by omega) hl).1
        · have hlt : n < n0 := by
            by_cases h0 : n = n0
            · subst h0; exact absurd pre.new_leaf hl
            · omega
          obtain ⟨l, r, hl0, hr0, hll, hrl⟩ := children_of_inner wf hlt hl
          right
          rcases post.inner_left n hlt hl with h1 | ⟨_, h1⟩ <;>
            rcases post.inner_right n hlt hl with h2 | ⟨_, h2⟩
          · exact ⟨l, r, by rw [h1, hl0], by rw [h2, hr0], by omega, by omega⟩
          · exact ⟨l, n0 + 1, by rw [h1, hl0], h2, by omega, by omega⟩
          · exact ⟨n0 + 1, r, h1, by rw [h2, hr0], by omega, by omega⟩
          · exact ⟨n0 + 1, n0 + 1, h1, h2, by omega, by omega⟩
    · intro m hm n hc hnl
      by_cases hq : m = n0 + 1
      · subst hq
        rcases hqkids n hc with h | h
        · subst h; exact absurd (hleaves n (by omega) post.x_leaf).1 hnl
        · subst h; exact absurd hnewleaf.1 hnl
      · by_cases hml : a.LeafShaped m
        · exact absurd (hleaves m (by omega) hml).1 (not_leafShaped_of_isChild hc)
        · have hlt : m < n0 := by
            by_cases h0 : m = n0
            · subst h0; exact absurd pre.new_leaf hml
            · omega
          rcases hback m hlt hml n hc with ⟨h, _⟩ | h
          · subst h
            exact post.q_ref m hlt hc
          · have hnlt := isChild_lt wf hlt h
            have hni : ¬ a.LeafShaped n := fun hl => hnl (hleaves n (by omega) hl).1
            rw [post.inner_parent n hnlt hni]
            exact wf.child_parent m hlt n h hni
    · intro n hn l r hl hr
      by_cases hq : n = n0 + 1
      · subst hq
        rw [post.q_left] at hl
        rw [post.q_right] at hr
        cases hl; cases hr
        rw [post.q_hash, (hleaves x (by omega) post.x_leaf).2, hnewleaf.2]
      · by_cases hnl : a.LeafShaped n
        · have := (hleaves n (by omega) hnl).1.1
          rw [this] at hl; cases hl
        · have hlt : n < n0 := by
            by_cases h0 : n = n0
            · subst h0; exact absurd pre.new_leaf hnl
            · omega
          rcases post.hashes n hlt l r hl hr with ⟨_, h⟩ | h
          · rw [wf.root_parent] at h; cases h
          · exact h
    · intro m hm
      dsimp only
      have hrx := (hrank x hxl).1
      refine ⟨?_, ?_⟩
      · split_ifs
        · omega
        · omega
        · rename_i h1 h2
          have : m < n0 := by omega
          have := (hrank m this).1
          omega
      · intro n hc
        by_cases hq : m = n0 + 1
        · subst hq
          have hm1 : ¬ (n0 + 1 = x ∨ n0 + 1 = n0) := by omega
          rw [if_neg hm1, if_pos rfl]
          rcases hqkids n hc with h | h
          · rw [if_pos (Or.inl h)]; omega
          · rw [if_pos (Or.inr h)]; omega
        · by_cases hml : a.LeafShaped m
          · exact absurd (hleaves m (by omega) hml).1 (not_leafShaped_of_isChild hc)
          · have hlt : m < n0 := by
              by_cases h0 : m = n0
              · subst h0; exact absurd pre.new_leaf hml
              · omega
            have hmx : m ≠ x := fun e => hml (e ▸ post.x_leaf)
            have hm1 : ¬ (m = x ∨ m = n0) := by
              rintro (h | h)
              · exact hmx h
              · omega
            rw [if_neg hm1, if_neg hq]
            rcases hback m hlt hml n hc with ⟨h, hcx⟩ | h
            · subst h
              have hn1 : ¬ (n0 + 1 = x ∨ n0 + 1 = n0) := by omega
              rw [if_neg hn1, if_pos rfl]
              exact (hrank m hlt).2 x hcx
            · have hnlt := isChild_lt wf hlt h
              have hr := (hrank m hlt).2 n h
              by_cases hnx : n = x
              · rw [if_pos (Or.inl hnx)]
                rw [hnx] at hr
                omega
              · have hn1 : ¬ (n = x ∨ n = n0) := by
                  rintro (e | e)
                  · exact hnx e
                  · omega
                have hn2 : ¬ n = n0 + 1 := by omega
                rw [if_neg hn1, if_neg hn2]
                exact hr
  · rcases hcases with ⟨_, h, _⟩ | ⟨hi, h, _⟩
    · rw [h]; exact hqnotleaf
    · rw [h]; exact hinner1 root wf.root_lt hi

end MerkleTree

namespace MerkleTree

/-- Well-formedness below a bound only depends on the cells below the bound. -/
theorem wellFormedUpTo_congr (H : String → String) (a b : Arena) (bound root : Nat)
    (hcell : ∀ n, n < bound → b.cell n = a.cell n) (wf : a.WellFormedUpTo H bound root) :
    b.WellFormedUpTo H bound root := by
  have hchild : ∀ m n, m < bound → (b.IsChild m n ↔ a.IsChild m n) := by
    intro m n hm
    unfold Arena.IsChild
    rw [hcell m hm]
  have hleaf : ∀ n, n < bound → (b.LeafShaped n ↔ a.LeafShaped n) := by
    intro n hn
    unfold Arena.LeafShaped
    rw [hcell n hn]
  obtain ⟨rank, hrank⟩ := wf.ranked
  refine
    { root_lt := wf.root_lt
      root_parent := by rw [hcell root wf.root_lt]; exact wf.root_parent
      parentless := fun n hn h => wf.parentless n hn (by rwa [hcell n hn] at h)
      parent_child := fun n hn p hp => by
        rw [hcell n hn] at hp
        obtain ⟨h1, h2⟩ := wf.parent_child n hn p hp
        exact ⟨h1, (hchild p n h1).2 h2⟩
      shape := fun n hn => by
        rw [hleaf n hn, hcell n hn]
        exact wf.shape n hn
      child_parent := fun m hm n hc hnl => by
        have hc1 := (hchild m n hm).1 hc
        have hn := isChild_lt wf hm hc1
        rw [hcell n hn]
        exact wf.child_parent m hm n hc1 (fun h => hnl ((hleaf n hn).2 h))
      hash_ok := fun n hn l r hl hr => by
        rw [hcell n hn] at hl hr ⊢
        have h1 := isChild_lt wf hn (Or.inl hl)
        have h2 := isChild_lt wf hn (Or.inr hr)
        rw [hcell l h1, hcell r h2]
        exact wf.hash_ok n hn l r hl hr
      ranked := ⟨rank, fun m hm =>
        ⟨(hrank m hm).1, fun n hc => (hrank m hm).2 n ((hchild m n hm).1 hc)⟩⟩ }

/-- A successful `addReview` keeps the tree invariant, with the new record indexed. -/
theorem addReview_invariant (H : String → String) (t t1 : MerkleTree)
    (recs : List (String × String)) (e id : String) (inv : TreeInvariant H t recs)
    (h : addReview H t e id = .ok t1) : TreeInvariant H t1 (recs ++ [(id, e)]) := by
  unfold addReview at h
  split at h
  · cases h
  · rename_i hfind
    have hfresh : mapFind t.leafMap id = none := by simpa using hfind
    have hold_ne : ∀ id1 l, mapFind t.leafMap id1 = some l → id1 ≠ id := by
      intro id1 l h1 e1
      rw [e1, hfresh] at h1; cases h1
    simp only [computeHash] at h
    cases hroot : t.root with
    | none =>
      rw [hroot] at h
      simp only at h
      cases h
      obtain ⟨hsz, hmap, hrecs⟩ := inv.rootless hroot
      subst hrecs
      have hc0 : (t.arena.alloc (MerkleNode.leafNode (H e) id)).1.cell 0 =
          MerkleNode.leafNode (H e) id := by
        rw [← hsz]; exact alloc_cell_size _ _
      have hnochild : ∀ m n, m < 1 →
          ¬ (t.arena.alloc (MerkleNode.leafNode (H e) id)).1.IsChild m n := by
        intro m n hm hc
        have hm0 : m = 0 := by omega
        subst hm0
        unfold Arena.IsChild at hc
        rw [hc0] at hc
        simp [MerkleNode.leafNode] at hc
      have hleaf0 : (t.arena.alloc (MerkleNode.leafNode (H e) id)).1.LeafShaped 0 := by
        unfold Arena.LeafShaped
        rw [hc0]
        simp [MerkleNode.leafNode]
      refine
        { rootless := fun h => by cases h
          rooted := fun r hr => by
            simp only [alloc_snd, hsz, Option.some.injEq] at hr
            subst hr
            refine ⟨?_, by simp⟩
            show Arena.WellFormedUpTo H _ (t.arena.alloc _).1.size 0
            rw [alloc_size, hsz]
            exact
              { root_lt := by omega
                root_parent := by rw [hc0]; rfl
                parentless := fun n hn _ => by omega
                parent_child := fun n hn p hp => by
                  have : n = 0 := by omega
                  subst this
                  rw [hc0] at hp
                  cases hp
                shape := fun n hn => by
                  have : n = 0 := by omega
                  subst this
                  exact Or.inl hleaf0
                child_parent := fun m hm n hc => absurd hc (hnochild m n hm)
                hash_ok := fun n hn l r hl _ => absurd (Or.inl hl) (hnochild n l hn)
                ranked := ⟨fun _ => 0, fun m hm =>
                  ⟨Nat.zero_lt_one, fun n hc => absurd hc (hnochild m n hm)⟩⟩ }
          indexed := fun id1 e1 hmem => by
            simp only [List.nil_append, List.mem_singleton, Prod.mk.injEq] at hmem
            obtain ⟨h1, h2⟩ := hmem
            subst h1; subst h2
            refine ⟨0, ?_, ?_⟩
            · show mapFind (mapSet t.leafMap id1 (t.arena.alloc _).2) id1 = some 0
              rw [mapFind_mapSet, alloc_snd, hsz]
              simp
            · show ((t.arena.alloc _).1.cell 0).hash = H e1
              rw [hc0]; rfl
          index_leaf := fun id1 l hl => by
            have hl : mapFind (mapSet t.leafMap id (t.arena.alloc _).2) id1 = some l := hl
            rw [mapFind_mapSet, hmap, alloc_snd, hsz] at hl
            split at hl
            · cases hl
              refine ⟨?_, hleaf0⟩
              show 0 < (t.arena.alloc _).1.size
              rw [alloc_size]; omega
            · simp [mapFind] at hl
          count := by
            show (mapSet t.leafMap id (t.arena.alloc _).2).length = _
            rw [mapSet_length_fresh _ _ _ hfresh, hmap]
            rfl
          single := fun _ => by
            show (t.arena.alloc _).1.size ≤ 1
            rw [alloc_size, hsz]
          many := fun h2 => by simp at h2 }
    | some r =>
      rw [hroot] at h
      simp only at h
      obtain ⟨wf, hne⟩ := inv.rooted r hroot
      have hcell : ∀ n, n < t.arena.size →
          (t.arena.alloc (MerkleNode.leafNode (H e) id)).1.cell n = t.arena.cell n :=
        fun n hn => alloc_cell_of_ne _ _ _ (by omega)
      have hcn : (t.arena.alloc (MerkleNode.leafNode (H e) id)).1.cell t.arena.size =
          MerkleNode.leafNode (H e) id := alloc_cell_size _ _
      have pre : InsertPre H (t.arena.alloc (MerkleNode.leafNode (H e) id)).1 t.arena.size r :=
        { wf := wellFormedUpTo_congr H _ _ _ _ hcell wf
          size_eq := rfl
          new_parent := by rw [hcn]; rfl
          new_leaf := by
            unfold Arena.LeafShaped
            rw [hcn]
            exact ⟨rfl, rfl⟩ }
      obtain ⟨rank, hrank⟩ := pre.wf.ranked
      obtain ⟨a2, r1, x, hrun, post⟩ := insertLeaf_post H _ _ _ pre rank hrank
        ((t.arena.alloc (MerkleNode.leafNode (H e) id)).1.size + 1) r wf.root_lt
        (by rw [alloc_size]; omega)
      rw [alloc_snd, hrun] at h
      simp only at h
      cases h
      obtain ⟨wf2, hnl2, hleaves⟩ := wellFormed_of_insertPost H _ _ _ pre rank hrank a2 r1 x post
      have hleaf_old : ∀ l, l < t.arena.size → t.arena.LeafShaped l →
          (t.arena.alloc (MerkleNode.leafNode (H e) id)).1.LeafShaped l := by
        intro l hl hls
        unfold Arena.LeafShaped
        rw [hcell l hl]
        exact hls
      refine
        { rootless := fun h => by cases h
          rooted := fun r2 hr2 => by
            cases hr2
            refine ⟨?_, by simp⟩
            show Arena.WellFormedUpTo H a2 a2.size r1
            rw [post.size_eq]
            exact wf2
          indexed := fun id1 e1 hmem => by
            rcases List.mem_append.1 hmem with hmem | hmem
            · obtain ⟨l, hl1, hl2⟩ := inv.indexed id1 e1 hmem
              obtain ⟨hl3, hl4⟩ := inv.index_leaf id1 l hl1
              refine ⟨l, ?_, ?_⟩
              · show mapFind (mapSet t.leafMap id t.arena.size) id1 = some l
                rw [mapFind_mapSet, if_neg (hold_ne id1 l hl1)]
                exact hl1
              · show (a2.cell l).hash = H e1
                rw [(hleaves l (by omega) (hleaf_old l hl3 hl4)).2, hcell l hl3]
                exact hl2
            · simp only [List.mem_singleton, Prod.mk.injEq] at hmem
              obtain ⟨h1, h2⟩ := hmem
              subst h1; subst h2
              refine ⟨t.arena.size, ?_, ?_⟩
              · show mapFind (mapSet t.leafMap id1 t.arena.size) id1 = some _
                rw [mapFind_mapSet]; simp
              · show (a2.cell t.arena.size).hash = H e1
                rw [(hleaves _ (le_refl _) pre.new_leaf).2, hcn]
                rfl
          index_leaf := fun id1 l hl => by
            have hl : mapFind (mapSet t.leafMap id t.arena.size) id1 = some l := hl
            rw [mapFind_mapSet] at hl
            show l < a2.size ∧ a2.LeafShaped l
            rw [post.size_eq]
            split at hl
            · cases hl
              exact ⟨by omega, (hleaves _ (le_refl _) pre.new_leaf).1⟩
            · obtain ⟨hl3, hl4⟩ := inv.index_leaf id1 l hl
              exact ⟨by omega, (hleaves l (by omega) (hleaf_old l hl3 hl4)).1⟩
          count := by
            show (mapSet t.leafMap id t.arena.size).length = _
            rw [mapSet_length_fresh _ _ _ hfresh, inv.count]
            simp
          single := fun hle => by
            simp only [List.length_append, List.length_singleton] at hle
            have : recs.length = 0 := by omega
            exact absurd (List.length_eq_zero.1 this) hne
          many := fun _ r2 hr2 => by
            cases hr2
            exact hnl2 }

theorem treeInvariant_new (H : String → String) : TreeInvariant H MerkleTree.new [] :=
  { rootless := fun _ => ⟨rfl, rfl, rfl⟩
    rooted := fun r h => by cases h
    indexed := fun id e h => by cases h
    index_leaf := fun id l h => by simp [MerkleTree.new, mapFind] at h
    count := rfl
    single := fun _ => by simp [MerkleTree.new, Arena.empty]
    many := fun h => by simp at h }

/-- Every produced tree satisfies the tree invariant for its indexed records. -/
theorem produced_invariant (H : String → String) (t : MerkleTree)
    (recs : List (String × String)) (hp : Produced H t recs) : TreeInvariant H t recs := by
  induction hp with
  | new => exact treeInvariant_new H
  | batch t0 t data ids h => exact (buildTreeFromReviews_spec H t0 t data ids h).2.2.1
  | add t t1 recs e id _ h ih => exact addReview_invariant H t t1 recs e id ih h

end MerkleTree

/-! ### The renaming loop terminates -/

theorem digitChar_toNat (d : Nat) (hd : d < 10) : (Nat.digitChar d).toNat - 48 = d := by
  interval_cases d <;> rfl

theorem toDigitsCore_value (fuel : Nat) :
    ∀ (n : Nat) (ds : List Char), n < fuel →
      (Nat.toDigitsCore 10 fuel n ds).foldl (fun acc c => 10 * acc + (c.toNat - 48)) 0 =
        ds.foldl (fun acc c => 10 * acc + (c.toNat - 48)) n := by
  induction fuel with
  | zero => intro n ds h; omega
  | succ fuel ih =>
    intro n ds h
    simp only [Nat.toDigitsCore]
    have hd := digitChar_toNat (n % 10) (Nat.mod_lt _ (by omega))
    split
    · rename_i h0
      have hn : n % 10 = n := by omega
      simp only [List.foldl_cons, hd]
      rw [hn]
      simp
    · rename_i h0
      rw [ih (n / 10) _ (by omega)]
      simp only [List.foldl_cons, hd]
      congr 1
      omega

theorem natRepr_injective : Function.Injective (fun n : Nat => (toString n : String)) := by
  intro n k h
  have h1 : Nat.toDigits 10 n = Nat.toDigits 10 k := by
    have h2 : (Nat.toDigits 10 n).asString = (Nat.toDigits 10 k).asString := h
    have := congrArg String.data h2
    simpa [List.asString] using this
  have hn := toDigitsCore_value (n + 1) n [] (by omega)
  have hk := toDigitsCore_value (k + 1) k [] (by omega)
  simp only [List.foldl_nil] at hn hk
  unfold Nat.toDigits at h1
  rw [h1] at hn
  omega

theorem string_append_left_cancel (a b c : String) (h : a ++ b = a ++ c) : b = c := by
  have := congrArg String.data h
  simp only [String.data_append, List.append_cancel_left_eq] at this
  exact String.ext this

namespace MerkleTree

theorem dupId_injective (reviewId : String) (j k : Nat)
    (h : reviewId ++ "_dup" ++ toString j = reviewId ++ "_dup" ++ toString k) : j = k :=
  natRepr_injective (string_append_left_cancel _ _ _ h)

theorem mapFind_mem_keys {β : Type} (m : List (String × β)) (key : String)
    (h : mapFind m key ≠ none) : key ∈ m.map Prod.fst := by
  induction m with
  | nil => simp [mapFind] at h
  | cons kv rest ih =>
    obtain ⟨k0, v0⟩ := kv
    rw [mapFind_cons] at h
    by_cases hk : key = k0
    · simp [hk]
    · simp only [hk, if_false] at h
      simp [ih h]

/-- The renaming loop finds a free identifier when its fuel exceeds the number of index
keys that are candidates from `suffix` on. -/
theorem freshDupId_total (m : List (String × Nat)) (reviewId : String) :
    ∀ (fuel suffix : Nat) (keys : List String),
      (∀ k, suffix ≤ k → mapFind m (reviewId ++ "_dup" ++ toString k) ≠ none →
        reviewId ++ "_dup" ++ toString k ∈ keys) →
      keys.length < fuel → ∃ uid, freshDupId m reviewId fuel suffix = .ok uid := by
  intro fuel
  induction fuel with
  | zero => intro suffix keys _ h; omega
  | succ fuel ih =>
    intro suffix keys hkeys hlen
    by_cases hfind : mapFind m (reviewId ++ "_dup" ++ toString suffix) = none
    · exact ⟨reviewId ++ "_dup" ++ toString suffix, by simp [freshDupId, hfind]⟩
    · have hmem := hkeys suffix (le_refl _) hfind
      have hsome : (mapFind m (reviewId ++ "_dup" ++ toString suffix)).isSome = true := by
        cases h : mapFind m (reviewId ++ "_dup" ++ toString suffix) with
        | none => exact absurd h hfind
        | some v => rfl
      obtain ⟨uid, huid⟩ := ih (suffix + 1)
        (keys.erase (reviewId ++ "_dup" ++ toString suffix))
        (by
          intro k hk hf
          have hne : reviewId ++ "_dup" ++ toString k ≠
              reviewId ++ "_dup" ++ toString suffix := by
            intro e
            have := dupId_injective reviewId k suffix e
            omega
          exact (List.mem_erase_of_ne hne).2 (hkeys k (by omega) hf))
        (by
          rw [List.length_erase_of_mem hmem]
          have : 0 < keys.length := List.length_pos_of_mem hmem
          omega)
      exact ⟨uid, by simp [freshDupId, hsome, huid]⟩

theorem uniqueIdFor_total (m : List (String × Nat)) (reviewId : String) :
    ∃ uid, uniqueIdFor m reviewId = .ok uid := by
  unfold uniqueIdFor
  split
  · exact freshDupId_total m reviewId (m.length + 1) 1 (m.map Prod.fst)
      (fun k _ h => mapFind_mem_keys m _ h) (by simp)
  · exact ⟨_, rfl⟩

theorem addLeaves_total (H : String → String) :
    ∀ (data ids : List String) (a : Arena) (m : List (String × Nat)) (lv : List Nat),
      ∃ res, addLeaves H a m lv data ids = .ok res := by
  intro data
  induction data with
  | nil => intro ids a m lv; exact ⟨(a, m, lv), by simp [addLeaves]⟩
  | cons d data ih =>
    intro ids a m lv
    cases ids with
    | nil => exact ⟨(a, m, lv), by simp [addLeaves]⟩
    | cons i ids =>
      obtain ⟨uid, huid⟩ := uniqueIdFor_total m i
      obtain ⟨res, hres⟩ := ih ids (a.alloc (MerkleNode.leafNode (computeHash H d) uid)).1
        (mapSet m uid (a.alloc (MerkleNode.leafNode (computeHash H d) uid)).2)
        (lv ++ [(a.alloc (MerkleNode.leafNode (computeHash H d) uid)).2])
      exact ⟨res, by simp only [addLeaves, huid]; exact hres⟩

/-- A batch build on non-empty lists of equal length succeeds. -/
theorem buildTreeFromReviews_total (H : String → String) (t0 : MerkleTree)
    (data ids : List String) (hne : data ≠ []) (hlen : data.length = ids.length) :
    ∃ t, buildTreeFromReviews H t0 data ids = .ok t := by
  obtain ⟨⟨a, m, lv⟩, hadd⟩ := addLeaves_total H data ids Arena.empty [] []
  have st := addLeaves_state H data ids _ _ _ _ a m lv (leavesState_empty H) hlen hadd
  simp only [List.nil_append] at st
  have F := forest_of_leavesState H a m lv data st
  have hlvlen : lv.length = data.length := by
    rw [st.leaves_eq, List.length_range, st.size_eq]
  have hlv : lv ≠ [] := by
    intro e
    rw [e] at hlvlen
    exact hne (List.length_eq_zero.1 hlvlen.symm)
  obtain ⟨a1, r, hrun, _⟩ := buildLoop_forest H lv.length a lv F hlv (le_refl _)
  refine ⟨{ arena := a1, root := some r, leafMap := m }, ?_⟩
  unfold buildTreeFromReviews
  rw [if_neg (by simpa using hlen), hadd]
  simp only
  rw [buildTree_eq_buildLoop H a lv hlv, hrun]

end MerkleTree

namespace MerkleTree

/-- In a tree satisfying the invariant, the proof generated for an indexed record is
produced without fault and folds from the hash of the record's encoding to the root hash;
it is empty exactly when the tree holds a single record. -/
theorem generateProof_sound (H : String → String) (t : MerkleTree)
    (recs : List (String × String)) (inv : TreeInvariant H t recs) (id e : String)
    (hmem : (id, e) ∈ recs) :
    ∃ p, t.generateProof id = .ok p ∧ verifyLoop H p (H e) = t.getRootHash ∧
      (2 ≤ recs.length → p ≠ []) ∧ (recs.length ≤ 1 → p = []) := by
  obtain ⟨l, hfind, hhash⟩ := inv.indexed id e hmem
  obtain ⟨hlt, hleaf⟩ := inv.index_leaf id l hfind
  cases hroot : t.root with
  | none =>
    have := (inv.rootless hroot).2.2
    rw [this] at hmem
    cases hmem
  | some r =>
    obtain ⟨wf, _⟩ := inv.rooted r hroot
    obtain ⟨rank, hrank⟩ := wf.ranked
    obtain ⟨p, hp, hfold, hne⟩ := proofLoop_sound H t.arena t.arena.size r wf rank hrank
      t.arena.size l hlt (hrank l hlt).1
    refine ⟨p, ?_, ?_, ?_, ?_⟩
    · simp only [generateProof, hfind, hroot]
      exact hp
    · rw [← hhash, hfold]
      simp [getRootHash, hroot]
    · intro h2
      apply hne
      intro e1
      exact inv.many h2 r hroot (e1 ▸ hleaf)
    · intro h1
      have hsz := inv.single h1
      have hl0 : l = r := by
        have := wf.root_lt
        omega
      subst hl0
      have hfuel : t.arena.size = 0 + 1 := by omega
      rw [hfuel] at hp
      simp [proofLoop] at hp
      exact hp

theorem verifyProof_of_fold (H : String → String) (e : String) (p : List String)
    (r : String) (hne : p ≠ []) (h : verifyLoop H p (H e) = r) : verifyProof H e p r = true := by
  unfold verifyProof
  cases p with
  | nil => exact absurd rfl hne
  | cons x xs => simp [h]

end MerkleTree

/-- C1 (as amended): in every tree with at least two leaves that is produced by
`buildTreeFromReviews` followed by any number of successful `addReview` calls, for every
indexed identifier `id` whose leaf was created from encoding `e`, `generateProof(id)`
returns a proof and `verifyProof(e, proof, getRootHash())` is true. -/
theorem MerkleTree.generated_proof_verifies (H : String → String) (t : MerkleTree)
    (recs : List (String × String)) (id e : String) (hp : MerkleTree.Produced H t recs)
    (hcount : 2 ≤ t.getLeafCount) (hmem : (id, e) ∈ recs) :
    ∃ p, t.generateProof id = .ok p ∧ MerkleTree.verifyProof H e p t.getRootHash = true := by
  have inv := MerkleTree.produced_invariant H t recs hp
  obtain ⟨p, hgen, hfold, hne, _⟩ := MerkleTree.generateProof_sound H t recs inv id e hmem
  have h2 : 2 ≤ recs.length := by
    rw [← inv.count]
    exact hcount
  exact ⟨p, hgen, MerkleTree.verifyProof_of_fold H e p _ (hne h2) hfold⟩

/-- Witness for C1 (as amended): the three-leaf tree obtained by a batch build of two
records and one `addReview`, queried for the added record. -/
theorem MerkleTree.generated_proof_verifies_witness :
    MerkleTree.Produced bracketHash MerkleTree.exampleTree3
      (MerkleTree.batchRecords MerkleTree.exampleTree2 ["a", "b"] ++ [("z", "c")]) ∧
    2 ≤ MerkleTree.exampleTree3.getLeafCount ∧
    ("z", "c") ∈ MerkleTree.batchRecords MerkleTree.exampleTree2 ["a", "b"] ++ [("z", "c")] ∧
    ∃ p, MerkleTree.exampleTree3.generateProof "z" = .ok p ∧
      MerkleTree.verifyProof bracketHash "c" p MerkleTree.exampleTree3.getRootHash = true :=
  have hp : MerkleTree.Produced bracketHash MerkleTree.exampleTree3
      (MerkleTree.batchRecords MerkleTree.exampleTree2 ["a", "b"] ++ [("z", "c")]) :=
    MerkleTree.Produced.add MerkleTree.exampleTree2 MerkleTree.exampleTree3 _ "c" "z"
      (MerkleTree.Produced.batch MerkleTree.new MerkleTree.exampleTree2 ["a", "b"] ["x", "y"]
        rfl) rfl
  ⟨hp, by decide, by simp,
    MerkleTree.generated_proof_verifies bracketHash MerkleTree.exampleTree3 _ "z" "c" hp
      (by decide) (by simp)⟩

/-- C1 (counterexample): the batch-built tree over the single record `("x", "a")` has one
leaf, its index holds `"x"`, whose leaf was created from `"a"`, and no proof generated for
`"x"` verifies against the root: the generated proof is empty. -/
theorem MerkleTree.single_leaf_proof_does_not_verify :
    MerkleTree.Produced bracketHash MerkleTree.exampleTree1 [("x", "a")] ∧
    1 ≤ MerkleTree.exampleTree1.getLeafCount ∧
    MerkleTree.exampleTree1.generateProof "x" = .ok [] ∧
    ¬ ∃ p, MerkleTree.exampleTree1.generateProof "x" = .ok p ∧
      MerkleTree.verifyProof bracketHash "a" p MerkleTree.exampleTree1.getRootHash = true := by
  refine ⟨MerkleTree.Produced.batch MerkleTree.new MerkleTree.exampleTree1 ["a"] ["x"] rfl,
    by decide, rfl, ?_⟩
  rintro ⟨p, hp, hv⟩
  have h0 : MerkleTree.exampleTree1.generateProof "x" = .ok [] := rfl
  rw [h0] at hp
  cases hp
  simp [MerkleTree.verifyProof] at hv

/-- C2: for a non-empty proof made of whole (siblingHash, side) pairs, `verifyProof` is
true exactly when the reference fold `current := combine(current, siblingHash)` over the
pairs, started at `H(e)`, ends at the trusted root; and the result is the same for every
choice of the side tags. -/
theorem MerkleTree.verifyProof_iff_referenceFold (H : String → String) (e r : String)
    (ps : List (String × String)) (hne : ps ≠ []) :
    (MerkleTree.verifyProof H e (MerkleTree.flatProof ps) r = true ↔
      MerkleTree.referenceFold H (H e) (ps.map Prod.fst) = r) ∧
    (∀ qs : List (String × String), qs.map Prod.fst = ps.map Prod.fst →
      MerkleTree.verifyProof H e (MerkleTree.flatProof qs) r =
        MerkleTree.verifyProof H e (MerkleTree.flatProof ps) r) := by
  have hflat : ∀ qs : List (String × String), qs ≠ [] →
      MerkleTree.verifyProof H e (MerkleTree.flatProof qs) r =
        decide (MerkleTree.referenceFold H (H e) (qs.map Prod.fst) = r) := by
    intro qs hq
    cases qs with
    | nil => exact absurd rfl hq
    | cons q qs =>
      obtain ⟨s, d⟩ := q
      have := MerkleTree.verifyLoop_flatProof H ((s, d) :: qs) (H e)
      simp only [MerkleTree.flatProof] at this
      simp [MerkleTree.verifyProof, MerkleTree.flatProof, this]
  refine ⟨by rw [hflat ps hne]; simp, ?_⟩
  intro qs hq
  have hqne : qs ≠ [] := by
    intro h0
    rw [h0] at hq
    exact hne (List.map_eq_nil_iff.1 hq.symm)
  rw [hflat ps hne, hflat qs hqne, hq]

/-- Witness for C2: a two-step proof with one tag of each kind. -/
theorem MerkleTree.verifyProof_iff_referenceFold_witness :
    ([("<b>", "r"), ("<c>", "l")] : List (String × String)) ≠ [] ∧
    ((MerkleTree.verifyProof bracketHash "a"
        (MerkleTree.flatProof [("<b>", "r"), ("<c>", "l")]) "<<<a><b>><c>>" = true ↔
      MerkleTree.referenceFold bracketHash (bracketHash "a")
        (([("<b>", "r"), ("<c>", "l")] : List (String × String)).map Prod.fst) =
          "<<<a><b>><c>>") ∧
    (∀ qs : List (String × String),
      qs.map Prod.fst = ([("<b>", "r"), ("<c>", "l")] : List (String × String)).map Prod.fst →
      MerkleTree.verifyProof bracketHash "a" (MerkleTree.flatProof qs) "<<<a><b>><c>>" =
        MerkleTree.verifyProof bracketHash "a"
          (MerkleTree.flatProof [("<b>", "r"), ("<c>", "l")]) "<<<a><b>><c>>")) :=
  ⟨by simp, MerkleTree.verifyProof_iff_referenceFold bracketHash "a" "<<<a><b>><c>>"
    [("<b>", "r"), ("<c>", "l")] (by simp)⟩

/-- C3: an empty proof never verifies, whatever the encoding and the root; and in a
produced tree holding exactly one leaf, the proof generated for its record is empty, the
root hash is the hash of the record's encoding, and verification of the record against
the tree's own root returns false. -/
theorem MerkleTree.empty_proof_always_fails (H : String → String) (e r : String)
    (t : MerkleTree) (recs : List (String × String)) (id e1 : String)
    (hp : MerkleTree.Produced H t recs) (hone : t.getLeafCount = 1)
    (hmem : (id, e1) ∈ recs) :
    MerkleTree.verifyProof H e [] r = false ∧
    MerkleTree.verifyProof H e [] (H e) = false ∧
    t.generateProof id = .ok [] ∧ t.getRootHash = H e1 ∧
    MerkleTree.verifyProof H e1 [] t.getRootHash = false := by
  have inv := MerkleTree.produced_invariant H t recs hp
  obtain ⟨p, hgen, hfold, _, hnil⟩ := MerkleTree.generateProof_sound H t recs inv id e1 hmem
  have h1 : recs.length ≤ 1 := by
    rw [← inv.count]
    exact le_of_eq hone
  have hp0 := hnil h1
  subst hp0
  refine ⟨rfl, rfl, hgen, ?_, rfl⟩
  simpa [MerkleTree.verifyLoop] using hfold.symm

/-- Witness for C3: the batch-built tree over the single record `("x", "a")`. -/
theorem MerkleTree.empty_proof_always_fails_witness :
    MerkleTree.Produced bracketHash MerkleTree.exampleTree1 [("x", "a")] ∧
    MerkleTree.exampleTree1.getLeafCount = 1 ∧
    (("x", "a") : String × String) ∈ [(("x", "a") : String × String)] ∧
    (MerkleTree.verifyProof bracketHash "q" [] "r" = false ∧
      MerkleTree.verifyProof bracketHash "q" [] (bracketHash "q") = false ∧
      MerkleTree.exampleTree1.generateProof "x" = .ok [] ∧
      MerkleTree.exampleTree1.getRootHash = bracketHash "a" ∧
      MerkleTree.verifyProof bracketHash "a" [] MerkleTree.exampleTree1.getRootHash = false) :=
  have hp : MerkleTree.Produced bracketHash MerkleTree.exampleTree1 [("x", "a")] :=
    MerkleTree.Produced.batch MerkleTree.new MerkleTree.exampleTree1 ["a"] ["x"] rfl
  ⟨hp, by decide, by simp,
    MerkleTree.empty_proof_always_fails bracketHash "q" "r" MerkleTree.exampleTree1
      [("x", "a")] "x" "a" hp (by decide) (by simp)⟩

/-- C4: `combineHashes` is symmetric, and both orders equal the hash of the smaller digest
followed by the larger one in lexicographic order; so an internal node's hash does not
depend on which child is left and which is right. -/
theorem MerkleTree.combineHashes_symmetric (H : String → String) (h1 h2 : String) :
    MerkleTree.combineHashes H h1 h2 = MerkleTree.combineHashes H h2 h1 ∧
    MerkleTree.combineHashes H h1 h2 = H (min h1 h2 ++ max h1 h2) ∧
    MerkleTree.combineHashes H h2 h1 = H (min h1 h2 ++ max h1 h2) :=
  ⟨MerkleTree.combineHashes_comm H h1 h2, MerkleTree.combineHashes_min_max H h1 h2,
    by rw [MerkleTree.combineHashes_comm]; exact MerkleTree.combineHashes_min_max H h1 h2⟩

/-- C5: a batch build over a non-empty record list succeeds and its root hash is
`reduce` of the leaf hashes, where `reduce([h]) = h`, `reduce(l) = reduce(next(l))` for
two or more entries, and `next` pairs adjacent entries with `combine`, pairing an
unmatched last entry with itself; for three records the root is
`combine(combine(H(e1), H(e2)), combine(H(e3), H(e3)))`. -/
theorem MerkleTree.batch_root_is_level_reduction (H : String → String) (t0 : MerkleTree)
    (data ids : List String) (hne : data ≠ []) (hlen : data.length = ids.length) :
    (∃ t, MerkleTree.buildTreeFromReviews H t0 data ids = .ok t ∧
      t.getRootHash = MerkleTree.reduce H (data.map H)) ∧
    (∀ h, MerkleTree.reduce H [h] = h) ∧
    (∀ l : List String, 2 ≤ l.length →
      MerkleTree.reduce H l = MerkleTree.reduce H (MerkleTree.nextLevel H l)) ∧
    (∀ x y rest, MerkleTree.nextLevel H (x :: y :: rest) =
      MerkleTree.combineHashes H x y :: MerkleTree.nextLevel H rest) ∧
    (∀ x, MerkleTree.nextLevel H [x] = [MerkleTree.combineHashes H x x]) ∧
    (∀ e1 e2 e3, MerkleTree.reduce H [H e1, H e2, H e3] =
      MerkleTree.combineHashes H (MerkleTree.combineHashes H (H e1) (H e2))
        (MerkleTree.combineHashes H (H e3) (H e3))) := by
  obtain ⟨t, ht⟩ := MerkleTree.buildTreeFromReviews_total H t0 data ids hne hlen
  refine ⟨⟨t, ht, (MerkleTree.buildTreeFromReviews_spec H t0 t data ids ht).2.2.2.1⟩,
    MerkleTree.reduce_singleton H, MerkleTree.reduce_step H, fun _ _ _ => rfl,
    fun _ => rfl, fun _ _ _ => rfl⟩

/-- Witness for C5: three records, two of them with the same identifier. -/
theorem MerkleTree.batch_root_is_level_reduction_witness :
    (["a", "b", "c"] : List String) ≠ [] ∧
    (["a", "b", "c"] : List String).length = (["x", "x", "y"] : List String).length ∧
    ∃ t, MerkleTree.buildTreeFromReviews bracketHash MerkleTree.new ["a", "b", "c"]
        ["x", "x", "y"] = .ok t ∧
      t.getRootHash = MerkleTree.reduce bracketHash (["a", "b", "c"].map bracketHash) :=
  ⟨by simp, by simp,
    (MerkleTree.batch_root_is_level_reduction bracketHash MerkleTree.new ["a", "b", "c"]
      ["x", "x", "y"] (by simp) (by simp)).1⟩

/-- C6: two runs of `buildTreeFromReviews` on the same ordered input, on any two trees
(fresh or not), both succeed and produce identical root hashes. -/
theorem MerkleTree.batch_build_deterministic (H : String → String) (t1 t2 : MerkleTree)
    (data ids : List String) (hne : data ≠ []) (hlen : data.length = ids.length) :
    ∃ r1 r2, MerkleTree.buildTreeFromReviews H t1 data ids = .ok r1 ∧
      MerkleTree.buildTreeFromReviews H t2 data ids = .ok r2 ∧
      r1.getRootHash = r2.getRootHash := by
  obtain ⟨r1, h1⟩ := MerkleTree.buildTreeFromReviews_total H t1 data ids hne hlen
  obtain ⟨r2, h2⟩ := MerkleTree.buildTreeFromReviews_total H t2 data ids hne hlen
  refine ⟨r1, r2, h1, h2, ?_⟩
  rw [(MerkleTree.buildTreeFromReviews_spec H t1 r1 data ids h1).2.2.2.1,
    (MerkleTree.buildTreeFromReviews_spec H t2 r2 data ids h2).2.2.2.1]

/-- Witness for C6: a fresh tree and a tree that already holds other records. -/
theorem MerkleTree.batch_build_deterministic_witness :
    (["a", "b", "c"] : List String) ≠ [] ∧
    (["a", "b", "c"] : List String).length = (["x", "y", "z"] : List String).length ∧
    ∃ r1 r2, MerkleTree.buildTreeFromReviews bracketHash MerkleTree.new ["a", "b", "c"]
        ["x", "y", "z"] = .ok r1 ∧
      MerkleTree.buildTreeFromReviews bracketHash MerkleTree.exampleTree3 ["a", "b", "c"]
        ["x", "y", "z"] = .ok r2 ∧
      r1.getRootHash = r2.getRootHash :=
  ⟨by simp, by simp,
    MerkleTree.batch_build_deterministic bracketHash MerkleTree.new MerkleTree.exampleTree3
      ["a", "b", "c"] ["x", "y", "z"] (by simp) (by simp)⟩

namespace MerkleTree

/-- With pairwise distinct identifiers absent from the index, the leaf loop labels every
new leaf with the identifier of its record. -/
theorem addLeaves_keeps_ids (H : String → String) :
    ∀ (data ids : List String) (a : Arena) (m : List (String × Nat)) (lv : List Nat)
      (a1 : Arena) (m1 : List (String × Nat)) (lv1 : List Nat),
      ids.Nodup → (∀ id, id ∈ ids → mapFind m id = none) →
      addLeaves H a m lv data ids = .ok (a1, m1, lv1) →
      (∀ n, n < a.size → a1.cell n = a.cell n) ∧
      (data.length = ids.length → ∀ j id, ids[j]? = some id → (a1.cell (a.size + j)).data = id) := by
  intro data
  induction data with
  | nil =>
    intro ids a m lv a1 m1 lv1 _ _ h
    simp only [addLeaves] at h
    cases h
    refine ⟨fun _ _ => rfl, fun hlen j id hj => ?_⟩
    have : ids = [] := List.length_eq_zero.1 hlen.symm
    subst this
    simp at hj
  | cons d data ih =>
    intro ids a m lv a1 m1 lv1 hnd habs h
    cases ids with
    | nil =>
      simp only [addLeaves] at h
      cases h
      exact ⟨fun _ _ => rfl, fun hlen => by simp at hlen⟩
    | cons i ids =>
      simp only [addLeaves] at h
      rw [uniqueIdFor_of_absent m i (habs i (by simp))] at h
      simp only at h
      obtain ⟨hfr, hids⟩ := ih ids _ _ _ a1 m1 lv1 (List.nodup_cons.1 hnd).2
        (by
          intro id hid
          rw [mapFind_mapSet]
          have hne : id ≠ i := fun e => (List.nodup_cons.1 hnd).1 (e ▸ hid)
          rw [if_neg hne]
          exact habs id (by simp [hid])) h
      rw [alloc_size] at hfr hids
      refine ⟨fun n hn => ?_, fun hlen j id hj => ?_⟩
      · rw [hfr n (by omega), alloc_cell_of_ne _ _ _ (by omega)]
      · cases j with
        | zero =>
          simp only [List.getElem?_cons_zero, Option.some.injEq] at hj
          subst hj
          rw [Nat.add_zero, hfr a.size (by omega), alloc_cell_size]
          rfl
        | succ j =>
          simp only [List.getElem?_cons_succ] at hj
          have := hids (by simpa using hlen) j id hj
          rw [show a.size + (j + 1) = a.size + 1 + j by omega]
          exact this

/-- After a batch build over pairwise distinct identifiers, leaf `j` is labelled with the
identifier of record `j`. -/
theorem buildTreeFromReviews_keeps_ids (H : String → String) (t0 t : MerkleTree)
    (data ids : List String) (hnd : ids.Nodup)
    (h : buildTreeFromReviews H t0 data ids = .ok t) :
    ∀ j id, ids[j]? = some id → (t.arena.cell j).data = id := by
  have hspec := buildTreeFromReviews_spec H t0 t data ids h
  unfold buildTreeFromReviews at h
  split at h
  · cases h
  · rename_i hlen
    have hlen : data.length = ids.length := by simpa using hlen
    split at h
    · cases h
    · rename_i a m lv hadd
      have st := addLeaves_state H data ids _ _ _ _ a m lv (leavesState_empty H) hlen hadd
      simp only [List.nil_append] at st
      have F := forest_of_leavesState H a m lv data st
      obtain ⟨_, hids⟩ := addLeaves_keeps_ids H data ids Arena.empty [] [] a m lv hnd
        (fun id _ => mapFind_nil id) hadd
      by_cases hne : lv = []
      · subst hne
        simp [buildTree] at h
      · rw [buildTree_eq_buildLoop H a lv hne] at h
        obtain ⟨a1, r, hrun, _, _, hfr, _⟩ :=
          buildLoop_forest H lv.length a lv F hne (le_refl _)
        rw [hrun] at h
        simp only at h
        cases h
        intro j id hj
        have hjlt : j < a.size := by
          rw [← st.size_eq, hlen]
          exact (List.getElem?_eq_some_iff.1 hj).1
        show (a1.cell j).data = id
        rw [(hfr j hjlt).2.2.2]
        have := hids hlen j id hj
        simpa [Arena.empty] using this

end MerkleTree

namespace ExistenceProof

theorem indexLoop_find_other :
    ∀ (reviews : List Review) (p : ExistenceProof) (id : String),
      id ∉ reviews.map Review.getUniqueID →
      MerkleTree.mapFind (indexLoop p reviews).reviewIdToData id =
        MerkleTree.mapFind p.reviewIdToData id := by
  intro reviews
  induction reviews with
  | nil => intro p id _; rfl
  | cons r rest ih =>
    intro p id hid
    simp only [List.map_cons, List.mem_cons, not_or] at hid
    simp only [indexLoop]
    rw [ih _ id hid.2, MerkleTree.mapFind_mapSet, if_neg hid.1]

/-- With pairwise distinct identifiers, `indexReviews` maps every review's identifier to
that review's encoding. -/
theorem indexLoop_find :
    ∀ (reviews : List Review) (p : ExistenceProof),
      (reviews.map Review.getUniqueID).Nodup → ∀ r, r ∈ reviews →
      MerkleTree.mapFind (indexLoop p reviews).reviewIdToData r.getUniqueID =
        some r.convertToString := by
  intro reviews
  induction reviews with
  | nil => intro p _ r hr; cases hr
  | cons r0 rest ih =>
    intro p hnd r hr
    simp only [List.map_cons] at hnd
    simp only [indexLoop]
    rcases List.mem_cons.1 hr with h | h
    · subst h
      rw [indexLoop_find_other rest _ _ (List.nodup_cons.1 hnd).1, MerkleTree.mapFind_mapSet]
      simp
    · exact ih _ (List.nodup_cons.1 hnd).2 r h

end ExistenceProof

namespace MerkleTree

/-- In a batch-built tree over two or more records, the identifier stored in leaf `i` is
indexed, and its generated proof is non-empty and verifies with encoding `i`. -/
theorem batch_record_proof (H : String → String) (t0 t : MerkleTree) (data ids : List String)
    (h2 : 2 ≤ data.length) (h : buildTreeFromReviews H t0 data ids = .ok t) (i : Nat)
    (e : String) (hi : data[i]? = some e) :
    t.contains (t.arena.cell i).getReviewId = true ∧
    ∃ p, t.generateProof (t.arena.cell i).getReviewId = .ok p ∧ p ≠ [] ∧
      verifyProof H e p t.getRootHash = true := by
  obtain ⟨_, _, inv, _, hself, _⟩ := buildTreeFromReviews_spec H t0 t data ids h
  have hilt : i < data.length := (List.getElem?_eq_some_iff.1 hi).1
  have hmem : ((t.arena.cell i).getReviewId, e) ∈ batchRecords t data := by
    rw [batchRecords, mem_recordsFrom]
    exact ⟨i, hi, by simp [MerkleNode.getReviewId]⟩
  obtain ⟨p, hgen, hfold, hne, _⟩ := generateProof_sound H t _ inv _ e hmem
  have hlen2 : 2 ≤ (batchRecords t data).length := by
    rw [batchRecords, recordsFrom_length]
    exact h2
  refine ⟨?_, p, hgen, hne hlen2, verifyProof_of_fold H e p _ (hne hlen2) hfold⟩
  simp [contains, MerkleNode.getReviewId, hself i hilt]

end MerkleTree

/-- C10 (as amended): a batch build from two or more records (lists of equal length,
identifiers possibly repeated) succeeds, and for every record position `i` the identifier
stored for record `i` is indexed and its generated proof is non-empty and verifies with
record `i`'s encoding against the built root. Through `ExistenceProof`, for reviews with
pairwise distinct identifiers, `generateReviewProof` returns status `PROOF_GENERATED`
with `verified = true` for every review's identifier. -/
theorem MerkleTree.batch_proofs_verify (H : String → String) (t0 : MerkleTree)
    (data ids : List String) (hlen : data.length = ids.length) (h2 : 2 ≤ data.length)
    (reviews : List Review) (p0 : ExistenceProof) (hr2 : 2 ≤ reviews.length)
    (hnd : (reviews.map Review.getUniqueID).Nodup) :
    (∃ t, MerkleTree.buildTreeFromReviews H t0 data ids = .ok t ∧
      ∀ i e, data[i]? = some e →
        t.contains (t.arena.cell i).getReviewId = true ∧
        ∃ p, t.generateProof (t.arena.cell i).getReviewId = .ok p ∧ p ≠ [] ∧
          MerkleTree.verifyProof H e p t.getRootHash = true) ∧
    (∃ t, MerkleTree.buildTreeFromReviews H t0 (reviews.map Review.convertToString)
        (reviews.map Review.getUniqueID) = .ok t ∧
      ∀ r, r ∈ reviews →
        ∃ res, ExistenceProof.generateReviewProof H (p0.indexReviews reviews) t
            r.getUniqueID = .ok res ∧
          res.status = "PROOF_GENERATED" ∧ res.verified = true ∧ res.proofPath ≠ []) := by
  constructor
  · have hne : data ≠ [] := by
      intro e0
      rw [e0] at h2
      simp at h2
    obtain ⟨t, ht⟩ := MerkleTree.buildTreeFromReviews_total H t0 data ids hne hlen
    exact ⟨t, ht, fun i e hi => MerkleTree.batch_record_proof H t0 t data ids h2 ht i e hi⟩
  · have hne : reviews.map Review.convertToString ≠ [] := by
      intro e0
      have := congrArg List.length e0
      simp only [List.length_map, List.length_nil] at this
      omega
    obtain ⟨t, ht⟩ := MerkleTree.buildTreeFromReviews_total H t0
      (reviews.map Review.convertToString) (reviews.map Review.getUniqueID) hne (by simp)
    refine ⟨t, ht, fun r hr => ?_⟩
    obtain ⟨i, hilt, hir⟩ := List.mem_iff_getElem.1 hr
    have hdata : (reviews.map Review.convertToString)[i]? = some r.convertToString := by
      rw [List.getElem?_map, List.getElem?_eq_getElem hilt, hir]
      rfl
    have hid : (reviews.map Review.getUniqueID)[i]? = some r.getUniqueID := by
      rw [List.getElem?_map, List.getElem?_eq_getElem hilt, hir]
      rfl
    have hlabel := MerkleTree.buildTreeFromReviews_keeps_ids H t0 t _ _ hnd ht i _ hid
    obtain ⟨_, p, hgen, hpne, hver⟩ := MerkleTree.batch_record_proof H t0 t _ _
      (by simpa using hr2) ht i _ hdata
    rw [MerkleNode.getReviewId, hlabel] at hgen
    have hfind := ExistenceProof.indexLoop_find reviews
      { reviewIdToData := [], productToReviewIds := [] } hnd r hr
    have hempty : p.isEmpty = false := by
      cases p with
      | nil => exact absurd rfl hpne
      | cons x xs => rfl
    refine ⟨{ reviewId := r.getUniqueID, reviewData := r.convertToString,
              status := "PROOF_GENERATED", proofPath := p,
              verified := MerkleTree.verifyProof H r.convertToString p t.getRootHash },
      ?_, rfl, hver, hpne⟩
    simp only [ExistenceProof.generateReviewProof, ExistenceProof.indexReviews, hfind, hgen,
      hempty]
    rfl

/-- Witness for C10 (as amended): three records with a repeated identifier for the tree
part, and two reviews with distinct identifiers for the prover part. -/
theorem MerkleTree.batch_proofs_verify_witness :
    (["a", "b", "c"] : List String).length = (["x", "x", "y"] : List String).length ∧
    2 ≤ (["a", "b", "c"] : List String).length ∧
    2 ≤ [exampleReviewA, exampleReviewC].length ∧
    ([exampleReviewA, exampleReviewC].map Review.getUniqueID).Nodup ∧
    ((∃ t, MerkleTree.buildTreeFromReviews bracketHash MerkleTree.new ["a", "b", "c"]
        ["x", "x", "y"] = .ok t ∧
      ∀ i e, (["a", "b", "c"] : List String)[i]? = some e →
        t.contains (t.arena.cell i).getReviewId = true ∧
        ∃ p, t.generateProof (t.arena.cell i).getReviewId = .ok p ∧ p ≠ [] ∧
          MerkleTree.verifyProof bracketHash e p t.getRootHash = true) ∧
    (∃ t, MerkleTree.buildTreeFromReviews bracketHash MerkleTree.new
        ([exampleReviewA, exampleReviewC].map Review.convertToString)
        ([exampleReviewA, exampleReviewC].map Review.getUniqueID) = .ok t ∧
      ∀ r, r ∈ [exampleReviewA, exampleReviewC] →
        ∃ res, ExistenceProof.generateReviewProof bracketHash
            (ExistenceProof.indexReviews { reviewIdToData := [], productToReviewIds := [] }
              [exampleReviewA, exampleReviewC]) t r.getUniqueID = .ok res ∧
          res.status = "PROOF_GENERATED" ∧ res.verified = true ∧ res.proofPath ≠ [])) :=
  ⟨by decide, by decide, by decide, by decide,
    MerkleTree.batch_proofs_verify bracketHash MerkleTree.new ["a", "b", "c"] ["x", "x", "y"]
      (by decide) (by decide) [exampleReviewA, exampleReviewC]
      { reviewIdToData := [], productToReviewIds := [] } (by decide) (by decide)⟩

set_option maxRecDepth 100000 in
/-- C10 (counterexample): two reviews with the same identifier and different texts. The
batch build indexes the first under the identifier and the second under a renamed one,
the prover keeps the second review's encoding for the identifier, and the prover's result
for that indexed identifier has `verified = false`; the renamed identifier is unknown to
the prover. -/
theorem MerkleTree.prover_fails_on_repeated_identifier :
    ∃ t, MerkleTree.buildTreeFromReviews bracketHash MerkleTree.new
        ([exampleReviewA, exampleReviewB].map Review.convertToString)
        ([exampleReviewA, exampleReviewB].map Review.getUniqueID) = .ok t ∧
      t.contains "A1_P1_1000000" = true ∧ t.contains "A1_P1_1000000_dup1" = true ∧
      (∃ res, ExistenceProof.generateReviewProof bracketHash
          (ExistenceProof.indexReviews { reviewIdToData := [], productToReviewIds := [] }
            [exampleReviewA, exampleReviewB]) t "A1_P1_1000000" = .ok res ∧
        res.status = "PROOF_GENERATED" ∧ res.verified = false) ∧
      (∃ res, ExistenceProof.generateReviewProof bracketHash
          (ExistenceProof.indexReviews { reviewIdToData := [], productToReviewIds := [] }
            [exampleReviewA, exampleReviewB]) t "A1_P1_1000000_dup1" = .ok res ∧
        res.status = "REVIEW_NOT_FOUND" ∧ res.verified = false) :=
  ⟨_, rfl, rfl, rfl, ⟨_, rfl, rfl, rfl⟩, ⟨_, rfl, rfl, rfl⟩⟩

namespace MerkleTree

theorem combineHashes_eq_input (H : String → String) (h1 h2 : String) :
    combineHashes H h1 h2 = H (combineInput h1 h2) := by
  unfold combineHashes combineInput computeHash
  split <;> rfl

end MerkleTree

/-- Remark on the hypotheses of C7: they cannot be dropped for an arbitrary function in
the place of the digest. With the identity, which has no collisions but outputs of any
length, the encodings `"ab"` and `"ba"` both verify with the one-step proof whose sibling
is `"aba"` against the root `"ababa"`; and with a constant function any two encodings
verify with the same proof and root. Neither function is a digest in the sense of the
specification. -/
theorem MerkleTree.verifyProof_not_sensitive :
    (MerkleTree.verifyProof (fun s => s) "ab" ["aba", "r"] "ababa" = true ∧
      ("ba" : String) ≠ "ab" ∧
      MerkleTree.verifyProof (fun s => s) "ba" ["aba", "r"] "ababa" = true) ∧
    (MerkleTree.verifyProof (fun _ => "h") "a" ["h", "r"] "h" = true ∧
      ("b" : String) ≠ "a" ∧
      MerkleTree.verifyProof (fun _ => "h") "b" ["h", "r"] "h" = true) := by
  decide

namespace MerkleTree

theorem levelInputs_length (l : List String) : (levelInputs l).length = (l.length + 1) / 2 := by
  induction l using levelInputs.induct with
  | case1 x y rest ih => simp only [levelInputs, List.length_cons, ih]; omega
  | case2 x => simp [levelInputs]
  | case3 => simp [levelInputs]

end MerkleTree

/-- Remark on the hypotheses of C9: they cannot be dropped for an arbitrary function in
the place of the digest. With the identity, which has no collisions but outputs of any
length, replacing the first encoding `"ab"` of the records `["ab", "aba"]` by `"ba"`
leaves the rebuilt root unchanged; and with a constant function every replacement leaves
the root unchanged. Neither function is a digest in the sense of the specification. -/
theorem MerkleTree.modification_keeps_root :
    (∃ r r1, MerkleTree.buildTreeFromReviews (fun s => s) MerkleTree.new ["ab", "aba"]
        ["x", "y"] = .ok r ∧
      MerkleTree.buildTreeFromReviews (fun s => s) MerkleTree.new
        ((["ab", "aba"] : List String).set 0 "ba") ["x", "y"] = .ok r1 ∧
      ("ba" : String) ≠ "ab" ∧ r.getRootHash = r1.getRootHash) ∧
    (∃ r r1, MerkleTree.buildTreeFromReviews (fun _ => "h") MerkleTree.new ["a", "b"]
        ["x", "y"] = .ok r ∧
      MerkleTree.buildTreeFromReviews (fun _ => "h") MerkleTree.new
        ((["a", "b"] : List String).set 0 "c") ["x", "y"] = .ok r1 ∧
      ("c" : String) ≠ "a" ∧ r.getRootHash = r1.getRootHash) :=
  ⟨⟨_, _, rfl, rfl, by decide, rfl⟩, ⟨_, _, rfl, rfl, by decide, rfl⟩⟩

namespace MerkleTree

end MerkleTree

namespace MerkleTree

/-- The outcome of the call `buildTreeFromReviews` as a state transition agrees with the
result of `buildTreeFromReviews`: the same fault, or a normal return that leaves the
object in the resulting tree. -/
theorem buildTreeFromReviewsCall_result (H : String → String) (t : MerkleTree)
    (data ids : List String) :
    (∀ f, buildTreeFromReviews H t data ids = .error f ↔
      (buildTreeFromReviewsCall H t data ids).2 = .error f) ∧
    (∀ t1, buildTreeFromReviews H t data ids = .ok t1 ↔
      buildTreeFromReviewsCall H t data ids = (t1, .ok ())) := by
  unfold buildTreeFromReviews buildTreeFromReviewsCall
  by_cases hlen : data.length ≠ ids.length
  · simp only [if_pos hlen]
    exact ⟨fun f => by simp, fun t1 => by simp⟩
  · simp only [if_neg hlen]
    cases hadd : addLeaves H Arena.empty [] [] data ids with
    | error f0 =>
      exact ⟨fun f => by simp, fun t1 => by simp⟩
    | ok res =>
      obtain ⟨a, m, lv⟩ := res
      simp only
      cases hb : buildTree H a lv with
      | error f0 =>
        exact ⟨fun f => by simp, fun t1 => by simp⟩
      | ok res1 =>
        obtain ⟨a1, r⟩ := res1
        cases r with
        | none =>
          exact ⟨fun f => by simp, fun t1 => by simp⟩
        | some r =>
          exact ⟨fun f => by simp, fun t1 => by simp⟩

/-- The outcome of the call `addReview` as a state transition agrees with the result of
`addReview`. -/
theorem addReviewCall_result (H : String → String) (t : MerkleTree) (e id : String) :
    (∀ f, addReview H t e id = .error f ↔ (addReviewCall H t e id).2 = .error f) ∧
    (∀ t1, addReview H t e id = .ok t1 ↔ addReviewCall H t e id = (t1, .ok ())) := by
  unfold addReview addReviewCall
  by_cases hfind : (mapFind t.leafMap id).isSome = true
  · simp only [if_pos hfind]
    exact ⟨fun f => by simp, fun t1 => by simp⟩
  · simp only [if_neg hfind]
    cases hroot : t.root with
    | none =>
      simp only
      exact ⟨fun f => by simp, fun t1 => by simp⟩
    | some r =>
      simp only
      cases hins : insertLeaf H ((t.arena.alloc (MerkleNode.leafNode (computeHash H e) id)).1.size + 1)
          (t.arena.alloc (MerkleNode.leafNode (computeHash H e) id)).1 (some r)
          (t.arena.alloc (MerkleNode.leafNode (computeHash H e) id)).2 with
      | error f0 =>
        exact ⟨fun f => by simp, fun t1 => by simp⟩
      | ok res =>
        obtain ⟨a2, r1⟩ := res
        exact ⟨fun f => by simp, fun t1 => by simp⟩

end MerkleTree

/-! ## Rejected and degenerate calls -/

/-- C13: if the encoding list and the identifier list differ in length, the call
`buildTreeFromReviews` throws `invalid_argument` and leaves the object exactly as it was
before the call, so in particular its root and its identifier index are unchanged. -/
theorem MerkleTree.size_mismatch_rejected (H : String → String) (t : MerkleTree)
    (data ids : List String) (h : data.length ≠ ids.length) :
    MerkleTree.buildTreeFromReviewsCall H t data ids =
      (t, .error (.invalidArgument "review data and id arrays must match in size")) ∧
    (MerkleTree.buildTreeFromReviewsCall H t data ids).1.root = t.root ∧
    (MerkleTree.buildTreeFromReviewsCall H t data ids).1.leafMap = t.leafMap ∧
    MerkleTree.buildTreeFromReviews H t data ids =
      .error (.invalidArgument "review data and id arrays must match in size") := by
  have hc : MerkleTree.buildTreeFromReviewsCall H t data ids =
      (t, .error (.invalidArgument "review data and id arrays must match in size")) := by
    unfold MerkleTree.buildTreeFromReviewsCall
    rw [if_pos h]
  refine ⟨hc, by rw [hc], by rw [hc], ?_⟩
  unfold MerkleTree.buildTreeFromReviews
  rw [if_pos h]

/-- Witness for C13: two encodings with one identifier, on the two-leaf example tree. -/
theorem MerkleTree.size_mismatch_rejected_witness :
    ["a", "b"].length ≠ ["x"].length ∧
    MerkleTree.buildTreeFromReviewsCall bracketHash MerkleTree.exampleTree2 ["a", "b"] ["x"] =
      (MerkleTree.exampleTree2,
        .error (.invalidArgument "review data and id arrays must match in size")) ∧
    (MerkleTree.buildTreeFromReviewsCall bracketHash MerkleTree.exampleTree2
      ["a", "b"] ["x"]).1.root = MerkleTree.exampleTree2.root ∧
    (MerkleTree.buildTreeFromReviewsCall bracketHash MerkleTree.exampleTree2
      ["a", "b"] ["x"]).1.leafMap = MerkleTree.exampleTree2.leafMap ∧
    MerkleTree.buildTreeFromReviews bracketHash MerkleTree.exampleTree2 ["a", "b"] ["x"] =
      .error (.invalidArgument "review data and id arrays must match in size") :=
  ⟨by decide,
    MerkleTree.size_mismatch_rejected bracketHash MerkleTree.exampleTree2 ["a", "b"] ["x"]
      (by decide)⟩

/-- C14 (divergence): on two empty lists `buildTreeFromReviews` does not return. It clears
the index, assigns the null result of `buildTree` to `root` and then dereferences `root`
in its final report; the object is left without root and with an empty index. -/
theorem MerkleTree.empty_batch_build_faults (H : String → String) (t : MerkleTree) :
    MerkleTree.buildTreeFromReviews H t [] [] = .error .nullDereference ∧
    MerkleTree.buildTreeFromReviewsCall H t [] [] =
      ({ arena := Arena.empty, root := none, leafMap := [] }, .error .nullDereference) :=
  ⟨rfl, rfl⟩

/-- C15 (counterexample): on the freshly constructed tree, which has no root,
`getRootHash` returns the empty string; it signals no error. -/
theorem MerkleTree.getRootHash_of_new_is_empty_string :
    MerkleTree.new.root = none ∧ MerkleTree.new.getRootHash = "" :=
  ⟨rfl, rfl⟩

/-- C15 (as amended): on every tree without root, `getRootHash` returns the empty string;
on a tree with a root it returns the digest stored in the root. -/
theorem MerkleTree.getRootHash_rootless (t : MerkleTree) :
    (t.root = none → t.getRootHash = "") ∧
    (∀ r, t.root = some r → t.getRootHash = (t.arena.cell r).hash) := by
  refine ⟨fun h => ?_, fun r h => ?_⟩ <;> simp [MerkleTree.getRootHash, h]

/-- Witness for C15 (as amended): the rootless state in which an empty batch build leaves
the object, and the rooted one-leaf example tree. -/
theorem MerkleTree.getRootHash_rootless_witness :
    (MerkleTree.buildTreeFromReviewsCall bracketHash MerkleTree.exampleTree2 [] []).1.root
      = none ∧
    (MerkleTree.buildTreeFromReviewsCall bracketHash MerkleTree.exampleTree2
      [] []).1.getRootHash = "" ∧
    MerkleTree.exampleTree1.root = some 0 ∧
    MerkleTree.exampleTree1.getRootHash = (MerkleTree.exampleTree1.arena.cell 0).hash :=
  ⟨rfl,
    (MerkleTree.getRootHash_rootless
      (MerkleTree.buildTreeFromReviewsCall bracketHash MerkleTree.exampleTree2 [] []).1).1 rfl,
    rfl, (MerkleTree.getRootHash_rootless MerkleTree.exampleTree1).2 0 rfl⟩

/-- C17: for every tree and every identifier that is not in its index, `generateProof`
returns the empty proof; and for every identifier that is not in the prover's index,
`generateReviewProof` returns status `REVIEW_NOT_FOUND` with `verified = false` and an
empty proof path, whatever the tree holds. -/
theorem MerkleTree.absent_identifier_reported (H : String → String) (t : MerkleTree)
    (p : ExistenceProof) (id : String) :
    (t.contains id = false → t.generateProof id = .ok []) ∧
    (MerkleTree.mapFind p.reviewIdToData id = none →
      p.generateReviewProof H t id =
        .ok { reviewId := id, reviewData := "", status := "REVIEW_NOT_FOUND",
              proofPath := [], verified := false }) := by
  constructor
  · intro h
    have hfind : MerkleTree.mapFind t.leafMap id = none := by
      simpa [MerkleTree.contains] using h
    simp [MerkleTree.generateProof, hfind]
  · intro h
    simp [ExistenceProof.generateReviewProof, h]

/-- Witness for C17: the identifier `"q"` in the two-leaf example tree and in the prover
index built from two example reviews. -/
theorem MerkleTree.absent_identifier_reported_witness :
    MerkleTree.exampleTree2.contains "q" = false ∧
    MerkleTree.mapFind
      (ExistenceProof.indexReviews { reviewIdToData := [], productToReviewIds := [] }
        [exampleReviewA, exampleReviewC]).reviewIdToData "q" = none ∧
    MerkleTree.exampleTree2.generateProof "q" = .ok [] ∧
    (ExistenceProof.indexReviews { reviewIdToData := [], productToReviewIds := [] }
        [exampleReviewA, exampleReviewC]).generateReviewProof bracketHash
        MerkleTree.exampleTree2 "q" =
      .ok { reviewId := "q", reviewData := "", status := "REVIEW_NOT_FOUND",
            proofPath := [], verified := false } :=
  ⟨by decide, by decide,
    (MerkleTree.absent_identifier_reported bracketHash MerkleTree.exampleTree2
      (ExistenceProof.indexReviews { reviewIdToData := [], productToReviewIds := [] }
        [exampleReviewA, exampleReviewC]) "q").1 (by decide),
    (MerkleTree.absent_identifier_reported bracketHash MerkleTree.exampleTree2
      (ExistenceProof.indexReviews { reviewIdToData := [], productToReviewIds := [] }
        [exampleReviewA, exampleReviewC]) "q").2 (by decide)⟩

/-- C18: for every tree and every identifier already in its index, the call `addReview`
throws `invalid_argument` and leaves the object exactly as it was, so the root hash, the
leaf count and the index are unchanged; the identifier is not renamed. -/
theorem MerkleTree.addReview_rejects_duplicate (H : String → String) (t : MerkleTree)
    (e id : String) (h : t.contains id = true) :
    MerkleTree.addReviewCall H t e id =
      (t, .error (.invalidArgument ("Review ID already exists: " ++ id))) ∧
    (MerkleTree.addReviewCall H t e id).1.getRootHash = t.getRootHash ∧
    (MerkleTree.addReviewCall H t e id).1.getLeafCount = t.getLeafCount ∧
    (MerkleTree.addReviewCall H t e id).1.leafMap = t.leafMap ∧
    MerkleTree.addReview H t e id =
      .error (.invalidArgument ("Review ID already exists: " ++ id)) := by
  have hfind : (MerkleTree.mapFind t.leafMap id).isSome = true := h
  have hc : MerkleTree.addReviewCall H t e id =
      (t, .error (.invalidArgument ("Review ID already exists: " ++ id))) := by
    unfold MerkleTree.addReviewCall
    rw [if_pos hfind]
  refine ⟨hc, by rw [hc], by rw [hc], by rw [hc], ?_⟩
  unfold MerkleTree.addReview
  rw [if_pos hfind]

/-- Witness for C18: the identifier `"a_dup1"`, which the batch build over three records
with identifier `"a"` created by renaming. -/
theorem MerkleTree.addReview_rejects_duplicate_witness :
    MerkleTree.exampleTreeDup.contains "a_dup1" = true ∧
    MerkleTree.addReviewCall bracketHash MerkleTree.exampleTreeDup "s" "a_dup1" =
      (MerkleTree.exampleTreeDup,
        .error (.invalidArgument ("Review ID already exists: " ++ "a_dup1"))) ∧
    (MerkleTree.addReviewCall bracketHash MerkleTree.exampleTreeDup "s" "a_dup1").1.getRootHash
      = MerkleTree.exampleTreeDup.getRootHash ∧
    (MerkleTree.addReviewCall bracketHash MerkleTree.exampleTreeDup "s" "a_dup1").1.getLeafCount
      = MerkleTree.exampleTreeDup.getLeafCount ∧
    (MerkleTree.addReviewCall bracketHash MerkleTree.exampleTreeDup "s" "a_dup1").1.leafMap
      = MerkleTree.exampleTreeDup.leafMap ∧
    MerkleTree.addReview bracketHash MerkleTree.exampleTreeDup "s" "a_dup1" =
      .error (.invalidArgument ("Review ID already exists: " ++ "a_dup1")) :=
  ⟨by decide,
    MerkleTree.addReview_rejects_duplicate bracketHash MerkleTree.exampleTreeDup "s" "a_dup1"
      (by decide)⟩

/-- C20: on a tree without root and with an empty index, `addReview(e, id)` returns
normally for every encoding `e` and identifier `id`; the new leaf is the root, so
`getRootHash()` is `H(e)`, `getLeafCount()` is 1 and `contains(id)` holds. -/
theorem MerkleTree.addReview_into_rootless (H : String → String) (t : MerkleTree)
    (e id : String) (hroot : t.root = none) (hidx : t.leafMap = []) :
    ∃ t1, MerkleTree.addReview H t e id = .ok t1 ∧
      MerkleTree.addReviewCall H t e id = (t1, .ok ()) ∧
      t1.root = some t.arena.size ∧
      t1.arena.cell t.arena.size = MerkleNode.leafNode (H e) id ∧
      t1.getRootHash = H e ∧ t1.getLeafCount = 1 ∧ t1.contains id = true := by
  have hrun : MerkleTree.addReview H t e id =
      .ok { arena := (t.arena.alloc (MerkleNode.leafNode (H e) id)).1,
            root := some t.arena.size,
            leafMap := [(id, t.arena.size)] } := by
    simp [MerkleTree.addReview, hroot, hidx, MerkleTree.mapFind, MerkleTree.mapSet,
      MerkleTree.computeHash, Arena.alloc]
  refine ⟨_, hrun, ((MerkleTree.addReviewCall_result H t e id).2 _).1 hrun, rfl,
    MerkleTree.alloc_cell_size _ _, ?_, rfl, ?_⟩
  · show ((t.arena.alloc (MerkleNode.leafNode (H e) id)).1.cell t.arena.size).hash = H e
    rw [MerkleTree.alloc_cell_size]
    rfl
  · simp [MerkleTree.contains, MerkleTree.mapFind]

/-- Witness for C20: the freshly constructed tree. -/
theorem MerkleTree.addReview_into_rootless_witness :
    MerkleTree.new.root = none ∧ MerkleTree.new.leafMap = [] ∧
    ∃ t1, MerkleTree.addReview bracketHash MerkleTree.new "c" "z" = .ok t1 ∧
      MerkleTree.addReviewCall bracketHash MerkleTree.new "c" "z" = (t1, .ok ()) ∧
      t1.root = some MerkleTree.new.arena.size ∧
      t1.arena.cell MerkleTree.new.arena.size = MerkleNode.leafNode (bracketHash "c") "z" ∧
      t1.getRootHash = bracketHash "c" ∧ t1.getLeafCount = 1 ∧ t1.contains "z" = true :=
  ⟨rfl, rfl, MerkleTree.addReview_into_rootless bracketHash MerkleTree.new "c" "z" rfl rfl⟩

/-! ## The parts of a batch build -/

namespace MerkleTree

/-- A successful batch build consists of a run of the leaf loop from the empty arena and a
run of the level loop on the leaves it created. -/
theorem buildTreeFromReviews_parts (H : String → String) (t0 t : MerkleTree)
    (data ids : List String) (h : buildTreeFromReviews H t0 data ids = .ok t) :
    ∃ a m lv r, data.length = ids.length ∧
      addLeaves H Arena.empty [] [] data ids = .ok (a, m, lv) ∧
      LeavesState H a m lv data ∧ lv ≠ [] ∧
      buildLoop H lv.length a lv = .ok (t.arena, some r) ∧
      t.root = some r ∧ t.leafMap = m := by
  unfold buildTreeFromReviews at h
  split at h
  · cases h
  · rename_i hlen
    have hlen : data.length = ids.length := by simpa using hlen
    split at h
    · cases h
    · rename_i a m lv hadd
      have st := addLeaves_state H data ids _ _ _ _ a m lv (leavesState_empty H) hlen hadd
      simp only [List.nil_append] at st
      by_cases hne : lv = []
      · subst hne
        simp [buildTree] at h
      · rw [buildTree_eq_buildLoop H a lv hne] at h
        cases hrun : buildLoop H lv.length a lv with
        | error f => rw [hrun] at h; cases h
        | ok res =>
          obtain ⟨a1, r⟩ := res
          rw [hrun] at h
          cases r with
          | none => cases h
          | some r =>
            simp only at h
            cases h
            exact ⟨a, m, lv, r, hlen, hadd, st, hne, hrun, rfl, rfl⟩

/-- The leaf loop does not touch the nodes allocated before it. -/
theorem addLeaves_frame (H : String → String) :
    ∀ (data ids : List String) (a : Arena) (m : List (String × Nat)) (lv : List Nat)
      (a1 : Arena) (m1 : List (String × Nat)) (lv1 : List Nat),
      addLeaves H a m lv data ids = .ok (a1, m1, lv1) →
      a.size ≤ a1.size ∧ ∀ n, n < a.size → a1.cell n = a.cell n := by
  intro data
  induction data with
  | nil =>
    intro ids a m lv a1 m1 lv1 h
    simp only [addLeaves] at h
    cases h
    exact ⟨le_refl _, fun _ _ => rfl⟩
  | cons d data ih =>
    intro ids a m lv a1 m1 lv1 h
    cases ids with
    | nil =>
      simp only [addLeaves] at h
      cases h
      exact ⟨le_refl _, fun _ _ => rfl⟩
    | cons i ids =>
      simp only [addLeaves] at h
      split at h
      · cases h
      · rename_i uid huid
        obtain ⟨hsz, hcell⟩ := ih ids _ _ _ a1 m1 lv1 h
        rw [alloc_size] at hsz
        refine ⟨by omega, fun n hn => ?_⟩
        rw [hcell n (by rw [alloc_size]; omega)]
        exact alloc_cell_of_ne _ _ _ (by omega)

/-- The leaf loop over two batches in a row is the loop over the first batch followed by
the loop over the second. -/
theorem addLeaves_append (H : String → String) :
    ∀ (d1 i1 : List String), d1.length = i1.length →
      ∀ (d2 i2 : List String) (a : Arena) (m : List (String × Nat)) (lv : List Nat),
      addLeaves H a m lv (d1 ++ d2) (i1 ++ i2) =
        match addLeaves H a m lv d1 i1 with
        | .error f => .error f
        | .ok (a1, m1, lv1) => addLeaves H a1 m1 lv1 d2 i2 := by
  intro d1
  induction d1 with
  | nil =>
    intro i1 hlen d2 i2 a m lv
    have : i1 = [] := List.length_eq_zero.1 hlen.symm
    subst this
    simp [addLeaves]
  | cons d d1 ih =>
    intro i1 hlen d2 i2 a m lv
    cases i1 with
    | nil => simp at hlen
    | cons i i1 =>
      simp only [List.cons_append, addLeaves]
      cases huid : uniqueIdFor m i with
      | error f => rfl
      | ok uid =>
        simp only
        exact ih i1 (by simpa using hlen) d2 i2 _ _ _

end MerkleTree

namespace MerkleTree

/-- A run of the level loop that is known to return: the facts of `buildLoop_forest` for
its result. -/
theorem buildLoop_run (H : String → String) (a a1 : Arena) (lv : List Nat) (r : Nat)
    (F : a.Forest H lv) (hne : lv ≠ [])
    (hrun : buildLoop H lv.length a lv = .ok (a1, some r)) :
    a1.Forest H [r] ∧ a.size ≤ a1.size ∧
      ∀ n, n < a.size →
        (a1.cell n).hash = (a.cell n).hash ∧ (a1.cell n).left = (a.cell n).left ∧
        (a1.cell n).right = (a.cell n).right ∧ (a1.cell n).data = (a.cell n).data := by
  obtain ⟨a2, r2, hrun2, F2, hsz, hfr, _, _, _⟩ :=
    buildLoop_forest H lv.length a lv F hne (le_refl _)
  rw [hrun] at hrun2
  cases hrun2
  exact ⟨F2, hsz, hfr⟩

/-- What the renaming loop returns: the candidate for the smallest suffix from `suffix` on
whose candidate is not in the index. -/
theorem freshDupId_spec (m : List (String × Nat)) (reviewId : String) :
    ∀ (fuel suffix : Nat) (uid : String), freshDupId m reviewId fuel suffix = .ok uid →
      ∃ k, suffix ≤ k ∧ uid = dupId reviewId k ∧ mapFind m (dupId reviewId k) = none ∧
        ∀ j, suffix ≤ j → j < k → mapFind m (dupId reviewId j) ≠ none := by
  intro fuel
  induction fuel with
  | zero => intro suffix uid h; simp [freshDupId] at h
  | succ fuel ih =>
    intro suffix uid h
    simp only [freshDupId] at h
    split at h
    · rename_i hfind
      obtain ⟨k, hk, huid, hfree, hused⟩ := ih _ _ h
      refine ⟨k, by omega, huid, hfree, fun j hj hjk => ?_⟩
      by_cases hjs : j = suffix
      · subst hjs
        intro hnone
        unfold dupId at hnone
        rw [hnone] at hfind
        cases hfind
      · exact hused j (by omega) hjk
    · rename_i hfind
      cases h
      refine ⟨suffix, le_refl _, rfl, by simpa [dupId] using hfind, fun j hj hjk => by omega⟩

/-- What the identifier resolution returns: the identifier itself if it is not in the
index, otherwise the candidate with the smallest positive suffix that is not in it. -/
theorem uniqueIdFor_spec (m : List (String × Nat)) (reviewId uid : String)
    (h : uniqueIdFor m reviewId = .ok uid) :
    (mapFind m reviewId = none → uid = reviewId) ∧
    (mapFind m reviewId ≠ none →
      ∃ k, 1 ≤ k ∧ uid = dupId reviewId k ∧ mapFind m (dupId reviewId k) = none ∧
        ∀ j, 1 ≤ j → j < k → mapFind m (dupId reviewId j) ≠ none) := by
  unfold uniqueIdFor at h
  split at h
  · rename_i hfind
    refine ⟨fun hnone => ?_, fun _ => freshDupId_spec m reviewId _ _ _ h⟩
    rw [hnone] at hfind
    cases hfind
  · rename_i hfind
    cases h
    refine ⟨fun _ => rfl, fun hne => ?_⟩
    exfalso
    apply hfind
    cases hm : mapFind m reviewId with
    | none => exact absurd hm hne
    | some v => rfl

/-- The leaf loop keeps the keys of the index equal to the labels of the allocated
nodes. -/
theorem addLeaves_keys (H : String → String) :
    ∀ (data ids : List String) (a : Arena) (m : List (String × Nat)) (lv : List Nat)
      (a1 : Arena) (m1 : List (String × Nat)) (lv1 : List Nat),
      (∀ id, mapFind m id ≠ none ↔ ∃ j, j < a.size ∧ (a.cell j).data = id) →
      addLeaves H a m lv data ids = .ok (a1, m1, lv1) →
      ∀ id, mapFind m1 id ≠ none ↔ ∃ j, j < a1.size ∧ (a1.cell j).data = id := by
  intro data
  induction data with
  | nil =>
    intro ids a m lv a1 m1 lv1 hk h
    simp only [addLeaves] at h
    cases h
    exact hk
  | cons d data ih =>
    intro ids a m lv a1 m1 lv1 hk h
    cases ids with
    | nil =>
      simp only [addLeaves] at h
      cases h
      exact hk
    | cons i ids =>
      simp only [addLeaves] at h
      split at h
      · cases h
      · rename_i uid huid
        refine ih ids _ _ _ a1 m1 lv1 ?_ h
        intro id
        rw [mapFind_mapSet, alloc_size]
        constructor
        · intro hne
          by_cases hid : id = uid
          · exact ⟨a.size, by omega, by rw [alloc_cell_size, hid]; rfl⟩
          · rw [if_neg hid] at hne
            obtain ⟨j, hj, hdata⟩ := (hk id).1 hne
            exact ⟨j, by omega, by rw [alloc_cell_of_ne _ _ _ (by omega)]; exact hdata⟩
        · rintro ⟨j, hj, hdata⟩
          by_cases hid : id = uid
          · rw [if_pos hid]; simp
          · rw [if_neg hid]
            by_cases hjs : j = a.size
            · subst hjs
              rw [alloc_cell_size] at hdata
              exact absurd hdata.symm hid
            · rw [alloc_cell_of_ne _ _ _ hjs] at hdata
              exact (hk id).2 ⟨j, by omega, hdata⟩

end MerkleTree

namespace MerkleTree

/-- Record `i` of a successful batch build: the leaf loop over the records before it
returns an index `m` whose keys are the labels of the earlier leaves, and the label of
leaf `i` is the identifier resolved for record `i` against `m`. -/
theorem batch_record_label (H : String → String) (t0 t : MerkleTree)
    (data ids : List String) (h : buildTreeFromReviews H t0 data ids = .ok t)
    (i : Nat) (X : String) (hi : ids[i]? = some X) :
    ∃ a m lv, addLeaves H Arena.empty [] [] (data.take i) (ids.take i) = .ok (a, m, lv) ∧
      a.size = i ∧ uniqueIdFor m X = .ok (t.leafLabel i) ∧
      (∀ id, mapFind m id ≠ none ↔ ∃ j, j < i ∧ t.leafLabel j = id) := by
  obtain ⟨a', m', lv', r, hlen, hadd, st, hne, hrun, _, _⟩ :=
    buildTreeFromReviews_parts H t0 t data ids h
  obtain ⟨hil, hix⟩ := List.getElem?_eq_some_iff.1 hi
  have hid : i < data.length := by omega
  obtain ⟨⟨a, m, lv⟩, hpre⟩ :=
    addLeaves_total H (data.take i) (ids.take i) Arena.empty [] []
  have hlen1 : (data.take i).length = (ids.take i).length := by
    simp only [List.length_take]; omega
  have st1 := addLeaves_state H _ _ _ _ _ [] a m lv (leavesState_empty H) hlen1 hpre
  have hsz : a.size = i := by
    have := st1.size_eq
    simp only [List.nil_append, List.length_take] at this
    omega
  have happ := addLeaves_append H (data.take i) (ids.take i) hlen1 (data.drop i)
    (ids.drop i) Arena.empty [] []
  rw [List.take_append_drop, List.take_append_drop, hadd, hpre] at happ
  simp only at happ
  obtain ⟨d, hd⟩ : ∃ d, data.drop i = d :: data.drop (i + 1) :=
    ⟨data[i], List.drop_eq_getElem_cons hid⟩
  have hx : ids.drop i = X :: ids.drop (i + 1) := by
    rw [List.drop_eq_getElem_cons hil, hix]
  rw [hd, hx] at happ
  simp only [addLeaves] at happ
  cases huid : uniqueIdFor m X with
  | error f => rw [huid] at happ; cases happ
  | ok uid =>
    rw [huid] at happ
    simp only at happ
    obtain ⟨hsz2, hcell2⟩ := addLeaves_frame H _ _ _ _ _ a' m' lv' happ.symm
    rw [alloc_size] at hsz2
    have F := forest_of_leavesState H a' m' lv' data st
    obtain ⟨_, _, hfr⟩ := buildLoop_run H a' t.arena lv' r F hne hrun
    have hold : ∀ j, j < a.size + 1 →
        (t.arena.cell j).data =
          ((a.alloc (MerkleNode.leafNode (computeHash H d) uid)).1.cell j).data := by
      intro j hj
      rw [(hfr j (by omega)).2.2.2, hcell2 j (by rw [alloc_size]; exact hj)]
    have hlabel : t.leafLabel i = uid := by
      unfold leafLabel MerkleNode.getReviewId
      have hc := alloc_cell_size a (MerkleNode.leafNode (computeHash H d) uid)
      rw [hsz] at hc
      rw [hold i (by omega), hc]
      rfl
    refine ⟨a, m, lv, hpre, hsz, by rw [hlabel, huid], ?_⟩
    have hkeys := addLeaves_keys H _ _ Arena.empty [] [] a m lv
      (by
        intro id
        constructor
        · intro hne0; exact absurd (mapFind_nil id) hne0
        · rintro ⟨j, hj, _⟩
          exact absurd hj (Nat.not_lt_zero j))
      hpre
    intro id
    rw [hkeys id]
    constructor
    · rintro ⟨j, hj, hdata⟩
      refine ⟨j, by omega, ?_⟩
      unfold leafLabel MerkleNode.getReviewId
      rw [hold j (by omega), alloc_cell_of_ne _ _ _ (by omega)]
      exact hdata
    · rintro ⟨j, hj, hdata⟩
      refine ⟨j, by omega, ?_⟩
      unfold leafLabel MerkleNode.getReviewId at hdata
      rw [hold j (by omega), alloc_cell_of_ne _ _ _ (by omega)] at hdata
      exact hdata

end MerkleTree

/-- C11: in a batch build, let `m` be the index at the moment record `i` with identifier
`X` is processed, that is the index returned by the leaf loop over the records before
`i`, whose keys are the identifiers of the earlier leaves. If `X` is not in `m`, record
`i` is indexed under `X`; if `X` is in `m`, it is indexed under `X_dup<k>` for the
smallest `k ≥ 1` whose candidate `X_dup<k>` is not in `m`. -/
theorem MerkleTree.rename_picks_smallest_suffix (H : String → String) (t0 t : MerkleTree)
    (data ids : List String) (h : MerkleTree.buildTreeFromReviews H t0 data ids = .ok t)
    (i : Nat) (X : String) (hi : ids[i]? = some X) :
    ∃ m : List (String × Nat),
      (∃ a lv, MerkleTree.addLeaves H Arena.empty [] [] (data.take i) (ids.take i) =
        .ok (a, m, lv)) ∧
      (∀ id, MerkleTree.mapFind m id ≠ none ↔ ∃ j, j < i ∧ t.leafLabel j = id) ∧
      MerkleTree.mapFind t.leafMap (t.leafLabel i) = some i ∧
      (MerkleTree.mapFind m X = none → t.leafLabel i = X) ∧
      (MerkleTree.mapFind m X ≠ none →
        ∃ k, 1 ≤ k ∧ t.leafLabel i = MerkleTree.dupId X k ∧
          MerkleTree.mapFind m (MerkleTree.dupId X k) = none ∧
          ∀ j, 1 ≤ j → j < k → MerkleTree.mapFind m (MerkleTree.dupId X j) ≠ none) := by
  obtain ⟨a, m, lv, hpre, _, huid, hkeys⟩ :=
    MerkleTree.batch_record_label H t0 t data ids h i X hi
  obtain ⟨_, hlen, _, _, hfind, _⟩ := MerkleTree.buildTreeFromReviews_spec H t0 t data ids h
  obtain ⟨hil, _⟩ := List.getElem?_eq_some_iff.1 hi
  obtain ⟨habsent, hpresent⟩ := MerkleTree.uniqueIdFor_spec m X _ huid
  exact ⟨m, ⟨a, lv, hpre⟩, hkeys, hfind i (by omega), habsent, hpresent⟩

set_option maxRecDepth 100000 in
/-- Witness for C11: identifiers `[a, a, a]`; the third record is indexed under
`a_dup2`, and the three leaves are labelled `a`, `a_dup1`, `a_dup2`. -/
theorem MerkleTree.rename_picks_smallest_suffix_witness :
    MerkleTree.buildTreeFromReviews bracketHash MerkleTree.new ["p", "q", "r"]
      ["a", "a", "a"] = .ok MerkleTree.exampleTreeDup ∧
    ["a", "a", "a"][2]? = some "a" ∧
    (MerkleTree.exampleTreeDup.leafLabel 0, MerkleTree.exampleTreeDup.leafLabel 1,
      MerkleTree.exampleTreeDup.leafLabel 2) = ("a", "a_dup1", "a_dup2") ∧
    ∃ m : List (String × Nat),
      (∃ a lv, MerkleTree.addLeaves bracketHash Arena.empty [] [] (["p", "q", "r"].take 2)
        (["a", "a", "a"].take 2) = .ok (a, m, lv)) ∧
      (∀ id, MerkleTree.mapFind m id ≠ none ↔
        ∃ j, j < 2 ∧ MerkleTree.exampleTreeDup.leafLabel j = id) ∧
      MerkleTree.mapFind MerkleTree.exampleTreeDup.leafMap
        (MerkleTree.exampleTreeDup.leafLabel 2) = some 2 ∧
      (MerkleTree.mapFind m "a" = none → MerkleTree.exampleTreeDup.leafLabel 2 = "a") ∧
      (MerkleTree.mapFind m "a" ≠ none →
        ∃ k, 1 ≤ k ∧ MerkleTree.exampleTreeDup.leafLabel 2 = MerkleTree.dupId "a" k ∧
          MerkleTree.mapFind m (MerkleTree.dupId "a" k) = none ∧
          ∀ j, 1 ≤ j → j < k → MerkleTree.mapFind m (MerkleTree.dupId "a" j) ≠ none) :=
  ⟨rfl, rfl, by decide,
    MerkleTree.rename_picks_smallest_suffix bracketHash MerkleTree.new
      MerkleTree.exampleTreeDup ["p", "q", "r"] ["a", "a", "a"] rfl 2 "a" rfl⟩

/-- C12: for every pair of equal-length input lists with `n` records, the call
`buildTreeFromReviews` returns normally when `n ≥ 1` and leaves a tree whose leaf count is
`n`, in which the identifiers given to the `n` records are pairwise distinct and each one
is indexed at the leaf of its own record. -/
theorem MerkleTree.batch_index_unique (H : String → String) (t0 : MerkleTree)
    (data ids : List String) (hlen : data.length = ids.length) :
    (data ≠ [] → ∃ t, MerkleTree.buildTreeFromReviewsCall H t0 data ids = (t, .ok ())) ∧
    (MerkleTree.buildTreeFromReviewsCall H t0 data ids).1.getLeafCount = data.length ∧
    (∀ i j, i < data.length → j < data.length →
      (MerkleTree.buildTreeFromReviewsCall H t0 data ids).1.leafLabel i =
        (MerkleTree.buildTreeFromReviewsCall H t0 data ids).1.leafLabel j → i = j) ∧
    (∀ i, i < data.length →
      MerkleTree.mapFind (MerkleTree.buildTreeFromReviewsCall H t0 data ids).1.leafMap
        ((MerkleTree.buildTreeFromReviewsCall H t0 data ids).1.leafLabel i) = some i) := by
  by_cases hne : data = []
  · subst hne
    have hids : ids = [] := List.length_eq_zero.1 hlen.symm
    subst hids
    refine ⟨fun h => absurd rfl h, rfl, fun i j hi => ?_, fun i hi => ?_⟩
    · exact absurd hi (Nat.not_lt_zero i)
    · exact absurd hi (Nat.not_lt_zero i)
  · obtain ⟨t, ht⟩ := MerkleTree.buildTreeFromReviews_total H t0 data ids hne hlen
    have hcall := ((MerkleTree.buildTreeFromReviewsCall_result H t0 data ids).2 t).1 ht
    obtain ⟨_, _, inv, _, hfind, _⟩ := MerkleTree.buildTreeFromReviews_spec H t0 t data ids ht
    rw [hcall]
    refine ⟨fun _ => ⟨t, rfl⟩, ?_, fun i j hi hj hij => ?_, fun i hi => hfind i hi⟩
    · show t.leafMap.length = data.length
      rw [inv.count, MerkleTree.batchRecords, MerkleTree.recordsFrom_length]
    · have h1 := hfind i hi
      have h2 := hfind j hj
      have hij : (t.arena.cell i).data = (t.arena.cell j).data := hij
      rw [hij, h2] at h1
      cases h1
      rfl

set_option maxRecDepth 100000 in
/-- Witness for C12: identifiers `[a, a, a_dup1]`; the second record is renamed to
`a_dup1`, which is the third record's own identifier, and the third record is indexed
under `a_dup1_dup1`. -/
theorem MerkleTree.batch_index_unique_witness :
    ["p", "q", "r"].length = ["a", "a", "a_dup1"].length ∧
    ((MerkleTree.buildTreeFromReviewsCall bracketHash MerkleTree.new ["p", "q", "r"]
        ["a", "a", "a_dup1"]).1.leafLabel 0,
      (MerkleTree.buildTreeFromReviewsCall bracketHash MerkleTree.new ["p", "q", "r"]
        ["a", "a", "a_dup1"]).1.leafLabel 1,
      (MerkleTree.buildTreeFromReviewsCall bracketHash MerkleTree.new ["p", "q", "r"]
        ["a", "a", "a_dup1"]).1.leafLabel 2) = ("a", "a_dup1", "a_dup1_dup1") ∧
    (["p", "q", "r"] ≠ [] → ∃ t, MerkleTree.buildTreeFromReviewsCall bracketHash
      MerkleTree.new ["p", "q", "r"] ["a", "a", "a_dup1"] = (t, .ok ())) ∧
    (MerkleTree.buildTreeFromReviewsCall bracketHash MerkleTree.new ["p", "q", "r"]
      ["a", "a", "a_dup1"]).1.getLeafCount = ["p", "q", "r"].length ∧
    (∀ i j, i < ["p", "q", "r"].length → j < ["p", "q", "r"].length →
      (MerkleTree.buildTreeFromReviewsCall bracketHash MerkleTree.new ["p", "q", "r"]
        ["a", "a", "a_dup1"]).1.leafLabel i =
        (MerkleTree.buildTreeFromReviewsCall bracketHash MerkleTree.new ["p", "q", "r"]
          ["a", "a", "a_dup1"]).1.leafLabel j → i = j) ∧
    (∀ i, i < ["p", "q", "r"].length →
      MerkleTree.mapFind (MerkleTree.buildTreeFromReviewsCall bracketHash MerkleTree.new
        ["p", "q", "r"] ["a", "a", "a_dup1"]).1.leafMap
        ((MerkleTree.buildTreeFromReviewsCall bracketHash MerkleTree.new ["p", "q", "r"]
          ["a", "a", "a_dup1"]).1.leafLabel i) = some i) :=
  ⟨rfl, by decide,
    MerkleTree.batch_index_unique bracketHash MerkleTree.new ["p", "q", "r"]
      ["a", "a", "a_dup1"] rfl⟩

/-! ## Incremental insertion returns -/

namespace MerkleTree

/-- On a tree satisfying the invariant, `addReview` with an identifier that is not in the
index returns normally. -/
theorem addReview_total (H : String → String) (t : MerkleTree)
    (recs : List (String × String)) (e id : String) (inv : TreeInvariant H t recs)
    (hfresh : mapFind t.leafMap id = none) : ∃ t1, addReview H t e id = .ok t1 := by
  unfold addReview
  rw [if_neg (by simp [hfresh])]
  simp only [computeHash]
  cases hroot : t.root with
  | none => exact ⟨_, rfl⟩
  | some r =>
    simp only
    obtain ⟨wf, _⟩ := inv.rooted r hroot
    have hcell : ∀ n, n < t.arena.size →
        (t.arena.alloc (MerkleNode.leafNode (H e) id)).1.cell n = t.arena.cell n :=
      fun n hn => alloc_cell_of_ne _ _ _ (by omega)
    have hcn : (t.arena.alloc (MerkleNode.leafNode (H e) id)).1.cell t.arena.size =
        MerkleNode.leafNode (H e) id := alloc_cell_size _ _
    have pre : InsertPre H (t.arena.alloc (MerkleNode.leafNode (H e) id)).1 t.arena.size r :=
      { wf := wellFormedUpTo_congr H _ _ _ _ hcell wf
        size_eq := rfl
        new_parent := by rw [hcn]; rfl
        new_leaf := by
          unfold Arena.LeafShaped
          rw [hcn]
          exact ⟨rfl, rfl⟩ }
    obtain ⟨rank, hrank⟩ := pre.wf.ranked
    obtain ⟨a2, r1, x, hrun, _⟩ := insertLeaf_post H _ _ _ pre rank hrank
      ((t.arena.alloc (MerkleNode.leafNode (H e) id)).1.size + 1) r wf.root_lt
      (by rw [alloc_size]; omega)
    rw [alloc_snd, hrun]
    exact ⟨_, rfl⟩

end MerkleTree

/-- C19 (counterexample): `addReview("c", "z")` on the empty tree succeeds and leaves a
single leaf; the proof generated for `"z"` is empty and `verifyProof` rejects it. -/
theorem MerkleTree.added_first_leaf_does_not_verify :
    MerkleTree.contains MerkleTree.new "z" = false ∧
    MerkleTree.addReview bracketHash MerkleTree.new "c" "z" = .ok MerkleTree.exampleTreeAdded ∧
    MerkleTree.exampleTreeAdded.generateProof "z" = .ok [] ∧
    MerkleTree.verifyProof bracketHash "c" [] MerkleTree.exampleTreeAdded.getRootHash = false :=
  ⟨rfl, rfl, rfl, rfl⟩

/-- C19 (as amended): for every non-empty tree produced by the operations and every
identifier `id` that is not in its index, `addReview(e, id)` returns normally, and in the
resulting tree `generateProof(id)` returns a proof for which
`verifyProof(e, proof, getRootHash())` is true. -/
theorem MerkleTree.added_leaf_proof_verifies (H : String → String) (t : MerkleTree)
    (recs : List (String × String)) (e id : String) (hp : MerkleTree.Produced H t recs)
    (hroot : t.root ≠ none) (hfresh : t.contains id = false) :
    ∃ t1, MerkleTree.addReview H t e id = .ok t1 ∧
      MerkleTree.addReviewCall H t e id = (t1, .ok ()) ∧
      ∃ p, t1.generateProof id = .ok p ∧
        MerkleTree.verifyProof H e p t1.getRootHash = true := by
  have inv := MerkleTree.produced_invariant H t recs hp
  have hfind : MerkleTree.mapFind t.leafMap id = none := by
    simpa [MerkleTree.contains] using hfresh
  obtain ⟨t1, ht1⟩ := MerkleTree.addReview_total H t recs e id inv hfind
  have inv1 := MerkleTree.addReview_invariant H t t1 recs e id inv ht1
  have hrecs : recs ≠ [] := by
    cases hr : t.root with
    | none => exact absurd hr hroot
    | some r => exact (inv.rooted r hr).2
  obtain ⟨p, hgen, hfold, hne, _⟩ :=
    MerkleTree.generateProof_sound H t1 _ inv1 id e (by simp)
  have h2 : 2 ≤ (recs ++ [(id, e)]).length := by
    have : 0 < recs.length := List.length_pos.2 hrecs
    simp only [List.length_append, List.length_singleton]
    omega
  exact ⟨t1, ht1, ((MerkleTree.addReviewCall_result H t e id).2 t1).1 ht1, p, hgen,
    MerkleTree.verifyProof_of_fold H e p _ (hne h2) hfold⟩

/-- Witness for C19 (as amended): `addReview("c", "z")` on the two-leaf example tree. -/
theorem MerkleTree.added_leaf_proof_verifies_witness :
    MerkleTree.Produced bracketHash MerkleTree.exampleTree2
      (MerkleTree.batchRecords MerkleTree.exampleTree2 ["a", "b"]) ∧
    MerkleTree.exampleTree2.root ≠ none ∧
    MerkleTree.exampleTree2.contains "z" = false ∧
    ∃ t1, MerkleTree.addReview bracketHash MerkleTree.exampleTree2 "c" "z" = .ok t1 ∧
      MerkleTree.addReviewCall bracketHash MerkleTree.exampleTree2 "c" "z" = (t1, .ok ()) ∧
      ∃ p, t1.generateProof "z" = .ok p ∧
        MerkleTree.verifyProof bracketHash "c" p t1.getRootHash = true :=
  have hp : MerkleTree.Produced bracketHash MerkleTree.exampleTree2
      (MerkleTree.batchRecords MerkleTree.exampleTree2 ["a", "b"]) :=
    MerkleTree.Produced.batch MerkleTree.new MerkleTree.exampleTree2 ["a", "b"] ["x", "y"] rfl
  ⟨hp, by decide, by decide,
    MerkleTree.added_leaf_proof_verifies bracketHash MerkleTree.exampleTree2 _ "c" "z" hp
      (by decide) (by decide)⟩

/-! ## The depth of the leaves of a batch-built tree -/

namespace Arena

theorem climb_succ (a : Arena) : ∀ (k n : Nat),
    a.climb (k + 1) n = (a.climb k n).bind (fun c => (a.cell c).parent) := by
  intro k
  induction k with
  | zero =>
    intro n
    simp only [climb, Option.some_bind]
    cases (a.cell n).parent <;> rfl
  | succ k ih =>
    intro n
    rw [climb]
    cases hp : (a.cell n).parent with
    | none => simp [climb, hp]
    | some p =>
      simp only
      rw [ih p]
      simp [climb, hp]

/-- Parent pointers that are set below `bound` and kept in `a1` give the same ancestors
in `a1`. -/
theorem climb_congr (a a1 : Arena) (bound : Nat)
    (hkeep : ∀ n, n < bound → ∀ p, (a.cell n).parent = some p →
      p < bound ∧ (a1.cell n).parent = some p) :
    ∀ (k n c : Nat), n < bound → a.climb k n = some c →
      a1.climb k n = some c ∧ c < bound := by
  intro k
  induction k with
  | zero =>
    intro n c hn h
    simp only [climb, Option.some.injEq] at h
    subst h
    exact ⟨rfl, hn⟩
  | succ k ih =>
    intro n c hn h
    rw [climb] at h
    cases hp : (a.cell n).parent with
    | none => rw [hp] at h; cases h
    | some p =>
      rw [hp] at h
      simp only at h
      obtain ⟨hpb, hp1⟩ := hkeep n hn p hp
      obtain ⟨h1, hc⟩ := ih p c hpb h
      refine ⟨?_, hc⟩
      rw [climb, hp1]
      exact h1

end Arena

namespace MerkleTree

/-- One level pass of `buildTree` over distinct allocated nodes: every processed node gets
one of the new nodes as parent, and the other old nodes keep their parent pointer. -/
theorem buildLevel_parents (H : String → String) :
    ∀ (k : Nat) (cur : List Nat), cur.length = k → ∀ (a : Arena),
      (∀ x, x ∈ cur → x < a.size) → cur.Nodup →
      (∀ n, n < a.size → n ∉ cur →
        ((buildLevel H a cur).1.cell n).parent = (a.cell n).parent) ∧
      (∀ x, x ∈ cur → ∃ p, p ∈ (buildLevel H a cur).2 ∧
        ((buildLevel H a cur).1.cell x).parent = some p) := by
  intro k
  induction k using Nat.strong_induction_on with
  | _ k ih =>
    intro cur hlen a hlt hnd
    match cur, hlen with
    | [], _ =>
      exact ⟨fun n _ _ => rfl, fun x hx => by cases hx⟩
    | [x], _ =>
      have hxs := hlt x (by simp)
      obtain ⟨_, _, hpx, _, _, hsame⟩ :=
        Arena.join_cell a (combineHashes H (a.cell x).hash (a.cell x).hash) x x hxs hxs
      rw [buildLevel_single]
      refine ⟨fun n hn hnot => ?_, fun z hz => ?_⟩
      · have hnx : n ≠ x := by simpa using hnot
        rw [hsame n (by omega) hnx hnx]
      · have hzx : z = x := by simpa using hz
        subst hzx
        exact ⟨a.size, by simp, hpx⟩
    | x :: y :: rest, hlen =>
      have hxs := hlt x (by simp)
      have hys := hlt y (by simp)
      obtain ⟨hsz, _, hpx, hpy, _, hsame⟩ :=
        Arena.join_cell a (combineHashes H (a.cell x).hash (a.cell y).hash) x y hxs hys
      have hxn := (List.nodup_cons.1 hnd).1
      have hyn := (List.nodup_cons.1 (List.nodup_cons.1 hnd).2).1
      have hrn := (List.nodup_cons.1 (List.nodup_cons.1 hnd).2).2
      have hxr : x ∉ rest := fun hin => hxn (List.mem_cons_of_mem _ hin)
      have hrl : rest.length < k := by simp only [List.length_cons] at hlen; omega
      obtain ⟨hA, hB⟩ := ih rest.length hrl rest rfl
        (a.join (combineHashes H (a.cell x).hash (a.cell y).hash) x y)
        (fun z hz => by rw [hsz]; have := hlt z (by simp [hz]); omega) hrn
      rw [buildLevel_pair]
      refine ⟨fun n hn hnot => ?_, fun z hz => ?_⟩
      · simp only [List.mem_cons, not_or] at hnot
        rw [hA n (by rw [hsz]; omega) hnot.2.2, hsame n (by omega) hnot.1 hnot.2.1]
      · simp only [List.mem_cons] at hz
        rcases hz with hz | hz | hz
        · subst hz
          exact ⟨a.size, by simp, by rw [hA z (by rw [hsz]; omega) hxr]; exact hpx⟩
        · subst hz
          exact ⟨a.size, by simp, by rw [hA z (by rw [hsz]; omega) hyn]; exact hpy⟩
        · obtain ⟨p, hp, hpar⟩ := hB z hz
          exact ⟨p, List.mem_cons_of_mem _ hp, hpar⟩

/-- A level of `n ≥ 2` nodes needs one pass more than the level of `⌈n / 2⌉` nodes that
the pass produces. -/
theorem clog_level (n : Nat) (hn : 2 ≤ n) : Nat.clog 2 n = Nat.clog 2 ((n + 1) / 2) + 1 :=
  Nat.clog_of_two_le Nat.one_lt_two hn

/-- The level loop of `buildTree` puts every node that lies `k` parent steps below the
current level at `k` plus the ceiling of the binary logarithm of the level's length steps
below the final root. -/
theorem buildLoop_depth (H : String → String) :
    ∀ (fuel : Nat) (a : Arena) (cur : List Nat), a.Forest H cur → cur ≠ [] →
      ∀ (a1 : Arena) (r : Nat), buildLoop H fuel a cur = .ok (a1, some r) →
      ∀ (k n : Nat), n < a.size → (∃ c, c ∈ cur ∧ a.climb k n = some c) →
        a1.climb (k + Nat.clog 2 cur.length) n = some r := by
  intro fuel
  induction fuel with
  | zero =>
    intro a cur F hne a1 r hrun k n hn hc
    match cur, hne with
    | [r0], _ =>
      simp only [buildLoop, Except.ok.injEq, Prod.mk.injEq, Option.some.injEq] at hrun
      obtain ⟨h1, h2⟩ := hrun
      subst h1; subst h2
      obtain ⟨c, hc1, hc2⟩ := hc
      have : c = r0 := by simpa using hc1
      subst this
      simpa using hc2
    | x :: y :: rest, _ => simp [buildLoop] at hrun
  | succ fuel ih =>
    intro a cur F hne a1 r hrun k n hn hc
    match cur, hne with
    | [r0], _ =>
      simp only [buildLoop, Except.ok.injEq, Prod.mk.injEq, Option.some.injEq] at hrun
      obtain ⟨h1, h2⟩ := hrun
      subst h1; subst h2
      obtain ⟨c, hc1, hc2⟩ := hc
      have : c = r0 := by simpa using hc1
      subst this
      simpa using hc2
    | x :: y :: rest, _ =>
      have F0 : a.Forest H ((x :: y :: rest) ++ []) := by simpa using F
      obtain ⟨F1, hsz1, _, hmap1, _⟩ :=
        buildLevel_forest H _ (x :: y :: rest) rfl a [] F0
      have hlen1 : (buildLevel H a (x :: y :: rest)).2.length =
          ((x :: y :: rest).length + 1) / 2 := by
        have := congrArg List.length hmap1
        rw [List.length_map, nextLevel_length, List.length_map] at this
        exact this
      have hne1 : (buildLevel H a (x :: y :: rest)).2 ≠ [] := by
        intro h
        rw [h] at hlen1
        simp only [List.length_nil, List.length_cons] at hlen1
        omega
      obtain ⟨hA, hB⟩ := buildLevel_parents H _ (x :: y :: rest) rfl a
        (fun z hz => F.roots_lt z hz) F.nodup
      simp only [buildLoop] at hrun
      obtain ⟨c, hc1, hc2⟩ := hc
      have hkeep : ∀ n, n < a.size → ∀ p, (a.cell n).parent = some p →
          p < a.size ∧ ((buildLevel H a (x :: y :: rest)).1.cell n).parent = some p := by
        intro n hn p hp
        refine ⟨(F.parent_child n hn p hp).1, ?_⟩
        rw [hA n hn, hp]
        intro hin
        have := (F.parentless_iff n hn).2 hin
        rw [hp] at this
        cases this
      obtain ⟨hc3, _⟩ := Arena.climb_congr a _ a.size hkeep k n c hn hc2
      obtain ⟨p, hp1, hp2⟩ := hB c hc1
      have hstep : (buildLevel H a (x :: y :: rest)).1.climb (k + 1) n = some p := by
        rw [Arena.climb_succ, hc3]
        exact hp2
      have := ih (buildLevel H a (x :: y :: rest)).1 (buildLevel H a (x :: y :: rest)).2
        (by simpa using F1) hne1 a1 r hrun (k + 1) n (by omega) ⟨p, hp1, hstep⟩
      rw [hlen1] at this
      have h2 : 2 ≤ (x :: y :: rest).length := by
        simp only [List.length_cons]
        omega
      rw [clog_level _ h2, ← Nat.add_assoc, Nat.add_right_comm]
      exact this

end MerkleTree

namespace MerkleTree

theorem flatProof_length (ps : List (String × String)) :
    (flatProof ps).length = 2 * ps.length := by
  induction ps with
  | nil => rfl
  | cons q ps ih =>
    obtain ⟨s, d⟩ := q
    simp only [flatProof, List.length_cons, ih]
    omega

/-- In a well-formed arena, the walk of `generateProof` from a node that lies `k` parent
steps below the root emits exactly `k` pairs of a sibling hash and a side tag. -/
theorem proofLoop_length (H : String → String) (a : Arena) (bound root : Nat)
    (wf : a.WellFormedUpTo H bound root) :
    ∀ (k fuel n : Nat) (p : List String), n < bound → a.climb k n = some root →
      proofLoop a (some root) fuel n = .ok p →
      ∃ ps : List (String × String), p = flatProof ps ∧ ps.length = k ∧
        ∀ q, q ∈ ps → q.2 = "l" ∨ q.2 = "r" := by
  intro k
  induction k with
  | zero =>
    intro fuel n p hn hclimb hrun
    simp only [Arena.climb, Option.some.injEq] at hclimb
    subst hclimb
    cases fuel with
    | zero => simp [proofLoop] at hrun
    | succ fuel =>
      simp only [proofLoop, if_true, Except.ok.injEq] at hrun
      subst hrun
      exact ⟨[], rfl, rfl, fun q hq => by cases hq⟩
  | succ k ih =>
    intro fuel n p hn hclimb hrun
    rw [Arena.climb] at hclimb
    cases hp : (a.cell n).parent with
    | none => rw [hp] at hclimb; cases hclimb
    | some q =>
      rw [hp] at hclimb
      simp only at hclimb
      have hroot : n ≠ root := by
        intro e
        rw [e, wf.root_parent] at hp
        cases hp
      have hne : ¬ (some n = some root) := by simpa using hroot
      obtain ⟨hq, _⟩ := wf.parent_child n hn q hp
      cases fuel with
      | zero => simp [proofLoop] at hrun
      | succ fuel =>
        rw [proofLoop, if_neg hne, hp] at hrun
        simp only at hrun
        split at hrun
        · split at hrun
          · cases hrun
          · rename_i r hr
            split at hrun
            · cases hrun
            · rename_i rest hrest
              obtain ⟨ps, hps, hlen, htags⟩ := ih fuel q rest hq hclimb hrest
              simp only [Except.ok.injEq] at hrun
              subst hrun
              refine ⟨((a.cell r).hash, "r") :: ps, by rw [hps]; rfl, by simp [hlen], ?_⟩
              intro q1 hq1
              rcases List.mem_cons.1 hq1 with h | h
              · subst h; exact Or.inr rfl
              · exact htags q1 h
        · split at hrun
          · cases hrun
          · rename_i l hl
            split at hrun
            · cases hrun
            · rename_i rest hrest
              obtain ⟨ps, hps, hlen, htags⟩ := ih fuel q rest hq hclimb hrest
              simp only [Except.ok.injEq] at hrun
              subst hrun
              refine ⟨((a.cell l).hash, "l") :: ps, by rw [hps]; rfl, by simp [hlen], ?_⟩
              intro q1 hq1
              rcases List.mem_cons.1 hq1 with h | h
              · subst h; exact Or.inl rfl
              · exact htags q1 h

end MerkleTree

/-- C16: in a tree built by `buildTreeFromReviews` from `n` records (`n ≥ 1`, as the build
returned), for every identifier in the index `generateProof` returns the flat vector of
exactly `⌈log2 n⌉` (siblingHash, side) pairs, hence `2 * ⌈log2 n⌉` strings, every side tag
is `"l"` or `"r"`, and the pairs are ordered from the leaf to the root: folding the sibling
hashes in this order from the hash of the leaf's encoding gives the root hash. -/
theorem MerkleTree.batch_proof_length (H : String → String) (t0 t : MerkleTree)
    (data ids : List String) (h : MerkleTree.buildTreeFromReviews H t0 data ids = .ok t)
    (id : String) (hid : t.contains id = true) :
    1 ≤ data.length ∧
    ∃ ps : List (String × String),
      t.generateProof id = .ok (MerkleTree.flatProof ps) ∧
      ps.length = Nat.clog 2 data.length ∧
      (MerkleTree.flatProof ps).length = 2 * Nat.clog 2 data.length ∧
      (∀ q, q ∈ ps → q.2 = "l" ∨ q.2 = "r") ∧
      ∃ l e, MerkleTree.mapFind t.leafMap id = some l ∧ data[l]? = some e ∧
        MerkleTree.referenceFold H (H e) (ps.map Prod.fst) = t.getRootHash := by
  obtain ⟨a, m, lv, r, hlen, hadd, st, hne, hrun, hroot, hmap⟩ :=
    MerkleTree.buildTreeFromReviews_parts H t0 t data ids h
  obtain ⟨hdne, _, _, _, _, hhash⟩ := MerkleTree.buildTreeFromReviews_spec H t0 t data ids h
  have F := MerkleTree.forest_of_leavesState H a m lv data st
  obtain ⟨F1, hsz, _⟩ := MerkleTree.buildLoop_run H a t.arena lv r F hne hrun
  have wf := MerkleTree.wellFormed_of_forest H t.arena r F1
  obtain ⟨l, hl⟩ : ∃ l, MerkleTree.mapFind t.leafMap id = some l := by
    have : (MerkleTree.mapFind t.leafMap id).isSome = true := hid
    exact Option.isSome_iff_exists.1 this
  have hla : l < a.size := st.find_lt id l (by rw [← hmap]; exact hl)
  have hld : l < data.length := by rw [st.size_eq]; exact hla
  have hlvlen : lv.length = data.length := by
    rw [st.leaves_eq, List.length_range, st.size_eq]
  have hdepth := MerkleTree.buildLoop_depth H lv.length a lv F hne t.arena r hrun 0 l hla
    ⟨l, by rw [st.leaves_eq]; exact List.mem_range.2 hla, rfl⟩
  rw [Nat.zero_add, hlvlen] at hdepth
  obtain ⟨rank, hrank⟩ := wf.ranked
  have hlt : l < t.arena.size := by omega
  obtain ⟨p, hp, hfold, _⟩ := MerkleTree.proofLoop_sound H t.arena t.arena.size r wf rank
    hrank t.arena.size l hlt (hrank l hlt).1
  obtain ⟨ps, hps, hpslen, htags⟩ := MerkleTree.proofLoop_length H t.arena t.arena.size r wf
    (Nat.clog 2 data.length) t.arena.size l p hlt hdepth hp
  subst hps
  refine ⟨?_, ps, ?_, hpslen, by rw [MerkleTree.flatProof_length, hpslen], htags, l, data[l],
    hl, List.getElem?_eq_getElem hld, ?_⟩
  · have : 0 < data.length := List.length_pos.2 hdne
    omega
  · simp only [MerkleTree.generateProof, hl, hroot]
    exact hp
  · rw [← MerkleTree.verifyLoop_flatProof,
      ← hhash l data[l] (List.getElem?_eq_getElem hld), hfold]
    simp [MerkleTree.getRootHash, hroot]

set_option maxRecDepth 100000 in
/-- Witness for C16: the tree over three records with identifiers `[a, a, a]`, queried for
`a_dup2`; the proof has `⌈log2 3⌉ = 2` pairs, that is four strings. -/
theorem MerkleTree.batch_proof_length_witness :
    MerkleTree.buildTreeFromReviews bracketHash MerkleTree.new ["p", "q", "r"]
      ["a", "a", "a"] = .ok MerkleTree.exampleTreeDup ∧
    MerkleTree.exampleTreeDup.contains "a_dup2" = true ∧
    Nat.clog 2 ["p", "q", "r"].length = 2 ∧
    MerkleTree.exampleTreeDup.generateProof "a_dup2" =
      .ok ["<r>", "r", "<<p><q>>", "l"] ∧
    1 ≤ ["p", "q", "r"].length ∧
    ∃ ps : List (String × String),
      MerkleTree.exampleTreeDup.generateProof "a_dup2" = .ok (MerkleTree.flatProof ps) ∧
      ps.length = Nat.clog 2 ["p", "q", "r"].length ∧
      (MerkleTree.flatProof ps).length = 2 * Nat.clog 2 ["p", "q", "r"].length ∧
      (∀ q, q ∈ ps → q.2 = "l" ∨ q.2 = "r") ∧
      ∃ l e, MerkleTree.mapFind MerkleTree.exampleTreeDup.leafMap "a_dup2" = some l ∧
        ["p", "q", "r"][l]? = some e ∧
        MerkleTree.referenceFold bracketHash (bracketHash e) (ps.map Prod.fst) =
          MerkleTree.exampleTreeDup.getRootHash :=
  ⟨rfl, by decide, by simp [Nat.clog], rfl,
    MerkleTree.batch_proof_length bracketHash MerkleTree.new MerkleTree.exampleTreeDup
      ["p", "q", "r"] ["a", "a", "a"] rfl "a_dup2" (by decide)⟩

namespace MerkleTree

/-- A tree produced by the operations that has no root has an empty index and no nodes. -/
theorem produced_rootless (H : String → String) (t : MerkleTree)
    (recs : List (String × String)) (hp : Produced H t recs) (hroot : t.root = none) :
    t.leafMap = [] ∧ t.arena.size = 0 ∧ recs = [] := by
  obtain ⟨h1, h2, h3⟩ := (produced_invariant H t recs hp).rootless hroot
  exact ⟨h2, h1, h3⟩

end MerkleTree

/-! ## The root store -/

namespace IntegrityVerifier

/-- After a sequence of `storeRootHash` calls, the root stored under a label is the one
most recently stored under it, or the one stored before the calls if there is none. -/
theorem storeAll_find : ∀ (calls : List (String × String)) (v : IntegrityVerifier)
    (label : String),
    MerkleTree.mapFind (storeAll v calls).storedRoots label =
      match lastStored calls label with
      | some h => some h
      | none => MerkleTree.mapFind v.storedRoots label := by
  intro calls
  induction calls with
  | nil => intro v label; rfl
  | cons call rest ih =>
    intro v label
    obtain ⟨name, hash⟩ := call
    simp only [storeAll, lastStored]
    rw [ih]
    cases hrest : lastStored rest label with
    | some h => rfl
    | none =>
      simp only [storeRootHash]
      by_cases hempty : name = "" ∨ hash = ""
      · rw [if_pos hempty]
        have : ¬ (name = label ∧ name ≠ "" ∧ hash ≠ "") := by
          rintro ⟨_, h1, h2⟩
          rcases hempty with h | h
          · exact h1 h
          · exact h2 h
        rw [if_neg this]
      · rw [if_neg hempty]
        simp only [MerkleTree.mapFind_mapSet]
        have hne : name ≠ "" ∧ hash ≠ "" := by
          constructor
          · exact fun h => hempty (Or.inl h)
          · exact fun h => hempty (Or.inr h)
        by_cases hl : label = name
        · subst hl
          rw [if_pos rfl, if_pos ⟨rfl, hne⟩]
        · rw [if_neg hl, if_neg (fun h => hl h.1.symm)]

end IntegrityVerifier

/-- C25: for every non-empty candidate root `c`, `compareWithStored(label, c)` returns the
`NOT_FOUND` message when no root is stored under `label`, and otherwise the
`INTEGRITY_VERIFIED` message if `c` equals the stored root and the `INTEGRITY_VIOLATED`
message if it differs; and after any sequence of `storeRootHash` calls on a new verifier
the stored root is the one most recently stored under `label` (last write wins). -/
theorem IntegrityVerifier.compareWithStored_against_store (v : IntegrityVerifier)
    (calls : List (String × String)) (label c : String) (hc : c ≠ "") :
    (v.compareWithStored label c =
      match MerkleTree.mapFind v.storedRoots label with
      | none => "NOT_FOUND: No stored root hash for dataset: " ++ label
      | some stored =>
        if c = stored then "INTEGRITY_VERIFIED: Dataset integrity confirmed"
        else "INTEGRITY_VIOLATED: Dataset has been tampered with") ∧
    MerkleTree.mapFind (IntegrityVerifier.storeAll IntegrityVerifier.new calls).storedRoots
      label = IntegrityVerifier.lastStored calls label ∧
    (IntegrityVerifier.storeAll IntegrityVerifier.new calls).compareWithStored label c =
      match IntegrityVerifier.lastStored calls label with
      | none => "NOT_FOUND: No stored root hash for dataset: " ++ label
      | some stored =>
        if c = stored then "INTEGRITY_VERIFIED: Dataset integrity confirmed"
        else "INTEGRITY_VIOLATED: Dataset has been tampered with" := by
  have hgen : ∀ w : IntegrityVerifier, w.compareWithStored label c =
      match MerkleTree.mapFind w.storedRoots label with
      | none => "NOT_FOUND: No stored root hash for dataset: " ++ label
      | some stored =>
        if c = stored then "INTEGRITY_VERIFIED: Dataset integrity confirmed"
        else "INTEGRITY_VIOLATED: Dataset has been tampered with" := by
    intro w
    unfold IntegrityVerifier.compareWithStored
    cases MerkleTree.mapFind w.storedRoots label with
    | none => rfl
    | some stored => simp only [if_neg hc]
  have hfind : MerkleTree.mapFind
      (IntegrityVerifier.storeAll IntegrityVerifier.new calls).storedRoots label =
      IntegrityVerifier.lastStored calls label := by
    rw [IntegrityVerifier.storeAll_find]
    cases IntegrityVerifier.lastStored calls label <;> rfl
  refine ⟨hgen v, hfind, ?_⟩
  rw [hgen, hfind]

/-- Witness for C25: two roots stored under `"ds"`; the second one verifies and the first
one does not, and nothing is found under `"other"`. -/
theorem IntegrityVerifier.compareWithStored_against_store_witness :
    ("r2" : String) ≠ "" ∧
    IntegrityVerifier.lastStored [("ds", "r1"), ("ds", "r2")] "ds" = some "r2" ∧
    (IntegrityVerifier.storeAll IntegrityVerifier.new
      [("ds", "r1"), ("ds", "r2")]).compareWithStored "ds" "r1" =
      "INTEGRITY_VIOLATED: Dataset has been tampered with" ∧
    (IntegrityVerifier.storeAll IntegrityVerifier.new
      [("ds", "r1"), ("ds", "r2")]).compareWithStored "other" "r2" =
      "NOT_FOUND: No stored root hash for dataset: other" ∧
    (IntegrityVerifier.storeAll IntegrityVerifier.new
      [("ds", "r1"), ("ds", "r2")]).compareWithStored "ds" "r2" =
      match IntegrityVerifier.lastStored [("ds", "r1"), ("ds", "r2")] "ds" with
      | none => "NOT_FOUND: No stored root hash for dataset: " ++ "ds"
      | some stored =>
        if "r2" = stored then "INTEGRITY_VERIFIED: Dataset integrity confirmed"
        else "INTEGRITY_VIOLATED: Dataset has been tampered with" :=
  ⟨by decide, by decide, by decide, by decide,
    (IntegrityVerifier.compareWithStored_against_store IntegrityVerifier.new
      [("ds", "r1"), ("ds", "r2")] "ds" "r2" (by decide)).2.2⟩

/-- C26: for every non-empty label and non-empty root, `storeRootHash(label, root)`
returns true, and `compareWithStored(label)` called right after it without a candidate
returns the `INTEGRITY_VERIFIED` message. -/
theorem IntegrityVerifier.store_then_compare_verified (v : IntegrityVerifier)
    (label root : String) (hl : label ≠ "") (hr : root ≠ "") :
    (v.storeRootHash label root).2 = true ∧
    (v.storeRootHash label root).1.compareWithStored label "" =
      "INTEGRITY_VERIFIED: Dataset integrity confirmed" := by
  have hne : ¬ (label = "" ∨ root = "") := by
    rintro (h | h)
    · exact hl h
    · exact hr h
  unfold IntegrityVerifier.storeRootHash
  rw [if_neg hne]
  refine ⟨rfl, ?_⟩
  simp [IntegrityVerifier.compareWithStored, MerkleTree.mapFind_mapSet, hr]

/-- Witness for C26: storing under `"test_dataset"` on a new verifier. -/
theorem IntegrityVerifier.store_then_compare_verified_witness :
    ("test_dataset" : String) ≠ "" ∧ ("<a>" : String) ≠ "" ∧
    (IntegrityVerifier.new.storeRootHash "test_dataset" "<a>").2 = true ∧
    (IntegrityVerifier.new.storeRootHash "test_dataset" "<a>").1.compareWithStored
      "test_dataset" "" = "INTEGRITY_VERIFIED: Dataset integrity confirmed" :=
  ⟨by decide, by decide,
    IntegrityVerifier.store_then_compare_verified IntegrityVerifier.new "test_dataset" "<a>"
      (by decide) (by decide)⟩

/-- C27 (counterexample): after `storeRootHash("ds", "r")` the label `"ds"` has a stored
root, and `compareWithStored("ds", "")` with an empty candidate returns the
`INTEGRITY_VERIFIED` message, not an error. -/
theorem IntegrityVerifier.empty_candidate_is_verified :
    MerkleTree.mapFind (IntegrityVerifier.new.storeRootHash "ds" "r").1.storedRoots "ds" =
      some "r" ∧
    (IntegrityVerifier.new.storeRootHash "ds" "r").1.compareWithStored "ds" "" =
      "INTEGRITY_VERIFIED: Dataset integrity confirmed" := by
  decide

/-- C27 (as amended): for every state and every label that has a stored root,
`compareWithStored(label, "")` with an empty candidate compares the current root, that
is the root of the last successful `storeRootHash`, instead of the candidate; it returns
the `ERROR` message exactly when that current root is empty as well. -/
theorem IntegrityVerifier.empty_candidate_uses_current_root (v : IntegrityVerifier)
    (label stored : String) (h : MerkleTree.mapFind v.storedRoots label = some stored) :
    v.compareWithStored label "" =
      (if v.currentRoot = "" then "ERROR: No current root hash set"
       else if v.currentRoot = stored then "INTEGRITY_VERIFIED: Dataset integrity confirmed"
       else "INTEGRITY_VIOLATED: Dataset has been tampered with") ∧
    (v.compareWithStored label "" = "ERROR: No current root hash set" ↔ v.currentRoot = "") := by
  have heq : v.compareWithStored label "" =
      (if v.currentRoot = "" then "ERROR: No current root hash set"
       else if v.currentRoot = stored then "INTEGRITY_VERIFIED: Dataset integrity confirmed"
       else "INTEGRITY_VIOLATED: Dataset has been tampered with") := by
    simp [IntegrityVerifier.compareWithStored, h]
  refine ⟨heq, ?_⟩
  rw [heq]
  by_cases h1 : v.currentRoot = ""
  · simp [h1]
  · by_cases h2 : v.currentRoot = stored
    · simp only [if_neg h1, if_pos h2, h1, iff_false]
      decide
    · simp only [if_neg h1, if_neg h2, h1, iff_false]
      decide

/-- Witness for C27 (as amended): a new verifier that loaded the log `ds|r|1` has a root
stored under `"ds"` and no current root, so the empty candidate gives the error. -/
theorem IntegrityVerifier.empty_candidate_uses_current_root_witness :
    MerkleTree.mapFind
      (IntegrityVerifier.new.loadRootsFromFile (some "ds|r|1\n")).1.storedRoots "ds" =
      some "r" ∧
    (IntegrityVerifier.new.loadRootsFromFile (some "ds|r|1\n")).1.compareWithStored "ds" "" =
      "ERROR: No current root hash set" ∧
    (IntegrityVerifier.new.loadRootsFromFile (some "ds|r|1\n")).1.compareWithStored "ds" "" =
      (if (IntegrityVerifier.new.loadRootsFromFile (some "ds|r|1\n")).1.currentRoot = "" then
        "ERROR: No current root hash set"
       else if (IntegrityVerifier.new.loadRootsFromFile (some "ds|r|1\n")).1.currentRoot = "r"
        then "INTEGRITY_VERIFIED: Dataset integrity confirmed"
       else "INTEGRITY_VIOLATED: Dataset has been tampered with") :=
  ⟨by decide, by decide,
    (IntegrityVerifier.empty_candidate_uses_current_root
      (IntegrityVerifier.new.loadRootsFromFile (some "ds|r|1\n")).1 "ds" "r" (by decide)).1⟩

/-- C28: `compareRoots(a, b)` returns the `ERROR` message exactly when `a` or `b` is
empty, otherwise the `ROOTS_MATCH` message exactly when `a = b` and the `ROOTS_DIFFER`
message otherwise. It is a function of `a` and `b` alone, and it is symmetric. -/
theorem IntegrityVerifier.compareRoots_spec (a b : String) :
    (IntegrityVerifier.compareRoots a b = "ERROR: One or both root hashes are empty" ↔
      (a = "" ∨ b = "")) ∧
    (IntegrityVerifier.compareRoots a b = "ROOTS_MATCH: Datasets are identical" ↔
      (a ≠ "" ∧ b ≠ "" ∧ a = b)) ∧
    (IntegrityVerifier.compareRoots a b = "ROOTS_DIFFER: Datasets are different" ↔
      (a ≠ "" ∧ b ≠ "" ∧ a ≠ b)) ∧
    IntegrityVerifier.compareRoots a b = IntegrityVerifier.compareRoots b a := by
  unfold IntegrityVerifier.compareRoots
  by_cases ha : a = ""
  · subst ha
    simp
  · by_cases hb : b = ""
    · subst hb
      simp
    · by_cases hab : a = b
      · subst hab
        simp only [ha, or_self, if_false, if_true, ne_eq, not_false_eq_true, true_and,
          and_self, not_true_eq_false, and_false, iff_true, iff_false]
        decide
      · have hba : ¬ b = a := fun h => hab h.symm
        simp only [ha, hb, or_self, if_false, hab, hba, ne_eq, not_false_eq_true, and_self,
          and_false, iff_true, iff_false]
        decide

/-! ## The root log -/

namespace IntegrityVerifier

theorem findIn_none (c : Char) : ∀ (xs : List Char), c ∉ xs → findIn c xs = none := by
  intro xs
  induction xs with
  | nil => intro _; rfl
  | cons x xs ih =>
    intro h
    simp only [List.mem_cons, not_or] at h
    have hx : ¬ x = c := fun e => h.1 e.symm
    simp [findIn, hx, ih h.2]

theorem findIn_append (c : Char) : ∀ (a b : List Char), c ∉ a →
    findIn c (a ++ c :: b) = some a.length := by
  intro a
  induction a with
  | nil => intro b _; simp [findIn]
  | cons x a ih =>
    intro b h
    simp only [List.mem_cons, not_or] at h
    have hx : ¬ x = c := fun e => h.1 e.symm
    simp [findIn, hx, ih b h.2]

/-- A sequence that contains `c` splits at the first `c`. -/
theorem first_split (c : Char) : ∀ (xs : List Char), c ∈ xs →
    ∃ a b, xs = a ++ c :: b ∧ c ∉ a := by
  intro xs
  induction xs with
  | nil => intro h; cases h
  | cons x xs ih =>
    intro h
    by_cases hx : x = c
    · exact ⟨[], xs, by simp [hx], by simp⟩
    · have hmem : c ∈ xs := by
        rcases List.mem_cons.1 h with h1 | h1
        · exact absurd h1.symm hx
        · exact h1
      obtain ⟨a, b, hab, hca⟩ := ih hmem
      refine ⟨x :: a, b, by simp [hab], ?_⟩
      simp only [List.mem_cons, not_or]
      exact ⟨fun e => hx e.symm, hca⟩

theorem logFields_ne_nil : ∀ (xs : List Char), logFields xs ≠ [] := by
  intro xs
  induction xs with
  | nil => simp [logFields]
  | cons x xs ih =>
    simp only [logFields]
    split
    · simp
    · split <;> simp

theorem logFields_plain : ∀ (a : List Char), '|' ∉ a → logFields a = [a] := by
  intro a
  induction a with
  | nil => intro _; rfl
  | cons x a ih =>
    intro h
    simp only [List.mem_cons, not_or] at h
    have hx : ¬ x = '|' := fun e => h.1 e.symm
    simp [logFields, hx, ih h.2]

theorem logFields_append : ∀ (a b : List Char), '|' ∉ a →
    logFields (a ++ '|' :: b) = a :: logFields b := by
  intro a
  induction a with
  | nil => intro b _; simp [logFields]
  | cons x a ih =>
    intro b h
    simp only [List.mem_cons, not_or] at h
    have hx : ¬ x = '|' := fun e => h.1 e.symm
    simp [logFields, hx, ih b h.2]

/-- A line made of a name and a hash without separators, each followed by a separator, and
any rest, is parsed by the loop body to that name and hash. -/
theorem parseLine_fields (name hash rest : List Char) (hn : '|' ∉ name) (hh : '|' ∉ hash) :
    parseLine (String.mk (name ++ '|' :: (hash ++ '|' :: rest))) =
      some (String.mk name, String.mk hash) := by
  have h1 : strFind (String.mk (name ++ '|' :: (hash ++ '|' :: rest))) '|' 0 =
      some name.length := by
    simp [strFind, findIn_append '|' name _ hn]
  have hdrop : (name ++ '|' :: (hash ++ '|' :: rest)).drop (name.length + 1) =
      hash ++ '|' :: rest := by
    rw [List.drop_append_eq_append_drop]
    simp
  have h2 : strFind (String.mk (name ++ '|' :: (hash ++ '|' :: rest))) '|' (name.length + 1) =
      some (name.length + 1 + hash.length) := by
    simp only [strFind, String.toList, hdrop, findIn_append '|' hash _ hh, Option.map_some']
  have hsub : name.length + 1 + hash.length - name.length - 1 = hash.length := by omega
  have e1 : strSubstr (String.mk (name ++ '|' :: (hash ++ '|' :: rest))) 0 name.length =
      String.mk name := by
    simp [strSubstr]
  have e2 : strSubstr (String.mk (name ++ '|' :: (hash ++ '|' :: rest))) (name.length + 1)
      (name.length + 1 + hash.length - name.length - 1) = String.mk hash := by
    rw [hsub]
    simp only [strSubstr, String.toList, hdrop]
    simp
  simp only [parseLine, h1, h2, e1, e2]

/-- The loop body of `loadRootsFromFile` reads a line as the specification does. -/
theorem parseLine_eq_entryOf (line : String) : parseLine line = entryOf line := by
  obtain ⟨cs⟩ := line
  by_cases h1 : '|' ∈ cs
  · obtain ⟨name, rest1, hsplit1, hn⟩ := first_split '|' cs h1
    subst hsplit1
    by_cases h2 : '|' ∈ rest1
    · obtain ⟨hash, rest2, hsplit2, hh⟩ := first_split '|' rest1 h2
      subst hsplit2
      rw [parseLine_fields name hash rest2 hn hh]
      simp only [entryOf, String.toList, logFields_append name _ hn,
        logFields_append hash _ hh]
      cases hf : logFields rest2 with
      | nil => exact absurd hf (logFields_ne_nil rest2)
      | cons f fs => rfl
    · have hp1 : strFind (String.mk (name ++ '|' :: rest1)) '|' 0 = some name.length := by
        simp [strFind, findIn_append '|' name _ hn]
      have hp2 : strFind (String.mk (name ++ '|' :: rest1)) '|' (name.length + 1) = none := by
        have hdrop : (name ++ '|' :: rest1).drop (name.length + 1) = rest1 := by
          rw [List.drop_append_eq_append_drop]
          simp
        simp only [strFind, String.toList, hdrop, findIn_none '|' rest1 h2, Option.map_none']
      simp only [parseLine, hp1, hp2, entryOf, String.toList, logFields_append name _ hn,
        logFields_plain rest1 h2]
  · have hp1 : strFind (String.mk cs) '|' 0 = none := by
      simp [strFind, findIn_none '|' cs h1]
    simp only [parseLine, hp1, entryOf, String.toList, logFields_plain cs h1]

/-- After the loading loop, the root stored under a label is the one of the last line
with an entry for it, or the one stored before the loop if there is no such line. -/
theorem loadLoop_find : ∀ (lines : List String) (m : List (String × String))
    (label : String),
    MerkleTree.mapFind (loadLoop m lines) label =
      match lastEntry lines label with
      | some h => some h
      | none => MerkleTree.mapFind m label := by
  intro lines
  induction lines with
  | nil => intro m label; rfl
  | cons line rest ih =>
    intro m label
    simp only [loadLoop, lastEntry]
    rw [parseLine_eq_entryOf]
    cases hentry : entryOf line with
    | none =>
      simp only
      rw [ih]
      cases lastEntry rest label <;> rfl
    | some entry =>
      obtain ⟨name, hash⟩ := entry
      simp only
      rw [ih]
      cases lastEntry rest label with
      | some h => rfl
      | none =>
        simp only [MerkleTree.mapFind_mapSet]
        by_cases hl : label = name
        · subst hl; simp
        · rw [if_neg hl, if_neg (fun e => hl e.symm)]

end IntegrityVerifier

namespace IntegrityVerifier

theorem digitChar_ne_lf (d : Nat) (hd : d < 10) : Nat.digitChar d ≠ '\n' := by
  interval_cases d <;> decide

theorem toDigitsCore_no_lf (fuel : Nat) : ∀ (n : Nat) (ds : List Char), '\n' ∉ ds →
    '\n' ∉ Nat.toDigitsCore 10 fuel n ds := by
  induction fuel with
  | zero => intro n ds h; simpa [Nat.toDigitsCore] using h
  | succ fuel ih =>
    intro n ds h
    have hcons : '\n' ∉ Nat.digitChar (n % 10) :: ds := by
      simp only [List.mem_cons, not_or]
      exact ⟨fun e => digitChar_ne_lf _ (Nat.mod_lt _ (by omega)) e.symm, h⟩
    simp only [Nat.toDigitsCore]
    split
    · exact hcons
    · exact ih _ _ hcons

/-- The decimal text of a number has no line feed. -/
theorem natRepr_no_lf (n : Nat) : '\n' ∉ (toString n : String).toList := by
  have : (toString n : String).toList = Nat.toDigits 10 n := rfl
  rw [this]
  exact toDigitsCore_no_lf _ _ _ (by simp)

theorem readLines_line : ∀ (line cur rest : List Char), '\n' ∉ line →
    readLines cur (line ++ '\n' :: rest) = String.mk (cur ++ line) :: readLines [] rest := by
  intro line
  induction line with
  | nil => intro cur rest _; simp [readLines]
  | cons x line ih =>
    intro cur rest h
    simp only [List.mem_cons, not_or] at h
    have hx : ¬ x = '\n' := fun e => h.1 e.symm
    have hstep : readLines cur (x :: (line ++ '\n' :: rest)) =
        readLines (cur ++ [x]) (line ++ '\n' :: rest) := by
      rw [readLines, if_neg hx]
    rw [List.cons_append, hstep, ih _ _ h.2]
    simp

/-- Reading a text made of lines without line feeds gives back the lines. -/
theorem getlines_logText : ∀ (lines : List String), (∀ l, l ∈ lines → '\n' ∉ l.toList) →
    getlines (logText lines) = lines := by
  intro lines
  induction lines with
  | nil => intro _; rfl
  | cons line rest ih =>
    intro h
    have hline := h line (by simp)
    have hrest := ih (fun l hl => h l (by simp [hl]))
    unfold getlines at hrest ⊢
    have : (logText (line :: rest)).toList = line.toList ++ '\n' :: (logText rest).toList := by
      simp [logText, String.toList]
    rw [this, readLines_line _ _ _ hline, hrest]
    rfl

theorem logText_append (lines : List String) (line : String) :
    logText (lines ++ [line]) = logText lines ++ line ++ "\n" := by
  induction lines with
  | nil => simp [logText]
  | cons l rest ih =>
    have hstep : logText (l :: rest ++ [line]) = l ++ "\n" ++ logText (rest ++ [line]) := rfl
    rw [hstep, ih]
    simp [logText, String.append_assoc]

theorem lastEntry_append_entry (lines : List String) (line label hash : String)
    (h : entryOf line = some (label, hash)) : lastEntry (lines ++ [line]) label = some hash := by
  induction lines with
  | nil => simp [lastEntry, h]
  | cons l rest ih => simp [lastEntry, ih]

theorem logFields_length : ∀ (xs : List Char), (logFields xs).length = xs.count '|' + 1 := by
  intro xs
  induction xs with
  | nil => rfl
  | cons x xs ih =>
    by_cases hx : x = '|'
    · subst hx
      simp [logFields, ih]
    · have hx2 : ¬ (x == '|') = true := by simpa using hx
      simp only [logFields, if_neg hx]
      cases hf : logFields xs with
      | nil => exact absurd hf (logFields_ne_nil xs)
      | cons f fs =>
        rw [hf] at ih
        simp only [List.length_cons] at ih ⊢
        rw [List.count_cons, if_neg hx2]
        omega

/-- A line has an entry exactly when it has at least two separators. -/
theorem entryOf_isSome_iff (line : String) :
    (entryOf line).isSome = true ↔ 2 ≤ line.toList.count '|' := by
  have hlen := logFields_length line.toList
  unfold entryOf
  cases hf : logFields line.toList with
  | nil => exact absurd hf (logFields_ne_nil _)
  | cons f1 fs1 =>
    cases fs1 with
    | nil =>
      rw [hf] at hlen
      simp only [List.length_cons, List.length_nil] at hlen
      simp only [Option.isSome_none, Bool.false_eq_true, false_iff]
      omega
    | cons f2 fs2 =>
      cases fs2 with
      | nil =>
        rw [hf] at hlen
        simp only [List.length_cons, List.length_nil] at hlen
        simp only [Option.isSome_none, Bool.false_eq_true, false_iff]
        omega
      | cons f3 fs3 =>
        rw [hf] at hlen
        simp only [List.length_cons] at hlen
        simp only [Option.isSome_some, true_iff]
        omega

end IntegrityVerifier

namespace IntegrityVerifier

theorem rootLine_toList (label root : String) (now : Nat) :
    rootLine label root now =
      String.mk (label.toList ++ '|' :: (root.toList ++ '|' :: (toString now : String).toList)) := by
  apply String.ext
  simp [rootLine, String.toList, String.data_append]

theorem rootLine_no_lf (label root : String) (now : Nat) (hl : '\n' ∉ label.toList)
    (hr : '\n' ∉ root.toList) : '\n' ∉ (rootLine label root now).toList := by
  rw [rootLine_toList]
  have hn := natRepr_no_lf now
  simp only [String.toList, List.mem_append, List.mem_cons, not_or] at hl hr hn ⊢
  exact ⟨hl, by decide, hr, by decide, hn⟩

end IntegrityVerifier

/-- C29: after `loadRootsFromFile` on a text, the root stored under a label is the root
hash field of the last line read that has an entry for the label, whatever was stored
before the load, and a label without such a line is absent. The loop body reads a line as
the specification does: a line has an entry exactly when it has at least two separators,
its label is the text before the first one and its root hash the text between the first
and the second. For a file made of the given lines the lines read are those lines. -/
theorem IntegrityVerifier.reload_keeps_last_entry (v : IntegrityVerifier)
    (lines : List String) (label : String)
    (hlines : ∀ l, l ∈ lines → '\n' ∉ l.toList) :
    (v.loadRootsFromFile (some (IntegrityVerifier.logText lines))).2 = true ∧
    IntegrityVerifier.getlines (IntegrityVerifier.logText lines) = lines ∧
    MerkleTree.mapFind
      (v.loadRootsFromFile (some (IntegrityVerifier.logText lines))).1.storedRoots label =
      IntegrityVerifier.lastEntry lines label ∧
    (∀ line, IntegrityVerifier.parseLine line = IntegrityVerifier.entryOf line ∧
      ((IntegrityVerifier.parseLine line).isSome = true ↔ 2 ≤ line.toList.count '|')) ∧
    (∀ text, MerkleTree.mapFind (v.loadRootsFromFile (some text)).1.storedRoots label =
      IntegrityVerifier.lastEntry (IntegrityVerifier.getlines text) label) := by
  have htext : ∀ text, MerkleTree.mapFind (v.loadRootsFromFile (some text)).1.storedRoots
      label = IntegrityVerifier.lastEntry (IntegrityVerifier.getlines text) label := by
    intro text
    show MerkleTree.mapFind
      (IntegrityVerifier.loadLoop [] (IntegrityVerifier.getlines text)) label = _
    rw [IntegrityVerifier.loadLoop_find]
    cases IntegrityVerifier.lastEntry (IntegrityVerifier.getlines text) label <;> rfl
  have hget := IntegrityVerifier.getlines_logText lines hlines
  refine ⟨rfl, hget, ?_, fun line => ⟨IntegrityVerifier.parseLine_eq_entryOf line, ?_⟩, htext⟩
  · rw [htext, hget]
  · rw [IntegrityVerifier.parseLine_eq_entryOf]
    exact IntegrityVerifier.entryOf_isSome_iff line

/-- Witness for C29: a log with two entries for `"a"`, a line without separator and a
line with one separator, loaded into a verifier that had a root stored under `"c"`. -/
theorem IntegrityVerifier.reload_keeps_last_entry_witness :
    (∀ l, l ∈ ["a|r1|1", "junk", "b|x|2", "a|r2|3", "a|only"] → '\n' ∉ l.toList) ∧
    IntegrityVerifier.lastEntry ["a|r1|1", "junk", "b|x|2", "a|r2|3", "a|only"] "a" =
      some "r2" ∧
    MerkleTree.mapFind ((IntegrityVerifier.new.storeRootHash "c" "r0").1.loadRootsFromFile
      (some "a|r1|1\njunk\nb|x|2\na|r2|3\na|only\n")).1.storedRoots "c" = none ∧
    IntegrityVerifier.logText ["a|r1|1", "junk", "b|x|2", "a|r2|3", "a|only"] =
      "a|r1|1\njunk\nb|x|2\na|r2|3\na|only\n" ∧
    MerkleTree.mapFind ((IntegrityVerifier.new.storeRootHash "c" "r0").1.loadRootsFromFile
      (some (IntegrityVerifier.logText
        ["a|r1|1", "junk", "b|x|2", "a|r2|3", "a|only"]))).1.storedRoots "a" =
      IntegrityVerifier.lastEntry ["a|r1|1", "junk", "b|x|2", "a|r2|3", "a|only"] "a" :=
  ⟨by decide, by decide, by decide, by decide,
    (IntegrityVerifier.reload_keeps_last_entry (IntegrityVerifier.new.storeRootHash "c" "r0").1
      ["a|r1|1", "junk", "b|x|2", "a|r2|3", "a|only"] "a" (by decide)).2.2.1⟩

/-- C30: for every label and root hash without `'|'`, and every timestamp, the loop body
of `loadRootsFromFile` parses the line written by `saveRootToFile` back to exactly the
label and the root hash; and if they also contain no line feed, appending the line to a
log file and loading the file stores the root hash under the label. -/
theorem IntegrityVerifier.root_log_round_trip (v : IntegrityVerifier) (lines : List String)
    (label root : String) (now : Nat)
    (hl : '|' ∉ label.toList) (hr : '|' ∉ root.toList)
    (hl2 : '\n' ∉ label.toList) (hr2 : '\n' ∉ root.toList)
    (hlines : ∀ l, l ∈ lines → '\n' ∉ l.toList) :
    IntegrityVerifier.parseLine (IntegrityVerifier.rootLine label root now) =
      some (label, root) ∧
    IntegrityVerifier.saveRootToFile (some (IntegrityVerifier.logText lines)) true label root
      now = (some (IntegrityVerifier.logText
        (lines ++ [IntegrityVerifier.rootLine label root now])), true) ∧
    IntegrityVerifier.getlines (IntegrityVerifier.logText
      (lines ++ [IntegrityVerifier.rootLine label root now])) =
      lines ++ [IntegrityVerifier.rootLine label root now] ∧
    MerkleTree.mapFind (v.loadRootsFromFile (IntegrityVerifier.saveRootToFile
      (some (IntegrityVerifier.logText lines)) true label root now).1).1.storedRoots label =
      some root := by
  have hparse : IntegrityVerifier.parseLine (IntegrityVerifier.rootLine label root now) =
      some (label, root) := by
    rw [IntegrityVerifier.rootLine_toList]
    exact IntegrityVerifier.parseLine_fields label.toList root.toList _ hl hr
  have hsave : IntegrityVerifier.saveRootToFile (some (IntegrityVerifier.logText lines)) true
      label root now = (some (IntegrityVerifier.logText
        (lines ++ [IntegrityVerifier.rootLine label root now])), true) := by
    rw [IntegrityVerifier.logText_append]
    simp [IntegrityVerifier.saveRootToFile, String.append_assoc]
  have hall : ∀ l, l ∈ lines ++ [IntegrityVerifier.rootLine label root now] →
      '\n' ∉ l.toList := by
    intro l hmem
    rcases List.mem_append.1 hmem with h | h
    · exact hlines l h
    · rw [List.mem_singleton.1 h]
      exact IntegrityVerifier.rootLine_no_lf label root now hl2 hr2
  have hget := IntegrityVerifier.getlines_logText _ hall
  refine ⟨hparse, hsave, hget, ?_⟩
  rw [hsave]
  show MerkleTree.mapFind (IntegrityVerifier.loadLoop [] (IntegrityVerifier.getlines _)) label
    = some root
  rw [hget, IntegrityVerifier.loadLoop_find, IntegrityVerifier.lastEntry_append_entry lines _
    label root (by rw [← IntegrityVerifier.parseLine_eq_entryOf]; exact hparse)]

/-- Witness for C30: the root `"<a>"` saved under `"test_dataset"` at time 1700000000 to a
log that holds one older line. -/
theorem IntegrityVerifier.root_log_round_trip_witness :
    '|' ∉ ("test_dataset" : String).toList ∧ '|' ∉ ("<a>" : String).toList ∧
    '\n' ∉ ("test_dataset" : String).toList ∧ '\n' ∉ ("<a>" : String).toList ∧
    (∀ l, l ∈ ["test_dataset|<b>|5"] → '\n' ∉ l.toList) ∧
    IntegrityVerifier.rootLine "test_dataset" "<a>" 1700000000 =
      "test_dataset|<a>|1700000000" ∧
    IntegrityVerifier.parseLine (IntegrityVerifier.rootLine "test_dataset" "<a>" 1700000000) =
      some ("test_dataset", "<a>") ∧
    IntegrityVerifier.saveRootToFile (some (IntegrityVerifier.logText ["test_dataset|<b>|5"]))
      true "test_dataset" "<a>" 1700000000 = (some (IntegrityVerifier.logText
        (["test_dataset|<b>|5"] ++
          [IntegrityVerifier.rootLine "test_dataset" "<a>" 1700000000])), true) ∧
    IntegrityVerifier.getlines (IntegrityVerifier.logText
      (["test_dataset|<b>|5"] ++
        [IntegrityVerifier.rootLine "test_dataset" "<a>" 1700000000])) =
      ["test_dataset|<b>|5"] ++
        [IntegrityVerifier.rootLine "test_dataset" "<a>" 1700000000] ∧
    MerkleTree.mapFind (IntegrityVerifier.new.loadRootsFromFile
      (IntegrityVerifier.saveRootToFile
        (some (IntegrityVerifier.logText ["test_dataset|<b>|5"])) true "test_dataset" "<a>"
        1700000000).1).1.storedRoots "test_dataset" = some "<a>" :=
  ⟨by decide, by decide, by decide, by decide, by decide, by decide,
    IntegrityVerifier.root_log_round_trip IntegrityVerifier.new ["test_dataset|<b>|5"]
      "test_dataset" "<a>" 1700000000 (by decide) (by decide) (by decide) (by decide)
      (by decide)⟩

/-! ## The index after an insertion -/

namespace MerkleTree

/-- A successful `addReview` had an identifier that was not in the index, and indexes the
new leaf, which has the address `t.arena.size`, under it. -/
theorem addReview_leafMap (H : String → String) (t t1 : MerkleTree) (e id : String)
    (h : addReview H t e id = .ok t1) :
    mapFind t.leafMap id = none ∧ t1.leafMap = mapSet t.leafMap id t.arena.size := by
  unfold addReview at h
  split at h
  · cases h
  · rename_i hfind
    have hfresh : mapFind t.leafMap id = none := by simpa using hfind
    refine ⟨hfresh, ?_⟩
    cases hroot : t.root with
    | none =>
      rw [hroot] at h
      simp only at h
      cases h
      rfl
    | some r =>
      rw [hroot] at h
      simp only at h
      split at h
      · cases h
      · cases h
        rfl

end MerkleTree

/-- C23: whenever `addReview(e, id)` returns normally, `id` was not in the index before,
`contains(id)` is true afterwards, `getLeafCount()` has grown by exactly 1, and
`contains(x)` is unchanged for every other identifier `x`; and on every tree produced by
the operations, `addReview(e, id)` with an identifier that is not in the index returns
normally. -/
theorem MerkleTree.addReview_index_effect (H : String → String) (t : MerkleTree)
    (recs : List (String × String)) (e id : String) :
    (∀ t1, MerkleTree.addReview H t e id = .ok t1 →
      t.contains id = false ∧ t1.contains id = true ∧
      t1.getLeafCount = t.getLeafCount + 1 ∧
      ∀ x, x ≠ id → t1.contains x = t.contains x) ∧
    (MerkleTree.Produced H t recs → t.contains id = false →
      ∃ t1, MerkleTree.addReview H t e id = .ok t1) := by
  constructor
  · intro t1 h
    obtain ⟨hfresh, hmap⟩ := MerkleTree.addReview_leafMap H t t1 e id h
    refine ⟨by simp [MerkleTree.contains, hfresh], ?_, ?_, ?_⟩
    · simp [MerkleTree.contains, hmap, MerkleTree.mapFind_mapSet]
    · simp only [MerkleTree.getLeafCount, hmap]
      exact MerkleTree.mapSet_length_fresh _ _ _ hfresh
    · intro x hx
      simp [MerkleTree.contains, hmap, MerkleTree.mapFind_mapSet, hx]
  · intro hp hfresh
    exact MerkleTree.addReview_total H t recs e id (MerkleTree.produced_invariant H t recs hp)
      (by simpa [MerkleTree.contains] using hfresh)

/-- Witness for C23: `addReview("c", "z")` on the two-leaf example tree. -/
theorem MerkleTree.addReview_index_effect_witness :
    MerkleTree.addReview bracketHash MerkleTree.exampleTree2 "c" "z" =
      .ok MerkleTree.exampleTree3 ∧
    MerkleTree.Produced bracketHash MerkleTree.exampleTree2
      (MerkleTree.batchRecords MerkleTree.exampleTree2 ["a", "b"]) ∧
    MerkleTree.exampleTree2.contains "z" = false ∧
    MerkleTree.exampleTree3.contains "z" = true ∧
    MerkleTree.exampleTree3.getLeafCount = MerkleTree.exampleTree2.getLeafCount + 1 ∧
    (∀ x, x ≠ "z" → MerkleTree.exampleTree3.contains x = MerkleTree.exampleTree2.contains x) ∧
    ∃ t1, MerkleTree.addReview bracketHash MerkleTree.exampleTree2 "c" "z" = .ok t1 :=
  have hp : MerkleTree.Produced bracketHash MerkleTree.exampleTree2
      (MerkleTree.batchRecords MerkleTree.exampleTree2 ["a", "b"]) :=
    MerkleTree.Produced.batch MerkleTree.new MerkleTree.exampleTree2 ["a", "b"] ["x", "y"] rfl
  have h := MerkleTree.addReview_index_effect bracketHash MerkleTree.exampleTree2
    (MerkleTree.batchRecords MerkleTree.exampleTree2 ["a", "b"]) "c" "z"
  ⟨rfl, hp, (h.1 MerkleTree.exampleTree3 rfl).1, (h.1 MerkleTree.exampleTree3 rfl).2.1,
    (h.1 MerkleTree.exampleTree3 rfl).2.2.1, (h.1 MerkleTree.exampleTree3 rfl).2.2.2,
    h.2 hp (by decide)⟩

set_option maxRecDepth 100000 in
/-- C24: there are four records with distinct identifiers such that the batch build of the
first three followed by `addReview` of the fourth gives another shape than the batch
build of all four: the proof of the first record has 3 (siblingHash, side) pairs in the
incremental tree and `⌈log2 4⌉ = 2` pairs in the batch tree, and both proofs verify. -/
theorem MerkleTree.incremental_shape_differs :
    ∃ (data ids : List String) (e id : String) (t3 tInc tBatch : MerkleTree)
      (pInc pBatch : List String),
      data.length = 3 ∧ (ids ++ [id]).Nodup ∧
      MerkleTree.buildTreeFromReviews bracketHash MerkleTree.new data ids = .ok t3 ∧
      MerkleTree.addReview bracketHash t3 e id = .ok tInc ∧
      MerkleTree.buildTreeFromReviews bracketHash MerkleTree.new (data ++ [e]) (ids ++ [id]) =
        .ok tBatch ∧
      tInc.generateProof "x" = .ok pInc ∧ tBatch.generateProof "x" = .ok pBatch ∧
      ids[0]? = some "x" ∧ data[0]? = some "a" ∧
      pInc.length = 2 * 3 ∧ pBatch.length = 2 * 2 ∧ Nat.clog 2 4 = 2 ∧
      MerkleTree.verifyProof bracketHash "a" pInc tInc.getRootHash = true ∧
      MerkleTree.verifyProof bracketHash "a" pBatch tBatch.getRootHash = true :=
  ⟨["a", "b", "c"], ["x", "y", "z"], "d", "w", MerkleTree.exampleBatch3,
    MerkleTree.exampleIncremental4, MerkleTree.exampleBatch4,
    ["<d>", "r", "<b>", "r", "<<c><c>>", "r"], ["<b>", "r", "<<c><d>>", "r"],
    rfl, by decide, rfl, rfl, rfl, rfl, rfl, rfl, rfl, rfl, rfl,
    by simp [Nat.clog], by decide, by decide⟩

/-! ## Leaves and internal nodes of produced trees -/

namespace MerkleTree

/-- One level pass of `buildTree` keeps the child pointers of the old nodes, and all nodes
it allocates are internal nodes. -/
theorem buildLevel_inner (H : String → String) :
    ∀ (k : Nat) (cur : List Nat), cur.length = k → ∀ (a : Arena),
      (∀ x, x ∈ cur → x < a.size) →
      a.size ≤ (buildLevel H a cur).1.size ∧
      (∀ n, n < a.size →
        ((buildLevel H a cur).1.cell n).left = (a.cell n).left ∧
        ((buildLevel H a cur).1.cell n).right = (a.cell n).right) ∧
      (∀ n, a.size ≤ n → n < (buildLevel H a cur).1.size →
        ¬ (buildLevel H a cur).1.LeafShaped n) ∧
      (∀ p, p ∈ (buildLevel H a cur).2 → p < (buildLevel H a cur).1.size) := by
  intro k
  induction k using Nat.strong_induction_on with
  | _ k ih =>
    intro cur hlen a hlt
    match cur, hlen with
    | [], _ =>
      refine ⟨le_refl _, fun n _ => ⟨rfl, rfl⟩, fun n h1 h2 => ?_, fun p hp => by cases hp⟩
      simp only [buildLevel] at h2
      omega
    | [x], _ =>
      have hxs := hlt x (by simp)
      obtain ⟨hsz, hp, _, _, hfr, _⟩ :=
        Arena.join_cell a (combineHashes H (a.cell x).hash (a.cell x).hash) x x hxs hxs
      rw [buildLevel_single]
      refine ⟨by simp only [hsz]; omega, fun n hn => ?_, fun n h1 h2 => ?_, fun p hpm => ?_⟩
      · exact ⟨(hfr n (by omega)).2.1, (hfr n (by omega)).2.2.1⟩
      · simp only [hsz] at h2
        have hn : n = a.size := by omega
        subst hn
        simp [Arena.LeafShaped, hp, MerkleNode.internalNode]
      · have : p = a.size := by simpa using hpm
        subst this
        simp only [hsz]
        omega
    | x :: y :: rest, hlen =>
      have hxs := hlt x (by simp)
      have hys := hlt y (by simp)
      obtain ⟨hsz, hp, _, _, hfr, _⟩ :=
        Arena.join_cell a (combineHashes H (a.cell x).hash (a.cell y).hash) x y hxs hys
      have hrl : rest.length < k := by simp only [List.length_cons] at hlen; omega
      obtain ⟨h1, h2, h3, h4⟩ := ih rest.length hrl rest rfl
        (a.join (combineHashes H (a.cell x).hash (a.cell y).hash) x y)
        (fun z hz => by rw [hsz]; have := hlt z (by simp [hz]); omega)
      rw [buildLevel_pair]
      dsimp only
      refine ⟨by omega, fun n hn => ?_, fun n hn1 hn2 => ?_, fun p hpm => ?_⟩
      · have := h2 n (by omega)
        exact ⟨this.1.trans (hfr n (by omega)).2.1, this.2.trans (hfr n (by omega)).2.2.1⟩
      · by_cases hn : n = a.size
        · subst hn
          have := (h2 a.size (by omega)).1
          simp only [Arena.LeafShaped, this, hp, MerkleNode.internalNode]
          simp
        · exact h3 n (by omega) hn2
      · rcases List.mem_cons.1 hpm with h | h
        · subst h
          show a.size < _
          omega
        · exact h4 p h

/-- The level loop of `buildTree` keeps the child pointers of the old nodes, and all nodes
it allocates are internal nodes. -/
theorem buildLoop_inner (H : String → String) :
    ∀ (fuel : Nat) (a : Arena) (cur : List Nat), (∀ x, x ∈ cur → x < a.size) →
      ∀ (a1 : Arena) (r : Nat), buildLoop H fuel a cur = .ok (a1, some r) →
      a.size ≤ a1.size ∧
      (∀ n, n < a.size →
        (a1.cell n).left = (a.cell n).left ∧ (a1.cell n).right = (a.cell n).right) ∧
      (∀ n, a.size ≤ n → n < a1.size → ¬ a1.LeafShaped n) := by
  intro fuel
  induction fuel with
  | zero =>
    intro a cur hlt a1 r hrun
    match cur with
    | [] => simp [buildLoop] at hrun
    | [r0] =>
      simp only [buildLoop, Except.ok.injEq, Prod.mk.injEq] at hrun
      obtain ⟨h1, _⟩ := hrun
      subst h1
      exact ⟨le_refl _, fun n _ => ⟨rfl, rfl⟩, fun n h1 h2 => by omega⟩
    | x :: y :: rest => simp [buildLoop] at hrun
  | succ fuel ih =>
    intro a cur hlt a1 r hrun
    match cur with
    | [] => simp [buildLoop] at hrun
    | [r0] =>
      simp only [buildLoop, Except.ok.injEq, Prod.mk.injEq] at hrun
      obtain ⟨h1, _⟩ := hrun
      subst h1
      exact ⟨le_refl _, fun n _ => ⟨rfl, rfl⟩, fun n h1 h2 => by omega⟩
    | x :: y :: rest =>
      obtain ⟨h1, h2, h3, h4⟩ := buildLevel_inner H _ (x :: y :: rest) rfl a hlt
      simp only [buildLoop] at hrun
      obtain ⟨g1, g2, g3⟩ := ih _ _ h4 a1 r hrun
      refine ⟨by omega, fun n hn => ?_, fun n hn1 hn2 => ?_⟩
      · have := g2 n (by omega)
        exact ⟨this.1.trans (h2 n hn).1, this.2.trans (h2 n hn).2⟩
      · by_cases hn : n < (buildLevel H a (x :: y :: rest)).1.size
        · intro hleaf
          apply h3 n hn1 hn
          have := g2 n hn
          exact ⟨this.1 ▸ hleaf.1, this.2 ▸ hleaf.2⟩
        · exact g3 n (by omega) hn2

/-- Every leaf of a batch-built tree is the leaf of one of its records. -/
theorem batch_leafCover (H : String → String) (t0 t : MerkleTree) (data ids : List String)
    (h : buildTreeFromReviews H t0 data ids = .ok t) : LeafCover t (batchRecords t data) := by
  obtain ⟨a, m, lv, r, hlen, hadd, st, hne, hrun, hroot, hmap⟩ :=
    buildTreeFromReviews_parts H t0 t data ids h
  obtain ⟨_, _, _, _, hfind, _⟩ := buildTreeFromReviews_spec H t0 t data ids h
  obtain ⟨_, _, hinner⟩ := buildLoop_inner H lv.length a lv
    (fun x hx => by rw [st.leaves_eq] at hx; exact List.mem_range.1 hx) t.arena r hrun
  intro n hn hleaf
  have hna : n < a.size := by
    by_contra hge
    exact hinner n (by omega) hn hleaf
  have hnd : n < data.length := by rw [st.size_eq]; exact hna
  refine ⟨(t.arena.cell n).data, data[n], ?_, hfind n hnd⟩
  rw [batchRecords, mem_recordsFrom]
  exact ⟨n, List.getElem?_eq_getElem hnd, by rw [Nat.zero_add]⟩

/-- The state in which `addReview` on a tree with a root calls `insertLeaf`. -/
theorem insertPre_of_invariant (H : String → String) (t : MerkleTree)
    (recs : List (String × String)) (e id : String) (inv : TreeInvariant H t recs) (r : Nat)
    (hroot : t.root = some r) : InsertPre H (withNewLeaf H t e id) t.arena.size r := by
  obtain ⟨wf, _⟩ := inv.rooted r hroot
  have hcell : ∀ n, n < t.arena.size → (withNewLeaf H t e id).cell n = t.arena.cell n :=
    fun n hn => alloc_cell_of_ne _ _ _ (by omega)
  have hcn : (withNewLeaf H t e id).cell t.arena.size =
      MerkleNode.leafNode (computeHash H e) id := alloc_cell_size _ _
  exact
    { wf := wellFormedUpTo_congr H _ _ _ _ hcell wf
      size_eq := rfl
      new_parent := by rw [hcn]; rfl
      new_leaf := by
        unfold Arena.LeafShaped
        rw [hcn]
        exact ⟨rfl, rfl⟩ }

/-- A successful `addReview` on a tree with a root: the run of `insertLeaf` inside it and
its effect on the nodes. -/
theorem addReview_run (H : String → String) (t t1 : MerkleTree)
    (recs : List (String × String)) (e id : String) (inv : TreeInvariant H t recs) (r : Nat)
    (hroot : t.root = some r) (h : addReview H t e id = .ok t1) :
    ∃ (rank : Nat → Nat) (r1 x : Nat),
      (∀ m, m < t.arena.size → rank m < t.arena.size ∧
        ∀ n, (withNewLeaf H t e id).IsChild m n → rank m < rank n) ∧
      insertLeaf H ((withNewLeaf H t e id).size + 1) (withNewLeaf H t e id) (some r)
        t.arena.size = .ok (t1.arena, r1) ∧
      t1.root = some r1 ∧
      InsertPost H (withNewLeaf H t e id) t.arena.size rank r t1.arena r1 x := by
  have pre := insertPre_of_invariant H t recs e id inv r hroot
  obtain ⟨wf, _⟩ := inv.rooted r hroot
  obtain ⟨rank, hrank⟩ := pre.wf.ranked
  obtain ⟨a2, r1, x, hrun, post⟩ := insertLeaf_post H _ _ _ pre rank hrank
    ((withNewLeaf H t e id).size + 1) r wf.root_lt
    (by rw [pre.size_eq]; omega)
  unfold addReview at h
  split at h
  · cases h
  · rw [hroot] at h
    simp only at h
    have hrun2 : insertLeaf H
        ((t.arena.alloc (MerkleNode.leafNode (computeHash H e) id)).1.size + 1)
        (t.arena.alloc (MerkleNode.leafNode (computeHash H e) id)).1 (some r)
        (t.arena.alloc (MerkleNode.leafNode (computeHash H e) id)).2 = .ok (a2, r1) := hrun
    rw [hrun2] at h
    simp only at h
    cases h
    exact ⟨rank, r1, x, hrank, hrun, rfl, post⟩

/-- The leaves after a successful `addReview` are the old leaves and the new leaf. -/
theorem addReview_leafShaped (H : String → String) (t t1 : MerkleTree)
    (recs : List (String × String)) (e id : String) (inv : TreeInvariant H t recs)
    (h : addReview H t e id = .ok t1) :
    ∀ n, n < t1.arena.size → t1.arena.LeafShaped n →
      n = t.arena.size ∨ (n < t.arena.size ∧ t.arena.LeafShaped n) := by
  intro n hn hleaf
  cases hroot : t.root with
  | none =>
    obtain ⟨hsz, _, _⟩ := inv.rootless hroot
    unfold addReview at h
    split at h
    · cases h
    · rw [hroot] at h
      simp only at h
      cases h
      left
      have : n < t.arena.size + 1 := hn
      omega
  | some r =>
    obtain ⟨rank, r1, x, hrank, hrun, hr1, post⟩ := addReview_run H t t1 recs e id inv r hroot h
    have pre := insertPre_of_invariant H t recs e id inv r hroot
    have hcell : ∀ m, m < t.arena.size → (withNewLeaf H t e id).cell m = t.arena.cell m :=
      fun m hm => alloc_cell_of_ne _ _ _ (by omega)
    rw [post.size_eq] at hn
    by_cases h1 : n = t.arena.size + 1
    · subst h1
      have := post.q_left
      rw [hleaf.1] at this
      cases this
    · by_cases h2 : n = t.arena.size
      · exact Or.inl h2
      · right
        have hlt : n < t.arena.size := by omega
        refine ⟨hlt, ?_⟩
        by_contra hnl
        have hnl2 : ¬ (withNewLeaf H t e id).LeafShaped n := by
          intro hl
          apply hnl
          unfold Arena.LeafShaped at hl ⊢
          rw [hcell n hlt] at hl
          exact hl
        obtain ⟨l, r2, hl, _, _, _⟩ := children_of_inner pre.wf hlt hnl2
        rcases post.inner_left n hlt hnl2 with h3 | ⟨_, h3⟩
        · rw [hleaf.1, hl] at h3
          cases h3
        · rw [hleaf.1] at h3
          cases h3

/-- A successful `addReview` keeps every leaf covered by a record. -/
theorem addReview_leafCover (H : String → String) (t t1 : MerkleTree)
    (recs : List (String × String)) (e id : String) (inv : TreeInvariant H t recs)
    (hcover : LeafCover t recs) (h : addReview H t e id = .ok t1) :
    LeafCover t1 (recs ++ [(id, e)]) := by
  obtain ⟨hfresh, hmap⟩ := addReview_leafMap H t t1 e id h
  intro n hn hleaf
  rcases addReview_leafShaped H t t1 recs e id inv h n hn hleaf with h1 | ⟨h1, h2⟩
  · subst h1
    refine ⟨id, e, by simp, ?_⟩
    rw [hmap, mapFind_mapSet, if_pos rfl]
  · obtain ⟨id1, e1, hmem, hfind⟩ := hcover n h1 h2
    refine ⟨id1, e1, List.mem_append_left _ hmem, ?_⟩
    rw [hmap, mapFind_mapSet]
    have hne : id1 ≠ id := by
      intro e2
      rw [e2, hfresh] at hfind
      cases hfind
    rw [if_neg hne]
    exact hfind

/-- In every tree produced by the operations, every leaf is the leaf of a record. -/
theorem produced_leafCover (H : String → String) (t : MerkleTree)
    (recs : List (String × String)) (hp : Produced H t recs) : LeafCover t recs := by
  induction hp with
  | new =>
    intro n hn _
    exact absurd hn (Nat.not_lt_zero n)
  | batch t0 t data ids h => exact batch_leafCover H t0 t data ids h
  | add t t1 recs e id hp h ih =>
    exact addReview_leafCover H t t1 recs e id (produced_invariant H t recs hp) ih h

end MerkleTree

/-- C22: in every tree produced by `buildTreeFromReviews` and successful `addReview`
calls, every node is either a leaf or has two children and carries
`combineHashes(left.hash, right.hash)` of its current children; the leaf indexed for a
record carries `H` of the record's encoding; and every leaf is the leaf of a record. As
the trees after `addReview` are produced trees as well, `addReview` preserves this. -/
theorem MerkleTree.hash_invariant (H : String → String) (t : MerkleTree)
    (recs : List (String × String)) (hp : MerkleTree.Produced H t recs) :
    (∀ n, n < t.arena.size → t.arena.LeafShaped n ∨
      ∃ l r, (t.arena.cell n).left = some l ∧ (t.arena.cell n).right = some r ∧
        l < t.arena.size ∧ r < t.arena.size ∧
        (t.arena.cell n).hash =
          MerkleTree.combineHashes H (t.arena.cell l).hash (t.arena.cell r).hash) ∧
    (∀ id e, (id, e) ∈ recs →
      ∃ leaf, MerkleTree.mapFind t.leafMap id = some leaf ∧ leaf < t.arena.size ∧
        t.arena.LeafShaped leaf ∧ (t.arena.cell leaf).hash = H e) ∧
    (∀ n, n < t.arena.size → t.arena.LeafShaped n →
      ∃ id e, (id, e) ∈ recs ∧ MerkleTree.mapFind t.leafMap id = some n ∧
        (t.arena.cell n).hash = H e) ∧
    (∀ e id t1, MerkleTree.addReview H t e id = .ok t1 →
      MerkleTree.Produced H t1 (recs ++ [(id, e)])) := by
  have inv := MerkleTree.produced_invariant H t recs hp
  have hcover := MerkleTree.produced_leafCover H t recs hp
  have hrec : ∀ id e, (id, e) ∈ recs →
      ∃ leaf, MerkleTree.mapFind t.leafMap id = some leaf ∧ leaf < t.arena.size ∧
        t.arena.LeafShaped leaf ∧ (t.arena.cell leaf).hash = H e := by
    intro id e hmem
    obtain ⟨leaf, hfind, hhash⟩ := inv.indexed id e hmem
    obtain ⟨hlt, hleaf⟩ := inv.index_leaf id leaf hfind
    exact ⟨leaf, hfind, hlt, hleaf, hhash⟩
  refine ⟨?_, hrec, ?_, fun e id t1 h => MerkleTree.Produced.add t t1 recs e id hp h⟩
  · intro n hn
    cases hroot : t.root with
    | none =>
      have := (inv.rootless hroot).1
      omega
    | some r =>
      obtain ⟨wf, _⟩ := inv.rooted r hroot
      rcases wf.shape n hn with hleaf | ⟨l, r1, hl, hr, hll, hrl⟩
      · exact Or.inl hleaf
      · exact Or.inr ⟨l, r1, hl, hr, hll, hrl, wf.hash_ok n hn l r1 hl hr⟩
  · intro n hn hleaf
    obtain ⟨id, e, hmem, hfind⟩ := hcover n hn hleaf
    obtain ⟨leaf, hfind2, _, _, hhash⟩ := hrec id e hmem
    rw [hfind] at hfind2
    cases hfind2
    exact ⟨id, e, hmem, hfind, hhash⟩

/-- Witness for C22: the three-leaf tree obtained by a batch build of two records and one
`addReview`; its root is node 2, whose left child is the node created by the insertion. -/
theorem MerkleTree.hash_invariant_witness :
    MerkleTree.Produced bracketHash MerkleTree.exampleTree3
      (MerkleTree.batchRecords MerkleTree.exampleTree2 ["a", "b"] ++ [("z", "c")]) ∧
    (MerkleTree.exampleTree3.arena.cell 2).hash = "<<<a><c>><b>>" ∧
    (MerkleTree.exampleTree3.arena.LeafShaped 2 ∨
      ∃ l r, (MerkleTree.exampleTree3.arena.cell 2).left = some l ∧
        (MerkleTree.exampleTree3.arena.cell 2).right = some r ∧
        l < MerkleTree.exampleTree3.arena.size ∧ r < MerkleTree.exampleTree3.arena.size ∧
        (MerkleTree.exampleTree3.arena.cell 2).hash =
          MerkleTree.combineHashes bracketHash (MerkleTree.exampleTree3.arena.cell l).hash
            (MerkleTree.exampleTree3.arena.cell r).hash) ∧
    ∃ leaf, MerkleTree.mapFind MerkleTree.exampleTree3.leafMap "z" = some leaf ∧
      leaf < MerkleTree.exampleTree3.arena.size ∧
      MerkleTree.exampleTree3.arena.LeafShaped leaf ∧
      (MerkleTree.exampleTree3.arena.cell leaf).hash = bracketHash "c" :=
  have hp : MerkleTree.Produced bracketHash MerkleTree.exampleTree3
      (MerkleTree.batchRecords MerkleTree.exampleTree2 ["a", "b"] ++ [("z", "c")]) :=
    MerkleTree.Produced.add MerkleTree.exampleTree2 MerkleTree.exampleTree3 _ "c" "z"
      (MerkleTree.Produced.batch MerkleTree.new MerkleTree.exampleTree2 ["a", "b"] ["x", "y"]
        rfl) rfl
  ⟨hp, by decide,
    (MerkleTree.hash_invariant bracketHash MerkleTree.exampleTree3 _ hp).1 2 (by decide),
    (MerkleTree.hash_invariant bracketHash MerkleTree.exampleTree3 _ hp).2.1 "z" "c"
      (by simp)⟩

/-! ## The descent of `insertLeaf` -/

namespace MerkleTree

theorem Below.head {a : Arena} {c l n : Nat} (hc : a.IsChild c l) (h : a.Below l n) :
    a.Below c n := by
  induction h with
  | refl => exact Arena.Below.step c c l (Arena.Below.refl c) hc
  | step m n _ hmn ih => exact Arena.Below.step c m n ih hmn

/-- In a well-formed tree the nodes of a subtree have at least the rank of its root. -/
theorem below_rank {H : String → String} {a : Arena} {bound root : Nat}
    (wf : a.WellFormedUpTo H bound root) (rank : Nat → Nat)
    (hrank : ∀ m, m < bound → rank m < bound ∧ ∀ n, a.IsChild m n → rank m < rank n)
    {l n : Nat} (hl : l < bound) (h : a.Below l n) : n < bound ∧ rank l ≤ rank n := by
  induction h with
  | refl => exact ⟨hl, le_refl _⟩
  | step m n _ hmn ih =>
    have := (hrank m ih.1).2 n hmn
    exact ⟨isChild_lt wf ih.1 hmn, by omega⟩

/-- The run of `insertLeaf(c, newLeaf)` on a well-formed tree. At a leaf it returns the
fresh parent of `c` and the new leaf. At an internal node it returns the node itself,
after a recursive call on the left child if the left subtree has at most as many leaves
as the right one and on the right child otherwise, and it changes no node outside the
subtree it descends into. -/
theorem insertLeaf_descent (H : String → String) (a : Arena) (n0 root : Nat)
    (pre : InsertPre H a n0 root) (rank : Nat → Nat)
    (hrank : ∀ m, m < n0 → rank m < n0 ∧ ∀ n, a.IsChild m n → rank m < rank n) :
    ∀ fuel c, c < n0 → n0 + 1 ≤ fuel + rank c →
      ∃ a2 r2, insertLeaf H fuel a (some c) n0 = .ok (a2, r2) ∧
        (r2 = c ∨ r2 = n0 + 1) ∧
        (∀ n, n < n0 → ¬ a.Below c n → a2.cell n = a.cell n) ∧
        (a.LeafShaped c → r2 = n0 + 1 ∧
          a2 = a.join (combineHashes H (a.cell c).hash (a.cell n0).hash) c n0) ∧
        (¬ a.LeafShaped c → r2 = c ∧ ∃ l r L R,
          (a.cell c).left = some l ∧ (a.cell c).right = some r ∧
          countLeaves a (a.size + 1) (some l) = .ok L ∧
          countLeaves a (a.size + 1) (some r) = .ok R ∧
          (L ≤ R → ∃ a1 nl, insertLeaf H (fuel - 1) a (some l) n0 = .ok (a1, nl) ∧
            (a2.cell c).left = some nl ∧ (a2.cell c).right = some r ∧
            (a2.cell c).hash = combineHashes H (a2.cell nl).hash (a2.cell r).hash ∧
            ∀ n, n < n0 → n ≠ c → ¬ a.Below l n → a2.cell n = a.cell n) ∧
          (¬ L ≤ R → ∃ a1 nr, insertLeaf H (fuel - 1) a (some r) n0 = .ok (a1, nr) ∧
            (a2.cell c).left = some l ∧ (a2.cell c).right = some nr ∧
            (a2.cell c).hash = combineHashes H (a2.cell l).hash (a2.cell nr).hash ∧
            ∀ n, n < n0 → n ≠ c → ¬ a.Below r n → a2.cell n = a.cell n)) := by
  intro fuel
  induction fuel with
  | zero =>
    intro c hc h
    have := (hrank c hc).1
    omega
  | succ fuel ih =>
    intro c hc hfuel
    by_cases hleaf : (a.cell c).isLeaf = true
    · have hls : a.LeafShaped c := (isLeaf_iff a c).1 hleaf
      refine ⟨_, _, insertLeaf_at_leaf H fuel a c n0 hleaf, Or.inr pre.size_eq, ?_,
        fun _ => ⟨pre.size_eq, rfl⟩, fun hn => absurd hls hn⟩
      intro n hn hnb
      have hnc : n ≠ c := fun e => hnb (by rw [e]; exact Arena.Below.refl c)
      obtain ⟨_, _, _, _, _, hsame⟩ := Arena.join_cell a
        (combineHashes H (a.cell c).hash (a.cell n0).hash) c n0
        (by rw [pre.size_eq]; omega) (by rw [pre.size_eq]; omega)
      exact hsame n (by rw [pre.size_eq]; omega) hnc (by omega)
    · have hleaf : (a.cell c).isLeaf = false := by simpa using hleaf
      have hi : ¬ a.LeafShaped c := (isLeaf_eq_false_iff a c).1 hleaf
      obtain ⟨l0, r0, hl0, hr0, hl0lt, hr0lt⟩ := children_of_inner pre.wf hc hi
      have hrl := (hrank c hc).2 l0 (Or.inl hl0)
      have hrr := (hrank c hc).2 r0 (Or.inr hr0)
      have hrl0 := (hrank l0 hl0lt).1
      have hrr0 := (hrank r0 hr0lt).1
      obtain ⟨lc, hlc⟩ := countLeaves_total H a n0 root pre.wf rank hrank (a.size + 1) l0
        hl0lt (by rw [pre.size_eq]; omega)
      obtain ⟨rc, hrc⟩ := countLeaves_total H a n0 root pre.wf rank hrank (a.size + 1) r0
        hr0lt (by rw [pre.size_eq]; omega)
      have hlc0 := hlc
      have hrc0 := hrc
      rw [← hl0] at hlc
      rw [← hr0] at hrc
      have hl0c : l0 ≠ c := by intro e; rw [e] at hrl; omega
      have hr0c : r0 ≠ c := by intro e; rw [e] at hrr; omega
      by_cases hle : lc ≤ rc
      · obtain ⟨a1, r1, hrec, hdisj, hframe, _, _⟩ := ih l0 hl0lt (by omega)
        have hnb : ¬ a.Below l0 c := by
          intro hb
          have := (below_rank pre.wf rank hrank hl0lt hb).2
          omega
        have hm1 : a1.cell c = a.cell c := hframe c hc hnb
        have hr1c : r1 ≠ c := by
          rcases hdisj with e | e
          · rw [e]; exact hl0c
          · rw [e]; omega
        obtain ⟨h1, h2, h3, h4, h5, h6, h7, h8, h9, h10⟩ := relink_left_cells a1 c r1
          (combineHashes H (((a1.setLeft c (some r1)).setParent r1 (some c)).cell r1).hash
            (((a1.setLeft c (some r1)).setParent r1 (some c)).cell r0).hash) hr1c
        have hrec0 := hrec
        rw [← hl0] at hrec
        have hfr : ∀ n, n < n0 → n ≠ c → ¬ a.Below l0 n →
            ((((a1.setLeft c (some r1)).setParent r1 (some c)).setHash c
              (combineHashes H (((a1.setLeft c (some r1)).setParent r1 (some c)).cell r1).hash
                (((a1.setLeft c (some r1)).setParent r1 (some c)).cell r0).hash)).cell n) =
              a.cell n := by
          intro n hn hnc hnl
          have hnr1 : n ≠ r1 := by
            rcases hdisj with e | e
            · rw [e]; exact fun e2 => hnl (by rw [e2]; exact Arena.Below.refl l0)
            · rw [e]; omega
          rw [h4 n hnc hnr1]
          exact hframe n hn hnl
        refine ⟨_, c, insertLeaf_go_left H fuel a a1 c n0 lc rc r1 r1 r0 hleaf hlc hrc hle
          hrec h1 (by rw [h2, hm1, hr0]), Or.inl rfl, ?_, fun hls => absurd hls hi,
          fun _ => ⟨rfl, l0, r0, lc, rc, hl0, hr0, hlc0, hrc0, fun _ => ?_,
            fun hn => absurd hle hn⟩⟩
        · intro n hn hnb2
          exact hfr n hn (fun e => hnb2 (by rw [e]; exact Arena.Below.refl c))
            (fun hb => hnb2 (Below.head (Or.inl hl0) hb))
        · refine ⟨a1, r1, hrec0, h7, by rw [h8, hm1, hr0], ?_, hfr⟩
          rw [h9, h10 r1 hr1c, h10 r0 hr0c]
      · obtain ⟨a1, r1, hrec, hdisj, hframe, _, _⟩ := ih r0 hr0lt (by omega)
        have hnb : ¬ a.Below r0 c := by
          intro hb
          have := (below_rank pre.wf rank hrank hr0lt hb).2
          omega
        have hm1 : a1.cell c = a.cell c := hframe c hc hnb
        have hr1c : r1 ≠ c := by
          rcases hdisj with e | e
          · rw [e]; exact hr0c
          · rw [e]; omega
        obtain ⟨h1, h2, h3, h4, h5, h6, h7, h8, h9, h10⟩ := relink_right_cells a1 c r1
          (combineHashes H (((a1.setRight c (some r1)).setParent r1 (some c)).cell l0).hash
            (((a1.setRight c (some r1)).setParent r1 (some c)).cell r1).hash) hr1c
        have hrec0 := hrec
        rw [← hr0] at hrec
        have hfr : ∀ n, n < n0 → n ≠ c → ¬ a.Below r0 n →
            ((((a1.setRight c (some r1)).setParent r1 (some c)).setHash c
              (combineHashes H (((a1.setRight c (some r1)).setParent r1 (some c)).cell l0).hash
                (((a1.setRight c (some r1)).setParent r1 (some c)).cell r1).hash)).cell n) =
              a.cell n := by
          intro n hn hnc hnl
          have hnr1 : n ≠ r1 := by
            rcases hdisj with e | e
            · rw [e]; exact fun e2 => hnl (by rw [e2]; exact Arena.Below.refl r0)
            · rw [e]; omega
          rw [h4 n hnc hnr1]
          exact hframe n hn hnl
        refine ⟨_, c, insertLeaf_go_right H fuel a a1 c n0 lc rc r1 l0 r1 hleaf hlc hrc hle
          hrec (by rw [h1, hm1, hl0]) h2, Or.inl rfl, ?_, fun hls => absurd hls hi,
          fun _ => ⟨rfl, l0, r0, lc, rc, hl0, hr0, hlc0, hrc0, fun hl => absurd hl hle,
            fun _ => ?_⟩⟩
        · intro n hn hnb2
          exact hfr n hn (fun e => hnb2 (by rw [e]; exact Arena.Below.refl c))
            (fun hb => hnb2 (Below.head (Or.inr hr0) hb))
        · refine ⟨a1, r1, hrec0, by rw [h7, hm1, hl0], h8, ?_, hfr⟩
          rw [h9, h10 l0 hl0c, h10 r1 hr1c]

end MerkleTree

set_option maxRecDepth 100000 in
/-- C21 (counterexample): in the tree built from five records and extended by one
`addReview`, node 9 has the same node 7 as left and as right child, with 2 leaves counted
on either side, and the next `addReview` descends from the root (5 leaves on the left,
4 on the right) into node 9. The insertion goes into the left subtree of node 9, but the
right child of node 9, which is still node 7, is changed by it: it gets a new left child
and a new hash. -/
theorem MerkleTree.insert_changes_other_subtree :
    MerkleTree.Produced bracketHash MerkleTree.exampleInserted6
      (MerkleTree.batchRecords MerkleTree.exampleBatch5 ["a", "b", "c", "d", "e"] ++
        [("6", "f")]) ∧
    MerkleTree.addReview bracketHash MerkleTree.exampleInserted6 "g" "7" =
      .ok MerkleTree.exampleInserted7 ∧
    MerkleTree.exampleInserted6.root = some 10 ∧
    (MerkleTree.exampleInserted6.arena.cell 10).left = some 8 ∧
    (MerkleTree.exampleInserted6.arena.cell 10).right = some 9 ∧
    MerkleTree.countLeaves (MerkleTree.withNewLeaf bracketHash MerkleTree.exampleInserted6
      "g" "7") 15 (some 8) = .ok 5 ∧
    MerkleTree.countLeaves (MerkleTree.withNewLeaf bracketHash MerkleTree.exampleInserted6
      "g" "7") 15 (some 9) = .ok 4 ∧
    (MerkleTree.exampleInserted6.arena.cell 9).left = some 7 ∧
    (MerkleTree.exampleInserted6.arena.cell 9).right = some 7 ∧
    MerkleTree.countLeaves (MerkleTree.withNewLeaf bracketHash MerkleTree.exampleInserted6
      "g" "7") 15 (some 7) = .ok 2 ∧
    (MerkleTree.exampleInserted7.arena.cell 9).left = some 7 ∧
    (MerkleTree.exampleInserted7.arena.cell 9).right = some 7 ∧
    (MerkleTree.exampleInserted6.arena.cell 7).left = some 4 ∧
    (MerkleTree.exampleInserted7.arena.cell 7).left = some 14 ∧
    (MerkleTree.exampleInserted6.arena.cell 7).hash = "<<e><e>>" ∧
    (MerkleTree.exampleInserted7.arena.cell 7).hash = "<<<e><g>><e>>" :=
  ⟨MerkleTree.Produced.add MerkleTree.exampleBatch5 MerkleTree.exampleInserted6 _ "f" "6"
      (MerkleTree.Produced.batch MerkleTree.new MerkleTree.exampleBatch5
        ["a", "b", "c", "d", "e"] ["1", "2", "3", "4", "5"] rfl) rfl,
    rfl, rfl, rfl, rfl, rfl, rfl, rfl, rfl, rfl, rfl, rfl, rfl, rfl, rfl, rfl⟩

/-- C21 (as amended): let `insertLeaf(c, newLeaf)` run inside `addReview(e, id)` on a tree
produced by the operations, at a node `c` of the tree, with sufficient fuel. If `c` is a
leaf, the call returns a new internal node with left child `c`, right child the new leaf
and hash `combineHashes(c.hash, H(e))`, and changes no other old node. If `c` is an
internal node with `L` leaves counted in its left and `R` in its right subtree, the call
returns `c`, whose left child becomes the result of the recursive call on the left child
when `L ≤ R` and whose right child becomes the result of the recursive call on the right
child otherwise; the other child pointer is kept, the hash of `c` is recomputed from its
children, and every old node outside the subtree descended into, apart from `c`, is
unchanged. -/
theorem MerkleTree.insert_descent_rule (H : String → String) (t : MerkleTree)
    (recs : List (String × String)) (e id : String) (hp : MerkleTree.Produced H t recs)
    (c : Nat) (hc : c < t.arena.size) (fuel : Nat) (hfuel : t.arena.size + 1 ≤ fuel) :
    ∃ a2 r2, MerkleTree.insertLeaf H fuel (MerkleTree.withNewLeaf H t e id) (some c)
        t.arena.size = .ok (a2, r2) ∧
      (t.arena.LeafShaped c →
        r2 = t.arena.size + 1 ∧ (a2.cell r2).left = some c ∧
        (a2.cell r2).right = some t.arena.size ∧
        (a2.cell r2).hash = MerkleTree.combineHashes H (t.arena.cell c).hash (H e) ∧
        (a2.cell c).parent = some r2 ∧ (a2.cell t.arena.size).parent = some r2 ∧
        ∀ n, n < t.arena.size → n ≠ c → a2.cell n = t.arena.cell n) ∧
      (¬ t.arena.LeafShaped c → r2 = c ∧ ∃ l r L R,
        (t.arena.cell c).left = some l ∧ (t.arena.cell c).right = some r ∧
        MerkleTree.countLeaves (MerkleTree.withNewLeaf H t e id)
          ((MerkleTree.withNewLeaf H t e id).size + 1) (some l) = .ok L ∧
        MerkleTree.countLeaves (MerkleTree.withNewLeaf H t e id)
          ((MerkleTree.withNewLeaf H t e id).size + 1) (some r) = .ok R ∧
        (L ≤ R → ∃ a1 nl,
          MerkleTree.insertLeaf H (fuel - 1) (MerkleTree.withNewLeaf H t e id) (some l)
            t.arena.size = .ok (a1, nl) ∧
          (a2.cell c).left = some nl ∧ (a2.cell c).right = some r ∧
          (a2.cell c).hash = MerkleTree.combineHashes H (a2.cell nl).hash (a2.cell r).hash ∧
          ∀ n, n < t.arena.size → n ≠ c → ¬ (MerkleTree.withNewLeaf H t e id).Below l n →
            a2.cell n = t.arena.cell n) ∧
        (¬ L ≤ R → ∃ a1 nr,
          MerkleTree.insertLeaf H (fuel - 1) (MerkleTree.withNewLeaf H t e id) (some r)
            t.arena.size = .ok (a1, nr) ∧
          (a2.cell c).left = some l ∧ (a2.cell c).right = some nr ∧
          (a2.cell c).hash = MerkleTree.combineHashes H (a2.cell l).hash (a2.cell nr).hash ∧
          ∀ n, n < t.arena.size → n ≠ c → ¬ (MerkleTree.withNewLeaf H t e id).Below r n →
            a2.cell n = t.arena.cell n)) := by
  have inv := MerkleTree.produced_invariant H t recs hp
  obtain ⟨r0, hroot⟩ : ∃ r0, t.root = some r0 := by
    cases hr : t.root with
    | none =>
      have := (inv.rootless hr).1
      omega
    | some r0 => exact ⟨r0, rfl⟩
  have pre := MerkleTree.insertPre_of_invariant H t recs e id inv r0 hroot
  obtain ⟨rank, hrank⟩ := pre.wf.ranked
  have hcell : ∀ n, n < t.arena.size →
      (MerkleTree.withNewLeaf H t e id).cell n = t.arena.cell n :=
    fun n hn => MerkleTree.alloc_cell_of_ne _ _ _ (by omega)
  have hnew : (MerkleTree.withNewLeaf H t e id).cell t.arena.size =
      MerkleNode.leafNode (MerkleTree.computeHash H e) id := MerkleTree.alloc_cell_size _ _
  have hshape : (MerkleTree.withNewLeaf H t e id).LeafShaped c ↔ t.arena.LeafShaped c := by
    unfold Arena.LeafShaped
    rw [hcell c hc]
  obtain ⟨a2, r2, hrun, _, _, hleafpart, hinnerpart⟩ :=
    MerkleTree.insertLeaf_descent H _ _ _ pre rank hrank fuel c hc (by omega)
  refine ⟨a2, r2, hrun, fun hls => ?_, fun hi => ?_⟩
  · obtain ⟨hr2, ha2⟩ := hleafpart (hshape.2 hls)
    obtain ⟨_, hp1, hpx, hpy, _, hsame⟩ := Arena.join_cell (MerkleTree.withNewLeaf H t e id)
      (MerkleTree.combineHashes H ((MerkleTree.withNewLeaf H t e id).cell c).hash
        ((MerkleTree.withNewLeaf H t e id).cell t.arena.size).hash) c t.arena.size
      (by rw [pre.size_eq]; omega) (by rw [pre.size_eq]; omega)
    rw [pre.size_eq] at hp1 hpx hpy
    subst ha2
    subst hr2
    refine ⟨rfl, by rw [hp1]; rfl, by rw [hp1]; rfl, ?_, hpx, hpy, fun n hn hnc => ?_⟩
    · rw [hp1, hcell c hc, hnew]
      rfl
    · rw [hsame n (by rw [pre.size_eq]; omega) hnc (by omega), hcell n hn]
  · obtain ⟨hr2, l, r, L, R, hl, hr, hL, hR, hleft, hright⟩ :=
      hinnerpart (fun hls => hi (hshape.1 hls))
    rw [hcell c hc] at hl hr
    refine ⟨hr2, l, r, L, R, hl, hr, hL, hR, fun hle => ?_, fun hnle => ?_⟩
    · obtain ⟨a1, nl, h1, h2, h3, h4, h5⟩ := hleft hle
      exact ⟨a1, nl, h1, h2, h3, h4, fun n hn hnc hnb => by rw [h5 n hn hnc hnb, hcell n hn]⟩
    · obtain ⟨a1, nr, h1, h2, h3, h4, h5⟩ := hright hnle
      exact ⟨a1, nr, h1, h2, h3, h4, fun n hn hnc hnb => by rw [h5 n hn hnc hnb, hcell n hn]⟩

set_option maxRecDepth 100000 in
/-- Witness for C21 (as amended): `addReview("c", "z")` on the tree `(a, b)`, at its root,
node 2. The single-leaf tree `a` plus `b` becomes `(a, b)`: the new root 2 over the leaves
0 and 1; and `(a, b)` plus `c` becomes `((a, c), b)`: the root 2 over the new node 4, which
is over the leaves 0 and 3, and the leaf 1. -/
theorem MerkleTree.insert_descent_rule_witness :
    MerkleTree.Produced bracketHash MerkleTree.exampleTree2
      (MerkleTree.batchRecords MerkleTree.exampleTree2 ["a", "b"]) ∧
    2 < MerkleTree.exampleTree2.arena.size ∧ MerkleTree.exampleTree2.arena.size + 1 ≤ 4 ∧
    MerkleTree.addReview bracketHash MerkleTree.exampleTree1 "b" "y" =
      .ok MerkleTree.exampleTree2 ∧
    ((MerkleTree.exampleTree2.arena.cell 2).left,
      (MerkleTree.exampleTree2.arena.cell 2).right) = (some 0, some 1) ∧
    ((MerkleTree.exampleTree3.arena.cell 2).left,
      (MerkleTree.exampleTree3.arena.cell 2).right,
      (MerkleTree.exampleTree3.arena.cell 4).left,
      (MerkleTree.exampleTree3.arena.cell 4).right) = (some 4, some 1, some 0, some 3) ∧
    ∃ a2 r2, MerkleTree.insertLeaf bracketHash 4
        (MerkleTree.withNewLeaf bracketHash MerkleTree.exampleTree2 "c" "z") (some 2)
        MerkleTree.exampleTree2.arena.size = .ok (a2, r2) ∧
      (¬ MerkleTree.exampleTree2.arena.LeafShaped 2 → r2 = 2 ∧ ∃ l r L R,
        (MerkleTree.exampleTree2.arena.cell 2).left = some l ∧
        (MerkleTree.exampleTree2.arena.cell 2).right = some r ∧
        MerkleTree.countLeaves
          (MerkleTree.withNewLeaf bracketHash MerkleTree.exampleTree2 "c" "z")
          ((MerkleTree.withNewLeaf bracketHash MerkleTree.exampleTree2 "c" "z").size + 1)
          (some l) = .ok L ∧
        MerkleTree.countLeaves
          (MerkleTree.withNewLeaf bracketHash MerkleTree.exampleTree2 "c" "z")
          ((MerkleTree.withNewLeaf bracketHash MerkleTree.exampleTree2 "c" "z").size + 1)
          (some r) = .ok R ∧
        (L ≤ R → ∃ a1 nl,
          MerkleTree.insertLeaf bracketHash (4 - 1)
            (MerkleTree.withNewLeaf bracketHash MerkleTree.exampleTree2 "c" "z") (some l)
            MerkleTree.exampleTree2.arena.size = .ok (a1, nl) ∧
          (a2.cell 2).left = some nl ∧ (a2.cell 2).right = some r ∧
          (a2.cell 2).hash =
            MerkleTree.combineHashes bracketHash (a2.cell nl).hash (a2.cell r).hash ∧
          ∀ n, n < MerkleTree.exampleTree2.arena.size → n ≠ 2 →
            ¬ (MerkleTree.withNewLeaf bracketHash MerkleTree.exampleTree2 "c" "z").Below l n →
            a2.cell n = MerkleTree.exampleTree2.arena.cell n)) :=
  have hp : MerkleTree.Produced bracketHash MerkleTree.exampleTree2
      (MerkleTree.batchRecords MerkleTree.exampleTree2 ["a", "b"]) :=
    MerkleTree.Produced.batch MerkleTree.new MerkleTree.exampleTree2 ["a", "b"] ["x", "y"] rfl
  have h := MerkleTree.insert_descent_rule bracketHash MerkleTree.exampleTree2 _ "c" "z" hp 2
    (by decide) 4 (by decide)
  ⟨hp, by decide, by decide, rfl, by decide, by decide,
    h.elim fun a2 h2 => h2.elim fun r2 h3 =>
      ⟨a2, r2, h3.1, fun hi =>
        ⟨(h3.2.2 hi).1, (h3.2.2 hi).2.elim fun l hl => hl.elim fun r hr => hr.elim fun L hL =>
          hL.elim fun R hR => ⟨l, r, L, R, hR.1, hR.2.1, hR.2.2.1, hR.2.2.2.1, hR.2.2.2.2.1⟩⟩⟩⟩

/-! ## The tamper detector -/

/-- C31: for a detector bound by `setDatasetName(name)` with a non-empty name,
`detectByRootComparison(c)` returns `NO_TAMPERING_DETECTED` with
`tamperingDetected = false` exactly when `c` equals the baseline root, which is the root
of the original tree at the time of binding, and `TAMPERING_DETECTED` with
`tamperingDetected = true` otherwise; the same holds against any baseline stored for the
bound name; and a detector without bound name returns the error status with
`tamperingDetected = false`. -/
theorem TamperDetector.detectByRootComparison_spec (d : TamperDetector)
    (originalTree : MerkleTree) (name c : String) (hname : name ≠ "") :
    (d.setDatasetName originalTree name).detectByRootComparison c =
      (if c = originalTree.getRootHash then
        { detectionMethod := "ROOT_HASH_COMPARISON", status := "NO_TAMPERING_DETECTED",
          tamperingDetected := false, originalRoot := originalTree.getRootHash, newRoot := c }
       else
        { detectionMethod := "ROOT_HASH_COMPARISON",
          status := "TAMPERING_DETECTED: Root hash mismatch",
          tamperingDetected := true, originalRoot := originalTree.getRootHash, newRoot := c }) ∧
    (∀ baseline, d.currentDatasetName ≠ "" →
      MerkleTree.mapFind d.originalRoots d.currentDatasetName = some baseline →
      ((d.detectByRootComparison c).tamperingDetected = false ↔ c = baseline) ∧
      ((d.detectByRootComparison c).status = "NO_TAMPERING_DETECTED" ↔ c = baseline) ∧
      ((d.detectByRootComparison c).status = "TAMPERING_DETECTED: Root hash mismatch" ↔
        c ≠ baseline) ∧
      ((d.detectByRootComparison c).tamperingDetected = true ↔ c ≠ baseline)) ∧
    (d.currentDatasetName = "" →
      (d.detectByRootComparison c).status = "ERROR: No original root stored for comparison" ∧
      (d.detectByRootComparison c).tamperingDetected = false) := by
  refine ⟨?_, ?_, ?_⟩
  · unfold TamperDetector.detectByRootComparison TamperDetector.setDatasetName
    simp only [if_neg hname, MerkleTree.mapFind_mapSet, if_true]
    by_cases h : c = originalTree.getRootHash
    · subst h; simp
    · have h2 : ¬ originalTree.getRootHash = c := fun e => h e.symm
      simp [h, h2]
  · intro baseline hbound hfind
    unfold TamperDetector.detectByRootComparison
    simp only [if_neg hbound, hfind]
    by_cases h : baseline = c
    · subst h
      simp only [if_true, ne_eq, not_true_eq_false, iff_false, iff_true, true_and]
      decide
    · have h2 : ¬ c = baseline := fun e => h e.symm
      simp only [if_neg h, h2, ne_eq, not_false_eq_true, iff_true, iff_false, and_true]
      decide
  · intro hunbound
    unfold TamperDetector.detectByRootComparison
    simp [hunbound]

/-- Witness for C31: a detector bound to `"ds"` against the two-leaf example tree. -/
theorem TamperDetector.detectByRootComparison_spec_witness :
    ("ds" : String) ≠ "" ∧
    MerkleTree.exampleTree2.getRootHash = "<<a><b>>" ∧
    (((TamperDetector.new []).setDatasetName MerkleTree.exampleTree2
      "ds").detectByRootComparison "<<a><b>>").status = "NO_TAMPERING_DETECTED" ∧
    (((TamperDetector.new []).setDatasetName MerkleTree.exampleTree2
      "ds").detectByRootComparison "<<a><c>>").tamperingDetected = true ∧
    ((TamperDetector.new []).setDatasetName MerkleTree.exampleTree2
      "ds").detectByRootComparison "<<a><c>>" =
      (if "<<a><c>>" = MerkleTree.exampleTree2.getRootHash then
        { detectionMethod := "ROOT_HASH_COMPARISON", status := "NO_TAMPERING_DETECTED",
          tamperingDetected := false,
          originalRoot := MerkleTree.exampleTree2.getRootHash, newRoot := "<<a><c>>" }
       else
        { detectionMethod := "ROOT_HASH_COMPARISON",
          status := "TAMPERING_DETECTED: Root hash mismatch",
          tamperingDetected := true,
          originalRoot := MerkleTree.exampleTree2.getRootHash, newRoot := "<<a><c>>" }) :=
  ⟨by decide, by decide, by decide, by decide,
    (TamperDetector.detectByRootComparison_spec (TamperDetector.new [])
      MerkleTree.exampleTree2 "ds" "<<a><c>>" (by decide)).1⟩

namespace MerkleTree

/-- On a tree satisfying the invariant, `generateProof` returns for every identifier. -/
theorem generateProof_total (H : String → String) (t : MerkleTree)
    (recs : List (String × String)) (inv : TreeInvariant H t recs) (id : String) :
    ∃ p, t.generateProof id = .ok p := by
  unfold generateProof
  cases hfind : mapFind t.leafMap id with
  | none => exact ⟨[], rfl⟩
  | some l =>
    obtain ⟨hlt, _⟩ := inv.index_leaf id l hfind
    cases hroot : t.root with
    | none =>
      have := (inv.rootless hroot).1
      omega
    | some r =>
      obtain ⟨wf, _⟩ := inv.rooted r hroot
      obtain ⟨rank, hrank⟩ := wf.ranked
      obtain ⟨p, hp, _, _⟩ := proofLoop_sound H t.arena t.arena.size r wf rank hrank
        t.arena.size l hlt (hrank l hlt).1
      exact ⟨p, hp⟩

end MerkleTree

namespace TamperDetector

/-- The classification of one review, given the proof that the new tree generates for
its identifier. -/
theorem detectReview_spec (H : String → String) (originalTree newTree : MerkleTree)
    (review : Review) (p : List String)
    (hp : newTree.generateProof review.getUniqueID = .ok p) :
    detectReview H originalTree newTree review =
      .ok { reviewId := review.getUniqueID,
            status :=
              if originalTree.contains review.getUniqueID = false then "NEW_REVIEW_DETECTED"
              else if p = [] then "PROOF_GENERATION_FAILED"
              else if MerkleTree.verifyProof H review.convertToString p newTree.getRootHash
                = true then "REVIEW_VALID"
              else "MODIFIED_REVIEW_DETECTED",
            tampered :=
              if originalTree.contains review.getUniqueID = false then true
              else if p = [] then true
              else if MerkleTree.verifyProof H review.convertToString p newTree.getRootHash
                = true then false
              else true } := by
  unfold detectReview
  by_cases hc : originalTree.contains review.getUniqueID = false
  · simp [hc]
  · simp only [if_neg hc, hp]
    cases p with
    | nil => simp
    | cons x xs =>
      by_cases hv : MerkleTree.verifyProof H review.convertToString (x :: xs)
          newTree.getRootHash = true
      · simp [hv]
      · have hv2 : MerkleTree.verifyProof H review.convertToString (x :: xs)
            newTree.getRootHash = false := by simpa using hv
        simp [hv2]

/-- The results of `detectModifiedReviews` when the proof generation returns for every
identifier: one result per review, in order. -/
theorem detectModifiedReviews_spec (H : String → String) (d : TamperDetector)
    (originalTree newTree : MerkleTree)
    (htotal : ∀ id, ∃ p, newTree.generateProof id = .ok p) :
    ∀ (reviews : List Review),
      ∃ results, d.detectModifiedReviews H originalTree reviews newTree = .ok results ∧
        results.length = reviews.length ∧
        ∀ (i : Nat) (review : Review), reviews[i]? = some review →
          ∃ r, detectReview H originalTree newTree review = .ok r ∧ results[i]? = some r := by
  intro reviews
  induction reviews with
  | nil => exact ⟨[], rfl, rfl, fun i review h => by simp at h⟩
  | cons review rest ih =>
    obtain ⟨results, hrun, hlen, hall⟩ := ih
    obtain ⟨p, hp⟩ := htotal review.getUniqueID
    have h1 := detectReview_spec H originalTree newTree review p hp
    refine ⟨_ :: results, by rw [detectModifiedReviews, h1, hrun], by simp [hlen], ?_⟩
    intro i rv hi
    cases i with
    | zero =>
      simp only [List.getElem?_cons_zero, Option.some.injEq] at hi
      subst hi
      exact ⟨_, h1, by simp⟩
    | succ j =>
      simp only [List.getElem?_cons_succ] at hi
      obtain ⟨r, hr1, hr2⟩ := hall j rv hi
      exact ⟨r, hr1, by simpa using hr2⟩

end TamperDetector

/-- C32: when the new tree is a tree produced by the operations, `detectModifiedReviews`
returns exactly one result per input record, in input order, carrying that record's
identifier; its status is `NEW_REVIEW_DETECTED` (tampered) if the identifier is absent
from the original tree, otherwise `PROOF_GENERATION_FAILED` (tampered) if the new tree's
proof for it is empty, otherwise `REVIEW_VALID` (not tampered) if `verifyProof` of the
record's encoding with that proof against the new root is true and
`MODIFIED_REVIEW_DETECTED` (tampered) if it is false. -/
theorem TamperDetector.detectModifiedReviews_classifies (H : String → String)
    (d : TamperDetector) (originalTree newTree : MerkleTree)
    (recs : List (String × String)) (reviews : List Review)
    (hp : MerkleTree.Produced H newTree recs) :
    ∃ results, d.detectModifiedReviews H originalTree reviews newTree = .ok results ∧
      results.length = reviews.length ∧
      ∀ (i : Nat) (review : Review), reviews[i]? = some review →
        ∃ p, newTree.generateProof review.getUniqueID = .ok p ∧
          results[i]? = some
            { reviewId := review.getUniqueID,
              status :=
                if originalTree.contains review.getUniqueID = false then
                  "NEW_REVIEW_DETECTED"
                else if p = [] then "PROOF_GENERATION_FAILED"
                else if MerkleTree.verifyProof H review.convertToString p
                  newTree.getRootHash = true then "REVIEW_VALID"
                else "MODIFIED_REVIEW_DETECTED",
              tampered :=
                if originalTree.contains review.getUniqueID = false then true
                else if p = [] then true
                else if MerkleTree.verifyProof H review.convertToString p
                  newTree.getRootHash = true then false
                else true } := by
  have inv := MerkleTree.produced_invariant H newTree recs hp
  have htotal := MerkleTree.generateProof_total H newTree recs inv
  obtain ⟨results, hrun, hlen, hall⟩ :=
    TamperDetector.detectModifiedReviews_spec H d originalTree newTree htotal reviews
  refine ⟨results, hrun, hlen, fun i review hi => ?_⟩
  obtain ⟨p, hp1⟩ := htotal review.getUniqueID
  obtain ⟨r, hr1, hr2⟩ := hall i review hi
  rw [TamperDetector.detectReview_spec H originalTree newTree review p hp1] at hr1
  cases hr1
  exact ⟨p, hp1, hr2⟩

set_option maxRecDepth 100000 in
/-- Witness for C32: against the tree over the reviews A and C, the edited review B (same
identifier as A) is reported as modified, C as valid and the unknown review D as new. -/
theorem TamperDetector.detectModifiedReviews_classifies_witness :
    MerkleTree.Produced bracketHash MerkleTree.exampleReviewTree
      (MerkleTree.batchRecords MerkleTree.exampleReviewTree
        ([exampleReviewA, exampleReviewC].map Review.convertToString)) ∧
    (TamperDetector.new [exampleReviewA, exampleReviewC]).detectModifiedReviews bracketHash
      MerkleTree.exampleReviewTree [exampleReviewB, exampleReviewC, exampleReviewD]
      MerkleTree.exampleReviewTree =
      .ok [{ reviewId := "A1_P1_1000000", status := "MODIFIED_REVIEW_DETECTED",
             tampered := true },
           { reviewId := "A2_P1_1000001", status := "REVIEW_VALID", tampered := false },
           { reviewId := "A3_P2_1000002", status := "NEW_REVIEW_DETECTED",
             tampered := true }] ∧
    ∃ results, (TamperDetector.new [exampleReviewA, exampleReviewC]).detectModifiedReviews
        bracketHash MerkleTree.exampleReviewTree
        [exampleReviewB, exampleReviewC, exampleReviewD] MerkleTree.exampleReviewTree =
        .ok results ∧
      results.length = [exampleReviewB, exampleReviewC, exampleReviewD].length :=
  have hp : MerkleTree.Produced bracketHash MerkleTree.exampleReviewTree
      (MerkleTree.batchRecords MerkleTree.exampleReviewTree
        ([exampleReviewA, exampleReviewC].map Review.convertToString)) :=
    MerkleTree.Produced.batch MerkleTree.new MerkleTree.exampleReviewTree _
      ([exampleReviewA, exampleReviewC].map Review.getUniqueID) rfl
  ⟨hp, rfl,
    (TamperDetector.detectModifiedReviews_classifies bracketHash
      (TamperDetector.new [exampleReviewA, exampleReviewC]) MerkleTree.exampleReviewTree
      MerkleTree.exampleReviewTree _ [exampleReviewB, exampleReviewC, exampleReviewD] hp).elim
      fun results h => ⟨results, h.1, h.2.1⟩⟩

namespace TamperDetector

theorem detectModifiedReviews_map (H : String → String) (d : TamperDetector)
    (originalTree newTree : MerkleTree) (f : Review → ReviewTamperResult) :
    ∀ (reviews : List Review),
      (∀ r, r ∈ reviews → detectReview H originalTree newTree r = .ok (f r)) →
      d.detectModifiedReviews H originalTree reviews newTree = .ok (reviews.map f) := by
  intro reviews
  induction reviews with
  | nil => intro _; rfl
  | cons review rest ih =>
    intro h
    rw [detectModifiedReviews, h review (by simp), ih (fun r hr => h r (by simp [hr]))]
    rfl

end TamperDetector

/-- C35: if the new tree is batch-built from exactly the given records (two or more, with
pairwise distinct identifiers) and every identifier is contained in the original tree,
then `detectModifiedReviews` reports `REVIEW_VALID` with `tampered = false` for every
record, whatever the original tree holds for these identifiers. -/
theorem TamperDetector.self_consistent_tree_hides_edits (H : String → String)
    (d : TamperDetector) (originalTree t0 : MerkleTree) (reviews : List Review)
    (h2 : 2 ≤ reviews.length) (hnd : (reviews.map Review.getUniqueID).Nodup)
    (hknown : ∀ r, r ∈ reviews → originalTree.contains r.getUniqueID = true) :
    ∃ newTree, MerkleTree.buildTreeFromReviews H t0 (reviews.map Review.convertToString)
        (reviews.map Review.getUniqueID) = .ok newTree ∧
      d.detectModifiedReviews H originalTree reviews newTree =
        .ok (reviews.map fun r =>
          { reviewId := r.getUniqueID, status := "REVIEW_VALID", tampered := false }) := by
  have hne : reviews.map Review.convertToString ≠ [] := by
    intro e0
    have := congrArg List.length e0
    simp only [List.length_map, List.length_nil] at this
    omega
  obtain ⟨t, ht⟩ := MerkleTree.buildTreeFromReviews_total H t0
    (reviews.map Review.convertToString) (reviews.map Review.getUniqueID) hne (by simp)
  refine ⟨t, ht, TamperDetector.detectModifiedReviews_map H d originalTree t _ reviews ?_⟩
  intro r hr
  obtain ⟨i, hilt, hir⟩ := List.mem_iff_getElem.1 hr
  have hid : (reviews.map Review.getUniqueID)[i]? = some r.getUniqueID := by
    rw [List.getElem?_map, List.getElem?_eq_getElem hilt, hir]
    rfl
  have hdata : (reviews.map Review.convertToString)[i]? = some r.convertToString := by
    rw [List.getElem?_map, List.getElem?_eq_getElem hilt, hir]
    rfl
  have hlabel := MerkleTree.buildTreeFromReviews_keeps_ids H t0 t _ _ hnd ht i _ hid
  obtain ⟨_, p, hgen, hpne, hver⟩ := MerkleTree.batch_record_proof H t0 t _ _
    (by simpa using h2) ht i _ hdata
  have hgen2 : t.generateProof r.getUniqueID = .ok p := by
    rw [← hlabel]
    exact hgen
  rw [TamperDetector.detectReview_spec H originalTree t r p hgen2]
  simp [hknown r hr, hpne, hver]

set_option maxRecDepth 100000 in
/-- Witness for C35: the original tree holds the reviews A and C; the new records are the
edited review B, which has the identifier of A, and C; the tree built from them reports
both as valid. -/
theorem TamperDetector.self_consistent_tree_hides_edits_witness :
    2 ≤ [exampleReviewB, exampleReviewC].length ∧
    ([exampleReviewB, exampleReviewC].map Review.getUniqueID).Nodup ∧
    (∀ r, r ∈ [exampleReviewB, exampleReviewC] →
      MerkleTree.exampleReviewTree.contains r.getUniqueID = true) ∧
    exampleReviewB.convertToString ≠ exampleReviewA.convertToString ∧
    MerkleTree.exampleEditedTree.getRootHash ≠ MerkleTree.exampleReviewTree.getRootHash ∧
    ∃ newTree, MerkleTree.buildTreeFromReviews bracketHash MerkleTree.new
        ([exampleReviewB, exampleReviewC].map Review.convertToString)
        ([exampleReviewB, exampleReviewC].map Review.getUniqueID) = .ok newTree ∧
      (TamperDetector.new [exampleReviewA, exampleReviewC]).detectModifiedReviews bracketHash
        MerkleTree.exampleReviewTree [exampleReviewB, exampleReviewC] newTree =
        .ok ([exampleReviewB, exampleReviewC].map fun r =>
          { reviewId := r.getUniqueID, status := "REVIEW_VALID", tampered := false }) :=
  ⟨by decide, by decide, by decide, by decide, by decide,
    TamperDetector.self_consistent_tree_hides_edits bracketHash
      (TamperDetector.new [exampleReviewA, exampleReviewC]) MerkleTree.exampleReviewTree
      MerkleTree.new [exampleReviewB, exampleReviewC] (by decide) (by decide) (by decide)⟩

/-! ## The analysis text -/

namespace TamperDetector

theorem digitChar_isDigit (d : Nat) (hd : d < 10) : (Nat.digitChar d).isDigit = true := by
  interval_cases d <;> decide

theorem toDigitsCore_isDigit (fuel : Nat) : ∀ (n : Nat) (ds : List Char),
    (∀ c, c ∈ ds → c.isDigit = true) →
    ∀ c, c ∈ Nat.toDigitsCore 10 fuel n ds → c.isDigit = true := by
  induction fuel with
  | zero => intro n ds h c hc; exact h c (by simpa [Nat.toDigitsCore] using hc)
  | succ fuel ih =>
    intro n ds h
    have hcons : ∀ c, c ∈ Nat.digitChar (n % 10) :: ds → c.isDigit = true := by
      intro c hc
      rcases List.mem_cons.1 hc with e | e
      · rw [e]; exact digitChar_isDigit _ (Nat.mod_lt _ (by omega))
      · exact h c e
    simp only [Nat.toDigitsCore]
    split
    · exact hcons
    · exact ih _ _ hcons

/-- The decimal text of a number consists of digits. -/
theorem natRepr_strip (n : Nat) :
    (toString n : String).toList.filter (fun c => !c.isDigit) = [] := by
  have h : (toString n : String).toList = Nat.toDigits 10 n := rfl
  rw [h, List.filter_eq_nil_iff]
  intro c hc
  have := toDigitsCore_isDigit _ _ _ (by simp) c hc
  simp [this]

set_option maxRecDepth 100000 in
/-- Which markers the analysis text without numbers contains, by case. -/
theorem analysisSkeleton_markers :
    ∀ (counts : Fin 3) (modified : Bool) (integrity : Fin 3),
      (List.IsInfix "INJECTION_DETECTED".toList
        (analysisSkeleton counts modified integrity).toList ↔ counts = 1) ∧
      (List.IsInfix "DELETION_DETECTED".toList
        (analysisSkeleton counts modified integrity).toList ↔ counts = 2) ∧
      (List.IsInfix "MODIFICATIONS_DETECTED".toList
        (analysisSkeleton counts modified integrity).toList ↔ modified = true) ∧
      (List.IsInfix "INTEGRITY_VIOLATION".toList
        (analysisSkeleton counts modified integrity).toList ↔ integrity = 1) ∧
      (List.IsInfix "INTEGRITY_PRESERVED".toList
        (analysisSkeleton counts modified integrity).toList ↔ integrity = 2) := by
  decide

end TamperDetector

namespace TamperDetector

theorem strip_append (s t : String) :
    (s ++ t).toList.filter (fun c => !c.isDigit) =
      s.toList.filter (fun c => !c.isDigit) ++ t.toList.filter (fun c => !c.isDigit) := by
  simp [String.toList]

/-- A text that contains a marker without digits still contains it after its digits
are removed. -/
theorem textContains_strip (text marker : String)
    (hm : marker.toList.filter (fun c => !c.isDigit) = marker.toList)
    (h : textContains text marker) :
    List.IsInfix marker.toList (text.toList.filter (fun c => !c.isDigit)) := by
  have := List.IsInfix.filter (fun c => !c.isDigit) h
  rwa [hm] at this

theorem textContains_append_left (s t marker : String) (h : textContains s marker) :
    textContains (s ++ t) marker := by
  unfold textContains at *
  have e : (s ++ t).toList = s.toList ++ t.toList := by simp [String.toList]
  rw [e]
  exact h.trans (List.infix_append' [] s.toList t.toList)

theorem textContains_append_right (s t marker : String) (h : textContains t marker) :
    textContains (s ++ t) marker := by
  unfold textContains at *
  have e : (s ++ t).toList = s.toList ++ t.toList := by simp [String.toList]
  rw [e]
  exact h.trans (List.suffix_append s.toList t.toList).isInfix

theorem textContains_head (marker rest : String) : textContains (marker ++ rest) marker := by
  unfold textContains
  have e : (marker ++ rest).toList = marker.toList ++ rest.toList := by simp [String.toList]
  rw [e]
  exact (List.prefix_append _ _).isInfix

end TamperDetector
namespace TamperDetector

set_option maxRecDepth 100000 in
theorem analysis_strip (o n tc : Nat) (flag : Bool) :
    (((if n > o then "INJECTION_DETECTED: " ++ toString (n - o) ++ " new reviews added\n"
        else if n < o then "DELETION_DETECTED: " ++ toString (o - n) ++ " reviews deleted\n"
        else "") ++
      (if tc > 0 then "MODIFICATIONS_DETECTED: " ++ toString tc ++ " reviews modified\n"
        else "") ++
      (if flag then "INTEGRITY_VIOLATION: Root hash mismatch confirms tampering\n"
        else if tc = 0 ∧ n = o then "INTEGRITY_PRESERVED: No tampering detected\n"
        else "") : String).toList.filter (fun c => !c.isDigit)) =
      (analysisSkeleton (countsCase o n) (decide (tc > 0)) (integrityCase flag tc o n)).toList := by
  have hA : ((if n > o then "INJECTION_DETECTED: " ++ toString (n - o) ++ " new reviews added\n"
        else if n < o then "DELETION_DETECTED: " ++ toString (o - n) ++ " reviews deleted\n"
        else "" : String).toList.filter (fun c => !c.isDigit)) =
      (if countsCase o n = 1 then "INJECTION_DETECTED:  new reviews added\n"
       else if countsCase o n = 2 then "DELETION_DETECTED:  reviews deleted\n" else "" : String).toList := by
    unfold countsCase
    by_cases h1 : n > o
    · rw [if_pos h1, if_pos h1, if_pos rfl, strip_append, strip_append, natRepr_strip]
      rfl
    · by_cases h2 : n < o
      · rw [if_neg h1, if_pos h2, if_neg h1, if_pos h2, if_neg (by decide), if_pos rfl,
          strip_append, strip_append, natRepr_strip]
        rfl
      · rw [if_neg h1, if_neg h2, if_neg h1, if_neg h2, if_neg (by decide), if_neg (by decide)]
        rfl
  have hB : ((if tc > 0 then "MODIFICATIONS_DETECTED: " ++ toString tc ++ " reviews modified\n"
        else "" : String).toList.filter (fun c => !c.isDigit)) =
      (if decide (tc > 0) = true then "MODIFICATIONS_DETECTED:  reviews modified\n" else "" : String).toList := by
    by_cases h1 : tc > 0
    · rw [if_pos h1, if_pos (by simpa using h1), strip_append, strip_append, natRepr_strip]
      rfl
    · rw [if_neg h1, if_neg (by simpa using h1)]
      rfl
  have hC : ((if flag then "INTEGRITY_VIOLATION: Root hash mismatch confirms tampering\n"
        else if tc = 0 ∧ n = o then "INTEGRITY_PRESERVED: No tampering detected\n"
        else "" : String).toList.filter (fun c => !c.isDigit)) =
      (if integrityCase flag tc o n = 1 then
          "INTEGRITY_VIOLATION: Root hash mismatch confirms tampering\n"
       else if integrityCase flag tc o n = 2 then "INTEGRITY_PRESERVED: No tampering detected\n"
       else "" : String).toList := by
    unfold integrityCase
    by_cases h1 : flag = true
    · rw [if_pos h1, if_pos h1, if_pos rfl]
      rfl
    · by_cases h2 : tc = 0 ∧ n = o
      · rw [if_neg h1, if_pos h2, if_neg h1, if_pos h2, if_neg (by decide), if_pos rfl]
        rfl
      · rw [if_neg h1, if_neg h2, if_neg h1, if_neg h2, if_neg (by decide), if_neg (by decide)]
        rfl
  rw [strip_append, strip_append, hA, hB, hC]
  unfold analysisSkeleton
  simp [String.toList]

end TamperDetector

namespace TamperDetector

set_option maxRecDepth 100000 in
/-- Which markers the analysis text of `comprehensiveAnalysis` contains. -/
theorem analysis_markers (o n tc : Nat) (flag : Bool) (text : String)
    (htext : text =
      (if n > o then "INJECTION_DETECTED: " ++ toString (n - o) ++ " new reviews added\n"
        else if n < o then "DELETION_DETECTED: " ++ toString (o - n) ++ " reviews deleted\n"
        else "") ++
      (if tc > 0 then "MODIFICATIONS_DETECTED: " ++ toString tc ++ " reviews modified\n"
        else "") ++
      (if flag then "INTEGRITY_VIOLATION: Root hash mismatch confirms tampering\n"
        else if tc = 0 ∧ n = o then "INTEGRITY_PRESERVED: No tampering detected\n"
        else "")) :
    (textContains text "INJECTION_DETECTED" ↔ n > o) ∧
    (textContains text "DELETION_DETECTED" ↔ n < o) ∧
    (textContains text "MODIFICATIONS_DETECTED" ↔ tc > 0) ∧
    (textContains text "INTEGRITY_VIOLATION" ↔ flag = true) ∧
    (textContains text "INTEGRITY_PRESERVED" ↔ flag = false ∧ tc = 0 ∧ n = o) := by
  have hstrip := analysis_strip o n tc flag
  rw [← htext] at hstrip
  obtain ⟨t1, t2, t3, t4, t5⟩ :=
    analysisSkeleton_markers (countsCase o n) (decide (tc > 0)) (integrityCase flag tc o n)
  rw [← hstrip] at t1 t2 t3 t4 t5
  have c1 : countsCase o n = 1 ↔ n > o := by
    unfold countsCase; split_ifs <;> simp_all
  have c2 : countsCase o n = 2 ↔ n < o := by
    unfold countsCase; split_ifs <;> simp_all
    omega
  have c4 : integrityCase flag tc o n = 1 ↔ flag = true := by
    unfold integrityCase; split_ifs <;> simp_all
  have c5 : integrityCase flag tc o n = 2 ↔ flag = false ∧ tc = 0 ∧ n = o := by
    unfold integrityCase; split_ifs <;> simp_all
  refine ⟨⟨fun h => c1.1 (t1.1 (textContains_strip _ _ (by decide) h)), fun h => ?_⟩,
    ⟨fun h => c2.1 (t2.1 (textContains_strip _ _ (by decide) h)), fun h => ?_⟩,
    ⟨fun h => by simpa using t3.1 (textContains_strip _ _ (by decide) h), fun h => ?_⟩,
    ⟨fun h => c4.1 (t4.1 (textContains_strip _ _ (by decide) h)), fun h => ?_⟩,
    ⟨fun h => c5.1 (t5.1 (textContains_strip _ _ (by decide) h)), fun h => ?_⟩⟩
  · rw [htext, if_pos h]
    iterate 4 apply textContains_append_left
    exact List.IsPrefix.isInfix (by decide)
  · rw [htext, if_neg (by omega), if_pos h]
    iterate 4 apply textContains_append_left
    exact List.IsPrefix.isInfix (by decide)
  · rw [htext, if_pos h]
    apply textContains_append_left
    apply textContains_append_right
    iterate 2 apply textContains_append_left
    exact List.IsPrefix.isInfix (by decide)
  · rw [htext, if_pos h]
    apply textContains_append_right
    exact List.IsPrefix.isInfix (by decide)
  · rw [htext, if_neg (show ¬ flag = true by simp [h.1]), if_pos h.2]
    apply textContains_append_right
    exact List.IsPrefix.isInfix (by decide)

end TamperDetector

/-- C33: `comprehensiveAnalysis` on a tree produced by the class's operations returns a
report; its counts are the sizes of the original and the new record set and the number of
per-record results flagged tampered, its root comparison and per-record results are those
of `detectByRootComparison` and `detectModifiedReviews`, and its text contains
`INJECTION_DETECTED` exactly when new > original, `DELETION_DETECTED` exactly when
new < original, `MODIFICATIONS_DETECTED` exactly when the tampered count is positive,
`INTEGRITY_VIOLATION` exactly when the root comparison flags tampering, and
`INTEGRITY_PRESERVED` exactly when it does not, the tampered count is 0 and the counts
are equal. -/
theorem TamperDetector.comprehensiveAnalysis_aggregates (H : String → String)
    (d : TamperDetector) (originalTree newTree : MerkleTree)
    (recs : List (String × String)) (newReviews : List Review)
    (hp : MerkleTree.Produced H newTree recs) :
    ∃ report, d.comprehensiveAnalysis H originalTree newReviews newTree = .ok report ∧
      report.originalReviewCount = d.originalReviews.length ∧
      report.newReviewCount = newReviews.length ∧
      report.rootComparison = d.detectByRootComparison newTree.getRootHash ∧
      d.detectModifiedReviews H originalTree newReviews newTree = .ok report.modifiedReviews ∧
      report.tamperedReviewCount = report.modifiedReviews.countP (fun r => r.tampered) ∧
      (textContains report.analysis "INJECTION_DETECTED" ↔
        report.newReviewCount > report.originalReviewCount) ∧
      (textContains report.analysis "DELETION_DETECTED" ↔
        report.newReviewCount < report.originalReviewCount) ∧
      (textContains report.analysis "MODIFICATIONS_DETECTED" ↔
        report.tamperedReviewCount > 0) ∧
      (textContains report.analysis "INTEGRITY_VIOLATION" ↔
        report.rootComparison.tamperingDetected = true) ∧
      (textContains report.analysis "INTEGRITY_PRESERVED" ↔
        report.rootComparison.tamperingDetected = false ∧ report.tamperedReviewCount = 0 ∧
          report.newReviewCount = report.originalReviewCount) := by
  obtain ⟨results, hrun, _, _⟩ := TamperDetector.detectModifiedReviews_spec H d originalTree
    newTree (MerkleTree.generateProof_total H newTree recs
      (MerkleTree.produced_invariant H newTree recs hp)) newReviews
  refine ⟨_, by rw [TamperDetector.comprehensiveAnalysis, hrun], rfl, rfl, rfl, hrun, rfl, ?_⟩
  exact TamperDetector.analysis_markers d.originalReviews.length newReviews.length
    (results.countP (fun r => r.tampered))
    (d.detectByRootComparison newTree.getRootHash).tamperingDetected _ rfl

set_option maxRecDepth 100000 in
/-- Witness for C33: the analysis of the reviews B, C, D against the detector and tree over
the reviews A and C reports an injection of one review, two modifications and no
integrity statement (no data set name is stored, so the root comparison flags nothing). -/
theorem TamperDetector.comprehensiveAnalysis_aggregates_witness :
    (TamperDetector.new [exampleReviewA, exampleReviewC]).comprehensiveAnalysis bracketHash
        MerkleTree.exampleReviewTree [exampleReviewB, exampleReviewC, exampleReviewD]
        MerkleTree.exampleReviewTree =
      .ok { rootComparison :=
              (TamperDetector.new [exampleReviewA, exampleReviewC]).detectByRootComparison
                MerkleTree.exampleReviewTree.getRootHash,
            modifiedReviews :=
              [{ reviewId := "A1_P1_1000000", status := "MODIFIED_REVIEW_DETECTED",
                 tampered := true },
               { reviewId := "A2_P1_1000001", status := "REVIEW_VALID", tampered := false },
               { reviewId := "A3_P2_1000002", status := "NEW_REVIEW_DETECTED",
                 tampered := true }],
            analysis :=
              "INJECTION_DETECTED: 1 new reviews added\nMODIFICATIONS_DETECTED: 2 reviews modified\n",
            originalReviewCount := 2, newReviewCount := 3, tamperedReviewCount := 2 } ∧
    ∃ report, (TamperDetector.new [exampleReviewA, exampleReviewC]).comprehensiveAnalysis
        bracketHash MerkleTree.exampleReviewTree
        [exampleReviewB, exampleReviewC, exampleReviewD] MerkleTree.exampleReviewTree =
        .ok report ∧
      (textContains report.analysis "INJECTION_DETECTED" ↔
        report.newReviewCount > report.originalReviewCount) :=
  ⟨rfl,
    (TamperDetector.comprehensiveAnalysis_aggregates bracketHash
      (TamperDetector.new [exampleReviewA, exampleReviewC]) MerkleTree.exampleReviewTree
      MerkleTree.exampleReviewTree _ [exampleReviewB, exampleReviewC, exampleReviewD]
      (MerkleTree.Produced.batch MerkleTree.new MerkleTree.exampleReviewTree
        ([exampleReviewA, exampleReviewC].map Review.convertToString)
        ([exampleReviewA, exampleReviewC].map Review.getUniqueID) rfl)).elim
      fun report h => ⟨report, h.1, h.2.2.2.2.2.2.1⟩⟩

/-! ## Algebra of the level reduction -/

namespace MerkleTree

/-- The level step distributes over a concatenation whose first part has even length. -/
theorem nextLevel_append (H : String → String) (l m : List String) (hl : l.length % 2 = 0) :
    nextLevel H (l ++ m) = nextLevel H l ++ nextLevel H m := by
  induction l using nextLevel.induct H with
  | case1 x y rest ih =>
    have hr : rest.length % 2 = 0 := by simp only [List.length_cons] at hl; omega
    have := ih hr
    simp only [List.cons_append, nextLevel, List.cons.injEq, true_and]
    exact this
  | case2 x => simp at hl
  | case3 => simp [nextLevel]

/-- Appending a copy of the last entry to a level of odd length does not change the next
level. -/
theorem nextLevel_padding (H : String → String) (l : List String) (x : String)
    (hodd : l.length % 2 = 1) (hlast : l.getLast? = some x) :
    nextLevel H (l ++ [x]) = nextLevel H l := by
  obtain ⟨l0, rfl⟩ : ∃ l0, l = l0 ++ [x] := by
    rcases List.eq_nil_or_concat l with e | ⟨l0, y, e⟩
    · simp [e] at hodd
    · subst e
      have hy : y = x := by simpa using hlast
      exact ⟨l0, by rw [hy]; simp⟩
  have h0 : l0.length % 2 = 0 := by
    simp only [List.length_append, List.length_singleton] at hodd; omega
  rw [List.append_assoc, nextLevel_append H l0 _ h0, nextLevel_append H l0 _ h0]
  rfl

/-- Swapping the two entries of a sibling pair does not change the next level. -/
theorem nextLevel_swap (H : String → String) :
    ∀ (i : Nat) (l : List String) (a b : String), l[2 * i]? = some a → l[2 * i + 1]? = some b →
      nextLevel H ((l.set (2 * i) b).set (2 * i + 1) a) = nextLevel H l := by
  intro i
  induction i with
  | zero =>
    intro l a b ha hb
    match l, ha, hb with
    | x :: y :: rest, ha, hb =>
      simp only [Nat.mul_zero, List.getElem?_cons_zero, Option.some.injEq, Nat.zero_add,
        List.getElem?_cons_succ] at ha hb
      subst ha
      subst hb
      simp only [Nat.mul_zero, List.set_cons_zero, Nat.zero_add, List.set_cons_succ, nextLevel]
      rw [combineHashes_comm]
  | succ i ih =>
    intro l a b ha hb
    match l, ha, hb with
    | [], ha, _ => simp at ha
    | [x], ha, _ =>
      have e : 2 * (i + 1) = (2 * i + 1) + 1 := by ring
      rw [e] at ha
      simp at ha
    | x :: y :: rest, ha, hb =>
      have e : 2 * (i + 1) = (2 * i + 1) + 1 := by ring
      have e1 : 2 * (i + 1) + 1 = (2 * i + 1 + 1) + 1 := by ring
      rw [e1] at hb
      rw [e] at ha
      simp only [List.getElem?_cons_succ] at ha hb
      rw [e1, e]
      simp only [List.set_cons_succ, nextLevel]
      rw [ih rest a b ha hb]

/-- The reduction of two halves of equal power-of-two length combines the reductions of
the halves. -/
theorem reduce_halves (H : String → String) :
    ∀ (j : Nat) (l1 l2 : List String), l1.length = 2 ^ j → l2.length = 2 ^ j →
      reduce H (l1 ++ l2) = combineHashes H (reduce H l1) (reduce H l2) := by
  intro j
  induction j with
  | zero =>
    intro l1 l2 h1 h2
    match l1, l2, h1, h2 with
    | [a], [b], _, _ => rfl
  | succ j ih =>
    intro l1 l2 h1 h2
    have hp : 2 ^ (j + 1) = 2 * 2 ^ j := by ring
    have hpos : 0 < 2 ^ j := Nat.pow_pos (by decide)
    have e1 : l1.length % 2 = 0 := by rw [h1, hp]; omega
    have n1 : (nextLevel H l1).length = 2 ^ j := by rw [nextLevel_length, h1, hp]; omega
    have n2 : (nextLevel H l2).length = 2 ^ j := by rw [nextLevel_length, h2, hp]; omega
    rw [reduce_step H (l1 ++ l2) (by rw [List.length_append]; omega),
      nextLevel_append H l1 l2 e1, ih _ _ n1 n2,
      ← reduce_step H l1 (by omega), ← reduce_step H l2 (by omega)]

end MerkleTree

/-- C34: for an odd number `n ≥ 3` of records, the batch build over the records and the
batch build over the records followed by one more record whose encoding equals the last
record's encoding, under any identifiers, both succeed and yield the same root hash. -/
theorem MerkleTree.trailing_duplicate_invisible (H : String → String)
    (t0 t0' : MerkleTree) (data ids ids' : List String) (x : String)
    (hodd : data.length % 2 = 1) (h3 : 3 ≤ data.length) (hlast : data.getLast? = some x)
    (hlen : ids.length = data.length) (hlen' : ids'.length = data.length + 1) :
    ∃ t t', MerkleTree.buildTreeFromReviews H t0 data ids = .ok t ∧
      MerkleTree.buildTreeFromReviews H t0' (data ++ [x]) ids' = .ok t' ∧
      t'.getRootHash = t.getRootHash := by
  have hne : data ≠ [] := by intro e; simp [e] at h3
  obtain ⟨t, ht⟩ := MerkleTree.buildTreeFromReviews_total H t0 data ids hne hlen.symm
  obtain ⟨t', ht'⟩ := MerkleTree.buildTreeFromReviews_total H t0' (data ++ [x]) ids'
    (by simp) (by simp [hlen'])
  refine ⟨t, t', ht, ht', ?_⟩
  rw [(MerkleTree.buildTreeFromReviews_spec H t0 t data ids ht).2.2.2.1,
    (MerkleTree.buildTreeFromReviews_spec H t0' t' _ ids' ht').2.2.2.1,
    MerkleTree.reduce_step H _ (by simp; omega), MerkleTree.reduce_step H (data.map H) (by simp; omega),
    List.map_append, List.map_singleton,
    MerkleTree.nextLevel_padding H (data.map H) (H x) (by simpa using hodd)
      (by simp [List.getLast?_map, hlast])]

/-- Witness for C34: the batch builds over the encodings a, b, c and a, b, c, c. -/
theorem MerkleTree.trailing_duplicate_invisible_witness :
    ∃ t t', MerkleTree.buildTreeFromReviews bracketHash MerkleTree.new ["a", "b", "c"]
        ["1", "2", "3"] = .ok t ∧
      MerkleTree.buildTreeFromReviews bracketHash MerkleTree.new (["a", "b", "c"] ++ ["c"])
        ["1", "2", "3", "4"] = .ok t' ∧
      t'.getRootHash = t.getRootHash :=
  MerkleTree.trailing_duplicate_invisible bracketHash MerkleTree.new MerkleTree.new
    ["a", "b", "c"] ["1", "2", "3"] ["1", "2", "3", "4"] "c" (by decide) (by decide) rfl rfl rfl

/-- C37: for every `k ≥ 1` and every list of `2 ^ k` records, the batch builds over the
list, over its first half and over its second half succeed, and the root hash of the
first is `combineHashes` of the root hashes of the two halves. -/
theorem MerkleTree.batch_root_splits_at_half (H : String → String)
    (t0 t1 t2 : MerkleTree) (k : Nat) (data ids : List String) (hk : 1 ≤ k)
    (hn : data.length = 2 ^ k) (hlen : ids.length = data.length) :
    ∃ t tl tr, MerkleTree.buildTreeFromReviews H t0 data ids = .ok t ∧
      MerkleTree.buildTreeFromReviews H t1 (data.take (data.length / 2))
        (ids.take (data.length / 2)) = .ok tl ∧
      MerkleTree.buildTreeFromReviews H t2 (data.drop (data.length / 2))
        (ids.drop (data.length / 2)) = .ok tr ∧
      t.getRootHash = MerkleTree.combineHashes H tl.getRootHash tr.getRootHash := by
  obtain ⟨j, rfl⟩ : ∃ j, k = j + 1 := ⟨k - 1, by omega⟩
  have hp : 2 ^ (j + 1) = 2 * 2 ^ j := by ring
  have hpos : 0 < 2 ^ j := Nat.pow_pos (by decide)
  have hhalf : data.length / 2 = 2 ^ j := by rw [hn, hp]; omega
  have hl : (data.take (data.length / 2)).length = 2 ^ j := by
    rw [List.length_take, hhalf]; omega
  have hr : (data.drop (data.length / 2)).length = 2 ^ j := by
    rw [List.length_drop, hhalf]; omega
  obtain ⟨t, ht⟩ := MerkleTree.buildTreeFromReviews_total H t0 data ids
    (by intro e; rw [e] at hn; simp at hn; omega) hlen.symm
  obtain ⟨tl, htl⟩ := MerkleTree.buildTreeFromReviews_total H t1 (data.take (data.length / 2))
    (ids.take (data.length / 2)) (by intro e; rw [e] at hl; simp at hl; omega)
    (by simp [hlen])
  obtain ⟨tr, htr⟩ := MerkleTree.buildTreeFromReviews_total H t2 (data.drop (data.length / 2))
    (ids.drop (data.length / 2)) (by intro e; rw [e] at hr; simp at hr; omega)
    (by simp [hlen])
  refine ⟨t, tl, tr, ht, htl, htr, ?_⟩
  rw [(MerkleTree.buildTreeFromReviews_spec H t0 t data ids ht).2.2.2.1,
    (MerkleTree.buildTreeFromReviews_spec H t1 tl _ _ htl).2.2.2.1,
    (MerkleTree.buildTreeFromReviews_spec H t2 tr _ _ htr).2.2.2.1,
    ← MerkleTree.reduce_halves H j _ _ (by rw [List.length_map, hl])
      (by rw [List.length_map, hr]),
    ← List.map_append, List.take_append_drop]

/-- Witness for C37: four records, split into two pairs. -/
theorem MerkleTree.batch_root_splits_at_half_witness :
    ∃ t tl tr, MerkleTree.buildTreeFromReviews bracketHash MerkleTree.new
        ["a", "b", "c", "d"] ["1", "2", "3", "4"] = .ok t ∧
      MerkleTree.buildTreeFromReviews bracketHash MerkleTree.new
        (["a", "b", "c", "d"].take (["a", "b", "c", "d"].length / 2))
        (["1", "2", "3", "4"].take (["a", "b", "c", "d"].length / 2)) = .ok tl ∧
      MerkleTree.buildTreeFromReviews bracketHash MerkleTree.new
        (["a", "b", "c", "d"].drop (["a", "b", "c", "d"].length / 2))
        (["1", "2", "3", "4"].drop (["a", "b", "c", "d"].length / 2)) = .ok tr ∧
      t.getRootHash = MerkleTree.combineHashes bracketHash tl.getRootHash tr.getRootHash :=
  MerkleTree.batch_root_splits_at_half bracketHash MerkleTree.new MerkleTree.new
    MerkleTree.new 2 ["a", "b", "c", "d"] ["1", "2", "3", "4"] (by decide) rfl rfl

/-- C38: a batch build over a non-empty encoding list succeeds under any identifier list
of the same length, two such builds over the same encoding list under different
identifier lists have the same root hash, and so has the build over the list with the
encodings at positions `2i` and `2i+1` swapped. -/
theorem MerkleTree.batch_root_ignores_pair_order_and_ids (H : String → String)
    (t0 t0' : MerkleTree) (data ids ids' : List String) (hne : data ≠ [])
    (hlen : ids.length = data.length) (hlen' : ids'.length = data.length) :
    ∃ t, MerkleTree.buildTreeFromReviews H t0 data ids = .ok t ∧
      (∃ t', MerkleTree.buildTreeFromReviews H t0' data ids' = .ok t' ∧
        t'.getRootHash = t.getRootHash) ∧
      ∀ (i : Nat) (a b : String), data[2 * i]? = some a → data[2 * i + 1]? = some b →
        ∃ t', MerkleTree.buildTreeFromReviews H t0' ((data.set (2 * i) b).set (2 * i + 1) a)
            ids' = .ok t' ∧
          t'.getRootHash = t.getRootHash := by
  obtain ⟨t, ht⟩ := MerkleTree.buildTreeFromReviews_total H t0 data ids hne hlen.symm
  have hroot := (MerkleTree.buildTreeFromReviews_spec H t0 t data ids ht).2.2.2.1
  refine ⟨t, ht, ?_, ?_⟩
  · obtain ⟨t', ht'⟩ := MerkleTree.buildTreeFromReviews_total H t0' data ids' hne hlen'.symm
    exact ⟨t', ht', by
      rw [(MerkleTree.buildTreeFromReviews_spec H t0' t' data ids' ht').2.2.2.1, hroot]⟩
  · intro i a b ha hb
    have hlt : 2 * i + 1 < data.length := by
      rcases Nat.lt_or_ge (2 * i + 1) data.length with h | h
      · exact h
      · rw [List.getElem?_eq_none h] at hb; cases hb
    obtain ⟨t', ht'⟩ := MerkleTree.buildTreeFromReviews_total H t0'
      ((data.set (2 * i) b).set (2 * i + 1) a) ids'
      (by intro e; have := congrArg List.length e
          simp only [List.length_set, List.length_nil] at this; omega) (by simp [hlen'])
    refine ⟨t', ht', ?_⟩
    rw [(MerkleTree.buildTreeFromReviews_spec H t0' t' _ ids' ht').2.2.2.1, hroot,
      MerkleTree.reduce_step H _ (by simp; omega),
      MerkleTree.reduce_step H (data.map H) (by simp; omega),
      List.map_set, List.map_set,
      MerkleTree.nextLevel_swap H i (data.map H) (H a) (H b) (by simp [ha]) (by simp [hb])]

/-- Witness for C38: the encodings a, b, c, d under two identifier lists, and with c and d
swapped. -/
theorem MerkleTree.batch_root_ignores_pair_order_and_ids_witness :
    ∃ t, MerkleTree.buildTreeFromReviews bracketHash MerkleTree.new ["a", "b", "c", "d"]
        ["1", "2", "3", "4"] = .ok t ∧
      ∃ t', MerkleTree.buildTreeFromReviews bracketHash MerkleTree.new ["a", "b", "d", "c"]
          ["5", "6", "7", "8"] = .ok t' ∧
        t'.getRootHash = t.getRootHash :=
  (MerkleTree.batch_root_ignores_pair_order_and_ids bracketHash MerkleTree.new MerkleTree.new
    ["a", "b", "c", "d"] ["1", "2", "3", "4"] ["5", "6", "7", "8"] (by simp) rfl rfl).elim
    fun t h => ⟨t, h.1, h.2.2 1 "c" "d" rfl rfl⟩

/-! ## Unpaired proof elements and ambiguous encodings -/

namespace MerkleTree

/-- The verification loop only reads the complete pairs of the proof vector. -/
theorem verifyLoop_completePairs (H : String → String) (proof : List String) (cur : String) :
    verifyLoop H proof cur = referenceFold H cur ((completePairs proof).map Prod.fst) := by
  induction proof using completePairs.induct generalizing cur with
  | case1 s d rest ih =>
    have h := verifyLoop_flatProof H [(s, d)] cur
    simp only [flatProof, List.map_cons, List.map_nil, referenceFold, List.foldl_cons,
      List.foldl_nil] at h
    simp only [completePairs, List.map_cons, referenceFold, List.foldl_cons]
    rw [← h]
    simp only [verifyLoop]
    split <;> exact ih _
  | case2 proof hno =>
    match proof, hno with
    | [], _ => rfl
    | [x], _ => rfl
    | s :: d :: rest, hno => exact absurd rfl (hno s d rest)

/-- A proof vector of odd length is its complete pairs followed by one element. -/
theorem completePairs_odd (proof : List String) (hodd : proof.length % 2 = 1) :
    ∃ x, proof = flatProof (completePairs proof) ++ [x] := by
  induction proof using completePairs.induct with
  | case1 s d rest ih =>
    obtain ⟨x, hx⟩ := ih (by simp only [List.length_cons] at hodd; omega)
    exact ⟨x, by simp only [completePairs, flatProof, List.cons_append, ← hx]⟩
  | case2 proof hno =>
    match proof, hno, hodd with
    | [x], _, _ => exact ⟨x, rfl⟩
    | s :: d :: rest, hno, _ => exact absurd rfl (hno s d rest)

end MerkleTree

/-- C39: for a flat proof vector of odd length, which is its complete
(siblingHash, side) pairs followed by one element, `verifyProof` returns whether the
reference fold over the complete pairs, started at `H(e)`, ends at the trusted root; for
a one-element proof `[x]` it is true exactly when `H(e) = r`, so a one-element proof
verifies the record of a batch-built single-leaf tree against the tree's root although
the empty proof does not. -/
theorem MerkleTree.verifyProof_ignores_unpaired_tail (H : String → String) (e r : String)
    (proof : List String) (hodd : proof.length % 2 = 1) :
    (∃ x, proof = MerkleTree.flatProof (MerkleTree.completePairs proof) ++ [x]) ∧
    MerkleTree.verifyProof H e proof r =
      decide (MerkleTree.referenceFold H (H e)
        ((MerkleTree.completePairs proof).map Prod.fst) = r) ∧
    (∀ x, MerkleTree.verifyProof H e [x] r = true ↔ H e = r) ∧
    ∀ (x id : String) (t0 : MerkleTree),
      ∃ t, MerkleTree.buildTreeFromReviews H t0 [e] [id] = .ok t ∧
        MerkleTree.verifyProof H e [x] t.getRootHash = true ∧
        MerkleTree.verifyProof H e [] t.getRootHash = false := by
  refine ⟨MerkleTree.completePairs_odd proof hodd, ?_, ?_, ?_⟩
  · have hne : proof.isEmpty = false := by
      cases proof with
      | nil => simp at hodd
      | cons x xs => rfl
    rw [MerkleTree.verifyProof, hne, ← MerkleTree.verifyLoop_completePairs]
    rfl
  · intro x
    simp [MerkleTree.verifyProof, MerkleTree.verifyLoop]
  · intro x id t0
    obtain ⟨t, ht⟩ := MerkleTree.buildTreeFromReviews_total H t0 [e] [id] (by simp) rfl
    have hroot := (MerkleTree.buildTreeFromReviews_spec H t0 t [e] [id] ht).2.2.2.1
    rw [List.map_singleton, MerkleTree.reduce_singleton] at hroot
    exact ⟨t, ht, by simp [MerkleTree.verifyProof, MerkleTree.verifyLoop, hroot], rfl⟩

/-- Witness for C39: a one-step proof followed by a junk element. -/
theorem MerkleTree.verifyProof_ignores_unpaired_tail_witness :
    ["<b>", "r", "junk"].length % 2 = 1 ∧
    MerkleTree.verifyProof bracketHash "a" ["<b>", "r", "junk"] "<<a><b>>" = true ∧
    MerkleTree.verifyProof bracketHash "a" ["<b>", "r", "junk"] "<<a><b>>" =
      decide (MerkleTree.referenceFold bracketHash (bracketHash "a")
        ((MerkleTree.completePairs ["<b>", "r", "junk"]).map Prod.fst) = "<<a><b>>") :=
  ⟨by decide, by decide,
    (MerkleTree.verifyProof_ignores_unpaired_tail bracketHash "a" "<<a><b>>"
      ["<b>", "r", "junk"] (by decide)).2.1⟩

/-- C40: two records with the same reviewID, asin, reviewerID, rating and timestamp but
different (reviewText, summary) pairs have the same `convertToString` output, hence the
same leaf hash under every digest, and batch builds over record lists that differ only in
these two records succeed with the same root hash. -/
theorem Review.convertToString_ambiguous (a b c : String) :
    (exampleSplitEarly a b c).reviewID = (exampleSplitLate a b c).reviewID ∧
    (exampleSplitEarly a b c).asin = (exampleSplitLate a b c).asin ∧
    (exampleSplitEarly a b c).reviewerID = (exampleSplitLate a b c).reviewerID ∧
    (exampleSplitEarly a b c).overall = (exampleSplitLate a b c).overall ∧
    (exampleSplitEarly a b c).unixReviewTime = (exampleSplitLate a b c).unixReviewTime ∧
    (exampleSplitEarly a b c).reviewText ≠ (exampleSplitLate a b c).reviewText ∧
    (exampleSplitEarly a b c).convertToString = (exampleSplitLate a b c).convertToString ∧
    (exampleSplitEarly "a" "b" "c").reviewText = "a\nsummary: b" ∧
    (exampleSplitLate "a" "b" "c").summary = "b\nsummary: c" ∧
    ∀ (H : String → String),
      H (exampleSplitEarly a b c).convertToString =
        H (exampleSplitLate a b c).convertToString ∧
      ∀ (t0 t0' : MerkleTree) (pre post : List Review),
        ∃ t t', MerkleTree.buildTreeFromReviews H t0
            ((pre ++ exampleSplitEarly a b c :: post).map Review.convertToString)
            ((pre ++ exampleSplitEarly a b c :: post).map Review.getUniqueID) = .ok t ∧
          MerkleTree.buildTreeFromReviews H t0'
            ((pre ++ exampleSplitLate a b c :: post).map Review.convertToString)
            ((pre ++ exampleSplitLate a b c :: post).map Review.getUniqueID) = .ok t' ∧
          t.getRootHash = t'.getRootHash := by
  have henc : (exampleSplitEarly a b c).convertToString =
      (exampleSplitLate a b c).convertToString := by
    have hs : ("\nsummary: " : String) = "\n" ++ "summary: " := by decide
    simp only [Review.convertToString, exampleSplitEarly, exampleSplitLate, hs,
      String.append_assoc]
  have hne : (exampleSplitEarly a b c).reviewText ≠ (exampleSplitLate a b c).reviewText := by
    intro h
    have := congrArg String.length h
    have hs : ("\nsummary: " : String).length = 10 := by decide
    simp only [exampleSplitEarly, exampleSplitLate, String.length_append, hs] at this
    omega
  refine ⟨rfl, rfl, rfl, rfl, rfl, hne, henc, by decide, by decide, fun H => ⟨by rw [henc], ?_⟩⟩
  intro t0 t0' pre post
  have hdata : (pre ++ exampleSplitEarly a b c :: post).map Review.convertToString =
      (pre ++ exampleSplitLate a b c :: post).map Review.convertToString := by
    simp only [List.map_append, List.map_cons, henc]
  obtain ⟨t, ht⟩ := MerkleTree.buildTreeFromReviews_total H t0
    ((pre ++ exampleSplitEarly a b c :: post).map Review.convertToString)
    ((pre ++ exampleSplitEarly a b c :: post).map Review.getUniqueID) (by simp) (by simp)
  obtain ⟨t', ht'⟩ := MerkleTree.buildTreeFromReviews_total H t0'
    ((pre ++ exampleSplitLate a b c :: post).map Review.convertToString)
    ((pre ++ exampleSplitLate a b c :: post).map Review.getUniqueID) (by simp) (by simp)
  refine ⟨t, t', ht, ht', ?_⟩
  rw [(MerkleTree.buildTreeFromReviews_spec H t0 t _ _ ht).2.2.2.1,
    (MerkleTree.buildTreeFromReviews_spec H t0' t' _ _ ht').2.2.2.1, hdata]

/-! ## Incrementally grown trees are balanced -/

namespace Shape

theorem leaves_pos (T : Shape) : 0 < T.leaves := by
  induction T with
  | leaf x => exact Nat.one_pos
  | node c l r ihl _ => simp only [leaves]; omega

theorem root_mem (T : Shape) : T.root ∈ T.addrs := by
  cases T <;> simp [root, addrs]

theorem height_lt_length (T : Shape) : T.height < T.addrs.length := by
  induction T with
  | leaf x => simp [height, addrs]
  | node c l r ihl ihr =>
    simp only [height, addrs, List.length_cons, List.length_append]
    omega

theorem insert_root_mem (n0 : Nat) (T : Shape) :
    (T.insert n0).root = T.root ∨ (T.insert n0).root = n0 + 1 := by
  cases T with
  | leaf x => right; rfl
  | node c l r =>
    left
    simp only [insert]
    split <;> rfl

theorem mem_insert (n0 : Nat) (T : Shape) (y : Nat) :
    y ∈ (T.insert n0).addrs ↔ y ∈ T.addrs ∨ y = n0 ∨ y = n0 + 1 := by
  induction T with
  | leaf x => simp only [insert, addrs, List.mem_cons, List.mem_append, List.mem_singleton,
      List.not_mem_nil, or_false]; tauto
  | node c l r ihl ihr =>
    simp only [insert]
    split
    · simp only [addrs, List.mem_cons, List.mem_append, ihl]; tauto
    · simp only [addrs, List.mem_cons, List.mem_append, ihr]; tauto

theorem insert_length (n0 : Nat) (T : Shape) :
    (T.insert n0).addrs.length = T.addrs.length + 2 := by
  induction T with
  | leaf x => rfl
  | node c l r ihl ihr =>
    simp only [insert]
    split
    · simp only [addrs, List.length_cons, List.length_append, ihl]; omega
    · simp only [addrs, List.length_cons, List.length_append, ihr]; omega

theorem insert_nodup (n0 : Nat) (T : Shape) (hnd : T.addrs.Nodup)
    (hlt : ∀ x, x ∈ T.addrs → x < n0) : (T.insert n0).addrs.Nodup := by
  induction T with
  | leaf x =>
    have := hlt x (by simp [addrs])
    have h1 : n0 + 1 ≠ x := by omega
    have h2 : n0 + 1 ≠ n0 := by omega
    have h3 : x ≠ n0 := by omega
    simp [insert, addrs, h1, h2, h3]
  | node c l r ihl ihr =>
    simp only [addrs, List.nodup_cons, List.mem_append, List.nodup_append] at hnd
    obtain ⟨hc, hl, hr, hdis⟩ := hnd
    have hltl : ∀ x, x ∈ l.addrs → x < n0 := fun x hx => hlt x (by simp [addrs, hx])
    have hltr : ∀ x, x ∈ r.addrs → x < n0 := fun x hx => hlt x (by simp [addrs, hx])
    have hcl := hlt c (by simp [addrs])
    simp only [insert]
    split
    · simp only [addrs, List.nodup_cons, List.mem_append, List.nodup_append, mem_insert]
      refine ⟨?_, ihl hl hltl, hr, ?_⟩
      · intro h; rcases h with (h | h | h) | h
        · exact hc (Or.inl h)
        · omega
        · omega
        · exact hc (Or.inr h)
      · intro y hy hy2
        rw [mem_insert] at hy
        rcases hy with h | h | h
        · exact hdis h hy2
        · have := hltr y hy2; omega
        · have := hltr y hy2; omega
    · simp only [addrs, List.nodup_cons, List.mem_append, List.nodup_append, mem_insert]
      refine ⟨?_, hl, ihr hr hltr, ?_⟩
      · intro h; rcases h with h | h | h | h
        · exact hc (Or.inl h)
        · exact hc (Or.inr h)
        · omega
        · omega
      · intro y hy hy2
        rw [mem_insert] at hy2
        rcases hy2 with h | h | h
        · exact hdis hy h
        · have := hltl y hy; omega
        · have := hltl y hy; omega

theorem insert_leaves (n0 : Nat) (T : Shape) : (T.insert n0).leaves = T.leaves + 1 := by
  induction T with
  | leaf x => rfl
  | node c l r ihl ihr =>
    simp only [insert]
    split
    · simp only [leaves, ihl]; omega
    · simp only [leaves, ihr]; omega

theorem insert_balanced (n0 : Nat) (T : Shape) (hb : T.Balanced) : (T.insert n0).Balanced := by
  induction T with
  | leaf x => exact ⟨Or.inl rfl, trivial, trivial⟩
  | node c l r ihl ihr =>
    obtain ⟨h, hl, hr⟩ := hb
    simp only [insert]
    split
    · exact ⟨by rw [insert_leaves]; omega, ihl hl, hr⟩
    · exact ⟨by rw [insert_leaves]; omega, hl, ihr hr⟩

/-- A balanced shape is at most as high as the ceiling of the binary logarithm of its
number of leaves. -/
theorem balanced_height (T : Shape) (hb : T.Balanced) : T.height ≤ Nat.clog 2 T.leaves := by
  induction T with
  | leaf x => simp [height]
  | node c l r ihl ihr =>
    obtain ⟨h, hl, hr⟩ := hb
    have pl := leaves_pos l
    have pr := leaves_pos r
    have e : (l.leaves + r.leaves + 1) / 2 = l.leaves := by omega
    have hle : r.leaves ≤ l.leaves := by omega
    have hmono : Nat.clog 2 r.leaves ≤ Nat.clog 2 l.leaves := Nat.clog_mono_right 2 hle
    have := MerkleTree.clog_level (l.leaves + r.leaves) (by omega)
    rw [e] at this
    have h1 := ihl hl
    have h2 := ihr hr
    simp only [height, leaves, this]
    omega

end Shape

namespace Arena

/-- The predicate `Holds` only reads the child pointers of the nodes of the shape and the
parent pointers of the nodes below its topmost node. -/
theorem holds_congr (a a1 : Arena) : ∀ (T : Shape), T.addrs.Nodup → a.Holds T →
    (∀ y, y ∈ T.addrs → (a1.cell y).left = (a.cell y).left ∧
      (a1.cell y).right = (a.cell y).right) →
    (∀ y, y ∈ T.addrs → y ≠ T.root → (a1.cell y).parent = (a.cell y).parent) →
    a1.Holds T := by
  intro T
  induction T with
  | leaf x =>
    intro _ h hc _
    have := hc x (by simp [Shape.addrs])
    exact ⟨by rw [this.1]; exact h.1, by rw [this.2]; exact h.2⟩
  | node c l r ihl ihr =>
    intro hnd h hc hp
    simp only [Shape.addrs, List.nodup_cons, List.mem_append, List.nodup_append] at hnd
    obtain ⟨hcn, hl, hr, hdis⟩ := hnd
    obtain ⟨h1, h2, h3, h4, h5, h6⟩ := h
    have hlr : l.root ≠ c := fun e => hcn (Or.inl (e ▸ l.root_mem))
    have hrr : r.root ≠ c := fun e => hcn (Or.inr (e ▸ r.root_mem))
    have hcc := hc c (by simp [Shape.addrs])
    refine ⟨by rw [hcc.1]; exact h1, by rw [hcc.2]; exact h2, ?_, ?_, ?_, ?_⟩
    · rw [hp l.root (by simp [Shape.addrs, l.root_mem]) hlr]; exact h3
    · rw [hp r.root (by simp [Shape.addrs, r.root_mem]) hrr]; exact h4
    · exact ihl hl h5 (fun y hy => hc y (by simp [Shape.addrs, hy]))
        (fun y hy _ => hp y (by simp [Shape.addrs, hy]) (fun e => hcn (Or.inl (by have e1 : y = c := e; rw [← e1]; exact hy))))
    · exact ihr hr h6 (fun y hy => hc y (by simp [Shape.addrs, hy]))
        (fun y hy _ => hp y (by simp [Shape.addrs, hy]) (fun e => hcn (Or.inr (by have e1 : y = c := e; rw [← e1]; exact hy))))

/-- On an arena that holds a shape, `countLeaves` returns the number of leaves of the
shape. -/
theorem countLeaves_holds (a : Arena) : ∀ (T : Shape) (fuel : Nat), a.Holds T →
    T.height < fuel → MerkleTree.countLeaves a fuel (some T.root) = .ok T.leaves := by
  intro T
  induction T with
  | leaf x =>
    intro fuel h hf
    obtain ⟨f, rfl⟩ : ∃ f, fuel = f + 1 := ⟨fuel - 1, by omega⟩
    have := (MerkleTree.isLeaf_iff a x).2 h
    simp [MerkleTree.countLeaves, Shape.root, Shape.leaves, this]
  | node c l r ihl ihr =>
    intro fuel h hf
    obtain ⟨f, rfl⟩ : ∃ f, fuel = f + 1 := ⟨fuel - 1, by omega⟩
    obtain ⟨h1, h2, _, _, h5, h6⟩ := h
    simp only [Shape.height] at hf
    have hleaf : (a.cell c).isLeaf = false := by
      rw [MerkleTree.isLeaf_eq_false_iff]
      intro hls
      rw [hls.1] at h1
      cases h1
    have el := ihl f h5 (by omega)
    have er := ihr f h6 (by omega)
    show MerkleTree.countLeaves a (f + 1) (some c) = .ok (l.leaves + r.leaves)
    simp only [MerkleTree.countLeaves, hleaf, h1, h2, el, er]
    simp

/-- On an arena that holds a shape, every node of the shape reaches the topmost node by
at most as many parent steps as the shape is high. -/
theorem climb_holds (a : Arena) : ∀ (T : Shape), a.Holds T → ∀ x, x ∈ T.addrs →
    ∃ d, d ≤ T.height ∧ a.climb d x = some T.root := by
  intro T
  induction T with
  | leaf x =>
    intro _ y hy
    simp only [Shape.addrs, List.mem_singleton] at hy
    subst hy
    exact ⟨0, le_refl _, rfl⟩
  | node c l r ihl ihr =>
    intro h y hy
    obtain ⟨_, _, h3, h4, h5, h6⟩ := h
    simp only [Shape.addrs, List.mem_cons, List.mem_append] at hy
    rcases hy with hy | hy | hy
    · subst hy
      exact ⟨0, Nat.zero_le _, rfl⟩
    · obtain ⟨d, hd, hc⟩ := ihl h5 y hy
      refine ⟨d + 1, by simp only [Shape.height]; omega, ?_⟩
      rw [climb_succ, hc]
      exact h3
    · obtain ⟨d, hd, hc⟩ := ihr h6 y hy
      refine ⟨d + 1, by simp only [Shape.height]; omega, ?_⟩
      rw [climb_succ, hc]
      exact h4

/-- On an arena that holds a shape, every internal node of the shape stands over two
lower subshapes, which differ by at most one leaf to the left if the shape is balanced. -/
theorem inner_holds (a : Arena) : ∀ (T : Shape), a.Holds T → ∀ c, c ∈ T.addrs →
    ¬ a.LeafShaped c →
    ∃ l r : Shape, (a.cell c).left = some l.root ∧ (a.cell c).right = some r.root ∧
      a.Holds l ∧ a.Holds r ∧ l.height < T.height ∧ r.height < T.height ∧
      (T.Balanced → l.leaves = r.leaves ∨ l.leaves = r.leaves + 1) := by
  intro T
  induction T with
  | leaf x =>
    intro h y hy hn
    simp only [Shape.addrs, List.mem_singleton] at hy
    subst hy
    exact absurd h hn
  | node c l r ihl ihr =>
    intro h y hy hn
    obtain ⟨h1, h2, _, _, h5, h6⟩ := h
    simp only [Shape.addrs, List.mem_cons, List.mem_append] at hy
    rcases hy with hy | hy | hy
    · subst hy
      exact ⟨l, r, h1, h2, h5, h6, by simp only [Shape.height]; omega,
        by simp only [Shape.height]; omega, fun hb => hb.1⟩
    · obtain ⟨l1, r1, e1, e2, e3, e4, e5, e6, e7⟩ := ihl h5 y hy hn
      exact ⟨l1, r1, e1, e2, e3, e4, by simp only [Shape.height]; omega,
        by simp only [Shape.height]; omega, fun hb => e7 hb.2.1⟩
    · obtain ⟨l1, r1, e1, e2, e3, e4, e5, e6, e7⟩ := ihr h6 y hy hn
      exact ⟨l1, r1, e1, e2, e3, e4, by simp only [Shape.height]; omega,
        by simp only [Shape.height]; omega, fun hb => e7 hb.2.2⟩

end Arena

namespace MerkleTree

/-- The run of `insertLeaf` on an arena that holds a shape: it returns the topmost node of
the shape with the new leaf inserted, the arena holds that shape afterwards, and nodes
outside the shape other than the new leaf and the fresh node are untouched. -/
theorem insertLeaf_holds (H : String → String) (n0 : Nat) :
    ∀ (T : Shape) (fuel : Nat) (a : Arena), a.Holds T → T.addrs.Nodup →
      (∀ x, x ∈ T.addrs → x < n0) → a.size = n0 + 1 → a.LeafShaped n0 →
      T.height < fuel → T.height ≤ a.size →
      ∃ a1, insertLeaf H fuel a (some T.root) n0 = .ok (a1, (T.insert n0).root) ∧
        a1.Holds (T.insert n0) ∧ a1.size = n0 + 2 ∧
        ∀ y, y ∉ T.addrs → y ≠ n0 → y ≠ n0 + 1 → a1.cell y = a.cell y := by
  intro T
  induction T with
  | leaf x =>
    intro fuel a h _ hlt hsize hnew hf _
    obtain ⟨f, rfl⟩ : ∃ f, fuel = f + 1 := ⟨fuel - 1, by omega⟩
    have hx : x < n0 := hlt x (by simp [Shape.addrs])
    have hleaf := (isLeaf_iff a x).2 h
    obtain ⟨j1, j2, j3, j4, j5, j6⟩ := Arena.join_cell a
      (combineHashes H (a.cell x).hash (a.cell n0).hash) x n0 (by omega) (by omega)
    rw [hsize] at j1 j2 j3 j4 j5 j6
    refine ⟨_, ?_, ?_, j1, ?_⟩
    · rw [show (Shape.leaf x).root = x from rfl, insertLeaf_at_leaf H f a x n0 hleaf, hsize]
      rfl
    · refine ⟨?_, ?_, j3, j4, ?_, ?_⟩
      · show ((a.join _ x n0).cell (n0 + 1)).left = some x
        rw [j2]; rfl
      · show ((a.join _ x n0).cell (n0 + 1)).right = some n0
        rw [j2]; rfl
      · have := j5 x (by omega)
        exact ⟨by rw [this.2.1]; exact h.1, by rw [this.2.2.1]; exact h.2⟩
      · have := j5 n0 (by omega)
        exact ⟨by rw [this.2.1]; exact hnew.1, by rw [this.2.2.1]; exact hnew.2⟩
    · intro y hy h1 h2
      simp only [Shape.addrs, List.mem_singleton] at hy
      exact j6 y h2 hy h1
  | node c l r ihl ihr =>
    intro fuel a h hnd hlt hsize hnew hf hh
    obtain ⟨f, rfl⟩ : ∃ f, fuel = f + 1 := ⟨fuel - 1, by omega⟩
    have hnd0 := hnd
    simp only [Shape.addrs, List.nodup_cons, List.mem_append, List.nodup_append] at hnd
    obtain ⟨hcn, hl, hr, hdis⟩ := hnd
    obtain ⟨h1, h2, h3, h4, h5, h6⟩ := h
    simp only [Shape.height] at hf hh
    have hltl : ∀ x, x ∈ l.addrs → x < n0 := fun x hx => hlt x (by simp [Shape.addrs, hx])
    have hltr : ∀ x, x ∈ r.addrs → x < n0 := fun x hx => hlt x (by simp [Shape.addrs, hx])
    have hc : c < n0 := hlt c (by simp [Shape.addrs])
    have hleaf : (a.cell c).isLeaf = false := by
      rw [isLeaf_eq_false_iff]
      intro hls
      rw [hls.1] at h1
      cases h1
    have cl : countLeaves a (a.size + 1) (a.cell c).left = .ok l.leaves := by
      rw [h1]; exact Arena.countLeaves_holds a l _ h5 (by omega)
    have cr : countLeaves a (a.size + 1) (a.cell c).right = .ok r.leaves := by
      rw [h2]; exact Arena.countLeaves_holds a r _ h6 (by omega)
    by_cases hle : l.leaves ≤ r.leaves
    · obtain ⟨a1, hrun, hholds, hsz, hframe⟩ :=
        ihl f a h5 hl hltl hsize hnew (by omega) (by omega)
      have hins : (Shape.node c l r).insert n0 = Shape.node c (l.insert n0) r := by
        simp only [Shape.insert, if_pos hle]
      have hnl : (l.insert n0).root ∈ (l.insert n0).addrs := Shape.root_mem _
      have hnl1 := (Shape.mem_insert n0 l _).1 hnl
      have hne : (l.insert n0).root ≠ c := by
        intro e
        rw [e] at hnl1
        rcases hnl1 with h | h | h
        · exact hcn (Or.inl h)
        · omega
        · omega
      have hca1 : a1.cell c = a.cell c := hframe c (fun h => hcn (Or.inl h)) (by omega) (by omega)
      obtain ⟨k1, k2, k3, k4, k5, k6, k7, k8, k9, k10⟩ := relink_left_cells a1 c
        (l.insert n0).root
        (combineHashes H
          ((((a1.setLeft c (some (l.insert n0).root)).setParent (l.insert n0).root
            (some c)).cell (l.insert n0).root).hash)
          ((((a1.setLeft c (some (l.insert n0).root)).setParent (l.insert n0).root
            (some c)).cell r.root).hash)) hne
      rw [← h1] at hrun
      have hgo := insertLeaf_go_left H f a a1 c n0 l.leaves r.leaves (l.insert n0).root
        (l.insert n0).root r.root hleaf cl cr hle hrun k1 (by rw [k2, hca1]; exact h2)
      rw [hins]
      refine ⟨_, hgo, ?_, by rw [k3]; exact hsz, ?_⟩
      · have hr_keep : ∀ y, y ∈ r.addrs → _ = a.cell y := fun y hy =>
          (k4 y (fun e => hcn (Or.inr (e ▸ hy)))
            (fun e => by
              rw [e] at hy
              rcases hnl1 with h | h | h
              · exact hdis h hy
              · have := hltr _ hy; omega
              · have := hltr _ hy; omega)).trans
          (hframe y (fun h => hdis h hy) (by have := hltr y hy; omega)
            (by have := hltr y hy; omega))
        refine ⟨k7, by rw [k8, hca1]; exact h2, by rw [k5], ?_, ?_, ?_⟩
        · rw [hr_keep r.root r.root_mem]; exact h4
        · apply Arena.holds_congr a1 _ (l.insert n0) (Shape.insert_nodup n0 l hl hltl) hholds
          · intro y hy
            have hyc : y ≠ c := by
              intro e
              rw [e, Shape.mem_insert] at hy
              rcases hy with h | h | h
              · exact hcn (Or.inl h)
              · omega
              · omega
            by_cases hyn : y = (l.insert n0).root
            · rw [hyn, k5]; exact ⟨rfl, rfl⟩
            · rw [k4 y hyc hyn]; exact ⟨rfl, rfl⟩
          · intro y hy hyn
            have hyc : y ≠ c := by
              intro e
              rw [e, Shape.mem_insert] at hy
              rcases hy with h | h | h
              · exact hcn (Or.inl h)
              · omega
              · omega
            rw [k4 y hyc hyn]
        · apply Arena.holds_congr a _ r hr h6
          · intro y hy; rw [hr_keep y hy]; exact ⟨rfl, rfl⟩
          · intro y hy _; rw [hr_keep y hy]
      · intro y hy hy1 hy2
        simp only [Shape.addrs, List.mem_cons, List.mem_append, not_or] at hy
        rw [k4 y hy.1 (fun e => by
          rw [e] at hy
          rcases hnl1 with h | h | h
          · exact hy.2.1 h
          · exact hy1 (e ▸ h)
          · exact hy2 (e ▸ h))]
        exact hframe y hy.2.1 hy1 hy2
    · obtain ⟨a1, hrun, hholds, hsz, hframe⟩ :=
        ihr f a h6 hr hltr hsize hnew (by omega) (by omega)
      have hins : (Shape.node c l r).insert n0 = Shape.node c l (r.insert n0) := by
        simp only [Shape.insert, if_neg hle]
      have hnl : (r.insert n0).root ∈ (r.insert n0).addrs := Shape.root_mem _
      have hnl1 := (Shape.mem_insert n0 r _).1 hnl
      have hne : (r.insert n0).root ≠ c := by
        intro e
        rw [e] at hnl1
        rcases hnl1 with h | h | h
        · exact hcn (Or.inr h)
        · omega
        · omega
      have hca1 : a1.cell c = a.cell c := hframe c (fun h => hcn (Or.inr h)) (by omega) (by omega)
      obtain ⟨k1, k2, k3, k4, k5, k6, k7, k8, k9, k10⟩ := relink_right_cells a1 c
        (r.insert n0).root
        (combineHashes H
          ((((a1.setRight c (some (r.insert n0).root)).setParent (r.insert n0).root
            (some c)).cell l.root).hash)
          ((((a1.setRight c (some (r.insert n0).root)).setParent (r.insert n0).root
            (some c)).cell (r.insert n0).root).hash)) hne
      rw [← h2] at hrun
      have hgo := insertLeaf_go_right H f a a1 c n0 l.leaves r.leaves (r.insert n0).root
        l.root (r.insert n0).root hleaf cl cr hle hrun (by rw [k1, hca1]; exact h1) k2
      rw [hins]
      refine ⟨_, hgo, ?_, by rw [k3]; exact hsz, ?_⟩
      · have hl_keep : ∀ y, y ∈ l.addrs → _ = a.cell y := fun y hy =>
          (k4 y (fun e => hcn (Or.inl (e ▸ hy)))
            (fun e => by
              rw [e] at hy
              rcases hnl1 with h | h | h
              · exact hdis hy h
              · have := hltl _ hy; omega
              · have := hltl _ hy; omega)).trans
          (hframe y (fun h => hdis hy h) (by have := hltl y hy; omega)
            (by have := hltl y hy; omega))
        refine ⟨by rw [k7, hca1]; exact h1, k8, ?_, by rw [k5], ?_, ?_⟩
        · rw [hl_keep l.root l.root_mem]; exact h3
        · apply Arena.holds_congr a _ l hl h5
          · intro y hy; rw [hl_keep y hy]; exact ⟨rfl, rfl⟩
          · intro y hy _; rw [hl_keep y hy]
        · apply Arena.holds_congr a1 _ (r.insert n0) (Shape.insert_nodup n0 r hr hltr) hholds
          · intro y hy
            have hyc : y ≠ c := by
              intro e
              rw [e, Shape.mem_insert] at hy
              rcases hy with h | h | h
              · exact hcn (Or.inr h)
              · omega
              · omega
            by_cases hyn : y = (r.insert n0).root
            · rw [hyn, k5]; exact ⟨rfl, rfl⟩
            · rw [k4 y hyc hyn]; exact ⟨rfl, rfl⟩
          · intro y hy hyn
            have hyc : y ≠ c := by
              intro e
              rw [e, Shape.mem_insert] at hy
              rcases hy with h | h | h
              · exact hcn (Or.inr h)
              · omega
              · omega
            rw [k4 y hyc hyn]
      · intro y hy hy1 hy2
        simp only [Shape.addrs, List.mem_cons, List.mem_append, not_or] at hy
        rw [k4 y hy.1 (fun e => by
          rw [e] at hy
          rcases hnl1 with h | h | h
          · exact hy.2.2 h
          · exact hy1 (e ▸ h)
          · exact hy2 (e ▸ h))]
        exact hframe y hy.2.2 hy1 hy2

end MerkleTree

namespace MerkleTree

theorem incremental_produced (H : String → String) (t : MerkleTree)
    (recs : List (String × String)) (h : Incremental H t recs) : Produced H t recs := by
  induction h with
  | new => exact Produced.new
  | add t t1 recs e id _ hadd ih => exact Produced.add t t1 recs e id ih hadd

/-- An incrementally grown tree is the empty tree, or its arena holds a balanced shape
that covers all allocated nodes and has one leaf per record. -/
theorem incremental_shape (H : String → String) (t : MerkleTree)
    (recs : List (String × String)) (h : Incremental H t recs) :
    (recs = [] ∧ t.root = none ∧ t.arena.size = 0 ∧ t.leafMap = []) ∨
    ∃ T : Shape, t.root = some T.root ∧ t.arena.Holds T ∧ T.addrs.Nodup ∧
      (∀ x, x ∈ T.addrs ↔ x < t.arena.size) ∧ T.addrs.length = t.arena.size ∧
      T.Balanced ∧ T.leaves = recs.length := by
  induction h with
  | new => exact Or.inl ⟨rfl, rfl, rfl, rfl⟩
  | add t t1 recs e id hinc hadd ih =>
    right
    rcases ih with ⟨hrecs, hroot, hsize, hmap⟩ | ⟨T, hroot, hholds, hnd, hmem, hlen, hbal, hleaves⟩
    · have hadd1 := hadd
      unfold addReview at hadd1
      rw [hmap, hroot] at hadd1
      simp only [mapFind_nil, Option.isSome_none, Bool.false_eq_true, if_false,
        Except.ok.injEq] at hadd1
      subst hadd1
      refine ⟨Shape.leaf t.arena.size, rfl, ?_, by simp [Shape.addrs], ?_, ?_, trivial, ?_⟩
      · show Arena.LeafShaped _ _
        unfold Arena.LeafShaped
        rw [alloc_snd, alloc_cell_size]
        exact ⟨rfl, rfl⟩
      · intro x
        simp only [Shape.addrs, List.mem_singleton, alloc_snd, alloc_size, hsize]
        omega
      · simp [Shape.addrs, alloc_size, hsize]
      · simp [Shape.leaves, hrecs]
    · have inv := produced_invariant H t recs (incremental_produced H t recs hinc)
      obtain ⟨rank, r1, x, _, hrun, hroot1, _⟩ :=
        addReview_run H t t1 recs e id inv T.root hroot hadd
      have hcell : ∀ y, y ∈ T.addrs → (withNewLeaf H t e id).cell y = t.arena.cell y :=
        fun y hy => alloc_cell_of_ne _ _ _ (by have := (hmem y).1 hy; omega)
      have hholds1 : (withNewLeaf H t e id).Holds T :=
        Arena.holds_congr t.arena _ T hnd hholds
          (fun y hy => by rw [hcell y hy]; exact ⟨rfl, rfl⟩)
          (fun y hy _ => by rw [hcell y hy])
      have hnew : (withNewLeaf H t e id).LeafShaped t.arena.size := by
        unfold Arena.LeafShaped withNewLeaf
        rw [alloc_cell_size]
        exact ⟨rfl, rfl⟩
      have hh := T.height_lt_length
      obtain ⟨a1, hrun1, hholds2, hsize2, _⟩ := insertLeaf_holds H t.arena.size T
        ((withNewLeaf H t e id).size + 1) (withNewLeaf H t e id) hholds1 hnd
        (fun y hy => (hmem y).1 hy) rfl hnew
        (by rw [show (withNewLeaf H t e id).size = t.arena.size + 1 from rfl]; omega)
        (by rw [show (withNewLeaf H t e id).size = t.arena.size + 1 from rfl]; omega)
      rw [hrun] at hrun1
      simp only [Except.ok.injEq, Prod.mk.injEq] at hrun1
      obtain ⟨ha, hr⟩ := hrun1
      refine ⟨T.insert t.arena.size, by rw [hroot1, hr], by rw [ha]; exact hholds2,
        Shape.insert_nodup _ T hnd (fun y hy => (hmem y).1 hy), ?_, ?_,
        Shape.insert_balanced _ T hbal, ?_⟩
      · intro y
        rw [Shape.mem_insert, hmem, ha, hsize2]
        omega
      · rw [Shape.insert_length, hlen, ha, hsize2]
      · rw [Shape.insert_leaves, hleaves]
        simp

end MerkleTree

/-- C36: in a tree grown from the empty tree by `k ≥ 1` successful `addReview` calls,
`countLeaves` at the root returns `k`, at every internal node `countLeaves` returns for
the left subtree as many leaves as for the right one or one more, and `generateProof`
returns for every identifier a proof of at most `⌈log2 k⌉` (siblingHash, side) pairs. -/
theorem MerkleTree.incremental_trees_balanced (H : String → String) (t : MerkleTree)
    (recs : List (String × String)) (hinc : MerkleTree.Incremental H t recs)
    (hk : 1 ≤ recs.length) :
    MerkleTree.countLeaves t.arena (t.arena.size + 1) t.root = .ok recs.length ∧
    (∀ c, c < t.arena.size → ¬ t.arena.LeafShaped c →
      ∃ nl nr,
        MerkleTree.countLeaves t.arena (t.arena.size + 1) (t.arena.cell c).left = .ok nl ∧
        MerkleTree.countLeaves t.arena (t.arena.size + 1) (t.arena.cell c).right = .ok nr ∧
        (nl = nr ∨ nl = nr + 1)) ∧
    ∀ id, ∃ ps : List (String × String),
      t.generateProof id = .ok (MerkleTree.flatProof ps) ∧
      ps.length ≤ Nat.clog 2 recs.length := by
  rcases MerkleTree.incremental_shape H t recs hinc with
    ⟨hrecs, _⟩ | ⟨T, hroot, hholds, hnd, hmem, hlen, hbal, hleaves⟩
  · rw [hrecs] at hk
    simp at hk
  have hh := T.height_lt_length
  have hclog := T.balanced_height hbal
  rw [hleaves] at hclog
  refine ⟨?_, ?_, ?_⟩
  · rw [hroot, ← hleaves]
    exact Arena.countLeaves_holds t.arena T _ hholds (by omega)
  · intro c hc hn
    obtain ⟨l, r, e1, e2, e3, e4, e5, e6, e7⟩ :=
      Arena.inner_holds t.arena T hholds c ((hmem c).2 hc) hn
    exact ⟨l.leaves, r.leaves,
      by rw [e1]; exact Arena.countLeaves_holds t.arena l _ e3 (by omega),
      by rw [e2]; exact Arena.countLeaves_holds t.arena r _ e4 (by omega), e7 hbal⟩
  · intro id
    have inv := MerkleTree.produced_invariant H t recs
      (MerkleTree.incremental_produced H t recs hinc)
    obtain ⟨p, hp⟩ := MerkleTree.generateProof_total H t recs inv id
    cases hfind : MerkleTree.mapFind t.leafMap id with
    | none =>
      refine ⟨[], ?_, Nat.zero_le _⟩
      simp [MerkleTree.generateProof, hfind, MerkleTree.flatProof]
    | some leaf =>
      obtain ⟨hlt, _⟩ := inv.index_leaf id leaf hfind
      obtain ⟨wf, _⟩ := inv.rooted T.root hroot
      obtain ⟨d, hd, hclimb⟩ := Arena.climb_holds t.arena T hholds leaf ((hmem leaf).2 hlt)
      have hrun : MerkleTree.proofLoop t.arena (some T.root) t.arena.size leaf = .ok p := by
        rw [← hp, MerkleTree.generateProof, hfind, hroot]
      obtain ⟨ps, hps, hlen2, _⟩ := MerkleTree.proofLoop_length H t.arena t.arena.size T.root
        wf d t.arena.size leaf p hlt hclimb hrun
      exact ⟨ps, by rw [hp, hps], by omega⟩

set_option maxRecDepth 100000 in
/-- Witness for C36: the tree grown by three `addReview` calls. -/
theorem MerkleTree.incremental_trees_balanced_witness :
    MerkleTree.Incremental bracketHash MerkleTree.exampleGrown3
      [("x", "a"), ("y", "b"), ("z", "c")] ∧
    MerkleTree.exampleGrown3.generateProof "x" = .ok ["<c>", "r", "<b>", "r"] ∧
    MerkleTree.countLeaves MerkleTree.exampleGrown3.arena
      (MerkleTree.exampleGrown3.arena.size + 1) MerkleTree.exampleGrown3.root = .ok 3 ∧
    ∀ id, ∃ ps : List (String × String),
      MerkleTree.exampleGrown3.generateProof id = .ok (MerkleTree.flatProof ps) ∧
      ps.length ≤ Nat.clog 2 3 :=
  have h1 : MerkleTree.Incremental bracketHash MerkleTree.exampleGrown1 [("x", "a")] :=
    MerkleTree.Incremental.add MerkleTree.new MerkleTree.exampleGrown1 [] "a" "x"
      MerkleTree.Incremental.new rfl
  have h2 : MerkleTree.Incremental bracketHash MerkleTree.exampleGrown2
      [("x", "a"), ("y", "b")] :=
    MerkleTree.Incremental.add MerkleTree.exampleGrown1 MerkleTree.exampleGrown2 _ "b" "y"
      h1 rfl
  have h3 : MerkleTree.Incremental bracketHash MerkleTree.exampleGrown3
      [("x", "a"), ("y", "b"), ("z", "c")] :=
    MerkleTree.Incremental.add MerkleTree.exampleGrown2 MerkleTree.exampleGrown3 _ "c" "z"
      h2 rfl
  ⟨h3, rfl,
    (MerkleTree.incremental_trees_balanced bracketHash MerkleTree.exampleGrown3
      [("x", "a"), ("y", "b"), ("z", "c")] h3 (by decide)).1,
    (MerkleTree.incremental_trees_balanced bracketHash MerkleTree.exampleGrown3
      [("x", "a"), ("y", "b"), ("z", "c")] h3 (by decide)).2.2⟩

/-! ## What the root binds -/

namespace MerkleTree

end MerkleTree

namespace MerkleTree

end MerkleTree

/-- Remark on C8, for every digest: deleting the first of the records `y, x, y, y` leaves
the batch-built root unchanged, because `combineHashes` is symmetric and the unpaired last
node is combined with itself. A deletion can thus be invisible away from the end of the
list, and only when the deleted encoding occurs elsewhere in the list. -/
theorem MerkleTree.inner_deletion_keeps_root (H : String → String)
    (x y id0 id1 id2 id3 : String) (t0 : MerkleTree) :
    ∃ r rd, MerkleTree.buildTreeFromReviews H t0 [y, x, y, y] [id0, id1, id2, id3] = .ok r ∧
      MerkleTree.buildTreeFromReviews H t0 (([y, x, y, y] : List String).eraseIdx 0)
        (([id0, id1, id2, id3] : List String).eraseIdx 0) = .ok rd ∧
      rd.getRootHash = r.getRootHash := by
  obtain ⟨r, hr⟩ := MerkleTree.buildTreeFromReviews_total H t0 [y, x, y, y]
    [id0, id1, id2, id3] (by simp) rfl
  obtain ⟨rd, hrd⟩ := MerkleTree.buildTreeFromReviews_total H t0
    (([y, x, y, y] : List String).eraseIdx 0)
    (([id0, id1, id2, id3] : List String).eraseIdx 0) (by simp) rfl
  refine ⟨r, rd, hr, hrd, ?_⟩
  rw [(MerkleTree.buildTreeFromReviews_spec H t0 r _ _ hr).2.2.2.1,
    (MerkleTree.buildTreeFromReviews_spec H t0 rd _ _ hrd).2.2.2.1]
  show MerkleTree.combineHashes H (MerkleTree.combineHashes H (H x) (H y))
      (MerkleTree.combineHashes H (H y) (H y)) =
    MerkleTree.combineHashes H (MerkleTree.combineHashes H (H y) (H x))
      (MerkleTree.combineHashes H (H y) (H y))
  rw [MerkleTree.combineHashes_comm H (H x) (H y)]

/-- Remark on C8, for every digest: leaves and internal nodes are hashed alike, so the
single record whose encoding is the string hashed at the root of the tree over `a, b` has
the same batch-built root as the records `a, b`. -/
theorem MerkleTree.leaf_node_confusion (H : String → String) (a b id0 id1 id2 : String)
    (t0 : MerkleTree) :
    ∃ r r1, MerkleTree.buildTreeFromReviews H t0 [a, b] [id0, id1] = .ok r ∧
      MerkleTree.buildTreeFromReviews H t0 [MerkleTree.combineInput (H a) (H b)] [id2] =
        .ok r1 ∧
      r1.getRootHash = r.getRootHash := by
  obtain ⟨r, hr⟩ := MerkleTree.buildTreeFromReviews_total H t0 [a, b] [id0, id1] (by simp) rfl
  obtain ⟨r1, hr1⟩ := MerkleTree.buildTreeFromReviews_total H t0
    [MerkleTree.combineInput (H a) (H b)] [id2] (by simp) rfl
  refine ⟨r, r1, hr, hr1, ?_⟩
  rw [(MerkleTree.buildTreeFromReviews_spec H t0 r _ _ hr).2.2.2.1,
    (MerkleTree.buildTreeFromReviews_spec H t0 r1 _ _ hr1).2.2.2.1]
  show H (MerkleTree.combineInput (H a) (H b)) = MerkleTree.combineHashes H (H a) (H b)
  rw [MerkleTree.combineHashes_eq_input]
